import Mathlib

/-!
# Flight route optimisation: entity store, route graph and shortest paths

A shallow embedding of the core of the `skynet` sources (`Graph.cpp`,
`Dijkstra.cpp`, `MultiCriteriaOptimizer.cpp`, `DataStore.cpp`) together with
the properties proved about it.

Modelling conventions.

* `std::string` is `String`; its ordering is the lexicographic ordering of
  `String`, which is the ordering `std::map` and `std::pair` comparisons use.
* A `double` held by an entity, an edge or a criterion is a finite number,
  modelled by a rational `ℚ`.  A `double` that the code computes is a `Dbl`: a
  finite number, an infinity or NaN.  The sums of `Dijkstra.cpp` are rounded,
  the rounding being the parameter `DoubleArith` of the model, of which
  `binary64` is the instance of IEEE 754.  In `Haversine.cpp` the arithmetic
  on finite values is exact and the functions of `<cmath>` are the parameter
  `MathLib`; the NaN of `std::sqrt` at a negative argument is modelled.
* `std::map<std::string, V>` is `StdMap V`: a list of bindings in strictly
  increasing key order.  `std::set<std::string>` is `StdSet`, the same thing
  with no payload.
* Loops whose termination is not structurally evident take a fuel argument
  and return `none` when the fuel is exhausted.
-/

namespace Skynet

/-! ## `std::map` keyed by strings -/

/-- Binding `k ↦ v` put at its place in a key-ordered list of bindings; a
binding with the same key is replaced. -/
def insertEntry {V : Type} (k : String) (v : V) : List (String × V) → List (String × V)
  | [] => [(k, v)]
  | (k', v') :: t =>
    if k < k' then (k, v) :: (k', v') :: t
    else if k' < k then (k', v') :: insertEntry k v t
    else (k, v) :: t

/-- Value bound to `k` in a list of bindings, if any. -/
def lookupEntry {V : Type} (k : String) : List (String × V) → Option V
  | [] => none
  | (k', v) :: t => if k' = k then some v else lookupEntry k t

/-- Bindings whose key differs from `k`. -/
def eraseEntry {V : Type} (k : String) (l : List (String × V)) : List (String × V) :=
  l.filter (fun p => decide (p.1 ≠ k))

theorem keys_insertEntry {V : Type} (k : String) (v : V) (l : List (String × V)) :
    ∀ x ∈ (insertEntry k v l).map Prod.fst, x = k ∨ x ∈ l.map Prod.fst := by
  induction l with
  | nil => intro x hx; simpa [insertEntry] using hx
  | cons hd t ih =>
    obtain ⟨k', v'⟩ := hd
    intro x hx
    unfold insertEntry at hx
    split_ifs at hx with h1 h2
    · simp only [List.map_cons, List.mem_cons] at hx ⊢
      tauto
    · simp only [List.map_cons, List.mem_cons] at hx ⊢
      rcases hx with hx | hx
      · exact Or.inr (Or.inl hx)
      · rcases ih x hx with h | h
        · exact Or.inl h
        · exact Or.inr (Or.inr h)
    · simp only [List.map_cons, List.mem_cons] at hx ⊢
      tauto

theorem pairwise_insertEntry {V : Type} (k : String) (v : V) (l : List (String × V))
    (hl : (l.map Prod.fst).Pairwise (· < ·)) :
    ((insertEntry k v l).map Prod.fst).Pairwise (· < ·) := by
  induction l with
  | nil => simp [insertEntry]
  | cons hd t ih =>
    obtain ⟨k', v'⟩ := hd
    simp only [List.map_cons, List.pairwise_cons] at hl
    unfold insertEntry
    split_ifs with h1 h2
    · simp only [List.map_cons, List.pairwise_cons, List.mem_cons]
      refine ⟨?_, hl.1, hl.2⟩
      rintro x (rfl | hx)
      · exact h1
      · exact lt_trans h1 (hl.1 x hx)
    · simp only [List.map_cons, List.pairwise_cons]
      refine ⟨?_, ih hl.2⟩
      intro x hx
      rcases keys_insertEntry k v t x hx with rfl | hx'
      · exact h2
      · exact hl.1 x hx'
    · have hk : k = k' := le_antisymm (not_lt.mp h2) (not_lt.mp h1)
      subst hk
      simp only [List.map_cons, List.pairwise_cons]
      exact hl

theorem pairwise_eraseEntry {V : Type} (k : String) (l : List (String × V))
    (hl : (l.map Prod.fst).Pairwise (· < ·)) :
    ((eraseEntry k l).map Prod.fst).Pairwise (· < ·) :=
  hl.sublist ((List.filter_sublist l).map Prod.fst)

theorem pairwise_mapValues {V W : Type} (f : String → V → W) (l : List (String × V))
    (hl : (l.map Prod.fst).Pairwise (· < ·)) :
    ((l.map (fun p => (p.1, f p.1 p.2))).map Prod.fst).Pairwise (· < ·) := by
  have : (l.map (fun p => (p.1, f p.1 p.2))).map Prod.fst = l.map Prod.fst := by
    simp [List.map_map, Function.comp_def]
  rw [this]; exact hl

/-- A `std::map<std::string, V>`: bindings in strictly increasing key order. -/
structure StdMap (V : Type) where
  entries : List (String × V)
  sorted : (entries.map Prod.fst).Pairwise (· < ·)

namespace StdMap

variable {V : Type}

/-- The empty map. -/
def empty : StdMap V := ⟨[], List.Pairwise.nil⟩

/-- Lookup `m.find(k)`: the value bound to `k`, or `none` for `end()`. -/
def find (m : StdMap V) (k : String) : Option V := lookupEntry k m.entries

/-- Test `m.count(k) != 0`. -/
def contains (m : StdMap V) (k : String) : Bool := (m.find k).isSome

/-- Assignment `m[k] = v`. -/
def set (m : StdMap V) (k : String) (v : V) : StdMap V :=
  ⟨insertEntry k v m.entries, pairwise_insertEntry k v m.entries m.sorted⟩

/-- Expression `m[k]` read as a value: an absent key yields the value-initialised `dflt`.
(The C++ operator also stores that default under `k`; every later read of `k`
goes through `operator[]` again and sees the same value either way.) -/
def get (m : StdMap V) (k : String) (dflt : V) : V := (m.find k).getD dflt

/-- Call `m.erase(k)`. -/
def erase (m : StdMap V) (k : String) : StdMap V :=
  ⟨eraseEntry k m.entries, pairwise_eraseEntry k m.entries m.sorted⟩

/-- The keys in iteration order. -/
def keys (m : StdMap V) : List String := m.entries.map Prod.fst

/-- The values in iteration order. -/
def values (m : StdMap V) : List V := m.entries.map Prod.snd

/-- Call `m.size()`. -/
def size (m : StdMap V) : Nat := m.entries.length

/-- Every value replaced by `f key value`, keys untouched (an in-place pass
over the map). -/
def mapValues {W : Type} (m : StdMap V) (f : String → V → W) : StdMap W :=
  ⟨m.entries.map (fun p => (p.1, f p.1 p.2)), pairwise_mapValues f m.entries m.sorted⟩

end StdMap

/-- A `std::set<std::string>`. -/
abbrev StdSet := StdMap Unit

namespace StdSet

/-- Call `s.insert(k)`. -/
def insert (s : StdSet) (k : String) : StdSet := StdMap.set s k ()

/-- The elements in iteration order. -/
def toList (s : StdSet) : List String := StdMap.keys s

end StdSet

/-! ## `Graph.h`, `Graph.cpp` -/

/-- A directed edge as stored in the adjacency list of its source node. -/
structure Edge where
  destination : String
  weight : ℚ
  cost : ℚ
  deriving DecidableEq

/-- The loop of `Graph::addEdge` over the outgoing edges of `from`: the first
edge whose destination is `to` gets the new weight and cost; when there is
none the edge is appended. -/
def overwriteOrAppend (to_ : String) (weight cost : ℚ) : List Edge → List Edge
  | [] => [⟨to_, weight, cost⟩]
  | e :: es =>
    if e.destination = to_ then { e with weight := weight, cost := cost } :: es
    else e :: overwriteOrAppend to_ weight cost es

/-- The two private members of `class Graph`. -/
structure Graph where
  adjacencyList : StdMap (List Edge)
  nodes : StdSet

namespace Graph

/-- Method `Graph::Graph()`. -/
def empty : Graph := ⟨StdMap.empty, StdMap.empty⟩

/-- Method `Graph::hasNode`. -/
def hasNode (g : Graph) (nodeId : String) : Bool := g.nodes.contains nodeId

/-- Method `Graph::addNode`. -/
def addNode (g : Graph) (nodeId : String) : Graph :=
  if !g.hasNode nodeId then
    { nodes := g.nodes.insert nodeId, adjacencyList := g.adjacencyList.set nodeId [] }
  else g

/-- Method `Graph::removeNode`. -/
def removeNode (g : Graph) (nodeId : String) : Graph :=
  if !g.hasNode nodeId then g
  else
    let adj := g.adjacencyList.mapValues
      (fun _ edges => edges.filter (fun e => decide (e.destination ≠ nodeId)))
    { adjacencyList := adj.erase nodeId, nodes := g.nodes.erase nodeId }

/-- Method `Graph::getNodes`. -/
def getNodes (g : Graph) : StdSet := g.nodes

/-- Method `Graph::addEdge`. -/
def addEdge (g : Graph) (from_ to_ : String) (weight : ℚ) (cost : ℚ) : Graph :=
  let g1 := (g.addNode from_).addNode to_
  let edges := g1.adjacencyList.get from_ []
  { g1 with adjacencyList := g1.adjacencyList.set from_ (overwriteOrAppend to_ weight cost edges) }

/-- Method `Graph::removeEdge`. -/
def removeEdge (g : Graph) (from_ to_ : String) : Graph :=
  if !g.hasNode from_ then g
  else
    let edges := g.adjacencyList.get from_ []
    { g with adjacencyList :=
        g.adjacencyList.set from_ (edges.filter (fun e => decide (e.destination ≠ to_))) }

/-- Method `Graph::hasEdge`.  (`adjacencyList.at(from)` is read as the empty list
should the key be missing; the class keeps the keys of `adjacencyList` equal
to `nodes`, so `at` does not throw behind the `hasNode` guard.) -/
def hasEdge (g : Graph) (from_ to_ : String) : Bool :=
  if !g.hasNode from_ then false
  else (g.adjacencyList.get from_ []).any (fun e => decide (e.destination = to_))

/-- Method `Graph::getNeighbors` (same reading of `at` as in `hasEdge`). -/
def getNeighbors (g : Graph) (nodeId : String) : List Edge :=
  if !g.hasNode nodeId then [] else g.adjacencyList.get nodeId []

/-- Method `Graph::getNodeCount`. -/
def getNodeCount (g : Graph) : Nat := g.nodes.size

/-- Method `Graph::getEdgeCount`. -/
def getEdgeCount (g : Graph) : Nat := (g.adjacencyList.values.map List.length).sum

/-- Method `Graph::clear`. -/
def clear (_g : Graph) : Graph := empty

/-- Method `Graph::isEmpty`. -/
def isEmpty (g : Graph) : Bool := g.nodes.entries.isEmpty

end Graph

/-! ## Values of type `double` -/

/-- A value of type `double`: a finite number, an infinity, or NaN.  (The two
zeros are not told apart.) -/
inductive Dbl where
  | fin (q : ℚ)
  | posInf
  | negInf
  | nan
  deriving DecidableEq

/-- Comparison `a < b` of two doubles; false when one of them is NaN. -/
def dblLt : Dbl → Dbl → Bool
  | Dbl.fin a, Dbl.fin b => decide (a < b)
  | Dbl.fin _, Dbl.posInf => true
  | Dbl.negInf, Dbl.fin _ => true
  | Dbl.negInf, Dbl.posInf => true
  | _, _ => false

/-- Comparison `a == b` of two doubles; false when one of them is NaN. -/
def dblEq (a b : Dbl) : Bool := decide (a = b) && decide (a ≠ Dbl.nan)

/-- The rounding of double arithmetic, taken as a parameter of the model:
`round x` is the double the hardware delivers for an operation whose exact
result is `x`, an infinity when `x` is out of range. -/
structure DoubleArith where
  round : ℚ → Dbl

/-- Sum `d + w` of a double `d` and a finite double `w`: the exact sum of two
finite values, rounded; an infinity or NaN stays what it is. -/
def dblAdd (ar : DoubleArith) (d : Dbl) (w : ℚ) : Dbl :=
  match d with
  | Dbl.fin x => ar.round (x + w)
  | Dbl.posInf => Dbl.posInf
  | Dbl.negInf => Dbl.negInf
  | Dbl.nan => Dbl.nan

/-- Integer nearest to `q`, the even one of the two when `q` is half-way
between two integers. -/
def roundHalfEven (q : ℚ) : Int :=
  let f := Rat.floor q
  let r := q - f
  if r < 1 / 2 then f
  else if 1 / 2 < r then f + 1
  else if f % 2 = 0 then f else f + 1

/-- Power `2^e` for an integer exponent `e`. -/
def twoPow (e : Int) : ℚ :=
  if 0 ≤ e then ((2 ^ e.toNat : Nat) : ℚ) else 1 / ((2 ^ (-e).toNat : Nat) : ℚ)

/-- Number of binary digits of `n`, found by halving `n` at most `fuel`
times. -/
def bitLength : Nat → Nat → Nat
  | 0, _ => 0
  | fuel + 1, n => if n = 0 then 0 else bitLength fuel (n / 2) + 1

/-- The exponent `e` with `2^e ≤ a < 2^(e+1)`, for a positive `a`. -/
def binade (a : ℚ) : Int :=
  let e0 : Int := (bitLength a.num.natAbs a.num.natAbs : Int) - (bitLength a.den a.den : Int)
  if twoPow e0 ≤ a then e0 else e0 - 1

/-- The magnitude of the value of the format binary64 of IEEE 754 nearest to
a positive `a`, ties to even: 53 significant binary digits, the exponent being
that of `a` and at least -1022 (below which the spacing stays `2^-1074`). -/
def binary64Mag (a : ℚ) : ℚ :=
  let e := max (binade a) (-1022)
  let ulp : ℚ := twoPow (e - 52)
  roundHalfEven (a / ulp) * ulp

/-- Rounding to the nearest value of the format binary64 of IEEE 754, ties to
even, with an infinity from the magnitude `2^1024` on (reached by the exact
results from `2^1024 - 2^970` on). -/
def binary64Round (q : ℚ) : Dbl :=
  if q = 0 then Dbl.fin 0
  else
    let r := binary64Mag |q|
    if twoPow 1024 ≤ r then (if q < 0 then Dbl.negInf else Dbl.posInf)
    else Dbl.fin (if q < 0 then -r else r)

/-- The arithmetic of `double` under IEEE 754. -/
def binary64 : DoubleArith := ⟨binary64Round⟩

/-! ## `PathResult.h` -/

/-- Model of `struct PathResult`; the defaults are those of its default constructor. -/
structure PathResult where
  found : Bool := false
  path : List String := []
  totalDistance : Dbl := Dbl.fin 0
  totalCost : Dbl := Dbl.fin 0
  estimatedTime : Dbl := Dbl.fin 0
  errorMessage : String := ""
  deriving DecidableEq

/-! ## `Dijkstra.cpp` -/

/-- Comparison `operator<` of `std::pair<double, std::string>`. -/
def pairLt (a b : Dbl × String) : Bool :=
  dblLt a.1 b.1 || (!dblLt b.1 a.1 && decide (a.2 < b.2))

/-- Call `pq.push(x)` on the min-queue
`std::priority_queue<pair<double,string>, vector<...>, std::greater<...>>`.
The queue is kept as the list of its elements in ascending order, so that
`top()` is the head and `pop()` leaves the tail; equal pairs are
indistinguishable, hence the order of extraction is the same as that of any
heap layout.  (No key pushed is NaN: a NaN is not less than the distance
held, so it does not pass the test of the relaxation.) -/
def pqPush (x : Dbl × String) : List (Dbl × String) → List (Dbl × String)
  | [] => [x]
  | y :: t => if pairLt y x then y :: pqPush x t else x :: y :: t

/-- The local variables of `Dijkstra::findShortestPath`. -/
structure DijkstraState where
  pq : List (Dbl × String)
  distances : StdMap Dbl
  costs : StdMap Dbl
  parent : StdMap String
  visited : StdSet

/-- Expression `distances[v]` read as a value (`0.0` when the key is absent). -/
def DijkstraState.dist (st : DijkstraState) (v : String) : Dbl :=
  st.distances.get v (Dbl.fin 0)

/-- Expression `costs[v]` read as a value (`0.0` when the key is absent). -/
def DijkstraState.cost (st : DijkstraState) (v : String) : Dbl :=
  st.costs.get v (Dbl.fin 0)

namespace Dijkstra

/-- Body of the loop over `graph.getNeighbors(current)`: relaxation of one
edge. -/
def relaxEdge (ar : DoubleArith) (current : String) (st : DijkstraState) (edge : Edge) :
    DijkstraState :=
  let neighbor := edge.destination
  let newDist := dblAdd ar (st.dist current) edge.weight
  if dblLt newDist (st.dist neighbor) then
    { st with
      distances := st.distances.set neighbor newDist
      costs := st.costs.set neighbor (dblAdd ar (st.cost current) edge.cost)
      parent := st.parent.set neighbor current
      pq := pqPush (newDist, neighbor) st.pq }
  else st

/-- The `while (!pq.empty())` loop; one unit of fuel per iteration, `none`
when the fuel runs out before the loop exits. -/
def mainLoop (ar : DoubleArith) (graph : Graph) (end_ : String) :
    Nat → DijkstraState → Option DijkstraState
  | 0, _ => none
  | fuel + 1, st =>
    match st.pq with
    | [] => some st
    | (_, current) :: rest =>
      let st1 := { st with pq := rest }
      if current = end_ then some st1
      else if st1.visited.contains current then mainLoop ar graph end_ fuel st1
      else
        let st2 := { st1 with visited := st1.visited.insert current }
        mainLoop ar graph end_ fuel
          ((graph.getNeighbors current).foldl (relaxEdge ar current) st2)

/-- The state on entry to the main loop. -/
def initState (graph : Graph) (start : String) : DijkstraState :=
  let distances : StdMap Dbl :=
    graph.getNodes.toList.foldl (fun m node => m.set node Dbl.posInf) StdMap.empty
  let costs : StdMap Dbl :=
    graph.getNodes.toList.foldl (fun m node => m.set node (Dbl.fin 0)) StdMap.empty
  { pq := pqPush (Dbl.fin 0, start) []
    distances := distances.set start (Dbl.fin 0)
    costs := costs
    parent := StdMap.empty
    visited := StdMap.empty }

/-- The `while (current != start)` loop of `Dijkstra::reconstructPath`, `path`
being the vector filled so far; one unit of fuel per test of the loop
condition.  The result is the vector before the final `std::reverse`. -/
def walkBack (parent : StdMap String) (start : String) :
    Nat → String → List String → Option (List String)
  | 0, _, _ => none
  | fuel + 1, current, path =>
    if current = start then some (path ++ [start])
    else
      match parent.find current with
      | none => some []
      | some p => walkBack parent start fuel p (path ++ [current])

/-- Method `Dijkstra::reconstructPath`. -/
def reconstructPath (fuel : Nat) (parent : StdMap String) (start end_ : String) :
    Option (List String) :=
  (walkBack parent start fuel end_ []).map List.reverse

/-- Iterations granted to the main loop: one per queue entry that can ever be
pushed (the start entry and one per outgoing edge of a node), plus the final
test of the loop condition. -/
def loopFuel (graph : Graph) : Nat :=
  (graph.getNodes.toList.map (fun n => (graph.getNeighbors n).length)).sum + 2

/-- Method `Dijkstra::findShortestPath`.  `none` stands for a run that does
not return: one that exhausts the fuel granted to one of its two loops. -/
def findShortestPath (ar : DoubleArith) (graph : Graph) (start end_ : String) :
    Option PathResult :=
  if !graph.hasNode start then
    some { found := false, errorMessage := "Origin airport not found" }
  else if !graph.hasNode end_ then
    some { found := false, errorMessage := "Destination airport not found" }
  else if start = end_ then
    some { found := true, path := [start], totalDistance := Dbl.fin 0,
           totalCost := Dbl.fin 0 }
  else
    match mainLoop ar graph end_ (loopFuel graph) (initState graph start) with
    | none => none
    | some st =>
      if dblEq (st.dist end_) Dbl.posInf then
        some { found := false, errorMessage := "No route available between airports" }
      else
        match reconstructPath (graph.getNodeCount + 1) st.parent start end_ with
        | none => none
        | some path =>
          some { found := true, path := path, totalDistance := st.dist end_,
                 totalCost := st.cost end_ }

end Dijkstra

/-! ## `MultiCriteriaOptimizer.cpp` -/

/-- Model of `MultiCriteriaOptimizer::Criteria`; `maxStops` is declared `double`. -/
structure Criteria where
  distanceWeight : ℚ := 4 / 10
  costWeight : ℚ := 3 / 10
  timeWeight : ℚ := 3 / 10
  maxStops : ℚ := 3

namespace MultiCriteriaOptimizer

/-- Expression `result.path.size() - 2` in `size_t` arithmetic (64 bits, wrapping). -/
def stopCount (path : List String) : Nat := (path.length + 2 ^ 64 - 2) % 2 ^ 64

/-- Method `MultiCriteriaOptimizer::optimize`. -/
def optimize (ar : DoubleArith) (graph : Graph) (start end_ : String) (criteria : Criteria) :
    Option PathResult :=
  (Dijkstra.findShortestPath ar graph start end_).map fun result =>
    if result.found && decide (criteria.maxStops < (stopCount result.path : ℚ)) then
      { result with found := false, errorMessage := "Exceeds maximum stops constraint" }
    else result

/-- Method `MultiCriteriaOptimizer::getParetoFrontier`; `none` when one of
the three calls of `optimize` does not return. -/
def getParetoFrontier (ar : DoubleArith) (graph : Graph) (start end_ : String) :
    Option (List PathResult) :=
  let frontier : List PathResult := []
  let c1 : Criteria := ⟨1, 0, 0, 5⟩
  let c2 : Criteria := ⟨0, 1, 0, 5⟩
  let c3 : Criteria := ⟨0, 0, 1, 5⟩
  (optimize ar graph start end_ c1).bind fun r1 =>
    let frontier := frontier ++ [r1]
    (optimize ar graph start end_ c2).bind fun r2 =>
      let frontier := frontier ++ [r2]
      (optimize ar graph start end_ c3).bind fun r3 =>
        some (frontier ++ [r3])

end MultiCriteriaOptimizer

/-! ## Entities: `airports.h`, `aircraft.h`, `Route.h`, `Flight.h` -/

/-- Model of `struct Airport`. -/
structure Airport where
  code : String
  name : String
  city : String
  country : String
  latitude : ℚ
  longitude : ℚ
  deriving DecidableEq

/-- Model of `enum class AircraftStatus`. -/
inductive AircraftStatus where
  | AVAILABLE
  | IN_FLIGHT
  | MAINTENANCE
  | RETIRED
  deriving DecidableEq

/-- Model of `struct Aircraft`. -/
structure Aircraft where
  id : String
  model : String
  capacity : Int
  cruiseSpeed : ℚ
  fuelConsumption : ℚ
  status : AircraftStatus
  deriving DecidableEq

/-- Model of `struct Route`. -/
structure Route where
  origin : String
  destination : String
  distance : ℚ
  baseCost : ℚ
  operational : Bool
  deriving DecidableEq

/-- Method `Route::getId`. -/
def Route.getId (r : Route) : String := r.origin ++ "-" ++ r.destination

/-- Model of `struct Flight`. -/
structure Flight where
  flightNumber : String
  aircraftId : String
  route : List String
  totalDistance : ℚ
  totalCost : ℚ
  estimatedTime : ℚ
  departureTime : String
  status : String
  deriving DecidableEq

/-! ## `DataStore.h`, `DataStore.cpp` -/

/-- Model of `enum class ActionType`. -/
inductive ActionType where
  | ADD_AIRPORT
  | DELETE_AIRPORT
  | UPDATE_AIRPORT
  | ADD_AIRCRAFT
  | DELETE_AIRCRAFT
  | UPDATE_AIRCRAFT
  | ADD_ROUTE
  | DELETE_ROUTE
  | ADD_FLIGHT
  | DELETE_FLIGHT
  deriving DecidableEq

/-- Model of `struct Action`. -/
structure Action where
  type : ActionType
  data : String
  deriving DecidableEq

/-- The data members of `class DataStore`.  `undoStack` is the `std::stack`
with its top at the head of the list. -/
structure DataStore where
  airports : StdMap Airport
  aircraft : StdMap Aircraft
  routes : StdMap Route
  flights : StdMap Flight
  graph : Graph
  undoStack : List Action

/-- Constant `DataStore::MAX_UNDO`. -/
def MAX_UNDO : Nat := 5

/-- First loop of `pushUndo`: while more than one element is left on
`undoStack`, its top is moved onto `temp`.  Returns `(undoStack, temp)`. -/
def drainToTemp : List Action → List Action → List Action × List Action
  | x :: y :: rest, temp => drainToTemp (y :: rest) (x :: temp)
  | stack, temp => (stack, temp)

/-- Last loop of `pushUndo`: the elements of `temp` are moved back, top
first. -/
def refillFromTemp : List Action → List Action → List Action
  | [], stack => stack
  | t :: temp, stack => refillFromTemp temp (t :: stack)

/-- Method `DataStore::pushUndo`, on the undo stack alone. -/
def pushUndo (undoStack : List Action) (action : Action) : List Action :=
  let pushed := action :: undoStack
  if pushed.length > MAX_UNDO then
    let drained := drainToTemp pushed []
    refillFromTemp drained.2 drained.1.tail
  else pushed

/-- Method `DataStore::serializeAirport`. -/
def serializeAirport (a : Airport) : String :=
  a.code ++ "," ++ a.name ++ "," ++ a.city ++ "," ++ a.country

namespace DataStore

/-- The store of a fresh process. -/
def empty : DataStore :=
  ⟨StdMap.empty, StdMap.empty, StdMap.empty, StdMap.empty, Graph.empty, []⟩

/-- Body of the loop of `rebuildGraph` over the routes. -/
def addRouteEdges (g : Graph) (route : Route) : Graph :=
  if route.operational then
    (g.addEdge route.origin route.destination route.distance route.baseCost).addEdge
      route.destination route.origin route.distance route.baseCost
  else g

/-- Method `DataStore::rebuildGraph` (the console message left out). -/
def rebuildGraph (s : DataStore) : DataStore :=
  let g0 := s.graph.clear
  let g1 := s.airports.entries.foldl (fun g p => g.addNode p.1) g0
  let g2 := s.routes.entries.foldl (fun g p => addRouteEdges g p.2) g1
  { s with graph := g2 }

/-- Method `DataStore::addAirport`. -/
def addAirport (s : DataStore) (airport : Airport) : Bool × DataStore :=
  if s.airports.contains airport.code then (false, s)
  else
    (true, rebuildGraph
      { s with
        airports := s.airports.set airport.code airport
        undoStack := pushUndo s.undoStack ⟨ActionType.ADD_AIRPORT, serializeAirport airport⟩ })

/-- Method `DataStore::deleteAirport`. -/
def deleteAirport (s : DataStore) (code : String) : Bool × DataStore :=
  match s.airports.find code with
  | none => (false, s)
  | some found =>
    let undoStack := pushUndo s.undoStack ⟨ActionType.DELETE_AIRPORT, serializeAirport found⟩
    let routesToDelete :=
      (s.routes.entries.filter
        (fun p => decide (p.2.origin = code) || decide (p.2.destination = code))).map Prod.fst
    let routes := routesToDelete.foldl (fun m id => m.erase id) s.routes
    (true, rebuildGraph
      { s with undoStack := undoStack, routes := routes, airports := s.airports.erase code })

/-- Method `DataStore::updateAirport`. -/
def updateAirport (s : DataStore) (airport : Airport) : Bool × DataStore :=
  if !s.airports.contains airport.code then (false, s)
  else (true, rebuildGraph { s with airports := s.airports.set airport.code airport })

/-- Method `DataStore::getAirport` (`none` for `nullptr`). -/
def getAirport (s : DataStore) (code : String) : Option Airport := s.airports.find code

/-- Method `DataStore::getAllAirports`. -/
def getAllAirports (s : DataStore) : List Airport := s.airports.values

/-- Method `DataStore::addAircraft`. -/
def addAircraft (s : DataStore) (ac : Aircraft) : Bool × DataStore :=
  if s.aircraft.contains ac.id then (false, s)
  else
    (true,
      { s with
        aircraft := s.aircraft.set ac.id ac
        undoStack := pushUndo s.undoStack ⟨ActionType.ADD_AIRCRAFT, ac.id⟩ })

/-- Method `DataStore::deleteAircraft`. -/
def deleteAircraft (s : DataStore) (id : String) : Bool × DataStore :=
  if !s.aircraft.contains id then (false, s)
  else
    (true,
      { s with
        undoStack := pushUndo s.undoStack ⟨ActionType.DELETE_AIRCRAFT, id⟩
        aircraft := s.aircraft.erase id })

/-- Method `DataStore::updateAircraft`. -/
def updateAircraft (s : DataStore) (ac : Aircraft) : Bool × DataStore :=
  if !s.aircraft.contains ac.id then (false, s)
  else (true, { s with aircraft := s.aircraft.set ac.id ac })

/-- Method `DataStore::getAircraft`. -/
def getAircraft (s : DataStore) (id : String) : Option Aircraft := s.aircraft.find id

/-- Method `DataStore::getAllAircraft`. -/
def getAllAircraft (s : DataStore) : List Aircraft := s.aircraft.values

/-- Method `DataStore::addRoute`. -/
def addRoute (s : DataStore) (route : Route) : Bool × DataStore :=
  let id := route.getId
  if s.routes.contains id then (false, s)
  else
    (true, rebuildGraph
      { s with
        routes := s.routes.set id route
        undoStack := pushUndo s.undoStack ⟨ActionType.ADD_ROUTE, id⟩ })

/-- Method `DataStore::deleteRoute`. -/
def deleteRoute (s : DataStore) (routeId : String) : Bool × DataStore :=
  if !s.routes.contains routeId then (false, s)
  else
    (true, rebuildGraph
      { s with
        undoStack := pushUndo s.undoStack ⟨ActionType.DELETE_ROUTE, routeId⟩
        routes := s.routes.erase routeId })

/-- Method `DataStore::updateRoute`. -/
def updateRoute (s : DataStore) (route : Route) : Bool × DataStore :=
  let id := route.getId
  if !s.routes.contains id then (false, s)
  else (true, rebuildGraph { s with routes := s.routes.set id route })

/-- Method `DataStore::getRoute`. -/
def getRoute (s : DataStore) (routeId : String) : Option Route := s.routes.find routeId

/-- Method `DataStore::getAllRoutes`. -/
def getAllRoutes (s : DataStore) : List Route := s.routes.values

/-- Method `DataStore::addFlight`. -/
def addFlight (s : DataStore) (flight : Flight) : Bool × DataStore :=
  if s.flights.contains flight.flightNumber then (false, s)
  else
    (true,
      { s with
        flights := s.flights.set flight.flightNumber flight
        undoStack := pushUndo s.undoStack ⟨ActionType.ADD_FLIGHT, flight.flightNumber⟩ })

/-- Method `DataStore::deleteFlight`. -/
def deleteFlight (s : DataStore) (flightNum : String) : Bool × DataStore :=
  if !s.flights.contains flightNum then (false, s)
  else
    (true,
      { s with
        undoStack := pushUndo s.undoStack ⟨ActionType.DELETE_FLIGHT, flightNum⟩
        flights := s.flights.erase flightNum })

/-- Method `DataStore::getFlight`. -/
def getFlight (s : DataStore) (flightNum : String) : Option Flight := s.flights.find flightNum

/-- Method `DataStore::getAllFlights`. -/
def getAllFlights (s : DataStore) : List Flight := s.flights.values

/-- Method `DataStore::getGraph`. -/
def getGraph (s : DataStore) : Graph := s.graph

/-- Method `DataStore::undo`. -/
def undo (s : DataStore) : Bool × DataStore :=
  match s.undoStack with
  | [] => (false, s)
  | _ :: rest => (true, { s with undoStack := rest })

/-- Method `DataStore::canUndo`. -/
def canUndo (s : DataStore) : Bool := !s.undoStack.isEmpty

/-- Method `DataStore::clearUndoStack`. -/
def clearUndoStack (s : DataStore) : DataStore := { s with undoStack := [] }

end DataStore

/-! ## Text files: `DataStore::split`, `trim`, `load...`, `save...` -/

/-- What the C++ standard library does with numbers in the text files, taken
as a parameter of the model: `showDouble` and `showInt` are `stream << x` for
a `double` and an `int`, `stod` and `stoi` are `std::stod` and `std::stoi`,
with `none` for a call that throws. -/
structure NumberFormat where
  showDouble : ℚ → String
  showInt : Int → String
  stod : String → Option ℚ
  stoi : String → Option Int

/-- The tokens that successive calls of `std::getline(stream, token, delim)`
extract from a stream holding `input`, up to the first call that fails; `cur`
is the part of the current token read so far.  A call fails when the stream
is at its end and no character was extracted. -/
def getlineAll (delim : Char) : List Char → List Char → List (List Char)
  | [], cur => if cur = [] then [] else [cur]
  | c :: cs, cur =>
    if c = delim then cur :: getlineAll delim cs [] else getlineAll delim cs (cur ++ [c])

/-- Method `DataStore::split`. -/
def split (str : String) (delimiter : Char) : List String :=
  (getlineAll delimiter str.data []).map String.mk

/-- The characters `DataStore::trim` strips, `" \t\r\n"`. -/
def isTrimChar (c : Char) : Bool :=
  decide (c = ' ') || decide (c = '\t') || decide (c = '\r') || decide (c = '\n')

/-- Method `DataStore::trim`. -/
def trim (str : String) : String :=
  String.mk ((str.data.dropWhile isTrimChar).reverse.dropWhile isTrimChar).reverse

/-- The lines the loaders see: every `std::getline(file, line)` on a file
holding `content`. -/
def fileLines (content : String) : List String :=
  (getlineAll '\n' content.data []).map String.mk

/-- Method `Aircraft::statusToString`. -/
def Aircraft.statusToString : AircraftStatus → String
  | AircraftStatus.AVAILABLE => "AVAILABLE"
  | AircraftStatus.IN_FLIGHT => "IN_FLIGHT"
  | AircraftStatus.MAINTENANCE => "MAINTENANCE"
  | AircraftStatus.RETIRED => "RETIRED"

/-- Method `Aircraft::stringToStatus`. -/
def Aircraft.stringToStatus (s : String) : AircraftStatus :=
  if s = "IN_FLIGHT" then AircraftStatus.IN_FLIGHT
  else if s = "MAINTENANCE" then AircraftStatus.MAINTENANCE
  else if s = "RETIRED" then AircraftStatus.RETIRED
  else AircraftStatus.AVAILABLE

/-- The four text files of `data_files/`, each with its content, or `none`
when the file cannot be opened for reading. -/
structure Files where
  airports : Option String
  aircraft : Option String
  routes : Option String
  flights : Option String

/-- Which of the four files `std::ofstream` can open for writing. -/
structure Writable where
  airports : Bool
  aircraft : Bool
  routes : Bool
  flights : Bool

/-- The text a sequence of `file << row` writes. -/
def concatRows : List String → String
  | [] => ""
  | row :: rows => row ++ concatRows rows

/-- The loop of `saveFlights` over `flight.route`: the codes with a dash
between two of them. -/
def joinRoute : List String → String
  | [] => ""
  | [code] => code
  | code :: rest => code ++ "-" ++ joinRoute rest

namespace DataStore

/-- Body of the loop of `loadAirports`: one line of the file.  A line with
fewer than six fields, or with a coordinate on which `std::stod` throws,
leaves the collection as it is. -/
def loadAirportRow (fmt : NumberFormat) (airports : StdMap Airport) (line : String) :
    StdMap Airport :=
  if line = "" then airports
  else
    match split line ',' with
    | p0 :: p1 :: p2 :: p3 :: p4 :: p5 :: _ =>
      match fmt.stod (trim p4) with
      | none => airports
      | some latitude =>
        match fmt.stod (trim p5) with
        | none => airports
        | some longitude =>
          airports.set (trim p0) ⟨trim p0, trim p1, trim p2, trim p3, latitude, longitude⟩
    | _ => airports

/-- Method `DataStore::loadAirports`, on the content of the file. -/
def loadAirports (fmt : NumberFormat) (file : Option String) (s : DataStore) :
    Bool × DataStore :=
  match file with
  | none => (true, s)
  | some content =>
    (true, { s with airports := (fileLines content).tail.foldl (loadAirportRow fmt) s.airports })

/-- Body of the loop of `loadAircraft`. -/
def loadAircraftRow (fmt : NumberFormat) (aircraft : StdMap Aircraft) (line : String) :
    StdMap Aircraft :=
  if line = "" then aircraft
  else
    match split line ',' with
    | p0 :: p1 :: p2 :: p3 :: p4 :: p5 :: _ =>
      match fmt.stoi (trim p2) with
      | none => aircraft
      | some capacity =>
        match fmt.stod (trim p3) with
        | none => aircraft
        | some cruiseSpeed =>
          match fmt.stod (trim p4) with
          | none => aircraft
          | some fuelConsumption =>
            aircraft.set (trim p0)
              ⟨trim p0, trim p1, capacity, cruiseSpeed, fuelConsumption,
                Aircraft.stringToStatus (trim p5)⟩
    | _ => aircraft

/-- Method `DataStore::loadAircraft`, on the content of the file. -/
def loadAircraft (fmt : NumberFormat) (file : Option String) (s : DataStore) :
    Bool × DataStore :=
  match file with
  | none => (true, s)
  | some content =>
    (true, { s with aircraft := (fileLines content).tail.foldl (loadAircraftRow fmt) s.aircraft })

/-- Body of the loop of `loadRoutes`. -/
def loadRouteRow (fmt : NumberFormat) (routes : StdMap Route) (line : String) :
    StdMap Route :=
  if line = "" then routes
  else
    match split line ',' with
    | p0 :: p1 :: p2 :: p3 :: p4 :: _ =>
      match fmt.stod (trim p2) with
      | none => routes
      | some distance =>
        match fmt.stod (trim p3) with
        | none => routes
        | some baseCost =>
          let route : Route :=
            ⟨trim p0, trim p1, distance, baseCost,
              decide (trim p4 = "1") || decide (trim p4 = "true")⟩
          routes.set route.getId route
    | _ => routes

/-- Method `DataStore::loadRoutes`, on the content of the file. -/
def loadRoutes (fmt : NumberFormat) (file : Option String) (s : DataStore) :
    Bool × DataStore :=
  match file with
  | none => (true, s)
  | some content =>
    (true, { s with routes := (fileLines content).tail.foldl (loadRouteRow fmt) s.routes })

/-- Body of the loop of `loadFlights`. -/
def loadFlightRow (fmt : NumberFormat) (flights : StdMap Flight) (line : String) :
    StdMap Flight :=
  if line = "" then flights
  else
    match split line ',' with
    | p0 :: p1 :: p2 :: p3 :: p4 :: p5 :: p6 :: p7 :: _ =>
      let route := (split (trim p2) '-').map trim
      match fmt.stod (trim p3) with
      | none => flights
      | some totalDistance =>
        match fmt.stod (trim p4) with
        | none => flights
        | some totalCost =>
          match fmt.stod (trim p5) with
          | none => flights
          | some estimatedTime =>
            flights.set (trim p0)
              ⟨trim p0, trim p1, route, totalDistance, totalCost, estimatedTime, trim p6,
                trim p7⟩
    | _ => flights

/-- Method `DataStore::loadFlights`, on the content of the file. -/
def loadFlights (fmt : NumberFormat) (file : Option String) (s : DataStore) :
    Bool × DataStore :=
  match file with
  | none => (true, s)
  | some content =>
    (true, { s with flights := (fileLines content).tail.foldl (loadFlightRow fmt) s.flights })

/-- Method `DataStore::loadAll` (the directory creation and the console
messages left out). -/
def loadAll (fmt : NumberFormat) (files : Files) (s : DataStore) : Bool × DataStore :=
  let r1 := loadAirports fmt files.airports s
  let r2 := loadAircraft fmt files.aircraft r1.2
  let r3 := loadRoutes fmt files.routes r2.2
  let r4 := loadFlights fmt files.flights r3.2
  let success := (((true && r1.1) && r2.1) && r3.1) && r4.1
  if success then (success, rebuildGraph r4.2) else (success, r4.2)

/-- One row of `airports.txt`. -/
def airportRow (fmt : NumberFormat) (airport : Airport) : String :=
  airport.code ++ "," ++ airport.name ++ "," ++ airport.city ++ "," ++ airport.country ++ ","
    ++ fmt.showDouble airport.latitude ++ "," ++ fmt.showDouble airport.longitude ++ "\n"

/-- The text `saveAirports` writes: the header line, then one row per
airport in the order of the keys. -/
def airportsText (fmt : NumberFormat) (s : DataStore) : String :=
  "Code,Name,City,Country,Latitude,Longitude\n" ++
    concatRows (s.airports.entries.map (fun p => airportRow fmt p.2))

/-- One row of `aircraft.txt`. -/
def aircraftRow (fmt : NumberFormat) (ac : Aircraft) : String :=
  ac.id ++ "," ++ ac.model ++ "," ++ fmt.showInt ac.capacity ++ ","
    ++ fmt.showDouble ac.cruiseSpeed ++ "," ++ fmt.showDouble ac.fuelConsumption ++ ","
    ++ Aircraft.statusToString ac.status ++ "\n"

/-- The text `saveAircraft` writes. -/
def aircraftText (fmt : NumberFormat) (s : DataStore) : String :=
  "ID,Model,Capacity,CruiseSpeed,FuelConsumption,Status\n" ++
    concatRows (s.aircraft.entries.map (fun p => aircraftRow fmt p.2))

/-- One row of `routes.txt`. -/
def routeRow (fmt : NumberFormat) (route : Route) : String :=
  route.origin ++ "," ++ route.destination ++ "," ++ fmt.showDouble route.distance ++ ","
    ++ fmt.showDouble route.baseCost ++ "," ++ (if route.operational then "1" else "0") ++ "\n"

/-- The text `saveRoutes` writes. -/
def routesText (fmt : NumberFormat) (s : DataStore) : String :=
  "Origin,Destination,Distance,BaseCost,Operational\n" ++
    concatRows (s.routes.entries.map (fun p => routeRow fmt p.2))

/-- One row of `flights.txt`. -/
def flightRow (fmt : NumberFormat) (flight : Flight) : String :=
  flight.flightNumber ++ "," ++ flight.aircraftId ++ "," ++ joinRoute flight.route ++ ","
    ++ fmt.showDouble flight.totalDistance ++ "," ++ fmt.showDouble flight.totalCost ++ ","
    ++ fmt.showDouble flight.estimatedTime ++ "," ++ flight.departureTime ++ ","
    ++ flight.status ++ "\n"

/-- The text `saveFlights` writes. -/
def flightsText (fmt : NumberFormat) (s : DataStore) : String :=
  "FlightNumber,AircraftID,Route,TotalDistance,TotalCost,EstimatedTime,DepartureTime,Status\n"
    ++ concatRows (s.flights.entries.map (fun p => flightRow fmt p.2))

/-- Method `DataStore::saveAirports`.  `isOpen` is the answer of
`file.is_open()` and `old` the file as it was: the result is false and the
file is left as it was when the stream did not open, and the file is
overwritten otherwise.  (What is written to an open stream is what the file
holds afterwards; the code does not test the stream after writing.) -/
def saveAirports (fmt : NumberFormat) (isOpen : Bool) (old : Option String) (s : DataStore) :
    Bool × Option String :=
  if !isOpen then (false, old) else (true, some (airportsText fmt s))

/-- Method `DataStore::saveAircraft`. -/
def saveAircraft (fmt : NumberFormat) (isOpen : Bool) (old : Option String) (s : DataStore) :
    Bool × Option String :=
  if !isOpen then (false, old) else (true, some (aircraftText fmt s))

/-- Method `DataStore::saveRoutes`. -/
def saveRoutes (fmt : NumberFormat) (isOpen : Bool) (old : Option String) (s : DataStore) :
    Bool × Option String :=
  if !isOpen then (false, old) else (true, some (routesText fmt s))

/-- Method `DataStore::saveFlights`. -/
def saveFlights (fmt : NumberFormat) (isOpen : Bool) (old : Option String) (s : DataStore) :
    Bool × Option String :=
  if !isOpen then (false, old) else (true, some (flightsText fmt s))

/-- Method `DataStore::saveAll`: the result of the call and the four files
after it.  All four files are attempted, whatever the earlier ones gave.
(The console messages are left out, and so is the exception handler: nothing
in the four calls throws.) -/
def saveAll (fmt : NumberFormat) (w : Writable) (old : Files) (s : DataStore) : Bool × Files :=
  let success := true
  let r1 := saveAirports fmt w.airports old.airports s
  let success := success && r1.1
  let r2 := saveAircraft fmt w.aircraft old.aircraft s
  let success := success && r2.1
  let r3 := saveRoutes fmt w.routes old.routes s
  let success := success && r3.1
  let r4 := saveFlights fmt w.flights old.flights s
  let success := success && r4.1
  (success, { airports := r1.2, aircraft := r2.2, routes := r3.2, flights := r4.2 })

end DataStore

/-! ## Sequences of calls on the store -/

/-- The calls a client can make on the store that may change it. -/
inductive StoreOp where
  | addAirport (airport : Airport)
  | deleteAirport (code : String)
  | updateAirport (airport : Airport)
  | addAircraft (ac : Aircraft)
  | deleteAircraft (id : String)
  | updateAircraft (ac : Aircraft)
  | addRoute (route : Route)
  | deleteRoute (routeId : String)
  | updateRoute (route : Route)
  | addFlight (flight : Flight)
  | deleteFlight (flightNum : String)
  | undo
  | clearUndoStack
  | rebuildGraph
  | loadAll (files : Files)

/-- One call: what it returns (true for the `void` methods) and the store it
leaves. -/
def DataStore.exec (fmt : NumberFormat) (s : DataStore) : StoreOp → Bool × DataStore
  | StoreOp.addAirport airport => s.addAirport airport
  | StoreOp.deleteAirport code => s.deleteAirport code
  | StoreOp.updateAirport airport => s.updateAirport airport
  | StoreOp.addAircraft ac => s.addAircraft ac
  | StoreOp.deleteAircraft id => s.deleteAircraft id
  | StoreOp.updateAircraft ac => s.updateAircraft ac
  | StoreOp.addRoute route => s.addRoute route
  | StoreOp.deleteRoute routeId => s.deleteRoute routeId
  | StoreOp.updateRoute route => s.updateRoute route
  | StoreOp.addFlight flight => s.addFlight flight
  | StoreOp.deleteFlight flightNum => s.deleteFlight flightNum
  | StoreOp.undo => s.undo
  | StoreOp.clearUndoStack => (true, s.clearUndoStack)
  | StoreOp.rebuildGraph => (true, s.rebuildGraph)
  | StoreOp.loadAll files => s.loadAll fmt files

/-- The store after a sequence of calls. -/
def DataStore.run (fmt : NumberFormat) (s : DataStore) (ops : List StoreOp) : DataStore :=
  ops.foldl (fun s op => (s.exec fmt op).2) s

/-- The states of the store a client can bring about: those a sequence of
calls leads to from the store of a fresh process. -/
def DataStore.Reachable (fmt : NumberFormat) (s : DataStore) : Prop :=
  ∃ ops, s = DataStore.empty.run fmt ops

/-! ## `Haversine.h`, `Haversine.cpp` -/

namespace Haversine

end Haversine

/-! ## Vocabulary of the properties -/

/-- Every edge stored in the graph has a non-negative weight. -/
def Graph.NonNegative (g : Graph) : Prop :=
  ∀ p ∈ g.adjacencyList.entries, ∀ e ∈ p.2, 0 ≤ e.weight

instance (g : Graph) : Decidable g.NonNegative := by
  unfold Graph.NonNegative; infer_instance

/-- Predicate: `es` is a directed path of the graph from `u` to `v`: every edge is an
outgoing edge of the node reached so far.  The empty path joins a node to
itself. -/
def Graph.IsPath (g : Graph) : String → List Edge → String → Prop
  | u, [], v => u = v
  | u, e :: es, v => e ∈ g.getNeighbors u ∧ Graph.IsPath g e.destination es v

/-- Summed edge weight of a path. -/
def pathWeight (es : List Edge) : ℚ := (es.map (fun e => e.weight)).sum

/-- Summed edge cost of a path. -/
def pathCost (es : List Edge) : ℚ := (es.map (fun e => e.cost)).sum

/-- The nodes a path from `start` goes through, `start` included. -/
def pathNodes (start : String) (es : List Edge) : List String :=
  start :: es.map (fun e => e.destination)

/-- Order `a ≤ b` of two doubles; false when one of them is NaN. -/
def Dbl.le (a b : Dbl) : Prop := dblLt a b = true ∨ (a = b ∧ a ≠ Dbl.nan)

instance (a b : Dbl) : Decidable (Dbl.le a b) := by
  unfold Dbl.le; infer_instance

/-- What the properties of the search need of the rounding: zero is not
changed, a greater exact result never gives a smaller double (and no exact
result gives NaN), and a double is rounded to itself. -/
structure DoubleArith.Sound (ar : DoubleArith) : Prop where
  zero : ar.round 0 = Dbl.fin 0
  mono : ∀ x y, x ≤ y → Dbl.le (ar.round x) (ar.round y)
  idem : ∀ x y, ar.round x = Dbl.fin y → ar.round y = Dbl.fin y

/-- The weights of the edges of a path added to `d` one after the other, in
the order of the path, each sum rounded. -/
def dblWeightFrom (ar : DoubleArith) (d : Dbl) (es : List Edge) : Dbl :=
  es.foldl (fun d e => dblAdd ar d e.weight) d

/-- The weight of a path as the search accumulates it: from `0.0`, one
rounded addition per edge, in the order of the path. -/
def dblPathWeight (ar : DoubleArith) (es : List Edge) : Dbl :=
  dblWeightFrom ar (Dbl.fin 0) es

/-- The cost of a path as the search accumulates it: from `0.0`, one rounded
addition per edge, in the order of the path. -/
def dblPathCost (ar : DoubleArith) (es : List Edge) : Dbl :=
  es.foldl (fun c e => dblAdd ar c e.cost) (Dbl.fin 0)

/-- A distance the search can hold: `+∞`, or a double that is not negative. -/
def Dbl.Good (ar : DoubleArith) (a : Dbl) : Prop :=
  a = Dbl.posInf ∨ ∃ d, a = Dbl.fin d ∧ 0 ≤ d ∧ ar.round d = Dbl.fin d

/-- The parent pointers lead from `v` back to `start` along edges of the
graph: `path` lists the nodes from `start` to `v` without repetition, and `w`
and `c` are the weight and the cost of the edges used, accumulated from
`start` on. -/
inductive Dijkstra.Chain (ar : DoubleArith) (g : Graph) (parent : StdMap String)
    (start : String) : String → List String → Dbl → Dbl → Prop
  | base : Dijkstra.Chain ar g parent start start [start] (Dbl.fin 0) (Dbl.fin 0)
  | step {u : String} {path : List String} {w c : Dbl} (e : Edge) :
      Dijkstra.Chain ar g parent start u path w c → e ∈ g.getNeighbors u →
      parent.find e.destination = some u → e.destination ∉ path →
      Dijkstra.Chain ar g parent start e.destination (path ++ [e.destination])
        (dblAdd ar w e.weight) (dblAdd ar c e.cost)

/-- The loop invariant of `findShortestPath`.  `cur` and `pending` describe an
interrupted pass over the neighbours of `cur`: the edges in `pending` are
still to be relaxed.  Between two iterations of the main loop `pending` is
empty. -/
structure Dijkstra.Inv (ar : DoubleArith) (g : Graph) (start end_ cur : String)
    (pending : List Edge) (st : DijkstraState) : Prop where
  sorted : st.pq.Pairwise (fun a b => pairLt b a = false)
  pq_sound : ∀ k v, (k, v) ∈ st.pq →
    g.hasNode v = true ∧ ∃ d dv, k = Dbl.fin d ∧ st.dist v = Dbl.fin dv ∧ dv ≤ d
  frontier : ∀ v dv, g.hasNode v = true → st.visited.contains v = false →
    st.dist v = Dbl.fin dv → (Dbl.fin dv, v) ∈ st.pq
  visited_le : ∀ u, st.visited.contains u = true →
    g.hasNode u = true ∧
      ∃ du, st.dist u = Dbl.fin du ∧ ∀ d v, (Dbl.fin d, v) ∈ st.pq → du ≤ d
  relaxed : ∀ u, st.visited.contains u = true → ∀ e ∈ g.getNeighbors u,
    (u = cur ∧ e ∈ pending) ∨
      Dbl.le (st.dist e.destination) (dblAdd ar (st.dist u) e.weight)
  outside : ∀ v, g.hasNode v = false → st.dist v = Dbl.fin 0
  good : ∀ v, Dbl.Good ar (st.dist v)
  end_unvisited : st.visited.contains end_ = false
  start_dist : st.dist start = Dbl.fin 0 ∧ st.cost start = Dbl.fin 0
  start_state : st.visited.contains start = true ∨
    ((∀ v, st.visited.contains v = false) ∧ st.pq = [(Dbl.fin 0, start)] ∧
      ∀ v, g.hasNode v = true → v ≠ start → st.dist v = Dbl.posInf)
  chain : ∀ v dv, g.hasNode v = true → st.dist v = Dbl.fin dv →
    ∃ path, Dijkstra.Chain ar g st.parent start v path (Dbl.fin dv) (st.cost v) ∧
      ∀ x ∈ path, x ≠ v → st.visited.contains x = true
  pending_sub : ∀ e ∈ pending, e ∈ g.getNeighbors cur
  bounded : pending ≠ [] → st.visited.contains cur = true ∧
    ∀ x, st.visited.contains x = true →
      ∃ dx du, st.dist x = Dbl.fin dx ∧ st.dist cur = Dbl.fin du ∧ dx ≤ du

/-- Queue entries still to be popped plus those that can still be pushed: the
bound on the number of remaining iterations of the main loop. -/
def Dijkstra.workLeft (g : Graph) (st : DijkstraState) : Nat :=
  st.pq.length +
    ((g.getNodes.toList.filter (fun n => !st.visited.contains n)).map
      (fun n => (g.getNeighbors n).length)).sum

/-- The class invariant of `Graph`, established by the constructor and kept by
every method: `adjacencyList` has exactly the nodes as its keys, and no
adjacency list holds two edges to the same destination. -/
def Graph.WF (g : Graph) : Prop :=
  g.adjacencyList.keys = g.nodes.keys ∧
    ∀ p ∈ g.adjacencyList.entries, (p.2.map (fun e => e.destination)).Nodup

instance (g : Graph) : Decidable g.WF := by
  unfold Graph.WF; infer_instance

/-- The mutating methods of `Graph`, as calls. -/
inductive GraphOp where
  | addNode (nodeId : String)
  | removeNode (nodeId : String)
  | addEdge (from_ to_ : String) (weight cost : ℚ)
  | removeEdge (from_ to_ : String)
  | clear

/-- The graph after one call. -/
def Graph.apply (g : Graph) : GraphOp → Graph
  | GraphOp.addNode nodeId => g.addNode nodeId
  | GraphOp.removeNode nodeId => g.removeNode nodeId
  | GraphOp.addEdge from_ to_ weight cost => g.addEdge from_ to_ weight cost
  | GraphOp.removeEdge from_ to_ => g.removeEdge from_ to_
  | GraphOp.clear => g.clear

/-- The graph a client obtains from a freshly constructed one by a sequence of
calls. -/
def Graph.build (ops : List GraphOp) : Graph := ops.foldl Graph.apply Graph.empty

/-- The calls that create an entity. -/
def StoreOp.isAdd : StoreOp → Bool
  | StoreOp.addAirport _ => true
  | StoreOp.addAircraft _ => true
  | StoreOp.addRoute _ => true
  | StoreOp.addFlight _ => true
  | _ => false

/-- What the calls of a sequence return, one after the other. -/
def DataStore.results (fmt : NumberFormat) (s : DataStore) : List StoreOp → List Bool
  | [] => []
  | op :: ops => (s.exec fmt op).1 :: DataStore.results fmt (s.exec fmt op).2 ops

/-- The airport a data row of `airports.txt` describes, in the words of the
specification: a row is well-formed when it has at least six comma-separated
fields and both coordinates parse, and its airport has the trimmed fields.  A
malformed row describes nothing. -/
def airportOfRow (fmt : NumberFormat) (line : String) : Option Airport :=
  let parts := split line ','
  if 6 ≤ parts.length then
    (fmt.stod (trim (parts.getD 4 ""))).bind fun latitude =>
    (fmt.stod (trim (parts.getD 5 ""))).bind fun longitude =>
      some ⟨trim (parts.getD 0 ""), trim (parts.getD 1 ""), trim (parts.getD 2 ""),
        trim (parts.getD 3 ""), latitude, longitude⟩
  else none

/-- The aircraft a data row of `aircraft.txt` describes: at least six fields,
of which the capacity, the speed and the consumption parse. -/
def aircraftOfRow (fmt : NumberFormat) (line : String) : Option Aircraft :=
  let parts := split line ','
  if 6 ≤ parts.length then
    (fmt.stoi (trim (parts.getD 2 ""))).bind fun capacity =>
    (fmt.stod (trim (parts.getD 3 ""))).bind fun cruiseSpeed =>
    (fmt.stod (trim (parts.getD 4 ""))).bind fun fuelConsumption =>
      some ⟨trim (parts.getD 0 ""), trim (parts.getD 1 ""), capacity, cruiseSpeed,
        fuelConsumption, Aircraft.stringToStatus (trim (parts.getD 5 ""))⟩
  else none

/-- The route a data row of `routes.txt` describes: at least five fields, of
which the distance and the cost parse. -/
def routeOfRow (fmt : NumberFormat) (line : String) : Option Route :=
  let parts := split line ','
  if 5 ≤ parts.length then
    (fmt.stod (trim (parts.getD 2 ""))).bind fun distance =>
    (fmt.stod (trim (parts.getD 3 ""))).bind fun baseCost =>
      some ⟨trim (parts.getD 0 ""), trim (parts.getD 1 ""), distance, baseCost,
        decide (trim (parts.getD 4 "") = "1") || decide (trim (parts.getD 4 "") = "true")⟩
  else none

/-- The flight a data row of `flights.txt` describes: at least eight fields,
of which the distance, the cost and the time parse; the third field holds the
airport codes of the route with dashes between them. -/
def flightOfRow (fmt : NumberFormat) (line : String) : Option Flight :=
  let parts := split line ','
  if 8 ≤ parts.length then
    (fmt.stod (trim (parts.getD 3 ""))).bind fun totalDistance =>
    (fmt.stod (trim (parts.getD 4 ""))).bind fun totalCost =>
    (fmt.stod (trim (parts.getD 5 ""))).bind fun estimatedTime =>
      some ⟨trim (parts.getD 0 ""), trim (parts.getD 1 ""),
        (split (trim (parts.getD 2 "")) '-').map trim, totalDistance, totalCost,
        estimatedTime, trim (parts.getD 6 ""), trim (parts.getD 7 "")⟩
  else none

/-- The map after storing each entity of a list under its key, in the order
of the list. -/
def storeEach {V : Type} (key : V → String) (m : StdMap V) (vs : List V) : StdMap V :=
  vs.foldl (fun m v => m.set (key v) v) m

/-- The fields of a row with the delimiter between two of them. -/
def joinWith (d : Char) : List String → String
  | [] => ""
  | [field] => field
  | field :: rest => field ++ String.singleton d ++ joinWith d rest

/-- A text field the files hold unchanged: no comma, no line break, and no
white space at either end. -/
def CleanField (str : String) : Prop :=
  ',' ∉ str.data ∧ '\n' ∉ str.data ∧ trim str = str

instance (str : String) : Decidable (CleanField str) := by
  unfold CleanField; infer_instance

/-- A `double` that the library writes without comma or line break and that
`std::stod` reads back from that text as the same value. -/
def NumberFormat.KeepsDouble (fmt : NumberFormat) (x : ℚ) : Prop :=
  ',' ∉ (fmt.showDouble x).data ∧ '\n' ∉ (fmt.showDouble x).data ∧
    fmt.stod (trim (fmt.showDouble x)) = some x

instance (fmt : NumberFormat) (x : ℚ) : Decidable (fmt.KeepsDouble x) := by
  unfold NumberFormat.KeepsDouble; infer_instance

/-- An `int` that the library writes without comma or line break and that
`std::stoi` reads back from that text as the same value. -/
def NumberFormat.KeepsInt (fmt : NumberFormat) (x : Int) : Prop :=
  ',' ∉ (fmt.showInt x).data ∧ '\n' ∉ (fmt.showInt x).data ∧
    fmt.stoi (trim (fmt.showInt x)) = some x

instance (fmt : NumberFormat) (x : Int) : Decidable (fmt.KeepsInt x) := by
  unfold NumberFormat.KeepsInt; infer_instance

/-- An airport whose row of `airports.txt` is read back as the same airport:
clean text fields, coordinates the library keeps, and a last field that is
not empty. -/
def Airport.Storable (fmt : NumberFormat) (a : Airport) : Prop :=
  CleanField a.code ∧ CleanField a.name ∧ CleanField a.city ∧ CleanField a.country ∧
    fmt.KeepsDouble a.latitude ∧ fmt.KeepsDouble a.longitude ∧ fmt.showDouble a.longitude ≠ ""

instance (fmt : NumberFormat) (a : Airport) : Decidable (a.Storable fmt) := by
  unfold Airport.Storable; infer_instance

/-- An aircraft whose row of `aircraft.txt` is read back as the same
aircraft. -/
def Aircraft.Storable (fmt : NumberFormat) (ac : Aircraft) : Prop :=
  CleanField ac.id ∧ CleanField ac.model ∧ fmt.KeepsInt ac.capacity ∧
    fmt.KeepsDouble ac.cruiseSpeed ∧ fmt.KeepsDouble ac.fuelConsumption

instance (fmt : NumberFormat) (ac : Aircraft) : Decidable (ac.Storable fmt) := by
  unfold Aircraft.Storable; infer_instance

/-- A route whose row of `routes.txt` is read back as the same route. -/
def Route.Storable (fmt : NumberFormat) (r : Route) : Prop :=
  CleanField r.origin ∧ CleanField r.destination ∧ fmt.KeepsDouble r.distance ∧
    fmt.KeepsDouble r.baseCost

instance (fmt : NumberFormat) (r : Route) : Decidable (r.Storable fmt) := by
  unfold Route.Storable; infer_instance

/-- A flight whose row of `flights.txt` is read back as the same flight: in
addition to clean fields and numbers the library keeps, the airport codes of
its route are not empty and hold no dash, and its status is not empty. -/
def Flight.Storable (fmt : NumberFormat) (f : Flight) : Prop :=
  CleanField f.flightNumber ∧ CleanField f.aircraftId ∧
    (∀ code ∈ f.route, CleanField code ∧ code ≠ "" ∧ '-' ∉ code.data) ∧
    fmt.KeepsDouble f.totalDistance ∧ fmt.KeepsDouble f.totalCost ∧
    fmt.KeepsDouble f.estimatedTime ∧ CleanField f.departureTime ∧
    CleanField f.status ∧ f.status ≠ ""

instance (fmt : NumberFormat) (f : Flight) : Decidable (f.Storable fmt) := by
  unfold Flight.Storable; infer_instance

/-- A store each of whose entities is read back from its row. -/
def DataStore.Storable (fmt : NumberFormat) (s : DataStore) : Prop :=
  (∀ a ∈ s.getAllAirports, a.Storable fmt) ∧ (∀ ac ∈ s.getAllAircraft, ac.Storable fmt) ∧
    (∀ r ∈ s.getAllRoutes, r.Storable fmt) ∧ (∀ f ∈ s.getAllFlights, f.Storable fmt)

instance (fmt : NumberFormat) (s : DataStore) : Decidable (s.Storable fmt) := by
  unfold DataStore.Storable; infer_instance

/-- Every entity of the store is bound to its own key. -/
def DataStore.Keyed (s : DataStore) : Prop :=
  (∀ p ∈ s.airports.entries, p.2.code = p.1) ∧ (∀ p ∈ s.aircraft.entries, p.2.id = p.1) ∧
    (∀ p ∈ s.routes.entries, p.2.getId = p.1) ∧
    (∀ p ∈ s.flights.entries, p.2.flightNumber = p.1)

/-- The airports described by the well-formed rows of an airports file, in
the order of the file; none when the file cannot be opened. -/
def loadedAirports (fmt : NumberFormat) (file : Option String) : List Airport :=
  match file with
  | none => []
  | some content => (fileLines content).tail.filterMap (airportOfRow fmt)

/-- A call that brings no airport code but codes of three characters: an
airport passed to `addAirport` or `updateAirport` has such a code, and so has
every airport described by a row of a loaded airports file. -/
def StoreOp.ThreeCharCodes (fmt : NumberFormat) : StoreOp → Prop
  | StoreOp.addAirport airport => airport.code.length = 3
  | StoreOp.updateAirport airport => airport.code.length = 3
  | StoreOp.loadAll files => ∀ a ∈ loadedAirports fmt files.airports, a.code.length = 3
  | _ => True

instance (fmt : NumberFormat) : (op : StoreOp) → Decidable (op.ThreeCharCodes fmt)
  | StoreOp.addAirport airport => inferInstanceAs (Decidable (airport.code.length = 3))
  | StoreOp.deleteAirport _ => isTrue trivial
  | StoreOp.updateAirport airport => inferInstanceAs (Decidable (airport.code.length = 3))
  | StoreOp.addAircraft _ => isTrue trivial
  | StoreOp.deleteAircraft _ => isTrue trivial
  | StoreOp.updateAircraft _ => isTrue trivial
  | StoreOp.addRoute _ => isTrue trivial
  | StoreOp.deleteRoute _ => isTrue trivial
  | StoreOp.updateRoute _ => isTrue trivial
  | StoreOp.addFlight _ => isTrue trivial
  | StoreOp.deleteFlight _ => isTrue trivial
  | StoreOp.undo => isTrue trivial
  | StoreOp.clearUndoStack => isTrue trivial
  | StoreOp.rebuildGraph => isTrue trivial
  | StoreOp.loadAll files =>
    inferInstanceAs (Decidable (∀ a ∈ loadedAirports fmt files.airports, a.code.length = 3))

/-- The route joins `a` and `b`, in one direction or the other. -/
def Route.joins (r : Route) (a b : String) : Bool :=
  decide ((a = r.origin ∧ b = r.destination) ∨ (a = r.destination ∧ b = r.origin))

/-- Among the stored operational routes that join `a` and `b`, the one
`rebuildGraph` processes last: that stored under the greatest key (the key of
a stored route is its id). -/
def DataStore.lastRouteJoining (s : DataStore) (a b : String) : Option Route :=
  (s.getAllRoutes.filter (fun r => r.operational && r.joins a b)).getLast?

/-- Every sum formed along the path is exact: the weight of each initial part
of the path is a double. -/
def ExactSums (ar : DoubleArith) (es : List Edge) : Prop :=
  ∀ n, ar.round (pathWeight (es.take n)) = Dbl.fin (pathWeight (es.take n))

/-! ## Fixtures of `system_test.cpp` -/

/-- The airport added twice in `testDataStore`. -/
def testAirport : Airport := ⟨"TST", "Test Airport", "Test City", "Test Country", 0, 0⟩

/-- A small store: three airports and the routes JFK-LAX, LAX-ORD (operational)
and ORD-JFK (not operational). -/
def sampleStore : DataStore :=
  let s0 := DataStore.empty
  let s1 := (s0.addAirport ⟨"JFK", "Kennedy", "New York", "USA", 40, -73⟩).2
  let s2 := (s1.addAirport ⟨"LAX", "Los Angeles Intl", "Los Angeles", "USA", 33, -118⟩).2
  let s3 := (s2.addAirport ⟨"ORD", "O Hare", "Chicago", "USA", 41, -87⟩).2
  let s4 := (s3.addRoute ⟨"JFK", "LAX", 3983, 6000, true⟩).2
  let s5 := (s4.addRoute ⟨"LAX", "ORD", 2800, 4000, true⟩).2
  (s5.addRoute ⟨"ORD", "JFK", 1180, 2000, false⟩).2

/-- The graph built in `testDijkstra` of `system_test.cpp`. -/
def testGraph : Graph :=
  ((((((((Graph.empty.addNode "A").addNode "B").addNode "C").addNode "D").addEdge
    "A" "B" 10 100).addEdge "A" "C" 35 350).addEdge "B" "D" 20 200).addEdge "D" "C" 5 50)

/-- A graph on which the shortest route is not the cheapest one: the direct
edge A->B is shorter but dearer than the detour through C. -/
def costGraph : Graph :=
  ((Graph.empty.addEdge "A" "B" 10 100).addEdge "A" "C" 6 10).addEdge "C" "B" 6 10

/-- The graph built in `testGraph` of `system_test.cpp`, before the node
deletion. -/
def adtGraph : Graph :=
  (((((Graph.empty.addNode "A").addNode "B").addNode "C").addEdge "A" "B" 10 100).addEdge
    "B" "C" 20 200).addEdge "A" "C" 35 350

/-- Decimal digits of a natural number. -/
def natDigits (n : Nat) : String := String.mk (Nat.toDigits 10 n)

/-- The number written by a string of decimal digits, `none` when the string
is empty or holds another character. -/
def readDigits : List Char → Option Nat
  | [] => none
  | cs => cs.foldl (fun acc c => acc.bind fun n =>
      if c.isDigit then some (10 * n + (c.toNat - 48)) else none) (some 0)

/-- Plain decimal notation of an integer. -/
def showPlainInt : Int → String
  | Int.ofNat n => natDigits n
  | Int.negSucc n => "-" ++ natDigits (n + 1)

/-- The integer written in plain decimal notation, `none` for any other
string. -/
def readPlainInt (s : String) : Option Int :=
  match s.data with
  | '-' :: ds => (readDigits ds).map fun n => -(n : Int)
  | ds => (readDigits ds).map fun n => (n : Int)

/-- A number format for the fixtures: integers in plain decimal notation,
which is what `stream << x` writes and what `std::stod` and `std::stoi` read
back for an integer value (below a million in magnitude for a `double`).  It
stands for the library on such values only: a string that is not an optional
minus sign followed by digits is refused, and a value that is not an integer
is written as a fraction. -/
def plainNumbers : NumberFormat where
  showDouble q := if q.den = 1 then showPlainInt q.num
    else showPlainInt q.num ++ "/" ++ natDigits q.den
  showInt := showPlainInt
  stod s := (readPlainInt s).map fun z => (z : ℚ)
  stoi := readPlainInt

/-- Six add operations: two airports, an aircraft, two routes and a flight. -/
def fullStoreOps : List StoreOp :=
  [StoreOp.addAirport ⟨"JFK", "Kennedy", "New York", "USA", 40, -73⟩,
   StoreOp.addAirport ⟨"LAX", "Los Angeles Intl", "Los Angeles", "USA", 33, -118⟩,
   StoreOp.addAircraft ⟨"AC1", "A320", 180, 840, 3, AircraftStatus.MAINTENANCE⟩,
   StoreOp.addRoute ⟨"JFK", "LAX", 3983, 6000, true⟩,
   StoreOp.addRoute ⟨"LAX", "JFK", 3983, 6100, false⟩,
   StoreOp.addFlight ⟨"FL001", "AC1", ["JFK", "LAX"], 3983, 6000, 5, "2024-01-01 10:00",
     "SCHEDULED"⟩]

/-- A store with entities of each kind, built by the add operations of
`fullStoreOps`. -/
def fullStore : DataStore := DataStore.empty.run plainNumbers fullStoreOps

/-- An airport whose name holds a comma. -/
def commaAirport : Airport := ⟨"JFK", "Kennedy, John F", "New York", "USA", 40, -73⟩

/-- The store after adding `commaAirport` to an empty store. -/
def commaStore : DataStore := (DataStore.empty.addAirport commaAirport).2

/-- Seven successful add operations: three airports, three routes and an
aircraft. -/
def sevenAdds : List StoreOp :=
  [StoreOp.addAirport ⟨"JFK", "Kennedy", "New York", "USA", 40, -73⟩,
   StoreOp.addAirport ⟨"LAX", "Los Angeles Intl", "Los Angeles", "USA", 33, -118⟩,
   StoreOp.addAirport ⟨"ORD", "O Hare", "Chicago", "USA", 41, -87⟩,
   StoreOp.addRoute ⟨"JFK", "LAX", 3983, 6000, true⟩,
   StoreOp.addRoute ⟨"LAX", "ORD", 2800, 4000, true⟩,
   StoreOp.addRoute ⟨"ORD", "JFK", 1180, 2000, false⟩,
   StoreOp.addAircraft ⟨"AC1", "A320", 180, 840, 3, AircraftStatus.AVAILABLE⟩]

/-- The calls of `testDataStore` in `system_test.cpp`, on a fresh store: an
airport, an aircraft, and a route between two codes that are not stored
airports. -/
def testDataStoreOps : List StoreOp :=
  [StoreOp.addAirport testAirport,
   StoreOp.addAircraft ⟨"AC999", "Test Model", 200, 850, 3, AircraftStatus.AVAILABLE⟩,
   StoreOp.addRoute ⟨"JFK", "LAX", 3983, 6000, true⟩]

/-- A store holding the two opposite route records A-B and B-A with different
distance and cost. -/
def oppositeRoutesStore : DataStore :=
  ((DataStore.empty.addRoute ⟨"A", "B", 10, 100, true⟩).2.addRoute
    ⟨"B", "A", 20, 200, true⟩).2

/-- An airports file with a header, two well-formed rows, a row with too few
fields between them, an empty line, and a row whose latitude does not
parse. -/
def airportsWithBadRows : String :=
  "Code,Name,City,Country,Latitude,Longitude\n" ++
  "JFK,Kennedy,New York,USA,40,-73\n" ++
  "BAD,Too Few,Fields\n" ++
  "\n" ++
  "XXX,No Number,Nowhere,USA,north,-73\n" ++
  "LAX, Los Angeles Intl ,Los Angeles,USA,33,-118\n"

/-- A store with one airport, an operational route between two codes that are
not stored airports, and a route that is not operational between two other
such codes. -/
def strayRoutesStore : DataStore :=
  DataStore.empty.run plainNumbers
    [StoreOp.addAirport testAirport,
     StoreOp.addRoute ⟨"JFK", "LAX", 3983, 6000, true⟩,
     StoreOp.addRoute ⟨"ORD", "DFW", 1290, 2000, false⟩]

/-- An airport whose code has four characters. -/
def longCodeAirport : Airport := ⟨"JFKX", "Kennedy", "New York", "USA", 40, -73⟩

/-- An airports file whose only row has a code of six characters. -/
def longCodeFile : String :=
  "Code,Name,City,Country,Latitude,Longitude\n" ++ "LONDON,Heathrow,London,UK,51,0\n"

/-- A graph on which one of the sums of the search is rounded: the weights of
A->B->C sum to `10^16 + 3`, which is not a double and is rounded to
`10^16 + 4`, the weight of A->C.  Every weight is a double. -/
def roundingGraph : Graph :=
  ((Graph.empty.addEdge "A" "B" 10000000000000000 100).addEdge "B" "C" 3 100).addEdge
    "A" "C" 10000000000000004 100

/-- A graph on which a sum of the search absorbs its second term: adding 1 to
`10^16` gives `10^16` in double arithmetic, for the weights and for the
costs. -/
def absorbGraph : Graph :=
  (Graph.empty.addEdge "A" "B" 10000000000000000 10000000000000000).addEdge "B" "C" 1 1

/-- A graph on which the sum of the weights of the only path from A to C is
beyond the range of `double`: each weight is `2^1023`. -/
def overflowGraph : Graph :=
  (Graph.empty.addEdge "A" "B" (2 ^ 1023) 1).addEdge "B" "C" (2 ^ 1023) 1

/-- A graph with a cycle of negative weight between A and B, on the way from
S to E. -/
def negativeCycleGraph : Graph :=
  (((Graph.empty.addEdge "S" "A" 1 1).addEdge "A" "B" (-2) 1).addEdge "A" "E" 10 1).addEdge
    "B" "A" (-2) 1

theorem lookupEntry_insertEntry_self {V : Type} (k : String) (v : V) (l : List (String × V)) :
    lookupEntry k (insertEntry k v l) = some v := by
  induction l with
  | nil => simp [insertEntry, lookupEntry]
  | cons hd t ih =>
    obtain ⟨k', v'⟩ := hd
    unfold insertEntry
    split_ifs with h1 h2
    · simp [lookupEntry]
    · have : k' ≠ k := ne_of_lt h2
      simp [lookupEntry, this, ih]
    · simp [lookupEntry]

theorem lookupEntry_insertEntry_ne {V : Type} (k j : String) (v : V) (l : List (String × V))
    (h : j ≠ k) : lookupEntry j (insertEntry k v l) = lookupEntry j l := by
  induction l with
  | nil => simp [insertEntry, lookupEntry, h.symm]
  | cons hd t ih =>
    obtain ⟨k', v'⟩ := hd
    unfold insertEntry
    split_ifs with h1 h2
    · simp [lookupEntry, h.symm]
    · simp [lookupEntry, ih]
    · have hk : k = k' := le_antisymm (not_lt.mp h2) (not_lt.mp h1)
      subst hk
      simp [lookupEntry, h.symm]

theorem lookupEntry_eraseEntry_self {V : Type} (k : String) (l : List (String × V)) :
    lookupEntry k (eraseEntry k l) = none := by
  induction l with
  | nil => simp [eraseEntry, lookupEntry]
  | cons hd t ih =>
    obtain ⟨k', v'⟩ := hd
    by_cases h : k' = k
    · simpa [eraseEntry, h] using ih
    · simpa [eraseEntry, h, lookupEntry] using ih

theorem lookupEntry_eraseEntry_ne {V : Type} (k j : String) (l : List (String × V))
    (h : j ≠ k) : lookupEntry j (eraseEntry k l) = lookupEntry j l := by
  induction l with
  | nil => simp [eraseEntry, lookupEntry]
  | cons hd t ih =>
    obtain ⟨k', v'⟩ := hd
    by_cases h' : k' = k
    · subst h'
      have : ¬ k' = j := fun e => h e.symm
      simpa [eraseEntry, lookupEntry, this] using ih
    · by_cases h2 : k' = j
      · subst h2
        simp [eraseEntry, List.filter_cons, h', lookupEntry]
      · simpa [eraseEntry, h', lookupEntry, h2] using ih

theorem mem_of_lookupEntry {V : Type} (k : String) (v : V) (l : List (String × V))
    (h : lookupEntry k l = some v) : (k, v) ∈ l := by
  induction l with
  | nil => simp [lookupEntry] at h
  | cons hd t ih =>
    obtain ⟨k', v'⟩ := hd
    unfold lookupEntry at h
    split_ifs at h with h1
    · subst h1
      simp only [Option.some.injEq] at h
      subst h
      exact List.mem_cons_self _ _
    · exact List.mem_cons_of_mem _ (ih h)

theorem lookupEntry_of_mem {V : Type} (k : String) (v : V) (l : List (String × V))
    (hl : (l.map Prod.fst).Pairwise (· < ·)) (h : (k, v) ∈ l) : lookupEntry k l = some v := by
  induction l with
  | nil => simp at h
  | cons hd t ih =>
    obtain ⟨k', v'⟩ := hd
    simp only [List.map_cons, List.pairwise_cons] at hl
    rcases List.mem_cons.mp h with h | h
    · injection h with h1 h2
      subst h1; subst h2
      simp [lookupEntry]
    · have hlt : k' < k := hl.1 k (List.mem_map.mpr ⟨(k, v), h, rfl⟩)
      have : k' ≠ k := ne_of_lt hlt
      simp [lookupEntry, this, ih hl.2 h]

namespace StdMap

variable {V : Type}

theorem ext_entries {m₁ m₂ : StdMap V} (h : m₁.entries = m₂.entries) : m₁ = m₂ := by
  cases m₁; cases m₂; cases h; rfl

@[simp] theorem find_empty (k : String) : (empty : StdMap V).find k = none := rfl

@[simp] theorem find_set_self (m : StdMap V) (k : String) (v : V) :
    (m.set k v).find k = some v :=
  lookupEntry_insertEntry_self k v m.entries

theorem find_set_ne (m : StdMap V) (k j : String) (v : V) (h : j ≠ k) :
    (m.set k v).find j = m.find j :=
  lookupEntry_insertEntry_ne k j v m.entries h

theorem find_set (m : StdMap V) (k j : String) (v : V) :
    (m.set k v).find j = if j = k then some v else m.find j := by
  split_ifs with h
  · subst h; exact find_set_self m j v
  · exact find_set_ne m k j v h

@[simp] theorem find_erase_self (m : StdMap V) (k : String) : (m.erase k).find k = none :=
  lookupEntry_eraseEntry_self k m.entries

theorem find_erase_ne (m : StdMap V) (k j : String) (h : j ≠ k) :
    (m.erase k).find j = m.find j :=
  lookupEntry_eraseEntry_ne k j m.entries h

theorem find_erase (m : StdMap V) (k j : String) :
    (m.erase k).find j = if j = k then none else m.find j := by
  split_ifs with h
  · subst h; exact find_erase_self m j
  · exact find_erase_ne m k j h

theorem mem_entries_iff (m : StdMap V) (k : String) (v : V) :
    (k, v) ∈ m.entries ↔ m.find k = some v :=
  ⟨lookupEntry_of_mem k v m.entries m.sorted, mem_of_lookupEntry k v m.entries⟩

theorem contains_eq_true_iff (m : StdMap V) (k : String) :
    m.contains k = true ↔ ∃ v, m.find k = some v := by
  simp [contains, Option.isSome_iff_exists]

theorem contains_eq_false_iff (m : StdMap V) (k : String) :
    m.contains k = false ↔ m.find k = none := by
  simp [contains]

theorem contains_set (m : StdMap V) (k j : String) (v : V) :
    (m.set k v).contains j = (decide (j = k) || m.contains j) := by
  unfold contains
  rw [find_set]
  split_ifs with h <;> simp [h]

theorem contains_erase (m : StdMap V) (k j : String) :
    (m.erase k).contains j = (!decide (j = k) && m.contains j) := by
  unfold contains
  rw [find_erase]
  split_ifs with h <;> simp [h]

theorem get_set_self (m : StdMap V) (k : String) (v d : V) : (m.set k v).get k d = v := by
  simp [get]

theorem get_set_ne (m : StdMap V) (k j : String) (v d : V) (h : j ≠ k) :
    (m.set k v).get j d = m.get j d := by
  simp [get, find_set_ne m k j v h]

theorem mem_keys_iff (m : StdMap V) (k : String) : k ∈ m.keys ↔ m.contains k = true := by
  rw [contains_eq_true_iff]
  constructor
  · intro h
    obtain ⟨⟨k', v⟩, hp, rfl⟩ := List.mem_map.mp h
    exact ⟨v, (mem_entries_iff m k' v).mp hp⟩
  · rintro ⟨v, hv⟩
    exact List.mem_map.mpr ⟨(k, v), (mem_entries_iff m k v).mpr hv, rfl⟩

end StdMap

/-! ## Entity store: rejected and accepted mutations -/

/-- C8: every rejected mutation (an add with a key already present, an update
or a delete with an absent key) returns false and hands back the store it was
given: collections, graph and undo log are untouched. -/
theorem rejected_mutation_atomic (s : DataStore) :
    (∀ a : Airport, s.airports.contains a.code = true → s.addAirport a = (false, s)) ∧
    (∀ ac : Aircraft, s.aircraft.contains ac.id = true → s.addAircraft ac = (false, s)) ∧
    (∀ r : Route, s.routes.contains r.getId = true → s.addRoute r = (false, s)) ∧
    (∀ f : Flight, s.flights.contains f.flightNumber = true → s.addFlight f = (false, s)) ∧
    (∀ a : Airport, s.airports.contains a.code = false → s.updateAirport a = (false, s)) ∧
    (∀ ac : Aircraft, s.aircraft.contains ac.id = false → s.updateAircraft ac = (false, s)) ∧
    (∀ r : Route, s.routes.contains r.getId = false → s.updateRoute r = (false, s)) ∧
    (∀ code : String, s.airports.contains code = false → s.deleteAirport code = (false, s)) ∧
    (∀ id : String, s.aircraft.contains id = false → s.deleteAircraft id = (false, s)) ∧
    (∀ id : String, s.routes.contains id = false → s.deleteRoute id = (false, s)) ∧
    (∀ num : String, s.flights.contains num = false → s.deleteFlight num = (false, s)) := by
  refine ⟨?_, ?_, ?_, ?_, ?_, ?_, ?_, ?_, ?_, ?_, ?_⟩
  · intro a h; simp [DataStore.addAirport, h]
  · intro a h; simp [DataStore.addAircraft, h]
  · intro a h; simp [DataStore.addRoute, h]
  · intro a h; simp [DataStore.addFlight, h]
  · intro a h; simp [DataStore.updateAirport, h]
  · intro a h; simp [DataStore.updateAircraft, h]
  · intro a h; simp [DataStore.updateRoute, h]
  · intro code h
    have h' := (StdMap.contains_eq_false_iff _ _).mp h
    simp [DataStore.deleteAirport, h']
  · intro a h; simp [DataStore.deleteAircraft, h]
  · intro a h; simp [DataStore.deleteRoute, h]
  · intro a h; simp [DataStore.deleteFlight, h]

theorem rejected_mutation_atomic_witness :
    (DataStore.empty.addAirport testAirport).1 = true ∧
    (DataStore.empty.addAirport testAirport).2.airports.contains testAirport.code = true ∧
    (DataStore.empty.addAirport testAirport).2.addAirport testAirport =
      (false, (DataStore.empty.addAirport testAirport).2) :=
  ⟨by decide!, by decide!,
    (rejected_mutation_atomic (DataStore.empty.addAirport testAirport).2).1 testAirport
      (by decide!)⟩

/-- C9: adding an entity whose key is not yet present returns true, the
matching lookup then returns exactly the entity added, every entity stored
before is still returned unchanged by its lookup, and the three other
collections are the same maps as before. -/
theorem add_fresh_key (s : DataStore) :
    (∀ a : Airport, s.airports.contains a.code = false →
      (s.addAirport a).1 = true ∧
      (s.addAirport a).2.getAirport a.code = some a ∧
      (∀ k x, s.getAirport k = some x → (s.addAirport a).2.getAirport k = some x) ∧
      (s.addAirport a).2.aircraft = s.aircraft ∧
      (s.addAirport a).2.routes = s.routes ∧
      (s.addAirport a).2.flights = s.flights) ∧
    (∀ ac : Aircraft, s.aircraft.contains ac.id = false →
      (s.addAircraft ac).1 = true ∧
      (s.addAircraft ac).2.getAircraft ac.id = some ac ∧
      (∀ k x, s.getAircraft k = some x → (s.addAircraft ac).2.getAircraft k = some x) ∧
      (s.addAircraft ac).2.airports = s.airports ∧
      (s.addAircraft ac).2.routes = s.routes ∧
      (s.addAircraft ac).2.flights = s.flights) ∧
    (∀ r : Route, s.routes.contains (r.origin ++ "-" ++ r.destination) = false →
      (s.addRoute r).1 = true ∧
      (s.addRoute r).2.getRoute (r.origin ++ "-" ++ r.destination) = some r ∧
      (∀ k x, s.getRoute k = some x → (s.addRoute r).2.getRoute k = some x) ∧
      (s.addRoute r).2.airports = s.airports ∧
      (s.addRoute r).2.aircraft = s.aircraft ∧
      (s.addRoute r).2.flights = s.flights) ∧
    (∀ f : Flight, s.flights.contains f.flightNumber = false →
      (s.addFlight f).1 = true ∧
      (s.addFlight f).2.getFlight f.flightNumber = some f ∧
      (∀ k x, s.getFlight k = some x → (s.addFlight f).2.getFlight k = some x) ∧
      (s.addFlight f).2.airports = s.airports ∧
      (s.addFlight f).2.aircraft = s.aircraft ∧
      (s.addFlight f).2.routes = s.routes) := by
  refine ⟨?_, ?_, ?_, ?_⟩
  · intro a h
    have hn := (StdMap.contains_eq_false_iff _ _).mp h
    refine ⟨by simp [DataStore.addAirport, h], by simp [DataStore.addAirport, h,
      DataStore.getAirport, DataStore.rebuildGraph], ?_, by simp [DataStore.addAirport, h,
      DataStore.rebuildGraph], by simp [DataStore.addAirport, h, DataStore.rebuildGraph],
      by simp [DataStore.addAirport, h, DataStore.rebuildGraph]⟩
    intro k x hk
    have hne : k ≠ a.code := by
      rintro rfl
      simp [DataStore.getAirport, hn] at hk
    simpa [DataStore.addAirport, h, DataStore.getAirport, DataStore.rebuildGraph,
      StdMap.find_set_ne _ _ _ _ hne] using hk
  · intro a h
    have hn := (StdMap.contains_eq_false_iff _ _).mp h
    refine ⟨by simp [DataStore.addAircraft, h], by simp [DataStore.addAircraft, h,
      DataStore.getAircraft], ?_, by simp [DataStore.addAircraft, h],
      by simp [DataStore.addAircraft, h], by simp [DataStore.addAircraft, h]⟩
    intro k x hk
    have hne : k ≠ a.id := by
      rintro rfl
      simp [DataStore.getAircraft, hn] at hk
    simpa [DataStore.addAircraft, h, DataStore.getAircraft,
      StdMap.find_set_ne _ _ _ _ hne] using hk
  · intro r h
    have h' : s.routes.contains r.getId = false := h
    have hn := (StdMap.contains_eq_false_iff _ _).mp h'
    refine ⟨by simp [DataStore.addRoute, h'], ?_, ?_, by simp [DataStore.addRoute, h',
      DataStore.rebuildGraph], by simp [DataStore.addRoute, h', DataStore.rebuildGraph],
      by simp [DataStore.addRoute, h', DataStore.rebuildGraph]⟩
    · show (s.addRoute r).2.getRoute r.getId = some r
      simp [DataStore.addRoute, h', DataStore.getRoute, DataStore.rebuildGraph]
    · intro k x hk
      have hne : k ≠ r.getId := by
        rintro rfl
        simp [DataStore.getRoute, hn] at hk
      simpa [DataStore.addRoute, h', DataStore.getRoute, DataStore.rebuildGraph,
        StdMap.find_set_ne _ _ _ _ hne] using hk
  · intro a h
    have hn := (StdMap.contains_eq_false_iff _ _).mp h
    refine ⟨by simp [DataStore.addFlight, h], by simp [DataStore.addFlight, h,
      DataStore.getFlight], ?_, by simp [DataStore.addFlight, h],
      by simp [DataStore.addFlight, h], by simp [DataStore.addFlight, h]⟩
    intro k x hk
    have hne : k ≠ a.flightNumber := by
      rintro rfl
      simp [DataStore.getFlight, hn] at hk
    simpa [DataStore.addFlight, h, DataStore.getFlight,
      StdMap.find_set_ne _ _ _ _ hne] using hk

theorem add_fresh_key_witness :
    DataStore.empty.airports.contains testAirport.code = false ∧
    (DataStore.empty.addAirport testAirport).1 = true ∧
    (DataStore.empty.addAirport testAirport).2.getAirport "TST" = some testAirport :=
  ⟨by decide!,
    ((add_fresh_key DataStore.empty).1 testAirport (by decide!)).1,
    ((add_fresh_key DataStore.empty).1 testAirport (by decide!)).2.1⟩

/-! ## Facts about `Graph` and `rebuildGraph` -/

theorem foldl_preserves {α β : Type} (P : β → Prop) (f : β → α → β) (l : List α) (b : β)
    (hb : P b) (hf : ∀ b a, a ∈ l → P b → P (f b a)) : P (l.foldl f b) := by
  induction l generalizing b with
  | nil => exact hb
  | cons x t ih =>
    simp only [List.foldl_cons]
    exact ih (f b x) (hf b x (List.mem_cons_self _ _) hb)
      (fun b a ha hp => hf b a (List.mem_cons_of_mem _ ha) hp)

theorem mem_overwriteOrAppend (to_ : String) (w c : ℚ) (es : List Edge) (e : Edge)
    (h : e ∈ overwriteOrAppend to_ w c es) : e = ⟨to_, w, c⟩ ∨ e ∈ es := by
  induction es with
  | nil => simpa [overwriteOrAppend] using h
  | cons x t ih =>
    unfold overwriteOrAppend at h
    split_ifs at h with hx
    · rcases List.mem_cons.mp h with h | h
      · left; rw [h, ← hx]
      · right; exact List.mem_cons_of_mem _ h
    · rcases List.mem_cons.mp h with h | h
      · right; rw [h]; exact List.mem_cons_self _ _
      · rcases ih h with h | h
        · left; exact h
        · right; exact List.mem_cons_of_mem _ h

namespace Graph

theorem hasNode_empty (m : String) : Graph.empty.hasNode m = false := rfl

theorem hasNode_addNode (g : Graph) (n m : String) :
    (g.addNode n).hasNode m = (g.hasNode m || decide (m = n)) := by
  unfold addNode
  by_cases h : g.hasNode n = true
  · simp only [h, Bool.not_true, Bool.false_eq_true, if_false]
    by_cases hm : m = n
    · subst hm; simp [h]
    · simp [hm]
  · simp only [Bool.not_eq_true] at h
    simp only [h, Bool.not_false, if_true]
    simp only [hasNode, StdSet.insert, StdMap.contains_set]
    exact Bool.or_comm _ _

theorem find_adjacencyList_addNode (g : Graph) (n k : String) (es : List Edge)
    (h : (g.addNode n).adjacencyList.find k = some es) :
    g.adjacencyList.find k = some es ∨ (k = n ∧ es = []) := by
  unfold addNode at h
  split_ifs at h with hn
  · simp only [StdMap.find_set] at h
    split_ifs at h with hk
    · right; exact ⟨hk, by simpa using h.symm⟩
    · left; exact h
  · left; exact h

theorem hasNode_addEdge (g : Graph) (a b : String) (w c : ℚ) (m : String) :
    (g.addEdge a b w c).hasNode m = (g.hasNode m || decide (m = a) || decide (m = b)) := by
  have : (g.addEdge a b w c).hasNode m = ((g.addNode a).addNode b).hasNode m := rfl
  rw [this, hasNode_addNode, hasNode_addNode]

theorem find_adjacencyList_addEdge (g : Graph) (a b : String) (w c : ℚ) (k : String)
    (es : List Edge) (h : (g.addEdge a b w c).adjacencyList.find k = some es) :
    ∀ e ∈ es, (k = a ∧ e = ⟨b, w, c⟩) ∨ ∃ es0, g.adjacencyList.find k = some es0 ∧ e ∈ es0 := by
  intro e he
  have key : ∀ k' es', ((g.addNode a).addNode b).adjacencyList.find k' = some es' →
      ∀ e' ∈ es', ∃ es0, g.adjacencyList.find k' = some es0 ∧ e' ∈ es0 := by
    intro k' es' h' e' he'
    rcases find_adjacencyList_addNode _ _ _ _ h' with h1 | ⟨_, h1⟩
    · rcases find_adjacencyList_addNode _ _ _ _ h1 with h2 | ⟨_, h2⟩
      · exact ⟨es', h2, he'⟩
      · subst h2; simp at he'
    · subst h1; simp at he'
  simp only [addEdge, StdMap.find_set] at h
  split_ifs at h with hk
  · simp only [Option.some.injEq] at h
    subst h
    rcases mem_overwriteOrAppend _ _ _ _ _ he with h1 | h1
    · left; exact ⟨hk, h1⟩
    · right
      subst hk
      unfold StdMap.get at h1
      cases hf : ((g.addNode k).addNode b).adjacencyList.find k with
      | none => simp [hf] at h1
      | some es1 =>
        simp only [hf, Option.getD_some] at h1
        exact key k es1 hf e h1
  · right; exact key k es h e he

theorem mem_getNeighbors (g : Graph) (u : String) (e : Edge) (h : e ∈ g.getNeighbors u) :
    g.hasNode u = true ∧ ∃ es, g.adjacencyList.find u = some es ∧ e ∈ es := by
  unfold getNeighbors at h
  split_ifs at h with hu
  · simp at h
  · refine ⟨by simpa using hu, ?_⟩
    unfold StdMap.get at h
    cases hf : g.adjacencyList.find u with
    | none => simp [hf] at h
    | some es => exact ⟨es, rfl, by simpa [hf] using h⟩

end Graph

namespace DataStore

/-- Where the nodes of a rebuilt graph come from: the airport keys and the
endpoints of the operational routes. -/
theorem hasNode_rebuildGraph (s : DataStore) (m : String)
    (h : (rebuildGraph s).graph.hasNode m = true) :
    m ∈ s.airports.keys ∨
      ∃ p ∈ s.routes.entries, p.2.operational = true ∧ (p.2.origin = m ∨ p.2.destination = m) := by
  have step1 : ∀ g : Graph, (∀ x, g.hasNode x = true → x ∈ s.airports.keys) →
      ∀ x, (s.airports.entries.foldl (fun g p => g.addNode p.1) g).hasNode x = true →
        x ∈ s.airports.keys := by
    intro g hg
    refine foldl_preserves (fun g : Graph => ∀ x, g.hasNode x = true → x ∈ s.airports.keys)
      _ _ g hg ?_
    intro g' p hp hg' x hx
    rw [Graph.hasNode_addNode] at hx
    simp only [Bool.or_eq_true, decide_eq_true_eq] at hx
    rcases hx with hx | hx
    · exact hg' x hx
    · subst hx; exact List.mem_map.mpr ⟨p, hp, rfl⟩
  revert h
  unfold rebuildGraph
  simp only
  refine foldl_preserves (fun g : Graph => g.hasNode m = true → m ∈ s.airports.keys ∨
      ∃ p ∈ s.routes.entries, p.2.operational = true ∧ (p.2.origin = m ∨ p.2.destination = m))
    _ _ _ ?_ ?_
  · intro h
    left
    exact step1 _ (fun x hx => by simp [Graph.clear, Graph.hasNode_empty] at hx) m h
  · intro g p hp hg hm
    unfold addRouteEdges at hm
    split_ifs at hm with hop
    · rw [Graph.hasNode_addEdge, Graph.hasNode_addEdge] at hm
      simp only [Bool.or_eq_true, decide_eq_true_eq] at hm
      rcases hm with (((hm | hm) | hm) | hm) | hm
      · exact hg hm
      · exact Or.inr ⟨p, hp, hop, Or.inl hm.symm⟩
      · exact Or.inr ⟨p, hp, hop, Or.inr hm.symm⟩
      · exact Or.inr ⟨p, hp, hop, Or.inr hm.symm⟩
      · exact Or.inr ⟨p, hp, hop, Or.inl hm.symm⟩
    · exact hg hm

/-- Where the edges of a rebuilt graph come from: each one joins the two
endpoints of an operational route, in one direction or the other. -/
theorem edge_rebuildGraph (s : DataStore) (k : String) (es : List Edge)
    (h : (rebuildGraph s).graph.adjacencyList.find k = some es) :
    ∀ e ∈ es, ∃ p ∈ s.routes.entries, p.2.operational = true ∧
      ((p.2.origin = k ∧ p.2.destination = e.destination) ∨
        (p.2.destination = k ∧ p.2.origin = e.destination)) := by
  have step1 : ∀ g : Graph,
      (∀ k es, g.adjacencyList.find k = some es → es = []) →
      ∀ k es, (s.airports.entries.foldl (fun g p => g.addNode p.1) g).adjacencyList.find k
        = some es → es = [] := by
    intro g hg
    refine foldl_preserves
      (fun g : Graph => ∀ k es, g.adjacencyList.find k = some es → es = []) _ _ g hg ?_
    intro g' p _ hg' k es hk
    rcases Graph.find_adjacencyList_addNode _ _ _ _ hk with h1 | ⟨_, h1⟩
    · exact hg' k es h1
    · exact h1
  revert k es
  unfold rebuildGraph
  simp only
  refine foldl_preserves (fun g : Graph => ∀ k es, g.adjacencyList.find k = some es →
      ∀ e ∈ es, ∃ p ∈ s.routes.entries, p.2.operational = true ∧
        ((p.2.origin = k ∧ p.2.destination = e.destination) ∨
          (p.2.destination = k ∧ p.2.origin = e.destination))) _ _ _ ?_ ?_
  · intro k es hk e he
    have := step1 _ (fun k es hk => by simp [Graph.clear, Graph.empty] at hk) k es hk
    subst this
    simp at he
  · intro g p hp hg k es hk e he
    unfold addRouteEdges at hk
    split_ifs at hk with hop
    · rcases Graph.find_adjacencyList_addEdge _ _ _ _ _ _ _ hk e he with ⟨h1, h2⟩ | ⟨es0, h1, h2⟩
      · exact ⟨p, hp, hop, Or.inr ⟨h1.symm, by rw [h2]⟩⟩
      · rcases Graph.find_adjacencyList_addEdge _ _ _ _ _ _ _ h1 e h2 with
          ⟨h3, h4⟩ | ⟨es1, h3, h4⟩
        · exact ⟨p, hp, hop, Or.inl ⟨h3.symm, by rw [h4]⟩⟩
        · exact hg k es1 h3 e h4
    · exact hg k es hk e he

end DataStore

/-! ## Deleting an airport -/

theorem find_foldl_erase {V : Type} (ids : List String) (m : StdMap V) (k : String) :
    (ids.foldl (fun m id => m.erase id) m).find k = if k ∈ ids then none else m.find k := by
  induction ids generalizing m with
  | nil => simp
  | cons x t ih =>
    simp only [List.foldl_cons, ih, List.mem_cons]
    by_cases hk : k ∈ t
    · simp [hk]
    · simp only [hk, if_false, or_false]
      rw [StdMap.find_erase]

theorem Graph.hasEdge_eq_true (g : Graph) (a b : String) (h : g.hasEdge a b = true) :
    ∃ e ∈ g.getNeighbors a, e.destination = b := by
  unfold Graph.hasEdge at h
  by_cases ha : (!g.hasNode a) = true
  · rw [if_pos ha] at h
    exact absurd h (by decide)
  · rw [if_neg ha] at h
    obtain ⟨e, he, hd⟩ := List.any_eq_true.mp h
    refine ⟨e, ?_, by simpa using hd⟩
    unfold Graph.getNeighbors
    rw [if_neg ha]
    exact he

/-- The routes left by `deleteAirport`: those stored before, none of which
touches `code`. -/
theorem routes_after_deleteAirport (routes : StdMap Route) (code : String) (id : String)
    (r : Route) :
    (((routes.entries.filter
        (fun p => decide (p.2.origin = code) || decide (p.2.destination = code))).map
          Prod.fst).foldl (fun m id => m.erase id) routes).find id = some r ↔
      routes.find id = some r ∧ r.origin ≠ code ∧ r.destination ≠ code := by
  rw [find_foldl_erase]
  constructor
  · intro h
    split_ifs at h with hmem
    refine ⟨h, ?_⟩
    have hin : (id, r) ∈ routes.entries := (StdMap.mem_entries_iff _ _ _).mpr h
    by_contra hc
    apply hmem
    refine List.mem_map.mpr ⟨(id, r), List.mem_filter.mpr ⟨hin, ?_⟩, rfl⟩
    simp only [Bool.or_eq_true, decide_eq_true_eq]
    by_contra hc2
    exact hc ⟨fun h1 => hc2 (Or.inl h1), fun h2 => hc2 (Or.inr h2)⟩
  · rintro ⟨h, ho, hd⟩
    rw [if_neg]
    · exact h
    · intro hmem
      obtain ⟨⟨id', r'⟩, hp, hid⟩ := List.mem_map.mp hmem
      simp only at hid
      subst hid
      obtain ⟨hin, hcond⟩ := List.mem_filter.mp hp
      have hr' : routes.find id' = some r' := (StdMap.mem_entries_iff _ _ _).mp hin
      rw [h] at hr'
      simp only [Option.some.injEq] at hr'
      subst hr'
      simp only [Bool.or_eq_true, decide_eq_true_eq] at hcond
      rcases hcond with h1 | h1
      · exact ho h1
      · exact hd h1

/-- C10: deleting a stored airport returns true; afterwards the airport is
gone, no stored route starts or ends at it, every route that avoids it is
still stored unchanged, the other airports are unchanged, and the rebuilt
graph has no node of that name and no edge into or out of it. -/
theorem deleteAirport_cascade (s : DataStore) (code : String)
    (h : s.airports.contains code = true) :
    (s.deleteAirport code).1 = true ∧
    (s.deleteAirport code).2.getAirport code = none ∧
    (∀ r ∈ (s.deleteAirport code).2.getAllRoutes, r.origin ≠ code ∧ r.destination ≠ code) ∧
    (∀ id r, s.getRoute id = some r → r.origin ≠ code → r.destination ≠ code →
      (s.deleteAirport code).2.getRoute id = some r) ∧
    (∀ k, k ≠ code → (s.deleteAirport code).2.getAirport k = s.getAirport k) ∧
    (s.deleteAirport code).2.graph.hasNode code = false ∧
    (∀ k es, (s.deleteAirport code).2.graph.adjacencyList.find k = some es →
      ∀ e ∈ es, k ≠ code ∧ e.destination ≠ code) ∧
    (∀ u, ∀ e ∈ (s.deleteAirport code).2.graph.getNeighbors u,
      u ≠ code ∧ e.destination ≠ code) ∧
    (∀ u, (s.deleteAirport code).2.graph.hasEdge u code = false ∧
      (s.deleteAirport code).2.graph.hasEdge code u = false) := by
  obtain ⟨a, ha⟩ := (StdMap.contains_eq_true_iff _ _).mp h
  -- the store handed to `rebuildGraph`
  obtain ⟨s1, hs1, hair, hroutes⟩ : ∃ s1 : DataStore,
      s.deleteAirport code = (true, DataStore.rebuildGraph s1) ∧
      s1.airports = s.airports.erase code ∧
      s1.routes = ((s.routes.entries.filter
        (fun p => decide (p.2.origin = code) || decide (p.2.destination = code))).map
          Prod.fst).foldl (fun m id => m.erase id) s.routes := by
    refine ⟨{ s with
      undoStack := pushUndo s.undoStack ⟨ActionType.DELETE_AIRPORT, serializeAirport a⟩
      routes := ((s.routes.entries.filter
        (fun p => decide (p.2.origin = code) || decide (p.2.destination = code))).map
          Prod.fst).foldl (fun m id => m.erase id) s.routes
      airports := s.airports.erase code }, ?_, rfl, rfl⟩
    simp only [DataStore.deleteAirport, ha]
  have hA : (DataStore.rebuildGraph s1).airports = s1.airports := rfl
  have hR : (DataStore.rebuildGraph s1).routes = s1.routes := rfl
  have hstored : ∀ p ∈ s1.routes.entries, p.2.origin ≠ code ∧ p.2.destination ≠ code := by
    rintro ⟨id, r⟩ hp
    have := (StdMap.mem_entries_iff _ _ _).mp hp
    rw [hroutes, routes_after_deleteAirport] at this
    exact this.2
  have hedges : ∀ k es, (DataStore.rebuildGraph s1).graph.adjacencyList.find k = some es →
      ∀ e ∈ es, k ≠ code ∧ e.destination ≠ code := by
    intro k es hk e he
    obtain ⟨p, hp, _, hdir⟩ := DataStore.edge_rebuildGraph s1 k es hk e he
    have := hstored p hp
    rcases hdir with ⟨h1, h2⟩ | ⟨h1, h2⟩
    · exact ⟨h1 ▸ this.1, h2 ▸ this.2⟩
    · exact ⟨h1 ▸ this.2, h2 ▸ this.1⟩
  have hnbrs : ∀ u, ∀ e ∈ (DataStore.rebuildGraph s1).graph.getNeighbors u,
      u ≠ code ∧ e.destination ≠ code := by
    intro u e he
    obtain ⟨_, es, hes, hmem⟩ := Graph.mem_getNeighbors _ _ _ he
    exact hedges u es hes e hmem
  rw [hs1]
  refine ⟨rfl, ?_, ?_, ?_, ?_, ?_, hedges, hnbrs, ?_⟩
  · show (DataStore.rebuildGraph s1).airports.find code = none
    rw [hA, hair]; exact StdMap.find_erase_self _ _
  · intro r hr
    obtain ⟨p, hp, rfl⟩ := List.mem_map.mp hr
    exact hstored p hp
  · intro id r hr ho hd
    show (DataStore.rebuildGraph s1).routes.find id = some r
    rw [hR, hroutes, routes_after_deleteAirport]
    exact ⟨hr, ho, hd⟩
  · intro k hk
    show (DataStore.rebuildGraph s1).airports.find k = s.airports.find k
    rw [hA, hair]; exact StdMap.find_erase_ne _ _ _ hk
  · by_contra hc
    simp only [Bool.not_eq_false] at hc
    rcases DataStore.hasNode_rebuildGraph s1 code hc with hk | ⟨p, hp, _, hend⟩
    · rw [StdMap.mem_keys_iff, hair, StdMap.contains_erase] at hk
      simp at hk
    · have := hstored p hp
      rcases hend with h1 | h1
      · exact this.1 h1
      · exact this.2 h1
  · intro u
    constructor
    · by_contra hc
      simp only [Bool.not_eq_false] at hc
      obtain ⟨e, he, hd⟩ := Graph.hasEdge_eq_true _ _ _ hc
      exact (hnbrs u e he).2 hd
    · by_contra hc
      simp only [Bool.not_eq_false] at hc
      obtain ⟨e, he, _⟩ := Graph.hasEdge_eq_true _ _ _ hc
      exact (hnbrs code e he).1 rfl

theorem deleteAirport_cascade_witness :
    sampleStore.airports.contains "JFK" = true ∧
    (sampleStore.deleteAirport "JFK").1 = true ∧
    (sampleStore.deleteAirport "JFK").2.getAirport "JFK" = none ∧
    (sampleStore.deleteAirport "JFK").2.graph.hasNode "JFK" = false :=
  ⟨by decide!,
    (deleteAirport_cascade sampleStore "JFK" (by decide!)).1,
    (deleteAirport_cascade sampleStore "JFK" (by decide!)).2.1,
    (deleteAirport_cascade sampleStore "JFK" (by decide!)).2.2.2.2.2.1⟩

/-! ## Paths and parent chains -/

theorem Graph.NonNegative.weight_nonneg {g : Graph} (hw : g.NonNegative) {u : String}
    {e : Edge} (he : e ∈ g.getNeighbors u) : 0 ≤ e.weight := by
  obtain ⟨_, es, hes, hmem⟩ := Graph.mem_getNeighbors g u e he
  exact hw (u, es) ((StdMap.mem_entries_iff _ _ _).mpr hes) e hmem

theorem Graph.getNeighbors_of_not_hasNode (g : Graph) (u : String) (h : g.hasNode u = false) :
    g.getNeighbors u = [] := by
  simp [Graph.getNeighbors, h]

theorem pathWeight_nil : pathWeight [] = 0 := rfl

theorem pathWeight_cons (e : Edge) (es : List Edge) :
    pathWeight (e :: es) = e.weight + pathWeight es := by
  simp [pathWeight]

theorem pathWeight_append (es : List Edge) (e : Edge) :
    pathWeight (es ++ [e]) = pathWeight es + e.weight := by
  simp [pathWeight]

theorem pathCost_append (es : List Edge) (e : Edge) :
    pathCost (es ++ [e]) = pathCost es + e.cost := by
  simp [pathCost]

theorem pathNodes_append (start : String) (es : List Edge) (e : Edge) :
    pathNodes start (es ++ [e]) = pathNodes start es ++ [e.destination] := by
  simp [pathNodes]

theorem Graph.IsPath.append {g : Graph} {u x : String} {es : List Edge} (e : Edge)
    (h : g.IsPath u es x) (he : e ∈ g.getNeighbors x) :
    g.IsPath u (es ++ [e]) e.destination := by
  induction es generalizing u with
  | nil =>
    simp only [Graph.IsPath] at h
    subst h
    simp [Graph.IsPath, he]
  | cons e' t ih =>
    simp only [Graph.IsPath] at h
    simp only [List.cons_append, Graph.IsPath]
    exact ⟨h.1, ih h.2⟩

theorem Graph.IsPath.pathWeight_nonneg {g : Graph} (hw : g.NonNegative) {u v : String}
    {es : List Edge} (h : g.IsPath u es v) : 0 ≤ pathWeight es := by
  induction es generalizing u with
  | nil => simp [pathWeight]
  | cons e t ih =>
    simp only [Graph.IsPath] at h
    rw [pathWeight_cons]
    have := hw.weight_nonneg h.1
    have := ih h.2
    linarith

/-! ## The state on entry to the main loop -/

theorem find_foldl_set {V : Type} (c : V) (l : List String) (m : StdMap V) (v : String) :
    (l.foldl (fun m n => m.set n c) m).find v = if v ∈ l then some c else m.find v := by
  induction l generalizing m with
  | nil => simp
  | cons x t ih =>
    simp only [List.foldl_cons, ih, List.mem_cons]
    by_cases hv : v ∈ t
    · simp [hv]
    · simp only [hv, if_false, or_false, StdMap.find_set]

theorem Graph.mem_getNodes_toList (g : Graph) (v : String) :
    v ∈ g.getNodes.toList ↔ g.hasNode v = true :=
  StdMap.mem_keys_iff g.nodes v

theorem Graph.IsPath.getLast {g : Graph} {u v : String} {es : List Edge}
    (h : g.IsPath u es v) : (pathNodes u es).getLast? = some v := by
  induction es generalizing u with
  | nil => simp only [Graph.IsPath] at h; simp [pathNodes, h]
  | cons e t ih =>
    simp only [Graph.IsPath] at h
    have := ih h.2
    simp only [pathNodes, List.map_cons] at this ⊢
    rw [List.getLast?_cons_cons]
    exact this

theorem Graph.hasEdge_of_mem_getNeighbors (g : Graph) (u : String) (e : Edge)
    (h : e ∈ g.getNeighbors u) : g.hasEdge u e.destination = true := by
  unfold Graph.getNeighbors at h
  unfold Graph.hasEdge
  by_cases hu : (!g.hasNode u) = true
  · rw [if_pos hu] at h; simp at h
  · rw [if_neg hu] at h
    rw [if_neg hu]
    exact List.any_eq_true.mpr ⟨e, h, by simp⟩

/-- Consecutive nodes of a path are joined by an edge of the graph. -/
theorem Graph.IsPath.chain_hasEdge {g : Graph} {u v : String} {es : List Edge}
    (h : g.IsPath u es v) :
    List.Chain' (fun a b => g.hasEdge a b = true) (pathNodes u es) := by
  induction es generalizing u with
  | nil => simp [pathNodes]
  | cons e t ih =>
    simp only [Graph.IsPath] at h
    have := ih h.2
    simp only [pathNodes, List.map_cons] at this ⊢
    exact List.Chain'.cons (g.hasEdge_of_mem_getNeighbors u e h.1) this

/-! ## More facts about `StdMap` -/

theorem map_fst_insertEntry_congr {V W : Type} (k : String) (v : V) (w : W) :
    ∀ (l : List (String × V)) (l' : List (String × W)), l.map Prod.fst = l'.map Prod.fst →
      (insertEntry k v l).map Prod.fst = (insertEntry k w l').map Prod.fst := by
  intro l
  induction l with
  | nil =>
    intro l' h
    cases l' with
    | nil => rfl
    | cons _ _ => simp at h
  | cons hd t ih =>
    intro l' h
    cases l' with
    | nil => simp at h
    | cons hd' t' =>
      obtain ⟨k1, v1⟩ := hd
      obtain ⟨k2, v2⟩ := hd'
      simp only [List.map_cons, List.cons.injEq] at h
      obtain ⟨h1, h2⟩ := h
      subst h1
      unfold insertEntry
      split_ifs
      · simp [h2]
      · simp [ih t' h2]
      · simp [h2]

theorem map_fst_insertEntry_of_mem {V : Type} (k : String) (v : V) (l : List (String × V))
    (hl : (l.map Prod.fst).Pairwise (· < ·)) (hk : k ∈ l.map Prod.fst) :
    (insertEntry k v l).map Prod.fst = l.map Prod.fst := by
  induction l with
  | nil => simp at hk
  | cons hd t ih =>
    obtain ⟨k', v'⟩ := hd
    simp only [List.map_cons, List.pairwise_cons] at hl
    simp only [List.map_cons, List.mem_cons] at hk
    unfold insertEntry
    split_ifs with h1 h2
    · exfalso
      rcases hk with hk | hk
      · exact absurd (hk ▸ h1) (lt_irrefl _)
      · exact absurd (lt_trans h1 (hl.1 k hk)) (lt_irrefl _)
    · rcases hk with hk | hk
      · exact absurd (hk ▸ h2) (lt_irrefl _)
      · simp [ih hl.2 hk]
    · have hkk : k = k' := le_antisymm (not_lt.mp h2) (not_lt.mp h1)
      simp [hkk]

theorem lookupEntry_eq_none_of_lt {V : Type} (k : String) (l : List (String × V))
    (h : ∀ x ∈ l.map Prod.fst, k < x) : lookupEntry k l = none := by
  induction l with
  | nil => rfl
  | cons hd t ih =>
    obtain ⟨k', v'⟩ := hd
    simp only [List.map_cons, List.mem_cons, forall_eq_or_imp] at h
    have : k' ≠ k := ne_of_gt h.1
    simp [lookupEntry, this, ih h.2]

theorem length_eraseEntry {V : Type} (k : String) (l : List (String × V))
    (hl : (l.map Prod.fst).Pairwise (· < ·)) (hk : k ∈ l.map Prod.fst) :
    (eraseEntry k l).length + 1 = l.length := by
  induction l with
  | nil => simp at hk
  | cons hd t ih =>
    obtain ⟨k', v'⟩ := hd
    simp only [List.map_cons, List.pairwise_cons] at hl
    simp only [List.map_cons, List.mem_cons] at hk
    by_cases hkk : k' = k
    · subst hkk
      have hrest : eraseEntry k' t = t := by
        unfold eraseEntry
        apply List.filter_eq_self.mpr
        intro p hp
        have := hl.1 p.1 (List.mem_map.mpr ⟨p, hp, rfl⟩)
        simpa using (ne_of_gt this)
      have : eraseEntry k' ((k', v') :: t) = eraseEntry k' t := by
        simp [eraseEntry]
      rw [this, hrest]
      rfl
    · have hmem : k ∈ t.map Prod.fst := by
        rcases hk with hk | hk
        · exact absurd hk.symm hkk
        · exact hk
      have : eraseEntry k ((k', v') :: t) = (k', v') :: eraseEntry k t := by
        simp [eraseEntry, hkk]
      rw [this]
      simp only [List.length_cons]
      have := ih hl.2 hmem
      omega

/-- Replacing the value under `k` changes the summed size of the values by the
difference between the new and the old value. -/
theorem sum_length_insertEntry {α : Type} (k : String) (v : List α)
    (l : List (String × List α)) (hl : (l.map Prod.fst).Pairwise (· < ·)) :
    (((insertEntry k v l).map Prod.snd).map List.length).sum +
        ((lookupEntry k l).getD []).length =
      ((l.map Prod.snd).map List.length).sum + v.length := by
  induction l with
  | nil => simp [insertEntry, lookupEntry]
  | cons hd t ih =>
    obtain ⟨k', v'⟩ := hd
    simp only [List.map_cons, List.pairwise_cons] at hl
    unfold insertEntry
    split_ifs with h1 h2
    · have hnone : lookupEntry k ((k', v') :: t) = none := by
        apply lookupEntry_eq_none_of_lt
        intro x hx
        simp only [List.map_cons, List.mem_cons] at hx
        rcases hx with hx | hx
        · rw [hx]; exact h1
        · exact lt_trans h1 (hl.1 x hx)
      rw [hnone]
      simp only [List.map_cons, List.sum_cons, Option.getD_none, List.length_nil]
      omega
    · have hne : k' ≠ k := ne_of_lt h2
      have := ih hl.2
      simp only [List.map_cons, List.sum_cons, lookupEntry, hne, if_false]
      omega
    · have hkk : k = k' := le_antisymm (not_lt.mp h2) (not_lt.mp h1)
      subst hkk
      simp only [List.map_cons, List.sum_cons, lookupEntry, if_true, Option.getD_some]
      omega

namespace StdMap

variable {V : Type}

theorem keys_set_congr {W : Type} (m : StdMap V) (m' : StdMap W) (k : String) (v : V) (w : W)
    (h : m.keys = m'.keys) : (m.set k v).keys = (m'.set k w).keys :=
  map_fst_insertEntry_congr k v w m.entries m'.entries h

theorem keys_set_of_contains (m : StdMap V) (k : String) (v : V)
    (h : m.contains k = true) : (m.set k v).keys = m.keys :=
  map_fst_insertEntry_of_mem k v m.entries m.sorted ((mem_keys_iff m k).mpr h)

theorem keys_erase (m : StdMap V) (k : String) :
    (m.erase k).keys = m.keys.filter (fun x => decide (x ≠ k)) := by
  simp only [keys, erase, eraseEntry, List.filter_map]
  rfl

theorem keys_mapValues {W : Type} (m : StdMap V) (f : String → V → W) :
    (m.mapValues f).keys = m.keys := by
  simp [keys, mapValues, List.map_map, Function.comp_def]

theorem find_mapValues {W : Type} (m : StdMap V) (f : String → V → W) (k : String) :
    (m.mapValues f).find k = (m.find k).map (f k) := by
  unfold find mapValues
  simp only
  induction m.entries with
  | nil => rfl
  | cons hd t ih =>
    obtain ⟨k', v'⟩ := hd
    by_cases h : k' = k
    · subst h; simp [lookupEntry]
    · simp [lookupEntry, h, ih]

theorem size_erase (m : StdMap V) (k : String) (h : m.contains k = true) :
    (m.erase k).size + 1 = m.size :=
  length_eraseEntry k m.entries m.sorted ((mem_keys_iff m k).mpr h)

theorem contains_of_keys_eq {W : Type} (m : StdMap V) (m' : StdMap W) (h : m.keys = m'.keys)
    (k : String) : m.contains k = m'.contains k := by
  have h1 := mem_keys_iff m k
  have h2 := mem_keys_iff m' k
  rw [h] at h1
  cases hc : m.contains k <;> cases hc' : m'.contains k <;> simp_all

end StdMap

/-! ## `Graph::removeNode` -/

namespace Graph

theorem hasNode_removeNode (g : Graph) (id n : String) (h : g.hasNode id = true) :
    (g.removeNode id).hasNode n = (!decide (n = id) && g.hasNode n) := by
  have h' : g.nodes.contains id = true := h
  simp only [removeNode, hasNode, h', Bool.not_true, Bool.false_eq_true, if_false,
    StdMap.contains_erase]

theorem getNeighbors_removeNode (g : Graph) (id u : String) (h : g.hasNode id = true)
    (hu : u ≠ id) :
    (g.removeNode id).getNeighbors u =
      (g.getNeighbors u).filter (fun e => decide (e.destination ≠ id)) := by
  have hn := hasNode_removeNode g id u h
  unfold getNeighbors
  rw [hn]
  simp only [hu, decide_False, Bool.not_false, Bool.true_and]
  by_cases hnode : g.hasNode u = true
  · simp only [hnode, Bool.not_true, Bool.false_eq_true, if_false]
    simp only [removeNode, h, Bool.not_true, Bool.false_eq_true, if_false, StdMap.get,
      StdMap.find_erase_ne _ _ _ hu, StdMap.find_mapValues]
    cases g.adjacencyList.find u <;> simp
  · simp only [Bool.not_eq_true] at hnode
    simp [hnode]

theorem getNeighbors_removeNode_self (g : Graph) (id : String) (h : g.hasNode id = true) :
    (g.removeNode id).getNeighbors id = [] := by
  apply getNeighbors_of_not_hasNode
  rw [hasNode_removeNode g id id h]
  simp

end Graph

/-- C19: removing a node that is present leaves a graph in which it is no
longer a node, the node count is one less, the other nodes are the same, no
edge starts or ends at the removed node, and the outgoing edges of every
other node are those it had before, in the same order and with the same
weight and cost, less the ones that led to the removed node.  Removing an
absent node changes nothing. -/
theorem removeNode_spec (g : Graph) (id : String) :
    (g.hasNode id = true →
      (g.removeNode id).hasNode id = false ∧
      (g.removeNode id).getNodeCount + 1 = g.getNodeCount ∧
      (∀ n, n ≠ id → (g.removeNode id).hasNode n = g.hasNode n) ∧
      (g.removeNode id).getNeighbors id = [] ∧
      (g.removeNode id).adjacencyList.find id = none ∧
      (∀ k es, (g.removeNode id).adjacencyList.find k = some es →
        ∀ e ∈ es, e.destination ≠ id) ∧
      (∀ u, (g.removeNode id).hasEdge u id = false ∧
        (g.removeNode id).hasEdge id u = false) ∧
      (∀ u, u ≠ id → (g.removeNode id).getNeighbors u =
        (g.getNeighbors u).filter (fun e => decide (e.destination ≠ id)))) ∧
    (g.hasNode id = false → g.removeNode id = g) := by
  constructor
  · intro h
    have hadj : ∀ k es, (g.removeNode id).adjacencyList.find k = some es →
        ∀ e ∈ es, e.destination ≠ id := by
      intro k es hk e he
      simp only [Graph.removeNode, h, Bool.not_true, Bool.false_eq_true, if_false,
        StdMap.find_erase, StdMap.find_mapValues] at hk
      split_ifs at hk with hkid
      cases hf : g.adjacencyList.find k with
      | none => simp [hf] at hk
      | some es0 =>
        simp only [hf, Option.map_some', Option.some.injEq] at hk
        subst hk
        simpa using (List.mem_filter.mp he).2
    have hnb : ∀ u, ∀ e ∈ (g.removeNode id).getNeighbors u, e.destination ≠ id := by
      intro u e he
      obtain ⟨_, es, hes, hmem⟩ := Graph.mem_getNeighbors _ _ _ he
      exact hadj u es hes e hmem
    refine ⟨?_, ?_, ?_, g.getNeighbors_removeNode_self id h, ?_, hadj, ?_,
      fun u hu => g.getNeighbors_removeNode id u h hu⟩
    · rw [Graph.hasNode_removeNode g id id h]; simp
    · simp only [Graph.removeNode, h, Bool.not_true, Bool.false_eq_true, if_false,
        Graph.getNodeCount]
      exact StdMap.size_erase g.nodes id h
    · intro n hn
      rw [Graph.hasNode_removeNode g id n h]; simp [hn]
    · simp only [Graph.removeNode, h, Bool.not_true, Bool.false_eq_true, if_false,
        StdMap.find_erase_self]
    · intro u
      constructor
      · by_contra hc
        simp only [Bool.not_eq_false] at hc
        obtain ⟨e, he, hd⟩ := Graph.hasEdge_eq_true _ _ _ hc
        exact hnb u e he hd
      · by_contra hc
        simp only [Bool.not_eq_false] at hc
        obtain ⟨e, he, _⟩ := Graph.hasEdge_eq_true _ _ _ hc
        rw [g.getNeighbors_removeNode_self id h] at he
        simp at he
  · intro h
    simp [Graph.removeNode, h]

theorem removeNode_spec_witness :
    adtGraph.hasNode "B" = true ∧
    adtGraph.hasEdge "A" "B" = true ∧
    (adtGraph.removeNode "B").getNodeCount = 2 ∧
    (adtGraph.removeNode "B").hasEdge "A" "B" = false ∧
    (adtGraph.removeNode "B").hasEdge "A" "C" = true ∧
    (adtGraph.removeNode "B").hasNode "B" = false ∧
    (adtGraph.removeNode "B").getNodeCount + 1 = adtGraph.getNodeCount :=
  ⟨by decide!, by decide!, by decide!, by decide!, by decide!,
    ((removeNode_spec adtGraph "B").1 (by decide!)).1,
    ((removeNode_spec adtGraph "B").1 (by decide!)).2.1⟩

/-! ## `Graph::addEdge` and the class invariant -/

theorem map_destination_overwriteOrAppend (to_ : String) (w c : ℚ) (es : List Edge) :
    (overwriteOrAppend to_ w c es).map (fun e => e.destination) =
      if es.any (fun e => decide (e.destination = to_)) = true
      then es.map (fun e => e.destination)
      else es.map (fun e => e.destination) ++ [to_] := by
  induction es with
  | nil => simp [overwriteOrAppend]
  | cons x t ih =>
    unfold overwriteOrAppend
    by_cases hx : x.destination = to_
    · simp [hx]
    · simp only [hx, if_false, List.map_cons, ih, List.any_cons, decide_False, Bool.false_or]
      split_ifs <;> simp

theorem filter_ne_overwriteOrAppend (to_ : String) (w c : ℚ) (es : List Edge) :
    (overwriteOrAppend to_ w c es).filter (fun e => decide (e.destination ≠ to_)) =
      es.filter (fun e => decide (e.destination ≠ to_)) := by
  induction es with
  | nil => simp [overwriteOrAppend]
  | cons x t ih =>
    unfold overwriteOrAppend
    by_cases hx : x.destination = to_
    · rw [if_pos hx, List.filter_cons, List.filter_cons]
      simp [hx]
    · rw [if_neg hx, List.filter_cons, List.filter_cons, ih]

theorem filter_eq_overwriteOrAppend (to_ : String) (w c : ℚ) (es : List Edge)
    (hnd : (es.map (fun e => e.destination)).Nodup) :
    (overwriteOrAppend to_ w c es).filter (fun e => decide (e.destination = to_)) =
      [⟨to_, w, c⟩] := by
  induction es with
  | nil => simp [overwriteOrAppend]
  | cons x t ih =>
    simp only [List.map_cons, List.nodup_cons] at hnd
    unfold overwriteOrAppend
    by_cases hx : x.destination = to_
    · have hrest : t.filter (fun e => decide (e.destination = to_)) = [] := by
        apply List.filter_eq_nil_iff.mpr
        intro e he hd
        simp only [decide_eq_true_eq] at hd
        apply hnd.1
        rw [hx, ← hd]
        exact List.mem_map.mpr ⟨e, he, rfl⟩
      simp only [hx, if_true, List.filter_cons, decide_True, hrest]
    · simp [hx, List.filter_cons, ih hnd.2]

theorem nodup_overwriteOrAppend (to_ : String) (w c : ℚ) (es : List Edge)
    (hnd : (es.map (fun e => e.destination)).Nodup) :
    ((overwriteOrAppend to_ w c es).map (fun e => e.destination)).Nodup := by
  rw [map_destination_overwriteOrAppend]
  split_ifs with h
  · exact hnd
  · rw [List.nodup_append]
    refine ⟨hnd, List.nodup_singleton _, ?_⟩
    intro x hx hx'
    simp only [List.mem_singleton] at hx'
    subst hx'
    apply h
    obtain ⟨e, he, hd⟩ := List.mem_map.mp hx
    exact List.any_eq_true.mpr ⟨e, he, by simpa using hd⟩

theorem length_overwriteOrAppend (to_ : String) (w c : ℚ) (es : List Edge) :
    (overwriteOrAppend to_ w c es).length =
      es.length + (if es.any (fun e => decide (e.destination = to_)) = true then 0 else 1) := by
  have := congrArg List.length (map_destination_overwriteOrAppend to_ w c es)
  simp only [List.length_map] at this
  rw [this]
  split_ifs <;> simp

namespace Graph

theorem WF.contains_eq {g : Graph} (h : g.WF) (k : String) :
    g.adjacencyList.contains k = g.hasNode k :=
  StdMap.contains_of_keys_eq _ _ h.1 k

theorem WF.entry_nodup {g : Graph} (h : g.WF) {k : String} {es : List Edge}
    (hk : g.adjacencyList.find k = some es) : (es.map (fun e => e.destination)).Nodup :=
  h.2 (k, es) ((StdMap.mem_entries_iff _ _ _).mpr hk)

theorem WF.get_nodup {g : Graph} (h : g.WF) (k : String) :
    ((g.adjacencyList.get k []).map (fun e => e.destination)).Nodup := by
  unfold StdMap.get
  cases hf : g.adjacencyList.find k with
  | none => simp
  | some es => exact h.entry_nodup hf

/-- Behind the class invariant `getNeighbors` is the adjacency entry itself. -/
theorem WF.getNeighbors_eq {g : Graph} (h : g.WF) (k : String) :
    g.getNeighbors k = g.adjacencyList.get k [] := by
  unfold getNeighbors
  by_cases hn : g.hasNode k = true
  · simp [hn]
  · simp only [Bool.not_eq_true] at hn
    have hc := h.contains_eq k
    rw [hn, StdMap.contains_eq_false_iff] at hc
    simp [hn, StdMap.get, hc]

theorem WF.hasEdge_eq {g : Graph} (h : g.WF) (a b : String) :
    g.hasEdge a b = (g.getNeighbors a).any (fun e => decide (e.destination = b)) := by
  rw [h.getNeighbors_eq]
  unfold hasEdge
  by_cases hn : g.hasNode a = true
  · simp [hn]
  · simp only [Bool.not_eq_true] at hn
    have hc := h.contains_eq a
    rw [hn, StdMap.contains_eq_false_iff] at hc
    simp [hn, StdMap.get, hc]

theorem WF_empty : Graph.empty.WF := by
  constructor
  · rfl
  · intro p hp; simp [Graph.empty, StdMap.empty] at hp

theorem WF.addNode {g : Graph} (h : g.WF) (n : String) : (g.addNode n).WF := by
  unfold Graph.addNode
  by_cases hn : g.hasNode n = true
  · simp only [hn, Bool.not_true, Bool.false_eq_true, if_false]; exact h
  · simp only [Bool.not_eq_true] at hn
    simp only [hn, Bool.not_false, if_true]
    constructor
    · exact StdMap.keys_set_congr _ _ _ _ _ h.1
    · rintro ⟨k, es⟩ hp
      have hf := (StdMap.mem_entries_iff _ _ _).mp hp
      simp only [StdMap.find_set] at hf
      split_ifs at hf with hk
      · simp only [Option.some.injEq] at hf
        subst hf; simp
      · exact h.entry_nodup hf

theorem WF.get_addNode {g : Graph} (h : g.WF) (n u : String) :
    (g.addNode n).adjacencyList.get u [] = g.adjacencyList.get u [] := by
  unfold Graph.addNode
  by_cases hn : g.hasNode n = true
  · simp only [hn, Bool.not_true, Bool.false_eq_true, if_false]
  · simp only [Bool.not_eq_true] at hn
    simp only [hn, Bool.not_false, if_true, StdMap.get, StdMap.find_set]
    split_ifs with hu
    · subst hu
      have hc := h.contains_eq u
      rw [hn, StdMap.contains_eq_false_iff] at hc
      simp [hc]
    · rfl

theorem WF.getEdgeCount_addNode {g : Graph} (h : g.WF) (n : String) :
    (g.addNode n).getEdgeCount = g.getEdgeCount := by
  unfold Graph.addNode
  by_cases hn : g.hasNode n = true
  · simp only [hn, Bool.not_true, Bool.false_eq_true, if_false]
  · simp only [Bool.not_eq_true] at hn
    simp only [hn, Bool.not_false, if_true]
    have hc := h.contains_eq n
    rw [hn, StdMap.contains_eq_false_iff] at hc
    have := sum_length_insertEntry n ([] : List Edge) g.adjacencyList.entries
      g.adjacencyList.sorted
    unfold StdMap.find at hc
    rw [hc] at this
    simpa [Graph.getEdgeCount, StdMap.values, StdMap.set] using this

theorem WF.addEdge {g : Graph} (h : g.WF) (a b : String) (w c : ℚ) :
    (g.addEdge a b w c).WF := by
  have h1 : ((g.addNode a).addNode b).WF := (h.addNode a).addNode b
  have ha : ((g.addNode a).addNode b).hasNode a = true := by
    rw [hasNode_addNode, hasNode_addNode]; simp
  constructor
  · show (((g.addNode a).addNode b).adjacencyList.set a _).keys = _
    rw [StdMap.keys_set_of_contains _ _ _ (by rw [h1.contains_eq]; exact ha)]
    exact h1.1
  · rintro ⟨k, es⟩ hp
    have hf := (StdMap.mem_entries_iff _ _ _).mp hp
    simp only [Graph.addEdge, StdMap.find_set] at hf
    split_ifs at hf with hk
    · simp only [Option.some.injEq] at hf
      subst hf
      exact nodup_overwriteOrAppend _ _ _ _ (h1.get_nodup a)
    · exact h1.entry_nodup hf

theorem WF.removeNode {g : Graph} (h : g.WF) (id : String) : (g.removeNode id).WF := by
  unfold Graph.removeNode
  by_cases hn : g.hasNode id = true
  · simp only [hn, Bool.not_true, Bool.false_eq_true, if_false]
    constructor
    · rw [StdMap.keys_erase, StdMap.keys_erase, StdMap.keys_mapValues, h.1]
    · rintro ⟨k, es⟩ hp
      have hf := (StdMap.mem_entries_iff _ _ _).mp hp
      simp only [StdMap.find_erase, StdMap.find_mapValues] at hf
      split_ifs at hf with hk
      cases hf0 : g.adjacencyList.find k with
      | none => simp [hf0] at hf
      | some es0 =>
        simp only [hf0, Option.map_some', Option.some.injEq] at hf
        subst hf
        exact (h.entry_nodup hf0).sublist ((List.filter_sublist es0).map _)
  · simp only [Bool.not_eq_true] at hn
    simp only [hn, Bool.not_false, if_true]; exact h

theorem WF.removeEdge {g : Graph} (h : g.WF) (a b : String) : (g.removeEdge a b).WF := by
  unfold Graph.removeEdge
  by_cases hn : g.hasNode a = true
  · simp only [hn, Bool.not_true, Bool.false_eq_true, if_false]
    constructor
    · show (g.adjacencyList.set a _).keys = _
      rw [StdMap.keys_set_of_contains _ _ _ (by rw [h.contains_eq]; exact hn)]
      exact h.1
    · rintro ⟨k, es⟩ hp
      have hf := (StdMap.mem_entries_iff _ _ _).mp hp
      simp only [StdMap.find_set] at hf
      split_ifs at hf with hk
      · simp only [Option.some.injEq] at hf
        subst hf
        exact (h.get_nodup a).sublist ((List.filter_sublist _).map _)
      · exact h.entry_nodup hf
  · simp only [Bool.not_eq_true] at hn
    simp only [hn, Bool.not_false, if_true]; exact h

theorem WF.clear {g : Graph} (_h : g.WF) : g.clear.WF := WF_empty

theorem WF.getNeighbors_addEdge_self {g : Graph} (h : g.WF) (a b : String) (w c : ℚ) :
    (g.addEdge a b w c).getNeighbors a = overwriteOrAppend b w c (g.getNeighbors a) := by
  rw [(h.addEdge a b w c).getNeighbors_eq, h.getNeighbors_eq]
  simp only [Graph.addEdge, StdMap.get_set_self]
  rw [((h.addNode a).get_addNode b a), h.get_addNode a a]

theorem WF.getNeighbors_addEdge_ne {g : Graph} (h : g.WF) (a b : String) (w c : ℚ)
    (u : String) (hu : u ≠ a) : (g.addEdge a b w c).getNeighbors u = g.getNeighbors u := by
  rw [(h.addEdge a b w c).getNeighbors_eq, h.getNeighbors_eq]
  simp only [Graph.addEdge, StdMap.get_set_ne _ _ _ _ _ hu]
  rw [((h.addNode a).get_addNode b u), h.get_addNode a u]

theorem WF.getEdgeCount_addEdge {g : Graph} (h : g.WF) (a b : String) (w c : ℚ) :
    (g.addEdge a b w c).getEdgeCount =
      g.getEdgeCount + (if g.hasEdge a b = true then 0 else 1) := by
  have h1 : ((g.addNode a).addNode b).WF := (h.addNode a).addNode b
  have hcount : ((g.addNode a).addNode b).getEdgeCount = g.getEdgeCount := by
    rw [(h.addNode a).getEdgeCount_addNode b, h.getEdgeCount_addNode a]
  have hget : ((g.addNode a).addNode b).adjacencyList.get a [] = g.getNeighbors a := by
    rw [((h.addNode a).get_addNode b a), h.get_addNode a a, h.getNeighbors_eq]
  have := sum_length_insertEntry a
    (overwriteOrAppend b w c (((g.addNode a).addNode b).adjacencyList.get a []))
    ((g.addNode a).addNode b).adjacencyList.entries ((g.addNode a).addNode b).adjacencyList.sorted
  have hold : (lookupEntry a ((g.addNode a).addNode b).adjacencyList.entries).getD [] =
      ((g.addNode a).addNode b).adjacencyList.get a [] := rfl
  rw [hold, length_overwriteOrAppend, hget] at this
  have hc : ((g.addNode a).addNode b).getEdgeCount =
      ((((g.addNode a).addNode b).adjacencyList.entries.map Prod.snd).map List.length).sum := rfl
  have hc' : (g.addEdge a b w c).getEdgeCount =
      (((insertEntry a (overwriteOrAppend b w c
        (((g.addNode a).addNode b).adjacencyList.get a []))
        ((g.addNode a).addNode b).adjacencyList.entries).map Prod.snd).map List.length).sum := rfl
  rw [hc', hget, ← hcount, hc, h.hasEdge_eq]
  omega

end Graph

/-- C20: on a graph satisfying the class invariant, `addEdge(from, to, weight,
cost)` keeps the invariant, makes `from` and `to` nodes and adds no other
node, leaves exactly one outgoing edge of `from` with destination `to`,
carrying the given weight and cost, leaves every other edge as it was, and
raises the edge count by one when the edge was absent and not at all when it
was present. -/
theorem addEdge_spec (g : Graph) (from_ to_ : String) (weight cost : ℚ) (hwf : g.WF) :
    (g.addEdge from_ to_ weight cost).WF ∧
    (g.addEdge from_ to_ weight cost).hasNode from_ = true ∧
    (g.addEdge from_ to_ weight cost).hasNode to_ = true ∧
    (∀ n, n ≠ from_ → n ≠ to_ →
      (g.addEdge from_ to_ weight cost).hasNode n = g.hasNode n) ∧
    ((g.addEdge from_ to_ weight cost).getNeighbors from_).filter
      (fun e => decide (e.destination = to_)) = [⟨to_, weight, cost⟩] ∧
    ((g.addEdge from_ to_ weight cost).getNeighbors from_).filter
        (fun e => decide (e.destination ≠ to_)) =
      (g.getNeighbors from_).filter (fun e => decide (e.destination ≠ to_)) ∧
    (∀ u, u ≠ from_ → (g.addEdge from_ to_ weight cost).getNeighbors u = g.getNeighbors u) ∧
    (g.addEdge from_ to_ weight cost).getEdgeCount =
      g.getEdgeCount + (if g.hasEdge from_ to_ = true then 0 else 1) := by
  refine ⟨hwf.addEdge _ _ _ _, ?_, ?_, ?_, ?_, ?_, hwf.getNeighbors_addEdge_ne _ _ _ _,
    hwf.getEdgeCount_addEdge _ _ _ _⟩
  · rw [Graph.hasNode_addEdge]; simp
  · rw [Graph.hasNode_addEdge]; simp
  · intro n h1 h2
    rw [Graph.hasNode_addEdge]; simp [h1, h2]
  · rw [hwf.getNeighbors_addEdge_self]
    apply filter_eq_overwriteOrAppend
    rw [hwf.getNeighbors_eq]
    exact hwf.get_nodup from_
  · rw [hwf.getNeighbors_addEdge_self]
    exact filter_ne_overwriteOrAppend _ _ _ _

theorem addEdge_spec_witness :
    (((Graph.empty.addNode "A").addNode "B").addNode "C").WF ∧
    adtGraph.getEdgeCount = 3 ∧
    adtGraph.hasEdge "A" "B" = true ∧
    adtGraph.hasEdge "C" "A" = false ∧
    ((((Graph.empty.addNode "A").addNode "B").addNode "C").addEdge "A" "B" 10 100).getEdgeCount
      = (((Graph.empty.addNode "A").addNode "B").addNode "C").getEdgeCount +
        (if (((Graph.empty.addNode "A").addNode "B").addNode "C").hasEdge "A" "B" = true
          then 0 else 1) ∧
    (((Graph.empty.addNode "A").addNode "B").addNode "C").hasEdge "A" "B" = false ∧
    (((((Graph.empty.addNode "A").addNode "B").addNode "C").addEdge "A" "B" 10 100).getNeighbors
      "A").filter (fun e => decide (e.destination = "B")) = [⟨"B", 10, 100⟩] ∧
    ((((Graph.empty.addNode "A").addNode "B").addNode "C").addEdge "A" "B" 10 100).getNeighbors
      "C" = (((Graph.empty.addNode "A").addNode "B").addNode "C").getNeighbors "C" :=
  ⟨by decide!, by decide!, by decide!, by decide!,
    (addEdge_spec (((Graph.empty.addNode "A").addNode "B").addNode "C") "A" "B" 10 100
      (by decide!)).2.2.2.2.2.2.2,
    by decide!,
    (addEdge_spec (((Graph.empty.addNode "A").addNode "B").addNode "C") "A" "B" 10 100
      (by decide!)).2.2.2.2.1,
    (addEdge_spec (((Graph.empty.addNode "A").addNode "B").addNode "C") "A" "B" 10 100
      (by decide!)).2.2.2.2.2.2.1 "C" (by decide)⟩

/-- Every graph a client can build satisfies the class invariant. -/
theorem Graph.WF_build (ops : List GraphOp) : (Graph.build ops).WF := by
  unfold Graph.build
  refine foldl_preserves Graph.WF Graph.apply ops Graph.empty Graph.WF_empty ?_
  intro g op _ hg
  cases op with
  | addNode n => exact hg.addNode n
  | removeNode n => exact hg.removeNode n
  | addEdge a b w c => exact hg.addEdge a b w c
  | removeEdge a b => exact hg.removeEdge a b
  | clear => exact hg.clear

/-! ## The undo log -/

theorem drainToTemp_append (l : List Action) (x : Action) (temp : List Action) :
    drainToTemp (l ++ [x]) temp = ([x], l.reverse ++ temp) := by
  induction l generalizing temp with
  | nil => simp [drainToTemp]
  | cons y t ih =>
    cases ht : t ++ [x] with
    | nil => simp at ht
    | cons z rest =>
      have : drainToTemp (y :: z :: rest) temp = drainToTemp (z :: rest) (y :: temp) := by
        simp [drainToTemp]
      rw [List.cons_append, ht, this, ← ht, ih]
      simp

theorem refillFromTemp_eq (temp stack : List Action) :
    refillFromTemp temp stack = temp.reverse ++ stack := by
  induction temp generalizing stack with
  | nil => simp [refillFromTemp]
  | cons t rest ih => simp [refillFromTemp, ih]

/-- What `pushUndo` leaves: the new record on top of the old ones, less the
bottom record when that makes more than `MAX_UNDO`. -/
theorem pushUndo_eq (undoStack : List Action) (action : Action) :
    pushUndo undoStack action =
      if undoStack.length + 1 > MAX_UNDO then (action :: undoStack).dropLast
      else action :: undoStack := by
  unfold pushUndo
  simp only [List.length_cons]
  split_ifs with h
  · obtain ⟨l, x, hl⟩ : ∃ l x, action :: undoStack = l ++ [x] :=
      ⟨(action :: undoStack).dropLast, (action :: undoStack).getLast (List.cons_ne_nil _ _),
        (List.dropLast_append_getLast _).symm⟩
    rw [hl, drainToTemp_append, refillFromTemp_eq]
    simp
  · rfl

theorem length_pushUndo (undoStack : List Action) (action : Action) :
    (pushUndo undoStack action).length = min (undoStack.length + 1) (max undoStack.length MAX_UNDO) := by
  rw [pushUndo_eq]
  unfold MAX_UNDO
  split_ifs with h
  · simp only [List.length_dropLast, List.length_cons]
    omega
  · simp only [List.length_cons]
    omega

theorem length_pushUndo_le (undoStack : List Action) (action : Action)
    (h : undoStack.length ≤ MAX_UNDO) : (pushUndo undoStack action).length ≤ MAX_UNDO := by
  rw [length_pushUndo]
  unfold MAX_UNDO at *
  omega

namespace DataStore

theorem rebuildGraph_undoStack (s : DataStore) : (rebuildGraph s).undoStack = s.undoStack := rfl

theorem loadAll_fields (fmt : NumberFormat) (files : Files) (s : DataStore) :
    (s.loadAll fmt files).1 = true ∧
    (s.loadAll fmt files).2.undoStack = s.undoStack ∧
    (s.loadAll fmt files).2.graph = (rebuildGraph (s.loadAll fmt files).2).graph := by
  have h1 : ∀ f s, (loadAirports fmt f s).1 = true ∧
      (loadAirports fmt f s).2.undoStack = s.undoStack := by
    intro f s; cases f <;> exact ⟨rfl, rfl⟩
  have h2 : ∀ f s, (loadAircraft fmt f s).1 = true ∧
      (loadAircraft fmt f s).2.undoStack = s.undoStack := by
    intro f s; cases f <;> exact ⟨rfl, rfl⟩
  have h3 : ∀ f s, (loadRoutes fmt f s).1 = true ∧
      (loadRoutes fmt f s).2.undoStack = s.undoStack := by
    intro f s; cases f <;> exact ⟨rfl, rfl⟩
  have h4 : ∀ f s, (loadFlights fmt f s).1 = true ∧
      (loadFlights fmt f s).2.undoStack = s.undoStack := by
    intro f s; cases f <;> exact ⟨rfl, rfl⟩
  unfold loadAll
  simp only [(h1 _ _).1, (h2 _ _).1, (h3 _ _).1, (h4 _ _).1, Bool.and_self, if_true]
  refine ⟨trivial, ?_, rfl⟩
  rw [rebuildGraph_undoStack, (h4 _ _).2, (h3 _ _).2, (h2 _ _).2, (h1 _ _).2]

/-- What each call does to the undo log: nothing, one `pushUndo`, one pop, or
emptying it. -/
theorem exec_undoStack (fmt : NumberFormat) (s : DataStore) (op : StoreOp) :
    (s.exec fmt op).2.undoStack = s.undoStack ∨
    (∃ a, (s.exec fmt op).2.undoStack = pushUndo s.undoStack a) ∨
    (s.exec fmt op).2.undoStack = s.undoStack.tail ∨
    (s.exec fmt op).2.undoStack = [] := by
  cases op with
  | addAirport a =>
    simp only [exec]
    unfold addAirport
    split_ifs
    · exact Or.inl rfl
    · exact Or.inr (Or.inl ⟨_, rfl⟩)
  | deleteAirport code =>
    simp only [exec]
    unfold deleteAirport
    cases s.airports.find code with
    | none => exact Or.inl rfl
    | some a => exact Or.inr (Or.inl ⟨_, rfl⟩)
  | updateAirport a =>
    simp only [exec]
    unfold updateAirport
    split_ifs <;> exact Or.inl rfl
  | addAircraft a =>
    simp only [exec]
    unfold addAircraft
    split_ifs
    · exact Or.inl rfl
    · exact Or.inr (Or.inl ⟨_, rfl⟩)
  | deleteAircraft a =>
    simp only [exec]
    unfold deleteAircraft
    split_ifs
    · exact Or.inl rfl
    · exact Or.inr (Or.inl ⟨_, rfl⟩)
  | updateAircraft a =>
    simp only [exec]
    unfold updateAircraft
    split_ifs <;> exact Or.inl rfl
  | addRoute a =>
    simp only [exec]
    unfold addRoute
    simp only
    split_ifs
    · exact Or.inl rfl
    · exact Or.inr (Or.inl ⟨_, rfl⟩)
  | deleteRoute a =>
    simp only [exec]
    unfold deleteRoute
    split_ifs
    · exact Or.inl rfl
    · exact Or.inr (Or.inl ⟨_, rfl⟩)
  | updateRoute a =>
    simp only [exec]
    unfold updateRoute
    simp only
    split_ifs <;> exact Or.inl rfl
  | addFlight a =>
    simp only [exec]
    unfold addFlight
    split_ifs
    · exact Or.inl rfl
    · exact Or.inr (Or.inl ⟨_, rfl⟩)
  | deleteFlight a =>
    simp only [exec]
    unfold deleteFlight
    split_ifs
    · exact Or.inl rfl
    · exact Or.inr (Or.inl ⟨_, rfl⟩)
  | undo =>
    simp only [exec]
    unfold undo
    cases h : s.undoStack with
    | nil => exact Or.inl h
    | cons a rest => exact Or.inr (Or.inr (Or.inl rfl))
  | clearUndoStack => exact Or.inr (Or.inr (Or.inr rfl))
  | rebuildGraph => exact Or.inl rfl
  | loadAll files => exact Or.inl (loadAll_fields fmt files s).2.1

/-- A property of the store that holds for the fresh store and that every call
keeps holds in every reachable state. -/
theorem Reachable.induction {fmt : NumberFormat} {P : DataStore → Prop} (h0 : P DataStore.empty)
    (hstep : ∀ s op, P s → P (s.exec fmt op).2) {s : DataStore} (hs : s.Reachable fmt) :
    P s := by
  obtain ⟨ops, rfl⟩ := hs
  unfold run
  exact foldl_preserves P _ ops DataStore.empty h0 (fun s op _ hp => hstep s op hp)

end DataStore

/-- C14: in every state a sequence of calls (adds, deletes, updates, undo,
clearUndoStack, rebuildGraph, loadAll) leads to from the empty store, the undo
log holds at most five records. -/
theorem undoStack_length_le (fmt : NumberFormat) (s : DataStore) (hs : s.Reachable fmt) :
    s.undoStack.length ≤ 5 := by
  refine DataStore.Reachable.induction (P := fun s => s.undoStack.length ≤ 5) ?_ ?_ hs
  · simp [DataStore.empty]
  · intro s op h
    rcases DataStore.exec_undoStack fmt s op with h1 | ⟨a, h1⟩ | h1 | h1
    · rw [h1]; exact h
    · rw [h1]; exact length_pushUndo_le _ _ h
    · rw [h1, List.length_tail]; omega
    · rw [h1]; simp

theorem undoStack_length_le_witness :
    (DataStore.empty.run plainNumbers sevenAdds).undoStack.length = 5 ∧
    (DataStore.empty.run plainNumbers sevenAdds).undoStack.length ≤ 5 :=
  ⟨by decide!, undoStack_length_le plainNumbers _ ⟨sevenAdds, rfl⟩⟩

namespace DataStore

/-- A successful add pushes one record. -/
theorem exec_add_undoStack (fmt : NumberFormat) (s : DataStore) (op : StoreOp)
    (hadd : op.isAdd = true) (hok : (s.exec fmt op).1 = true) :
    ∃ a, (s.exec fmt op).2.undoStack = pushUndo s.undoStack a := by
  cases op with
  | addAirport a =>
    simp only [exec] at hok ⊢
    unfold addAirport at hok ⊢
    split_ifs at hok ⊢
    exact ⟨_, rfl⟩
  | addAircraft a =>
    simp only [exec] at hok ⊢
    unfold addAircraft at hok ⊢
    split_ifs at hok ⊢
    exact ⟨_, rfl⟩
  | addRoute a =>
    simp only [exec] at hok ⊢
    unfold addRoute at hok ⊢
    simp only at hok ⊢
    split_ifs at hok ⊢
    exact ⟨_, rfl⟩
  | addFlight a =>
    simp only [exec] at hok ⊢
    unfold addFlight at hok ⊢
    split_ifs at hok ⊢
    exact ⟨_, rfl⟩
  | deleteAirport _ => simp [StoreOp.isAdd] at hadd
  | updateAirport _ => simp [StoreOp.isAdd] at hadd
  | deleteAircraft _ => simp [StoreOp.isAdd] at hadd
  | updateAircraft _ => simp [StoreOp.isAdd] at hadd
  | deleteRoute _ => simp [StoreOp.isAdd] at hadd
  | updateRoute _ => simp [StoreOp.isAdd] at hadd
  | deleteFlight _ => simp [StoreOp.isAdd] at hadd
  | undo => simp [StoreOp.isAdd] at hadd
  | clearUndoStack => simp [StoreOp.isAdd] at hadd
  | rebuildGraph => simp [StoreOp.isAdd] at hadd
  | loadAll _ => simp [StoreOp.isAdd] at hadd

theorem run_adds_undoStack_length (fmt : NumberFormat) :
    ∀ (ops : List StoreOp) (s : DataStore), s.undoStack.length ≤ 5 →
      (∀ op ∈ ops, op.isAdd = true) → (∀ b ∈ s.results fmt ops, b = true) →
      (s.run fmt ops).undoStack.length = min (s.undoStack.length + ops.length) 5 := by
  intro ops
  induction ops with
  | nil => intro s h _ _; simp [run]; omega
  | cons op t ih =>
    intro s h hadd hok
    simp only [results, List.mem_cons, forall_eq_or_imp] at hok
    simp only [List.mem_cons, forall_eq_or_imp] at hadd
    obtain ⟨a, ha⟩ := exec_add_undoStack fmt s op hadd.1 hok.1
    have hlen := length_pushUndo s.undoStack a
    unfold MAX_UNDO at hlen
    have hrun : s.run fmt (op :: t) = (s.exec fmt op).2.run fmt t := rfl
    rw [hrun, ih _ (by rw [ha, hlen]; omega) hadd.2 hok.2, ha, hlen]
    simp only [List.length_cons]
    omega

theorem results_undo_six (fmt : NumberFormat) (s : DataStore) (h : s.undoStack.length = 5) :
    s.results fmt [StoreOp.undo, StoreOp.undo, StoreOp.undo, StoreOp.undo, StoreOp.undo,
      StoreOp.undo] = [true, true, true, true, true, false] := by
  obtain ⟨a, b, c, d, e, hst⟩ : ∃ a b c d e, s.undoStack = [a, b, c, d, e] := by
    match hs : s.undoStack, h with
    | [a, b, c, d, e], _ => exact ⟨a, b, c, d, e, rfl⟩
  simp [results, exec, undo, hst]

end DataStore

/-- C15: pushing onto a log of five records evicts the oldest one and keeps
the order of the others, the new record being the most recent; pushing onto a
log of fewer than five records only adds the record.  Hence after six
successful add operations on an empty log, five consecutive calls of `undo`
return true and the sixth returns false. -/
theorem pushUndo_evicts_oldest :
    (∀ r1 r2 r3 r4 r5 r6 : Action,
      pushUndo [r5, r4, r3, r2, r1] r6 = [r6, r5, r4, r3, r2]) ∧
    (∀ (undoStack : List Action) (r : Action), undoStack.length < 5 →
      pushUndo undoStack r = r :: undoStack) ∧
    (∀ (fmt : NumberFormat) (s : DataStore) (ops : List StoreOp), s.undoStack = [] →
      ops.length = 6 → (∀ op ∈ ops, op.isAdd = true) → (∀ b ∈ s.results fmt ops, b = true) →
      (s.run fmt ops).results fmt [StoreOp.undo, StoreOp.undo, StoreOp.undo, StoreOp.undo,
        StoreOp.undo, StoreOp.undo] = [true, true, true, true, true, false]) := by
  refine ⟨?_, ?_, ?_⟩
  · intro r1 r2 r3 r4 r5 r6
    rw [pushUndo_eq]
    simp [MAX_UNDO]
  · intro st r h
    rw [pushUndo_eq]
    unfold MAX_UNDO
    rw [if_neg (by omega)]
  · intro fmt s ops hs hlen hadd hok
    apply DataStore.results_undo_six
    rw [DataStore.run_adds_undoStack_length fmt ops s (by simp [hs]) hadd hok, hs, hlen]
    rfl

theorem pushUndo_evicts_oldest_witness :
    (sevenAdds.take 6).length = 6 ∧
    DataStore.empty.results plainNumbers (sevenAdds.take 6) =
      [true, true, true, true, true, true] ∧
    ((DataStore.empty.run plainNumbers (sevenAdds.take 6)).undoStack.map (fun a => a.data)) =
      ["ORD-JFK", "LAX-ORD", "JFK-LAX", "ORD,O Hare,Chicago,USA",
        "LAX,Los Angeles Intl,Los Angeles,USA"] ∧
    (DataStore.empty.run plainNumbers (sevenAdds.take 6)).results plainNumbers
      [StoreOp.undo, StoreOp.undo, StoreOp.undo, StoreOp.undo, StoreOp.undo, StoreOp.undo] =
      [true, true, true, true, true, false] :=
  ⟨by decide!, by decide!, by decide!,
    pushUndo_evicts_oldest.2.2 plainNumbers DataStore.empty (sevenAdds.take 6) rfl
      (by decide!) (by decide!) (by decide!)⟩

/-- C16: `undo` returns what `canUndo` returned, that is true exactly when the
log is not empty; it removes the most recent record and nothing else from the
log, and leaves the four collections and the graph as they were. -/
theorem undo_spec (s : DataStore) :
    s.undo.1 = s.canUndo ∧
    (s.undo.1 = true ↔ s.undoStack ≠ []) ∧
    s.undo.2.undoStack = s.undoStack.tail ∧
    s.undo.2.airports = s.airports ∧
    s.undo.2.aircraft = s.aircraft ∧
    s.undo.2.routes = s.routes ∧
    s.undo.2.flights = s.flights ∧
    s.undo.2.graph = s.graph := by
  unfold DataStore.undo DataStore.canUndo
  cases h : s.undoStack with
  | nil => simp [h]
  | cons a rest => simp

theorem undo_spec_witness :
    (DataStore.empty.run plainNumbers sevenAdds).undo.1 = true ∧
    DataStore.empty.undo.1 = false ∧
    (DataStore.empty.run plainNumbers sevenAdds).undo.2.airports =
      (DataStore.empty.run plainNumbers sevenAdds).airports :=
  ⟨by decide!, by decide!, (undo_spec (DataStore.empty.run plainNumbers sevenAdds)).2.2.2.1⟩

/-! ## The graph of a store is the rebuilt graph -/

theorem any_destination_overwriteOrAppend (to_ : String) (w c : ℚ) (es : List Edge)
    (b : String) :
    (overwriteOrAppend to_ w c es).any (fun e => decide (e.destination = b)) =
      (es.any (fun e => decide (e.destination = b)) || decide (b = to_)) := by
  induction es with
  | nil => simp [overwriteOrAppend, eq_comm]
  | cons x t ih =>
    unfold overwriteOrAppend
    by_cases hx : x.destination = to_
    · by_cases hb : b = to_
      · simp [hx, hb]
      · have : ¬ to_ = b := fun h => hb h.symm
        simp [hx, hb, this]
    · simp only [hx, if_false, List.any_cons, ih, Bool.or_assoc]

namespace Graph

theorem get_adjacencyList_addNode_of_hasNode (g : Graph) (n a : String)
    (ha : g.hasNode a = true) :
    (g.addNode n).adjacencyList.get a [] = g.adjacencyList.get a [] := by
  unfold addNode
  by_cases hn : g.hasNode n = true
  · simp only [hn, Bool.not_true, Bool.false_eq_true, if_false]
  · simp only [Bool.not_eq_true] at hn
    have hne : a ≠ n := by
      intro h; rw [h, hn] at ha; exact absurd ha (by decide)
    simp only [hn, Bool.not_false, if_true, StdMap.get_set_ne _ _ _ _ _ hne]

theorem get_adjacencyList_addNode_self (g : Graph) (n : String) (hn : g.hasNode n = false) :
    (g.addNode n).adjacencyList.get n [] = [] := by
  unfold addNode
  simp only [hn, Bool.not_false, if_true, StdMap.get_set_self]

theorem hasEdge_of_not_hasNode (g : Graph) (a b : String) (h : g.hasNode a = false) :
    g.hasEdge a b = false := by
  simp [hasEdge, h]

theorem hasEdge_of_hasNode (g : Graph) (a b : String) (h : g.hasNode a = true) :
    g.hasEdge a b = (g.adjacencyList.get a []).any (fun e => decide (e.destination = b)) := by
  simp [hasEdge, h]

theorem hasEdge_addNode (g : Graph) (n a b : String) :
    (g.addNode n).hasEdge a b = g.hasEdge a b := by
  by_cases ha : g.hasNode a = true
  · have ha' : (g.addNode n).hasNode a = true := by rw [hasNode_addNode, ha]; rfl
    rw [hasEdge_of_hasNode _ _ _ ha', hasEdge_of_hasNode _ _ _ ha,
      get_adjacencyList_addNode_of_hasNode g n a ha]
  · simp only [Bool.not_eq_true] at ha
    rw [hasEdge_of_not_hasNode g a b ha]
    by_cases han : a = n
    · subst han
      have ha' : (g.addNode a).hasNode a = true := by rw [hasNode_addNode]; simp
      rw [hasEdge_of_hasNode _ _ _ ha', get_adjacencyList_addNode_self g a ha]
      rfl
    · apply hasEdge_of_not_hasNode
      rw [hasNode_addNode, ha]
      simp [han]

theorem hasEdge_addEdge (g : Graph) (x y : String) (w c : ℚ) (a b : String) :
    (g.addEdge x y w c).hasEdge a b =
      (g.hasEdge a b || (decide (a = x) && decide (b = y))) := by
  have hnode : (g.addEdge x y w c).hasNode a = ((g.addNode x).addNode y).hasNode a := rfl
  have hbase : ((g.addNode x).addNode y).hasEdge a b = g.hasEdge a b := by
    rw [hasEdge_addNode, hasEdge_addNode]
  by_cases hax : a = x
  · subst hax
    have ha' : ((g.addNode a).addNode y).hasNode a = true := by
      rw [hasNode_addNode, hasNode_addNode]; simp
    have ha'' : (g.addEdge a y w c).hasNode a = true := ha'
    rw [hasEdge_of_hasNode _ _ _ ha'']
    simp only [addEdge, StdMap.get_set_self, any_destination_overwriteOrAppend]
    rw [← hasEdge_of_hasNode _ _ _ ha', hbase]
    simp
  · have hget : (g.addEdge x y w c).adjacencyList.get a [] =
        ((g.addNode x).addNode y).adjacencyList.get a [] := by
      simp only [addEdge, StdMap.get_set_ne _ _ _ _ _ hax]
    have : (g.addEdge x y w c).hasEdge a b = ((g.addNode x).addNode y).hasEdge a b := by
      unfold hasEdge
      rw [hnode, hget]
    rw [this, hbase]
    simp [hax]

end Graph

namespace DataStore

theorem hasNode_foldl_addNode (l : List (String × Airport)) (g : Graph) (m : String) :
    (l.foldl (fun g p => g.addNode p.1) g).hasNode m =
      (g.hasNode m || l.any (fun p => decide (p.1 = m))) := by
  induction l generalizing g with
  | nil => simp
  | cons x t ih =>
    simp only [List.foldl_cons, ih, Graph.hasNode_addNode, List.any_cons, Bool.or_assoc]
    congr 2
    by_cases h : m = x.1
    · simp [h]
    · have : ¬ x.1 = m := fun e => h e.symm
      simp [h, this]

theorem hasEdge_foldl_addNode (l : List (String × Airport)) (g : Graph) (a b : String) :
    (l.foldl (fun g p => g.addNode p.1) g).hasEdge a b = g.hasEdge a b := by
  induction l generalizing g with
  | nil => rfl
  | cons x t ih => simp only [List.foldl_cons, ih, Graph.hasEdge_addNode]

theorem hasNode_addRouteEdges (g : Graph) (r : Route) (m : String) :
    (addRouteEdges g r).hasNode m =
      (g.hasNode m ||
        (r.operational && (decide (r.origin = m) || decide (r.destination = m)))) := by
  unfold addRouteEdges
  by_cases hop : r.operational = true
  · simp only [hop, if_true, Graph.hasNode_addEdge, Bool.true_and]
    by_cases h1 : m = r.origin <;> by_cases h2 : m = r.destination <;>
      simp [h1, h2, eq_comm]
  · simp only [Bool.not_eq_true] at hop
    simp [hop]

theorem hasEdge_addRouteEdges (g : Graph) (r : Route) (a b : String) :
    (addRouteEdges g r).hasEdge a b =
      (g.hasEdge a b ||
        (r.operational &&
          ((decide (r.origin = a) && decide (r.destination = b)) ||
            (decide (r.origin = b) && decide (r.destination = a))))) := by
  unfold addRouteEdges
  by_cases hop : r.operational = true
  · simp only [hop, if_true, Graph.hasEdge_addEdge, Bool.true_and]
    by_cases h1 : a = r.origin <;> by_cases h2 : b = r.destination <;>
      by_cases h3 : a = r.destination <;> by_cases h4 : b = r.origin <;>
      simp [h1, h2, h3, h4, eq_comm]
  · simp only [Bool.not_eq_true] at hop
    simp [hop]

theorem hasNode_foldl_addRouteEdges (l : List (String × Route)) (g : Graph) (m : String) :
    (l.foldl (fun g p => addRouteEdges g p.2) g).hasNode m =
      (g.hasNode m || l.any (fun p =>
        p.2.operational && (decide (p.2.origin = m) || decide (p.2.destination = m)))) := by
  induction l generalizing g with
  | nil => simp
  | cons x t ih =>
    simp only [List.foldl_cons, ih, hasNode_addRouteEdges, List.any_cons, Bool.or_assoc]

theorem hasEdge_foldl_addRouteEdges (l : List (String × Route)) (g : Graph) (a b : String) :
    (l.foldl (fun g p => addRouteEdges g p.2) g).hasEdge a b =
      (g.hasEdge a b || l.any (fun p =>
        p.2.operational &&
          ((decide (p.2.origin = a) && decide (p.2.destination = b)) ||
            (decide (p.2.origin = b) && decide (p.2.destination = a))))) := by
  induction l generalizing g with
  | nil => simp
  | cons x t ih =>
    simp only [List.foldl_cons, ih, hasEdge_addRouteEdges, List.any_cons, Bool.or_assoc]

/-- The nodes of a rebuilt graph: the airport codes and the endpoints of the
operational routes. -/
theorem hasNode_rebuildGraph_iff (s : DataStore) (m : String) :
    (rebuildGraph s).graph.hasNode m = true ↔
      (s.airports.contains m = true ∨
        ∃ r ∈ s.getAllRoutes, r.operational = true ∧ (r.origin = m ∨ r.destination = m)) := by
  have h : (rebuildGraph s).graph.hasNode m =
      ((Graph.empty.hasNode m || s.airports.entries.any (fun p => decide (p.1 = m))) ||
        s.routes.entries.any (fun p =>
          p.2.operational && (decide (p.2.origin = m) || decide (p.2.destination = m)))) := by
    unfold rebuildGraph
    simp only [hasNode_foldl_addRouteEdges, hasNode_foldl_addNode, Graph.clear]
  rw [h, Graph.hasNode_empty, Bool.false_or, Bool.or_eq_true, ← StdMap.mem_keys_iff]
  apply or_congr
  · simp only [List.any_eq_true, decide_eq_true_eq, StdMap.keys, List.mem_map]
  · simp only [List.any_eq_true, Bool.and_eq_true, Bool.or_eq_true, decide_eq_true_eq,
      getAllRoutes, StdMap.values, List.mem_map]
    constructor
    · rintro ⟨p, hp, h1, h2⟩; exact ⟨p.2, ⟨p, hp, rfl⟩, h1, h2⟩
    · rintro ⟨r, ⟨p, hp, rfl⟩, h1, h2⟩; exact ⟨p, hp, h1, h2⟩

/-- The edges of a rebuilt graph: one in each direction between the endpoints
of every operational route. -/
theorem hasEdge_rebuildGraph_iff (s : DataStore) (a b : String) :
    (rebuildGraph s).graph.hasEdge a b = true ↔
      ∃ r ∈ s.getAllRoutes, r.operational = true ∧
        ((r.origin = a ∧ r.destination = b) ∨ (r.origin = b ∧ r.destination = a)) := by
  have h : (rebuildGraph s).graph.hasEdge a b =
      (Graph.empty.hasEdge a b || s.routes.entries.any (fun p =>
        p.2.operational &&
          ((decide (p.2.origin = a) && decide (p.2.destination = b)) ||
            (decide (p.2.origin = b) && decide (p.2.destination = a))))) := by
    unfold rebuildGraph
    simp only [hasEdge_foldl_addRouteEdges, hasEdge_foldl_addNode, Graph.clear]
  have hempty : Graph.empty.hasEdge a b = false :=
    Graph.hasEdge_of_not_hasNode _ _ _ (Graph.hasNode_empty a)
  rw [h, hempty, Bool.false_or]
  simp only [List.any_eq_true, Bool.and_eq_true, Bool.or_eq_true, decide_eq_true_eq,
    getAllRoutes, StdMap.values, List.mem_map]
  constructor
  · rintro ⟨p, hp, h1, h2⟩; exact ⟨p.2, ⟨p, hp, rfl⟩, h1, h2⟩
  · rintro ⟨r, ⟨p, hp, rfl⟩, h1, h2⟩; exact ⟨p, hp, h1, h2⟩

end DataStore

namespace DataStore

theorem rebuildGraph_idem (s : DataStore) :
    (rebuildGraph (rebuildGraph s)).graph = (rebuildGraph s).graph := rfl

/-- Every call leaves the graph equal to the one `rebuildGraph` builds from
the airports and routes it leaves. -/
theorem exec_graph_rebuilt (fmt : NumberFormat) (s : DataStore) (op : StoreOp)
    (h : s.graph = (rebuildGraph s).graph) :
    (s.exec fmt op).2.graph = (rebuildGraph (s.exec fmt op).2).graph := by
  cases op with
  | addAirport a =>
    simp only [exec]
    unfold addAirport
    split_ifs
    · exact h
    · rfl
  | deleteAirport code =>
    simp only [exec]
    unfold deleteAirport
    cases s.airports.find code with
    | none => exact h
    | some a => rfl
  | updateAirport a =>
    simp only [exec]
    unfold updateAirport
    split_ifs
    · exact h
    · rfl
  | addAircraft a =>
    simp only [exec]
    unfold addAircraft
    split_ifs
    · exact h
    · exact h
  | deleteAircraft a =>
    simp only [exec]
    unfold deleteAircraft
    split_ifs
    · exact h
    · exact h
  | updateAircraft a =>
    simp only [exec]
    unfold updateAircraft
    split_ifs
    · exact h
    · exact h
  | addRoute a =>
    simp only [exec]
    unfold addRoute
    simp only
    split_ifs
    · exact h
    · rfl
  | deleteRoute a =>
    simp only [exec]
    unfold deleteRoute
    split_ifs
    · exact h
    · rfl
  | updateRoute a =>
    simp only [exec]
    unfold updateRoute
    simp only
    split_ifs
    · exact h
    · rfl
  | addFlight a =>
    simp only [exec]
    unfold addFlight
    split_ifs
    · exact h
    · exact h
  | deleteFlight a =>
    simp only [exec]
    unfold deleteFlight
    split_ifs
    · exact h
    · exact h
  | undo =>
    simp only [exec]
    unfold undo
    cases s.undoStack with
    | nil => exact h
    | cons a rest => exact h
  | clearUndoStack => exact h
  | rebuildGraph => rfl
  | loadAll files => exact (loadAll_fields fmt files s).2.2

theorem Reachable.graph_rebuilt {fmt : NumberFormat} {s : DataStore} (hs : s.Reachable fmt) :
    s.graph = (rebuildGraph s).graph :=
  Reachable.induction (P := fun s => s.graph = (rebuildGraph s).graph) rfl
    (fun s op h => exec_graph_rebuilt fmt s op h) hs

/-- Each edge of a rebuilt graph carries the distance and the cost of an
operational route joining its two ends. -/
theorem edge_values_rebuildGraph (s : DataStore) (k : String) (es : List Edge)
    (h : (rebuildGraph s).graph.adjacencyList.find k = some es) :
    ∀ e ∈ es, ∃ p ∈ s.routes.entries, p.2.operational = true ∧
      ((p.2.origin = k ∧ p.2.destination = e.destination) ∨
        (p.2.destination = k ∧ p.2.origin = e.destination)) ∧
      e.weight = p.2.distance ∧ e.cost = p.2.baseCost := by
  have step1 : ∀ g : Graph,
      (∀ k es, g.adjacencyList.find k = some es → es = []) →
      ∀ k es, (s.airports.entries.foldl (fun g p => g.addNode p.1) g).adjacencyList.find k
        = some es → es = [] := by
    intro g hg
    refine foldl_preserves
      (fun g : Graph => ∀ k es, g.adjacencyList.find k = some es → es = []) _ _ g hg ?_
    intro g' p _ hg' k es hk
    rcases Graph.find_adjacencyList_addNode _ _ _ _ hk with h1 | ⟨_, h1⟩
    · exact hg' k es h1
    · exact h1
  revert k es
  unfold rebuildGraph
  simp only
  refine foldl_preserves (fun g : Graph => ∀ k es, g.adjacencyList.find k = some es →
      ∀ e ∈ es, ∃ p ∈ s.routes.entries, p.2.operational = true ∧
        ((p.2.origin = k ∧ p.2.destination = e.destination) ∨
          (p.2.destination = k ∧ p.2.origin = e.destination)) ∧
        e.weight = p.2.distance ∧ e.cost = p.2.baseCost) _ _ _ ?_ ?_
  · intro k es hk e he
    have := step1 _ (fun k es hk => by simp [Graph.clear, Graph.empty] at hk) k es hk
    subst this
    simp at he
  · intro g p hp hg k es hk e he
    unfold addRouteEdges at hk
    split_ifs at hk with hop
    · rcases Graph.find_adjacencyList_addEdge _ _ _ _ _ _ _ hk e he with ⟨h1, h2⟩ | ⟨es0, h1, h2⟩
      · exact ⟨p, hp, hop, Or.inr ⟨h1.symm, by rw [h2]⟩, by rw [h2], by rw [h2]⟩
      · rcases Graph.find_adjacencyList_addEdge _ _ _ _ _ _ _ h1 e h2 with
          ⟨h3, h4⟩ | ⟨es1, h3, h4⟩
        · exact ⟨p, hp, hop, Or.inl ⟨h3.symm, by rw [h4]⟩, by rw [h4], by rw [h4]⟩
        · exact hg k es1 h3 e h4
    · exact hg k es hk e he

end DataStore

/-- C11, as the code has it: in every state a sequence of calls leads to from
the empty store, the nodes of the graph are the stored airport codes
together with the origins and destinations of the stored routes flagged
operational. -/
theorem graph_nodes_of_reachable (fmt : NumberFormat) (s : DataStore)
    (hs : s.Reachable fmt) (n : String) :
    s.graph.hasNode n = true ↔
      (s.airports.contains n = true ∨
        ∃ r ∈ s.getAllRoutes, r.operational = true ∧ (r.origin = n ∨ r.destination = n)) := by
  rw [hs.graph_rebuilt]
  exact DataStore.hasNode_rebuildGraph_iff s n

theorem graph_nodes_of_reachable_witness :
    (DataStore.empty.run plainNumbers sevenAdds).graph.hasNode "ORD" = true ∧
    (DataStore.empty.run plainNumbers sevenAdds).airports.contains "ORD" = true ∧
    ((DataStore.empty.run plainNumbers sevenAdds).graph.hasNode "ORD" = true ↔
      ((DataStore.empty.run plainNumbers sevenAdds).airports.contains "ORD" = true ∨
        ∃ r ∈ (DataStore.empty.run plainNumbers sevenAdds).getAllRoutes,
          r.operational = true ∧ (r.origin = "ORD" ∨ r.destination = "ORD"))) :=
  ⟨by decide!, by decide!,
    graph_nodes_of_reachable plainNumbers _ ⟨sevenAdds, rfl⟩ "ORD"⟩

/-- C11 fails on the calls of `testDataStore`: after the three successful
adds the graph has the node JFK, and JFK is not a stored airport. -/
theorem graph_nodes_not_airports :
    DataStore.empty.results plainNumbers testDataStoreOps = [true, true, true] ∧
    (DataStore.empty.run plainNumbers testDataStoreOps).graph.hasNode "JFK" = true ∧
    (DataStore.empty.run plainNumbers testDataStoreOps).getAirport "JFK" = none ∧
    (DataStore.empty.run plainNumbers testDataStoreOps).graph.nodes.keys =
      ["JFK", "LAX", "TST"] ∧
    (DataStore.empty.run plainNumbers testDataStoreOps).airports.keys = ["TST"] := by
  decide!

/-- C12: in every state a sequence of calls leads to from the empty store, the
graph has the edge `a -> b` exactly when a stored route flagged operational
joins `a` and `b` in one direction or the other. -/
theorem graph_edges_of_reachable (fmt : NumberFormat) (s : DataStore)
    (hs : s.Reachable fmt) (a b : String) :
    s.graph.hasEdge a b = true ↔
      ∃ r ∈ s.getAllRoutes, r.operational = true ∧
        ((r.origin = a ∧ r.destination = b) ∨ (r.origin = b ∧ r.destination = a)) := by
  rw [hs.graph_rebuilt]
  exact DataStore.hasEdge_rebuildGraph_iff s a b

theorem graph_edges_of_reachable_witness :
    (DataStore.empty.run plainNumbers sevenAdds).graph.hasEdge "LAX" "JFK" = true ∧
    (DataStore.empty.run plainNumbers sevenAdds).graph.hasEdge "ORD" "JFK" = false ∧
    (DataStore.empty.run plainNumbers sevenAdds).getRoute "ORD-JFK" =
      some ⟨"ORD", "JFK", 1180, 2000, false⟩ ∧
    ((DataStore.empty.run plainNumbers sevenAdds).graph.hasEdge "LAX" "JFK" = true ↔
      ∃ r ∈ (DataStore.empty.run plainNumbers sevenAdds).getAllRoutes, r.operational = true ∧
        ((r.origin = "LAX" ∧ r.destination = "JFK") ∨
          (r.origin = "JFK" ∧ r.destination = "LAX"))) :=
  ⟨by decide!, by decide!, by decide!,
    graph_edges_of_reachable plainNumbers _ ⟨sevenAdds, rfl⟩ "LAX" "JFK"⟩

/-! ## Loading: malformed rows -/

theorem split_empty (d : Char) : split "" d = [] := by
  simp [split, getlineAll]

theorem foldl_row_eq_storeEach {V : Type} (key : V → String) (parse : String → Option V)
    (row : StdMap V → String → StdMap V)
    (hrow : ∀ m line, row m line =
      (parse line).elim m (fun v => m.set (key v) v))
    (lines : List String) (m : StdMap V) :
    lines.foldl row m = storeEach key m (lines.filterMap parse) := by
  induction lines generalizing m with
  | nil => rfl
  | cons line rest ih =>
    rw [List.foldl_cons, ih, hrow]
    cases h : parse line with
    | none => simp [List.filterMap_cons, h]
    | some v => simp [List.filterMap_cons, h, storeEach]

namespace DataStore

theorem loadAirportRow_eq (fmt : NumberFormat) (m : StdMap Airport) (line : String) :
    loadAirportRow fmt m line =
      (airportOfRow fmt line).elim m (fun a => m.set a.code a) := by
  unfold loadAirportRow airportOfRow
  by_cases hl : line = ""
  · subst hl
    simp [split_empty]
  · rw [if_neg hl]
    rcases h : split line ',' with
      _ | ⟨p0, _ | ⟨p1, _ | ⟨p2, _ | ⟨p3, _ | ⟨p4, _ | ⟨p5, rest⟩⟩⟩⟩⟩⟩
    all_goals try simp
    cases fmt.stod (trim p4) with
    | none => simp
    | some latitude =>
      cases fmt.stod (trim p5) with
      | none => simp
      | some longitude => simp

theorem loadAircraftRow_eq (fmt : NumberFormat) (m : StdMap Aircraft) (line : String) :
    loadAircraftRow fmt m line =
      (aircraftOfRow fmt line).elim m (fun a => m.set a.id a) := by
  unfold loadAircraftRow aircraftOfRow
  by_cases hl : line = ""
  · subst hl
    simp [split_empty]
  · rw [if_neg hl]
    rcases h : split line ',' with
      _ | ⟨p0, _ | ⟨p1, _ | ⟨p2, _ | ⟨p3, _ | ⟨p4, _ | ⟨p5, rest⟩⟩⟩⟩⟩⟩
    all_goals try simp
    cases fmt.stoi (trim p2) with
    | none => simp
    | some capacity =>
      cases fmt.stod (trim p3) with
      | none => simp
      | some cruiseSpeed =>
        cases fmt.stod (trim p4) with
        | none => simp
        | some fuelConsumption => simp

theorem loadRouteRow_eq (fmt : NumberFormat) (m : StdMap Route) (line : String) :
    loadRouteRow fmt m line =
      (routeOfRow fmt line).elim m (fun r => m.set r.getId r) := by
  unfold loadRouteRow routeOfRow
  by_cases hl : line = ""
  · subst hl
    simp [split_empty]
  · rw [if_neg hl]
    rcases h : split line ',' with
      _ | ⟨p0, _ | ⟨p1, _ | ⟨p2, _ | ⟨p3, _ | ⟨p4, rest⟩⟩⟩⟩⟩
    all_goals try simp
    cases fmt.stod (trim p2) with
    | none => simp
    | some distance =>
      cases fmt.stod (trim p3) with
      | none => simp
      | some baseCost => simp

theorem loadFlightRow_eq (fmt : NumberFormat) (m : StdMap Flight) (line : String) :
    loadFlightRow fmt m line =
      (flightOfRow fmt line).elim m (fun f => m.set f.flightNumber f) := by
  unfold loadFlightRow flightOfRow
  by_cases hl : line = ""
  · subst hl
    simp [split_empty]
  · rw [if_neg hl]
    rcases h : split line ',' with
      _ | ⟨p0, _ | ⟨p1, _ | ⟨p2, _ | ⟨p3, _ | ⟨p4, _ | ⟨p5, _ | ⟨p6, _ | ⟨p7, rest⟩⟩⟩⟩⟩⟩⟩⟩
    all_goals try simp
    cases fmt.stod (trim p3) with
    | none => simp
    | some totalDistance =>
      cases fmt.stod (trim p4) with
      | none => simp
      | some totalCost =>
        cases fmt.stod (trim p5) with
        | none => simp
        | some estimatedTime => simp

end DataStore

/-- C18: each of the four loaders reports success, skips the first line of the
file, and stores exactly the entities of the well-formed rows among the other
lines, each under its key and in the order of the file; a malformed row
stores nothing and the rows after it are loaded as if it were absent. -/
theorem load_skips_malformed_rows (fmt : NumberFormat) (content : String) (s : DataStore) :
    DataStore.loadAirports fmt (some content) s =
      (true, { s with airports := (storeEach (fun a => a.code) s.airports
        ((fileLines content).tail.filterMap (airportOfRow fmt))) }) ∧
    DataStore.loadAircraft fmt (some content) s =
      (true, { s with aircraft := (storeEach (fun a => a.id) s.aircraft
        ((fileLines content).tail.filterMap (aircraftOfRow fmt))) }) ∧
    DataStore.loadRoutes fmt (some content) s =
      (true, { s with routes := (storeEach Route.getId s.routes
        ((fileLines content).tail.filterMap (routeOfRow fmt))) }) ∧
    DataStore.loadFlights fmt (some content) s =
      (true, { s with flights := (storeEach (fun f => f.flightNumber) s.flights
        ((fileLines content).tail.filterMap (flightOfRow fmt))) }) := by
  refine ⟨?_, ?_, ?_, ?_⟩
  · simp only [DataStore.loadAirports]
    rw [foldl_row_eq_storeEach (fun a => a.code) (airportOfRow fmt) _
      (DataStore.loadAirportRow_eq fmt)]
  · simp only [DataStore.loadAircraft]
    rw [foldl_row_eq_storeEach (fun a => a.id) (aircraftOfRow fmt) _
      (DataStore.loadAircraftRow_eq fmt)]
  · simp only [DataStore.loadRoutes]
    rw [foldl_row_eq_storeEach Route.getId (routeOfRow fmt) _
      (DataStore.loadRouteRow_eq fmt)]
  · simp only [DataStore.loadFlights]
    rw [foldl_row_eq_storeEach (fun f => f.flightNumber) (flightOfRow fmt) _
      (DataStore.loadFlightRow_eq fmt)]

/-- The rows of `airportsWithBadRows`: the two well-formed ones are stored,
the one after the malformed rows included, with its name trimmed. -/
theorem loadAirports_airportsWithBadRows :
    (fileLines airportsWithBadRows).tail.map (fun l => (airportOfRow plainNumbers l).isSome) =
      [true, false, false, false, true] ∧
    (DataStore.loadAirports plainNumbers (some airportsWithBadRows) DataStore.empty).1 = true ∧
    (DataStore.loadAirports plainNumbers (some airportsWithBadRows)
        DataStore.empty).2.getAllAirports =
      [⟨"JFK", "Kennedy", "New York", "USA", 40, -73⟩,
       ⟨"LAX", "Los Angeles Intl", "Los Angeles", "USA", 33, -118⟩] := by
  decide!

/-- A malformed row among the lines of a file changes nothing: the lines
before and after it are loaded as if it were absent. -/
theorem loadAirportRow_malformed (fmt : NumberFormat) (pre post : List String) (bad : String)
    (m : StdMap Airport) (hbad : airportOfRow fmt bad = none) :
    (pre ++ bad :: post).foldl (DataStore.loadAirportRow fmt) m =
      (pre ++ post).foldl (DataStore.loadAirportRow fmt) m := by
  rw [List.foldl_append, List.foldl_append, List.foldl_cons, DataStore.loadAirportRow_eq, hbad]
  rfl

/-! ## Text of the files: splitting and trimming -/

theorem getlineAll_of_not_mem (d : Char) (body cur : List Char) (h : d ∉ body) :
    getlineAll d body cur = if cur ++ body = [] then [] else [cur ++ body] := by
  induction body generalizing cur with
  | nil => simp [getlineAll]
  | cons c cs ih =>
    have hc : c ≠ d := fun hcd => h (by simp [hcd])
    have hcs : d ∉ cs := fun hm => h (List.mem_cons_of_mem _ hm)
    rw [getlineAll, if_neg hc, ih _ hcs]
    simp

theorem getlineAll_append_delim (d : Char) (body rest cur : List Char) (h : d ∉ body) :
    getlineAll d (body ++ d :: rest) cur = (cur ++ body) :: getlineAll d rest [] := by
  induction body generalizing cur with
  | nil => simp [getlineAll]
  | cons c cs ih =>
    have hc : c ≠ d := fun hcd => h (by simp [hcd])
    have hcs : d ∉ cs := fun hm => h (List.mem_cons_of_mem _ hm)
    rw [List.cons_append, getlineAll, if_neg hc, ih _ hcs]
    simp

/-- No token of `getlineAll` holds the delimiter. -/
theorem not_mem_of_mem_getlineAll (d : Char) (input cur : List Char) (hcur : d ∉ cur) :
    ∀ t ∈ getlineAll d input cur, d ∉ t := by
  induction input generalizing cur with
  | nil =>
    intro t ht
    unfold getlineAll at ht
    split_ifs at ht
    · simp at ht
    · simp only [List.mem_singleton] at ht
      subst ht
      exact hcur
  | cons c cs ih =>
    intro t ht
    unfold getlineAll at ht
    split_ifs at ht with hc
    · rcases List.mem_cons.mp ht with h1 | h1
      · subst h1
        exact hcur
      · exact ih [] (by simp) t h1
    · refine ih (cur ++ [c]) ?_ t ht
      simp only [List.mem_append, List.mem_singleton, not_or]
      exact ⟨hcur, fun h => hc h.symm⟩

theorem not_mem_of_mem_split (str : String) (d : Char) :
    ∀ t ∈ split str d, d ∉ t.data := by
  intro t ht
  unfold split at ht
  obtain ⟨cs, hcs, rfl⟩ := List.mem_map.mp ht
  exact not_mem_of_mem_getlineAll d _ [] (by simp) cs hcs

theorem joinWith_cons_cons (d : Char) (f g : String) (rest : List String) :
    joinWith d (f :: g :: rest) = f ++ String.singleton d ++ joinWith d (g :: rest) := rfl

theorem data_singleton (d : Char) : (String.singleton d).data = [d] := rfl

/-- Splitting a row gives back its fields, when no field holds the delimiter
and the last one is not empty. -/
theorem split_joinWith (d : Char) (fields : List String)
    (hd : ∀ f ∈ fields, d ∉ f.data) (hlast : ∀ f, fields.getLast? = some f → f ≠ "") :
    split (joinWith d fields) d = fields := by
  induction fields with
  | nil => simp [joinWith, split, getlineAll]
  | cons f rest ih =>
    cases rest with
    | nil =>
      have hf : f ≠ "" := hlast f rfl
      have hfd : f.data ≠ [] := fun h => hf (String.ext h)
      simp only [joinWith, split]
      rw [getlineAll_of_not_mem d f.data [] (hd f (List.mem_cons_self _ _))]
      simp [hfd]
    | cons g rest =>
      have ih' := ih (fun x hx => hd x (List.mem_cons_of_mem _ hx))
        (fun x hx => hlast x (by simpa [List.getLast?_cons_cons] using hx))
      rw [joinWith_cons_cons]
      unfold split at ih' ⊢
      rw [String.data_append, String.data_append, data_singleton, List.append_assoc,
        List.singleton_append,
        getlineAll_append_delim d f.data _ [] (hd f (List.mem_cons_self _ _)), List.map_cons, ih']
      simp

theorem trim_data (str : String) :
    (trim str).data = List.rdropWhile isTrimChar (str.data.dropWhile isTrimChar) := rfl

/-- Characterisation of the strings `trim` leaves as they are: neither the
first nor the last character is white space. -/
theorem trim_eq_self_iff (str : String) :
    trim str = str ↔
      (∀ c, str.data.head? = some c → isTrimChar c = false) ∧
        (∀ c, str.data.getLast? = some c → isTrimChar c = false) := by
  constructor
  · intro h
    have hdata : List.rdropWhile isTrimChar (str.data.dropWhile isTrimChar) = str.data := by
      rw [← trim_data, h]
    have hlen1 := (List.rdropWhile_prefix isTrimChar
      (str.data.dropWhile isTrimChar)).length_le
    have hlen2 := (List.dropWhile_suffix (l := str.data) isTrimChar).length_le
    have hd : str.data.dropWhile isTrimChar = str.data := by
      refine (List.dropWhile_suffix isTrimChar).eq_of_length_le ?_
      rw [hdata] at hlen1
      exact hlen1
    rw [hd] at hdata
    constructor
    · intro c hc
      have := List.dropWhile_eq_self_iff.mp hd
      cases hs : str.data with
      | nil => rw [hs] at hc; simp at hc
      | cons x xs =>
        rw [hs] at hc this
        simp only [List.head?_cons, Option.some.injEq] at hc
        subst hc
        simpa using this (by simp)
    · intro c hc
      have := List.rdropWhile_eq_self_iff.mp hdata
      have hne : str.data ≠ [] := by
        intro he
        rw [he] at hc
        simp at hc
      have h2 := this hne
      rw [List.getLast?_eq_getLast _ hne] at hc
      simp only [Option.some.injEq] at hc
      rw [← hc]
      simpa using h2
  · rintro ⟨h1, h2⟩
    have hd : str.data.dropWhile isTrimChar = str.data := by
      generalize str.data = cs at h1
      cases cs with
      | nil => rfl
      | cons x xs => simp [List.dropWhile, h1 x rfl]
    have hr : List.rdropWhile isTrimChar str.data = str.data := by
      rw [List.rdropWhile_eq_self_iff]
      intro hne
      have := h2 _ (List.getLast?_eq_getLast _ hne)
      simp [this]
    apply String.ext
    rw [trim_data, hd, hr]

/-- The characters of `trim str` are characters of `str`. -/
theorem mem_data_of_mem_trim (str : String) (c : Char) (h : c ∈ (trim str).data) :
    c ∈ str.data := by
  rw [trim_data] at h
  exact (List.dropWhile_sublist isTrimChar).subset
    ((List.rdropWhile_prefix isTrimChar _).sublist.subset h)

/-! ## Text of the files: lines, and the map rebuilt from its own entries -/

theorem concatRows_data_getlineAll (bodies : List String) (hb : ∀ b ∈ bodies, '\n' ∉ b.data) :
    getlineAll '\n' (concatRows (bodies.map (fun b => b ++ "\n"))).data [] =
      bodies.map String.data := by
  induction bodies with
  | nil => simp [concatRows, getlineAll]
  | cons b rest ih =>
    have h1 : ("\n" : String).data = ['\n'] := rfl
    simp only [List.map_cons, concatRows, String.data_append, h1, List.append_assoc,
      List.singleton_append]
    rw [getlineAll_append_delim '\n' b.data _ [] (hb b (List.mem_cons_self _ _)),
      ih (fun x hx => hb x (List.mem_cons_of_mem _ hx))]
    simp

/-- The lines of a saved file: the header, then the rows. -/
theorem fileLines_rows (header : String) (bodies : List String) (hh : '\n' ∉ header.data)
    (hb : ∀ b ∈ bodies, '\n' ∉ b.data) :
    fileLines (header ++ "\n" ++ concatRows (bodies.map (fun b => b ++ "\n"))) =
      header :: bodies := by
  have h1 : ("\n" : String).data = ['\n'] := rfl
  unfold fileLines
  simp only [String.data_append, h1, List.append_assoc, List.singleton_append]
  rw [getlineAll_append_delim '\n' header.data _ [] hh, concatRows_data_getlineAll bodies hb]
  simp [List.map_map, Function.comp_def]

theorem insertEntry_of_forall_lt {V : Type} (k : String) (v : V) (l : List (String × V))
    (h : ∀ x ∈ l.map Prod.fst, x < k) : insertEntry k v l = l ++ [(k, v)] := by
  induction l with
  | nil => rfl
  | cons hd t ih =>
    obtain ⟨k', v'⟩ := hd
    have hk : k' < k := h k' (by simp)
    unfold insertEntry
    rw [if_neg (not_lt_of_lt hk), if_pos hk, ih (fun x hx => h x (by simp at hx ⊢; tauto))]
    rfl

theorem storeEach_entries {V : Type} (key : V → String) (m : StdMap V) (vs : List V) :
    (storeEach key m vs).entries = vs.foldl (fun l v => insertEntry (key v) v l) m.entries := by
  induction vs generalizing m with
  | nil => rfl
  | cons v rest ih =>
    unfold storeEach at ih ⊢
    rw [List.foldl_cons, ih]
    rfl

theorem foldl_insertEntry_sorted {V : Type} (key : V → String) (rest acc : List (String × V))
    (hs : ((acc ++ rest).map Prod.fst).Pairwise (· < ·))
    (hk : ∀ p ∈ rest, key p.2 = p.1) :
    (rest.map Prod.snd).foldl (fun l v => insertEntry (key v) v l) acc = acc ++ rest := by
  induction rest generalizing acc with
  | nil => simp
  | cons p rest ih =>
    obtain ⟨k, v⟩ := p
    have hkv : key v = k := hk (k, v) (List.mem_cons_self _ _)
    have hlt : ∀ x ∈ acc.map Prod.fst, x < k := by
      intro x hx
      rw [List.map_append, List.pairwise_append] at hs
      exact hs.2.2 x hx k (by simp)
    simp only [List.map_cons, List.foldl_cons]
    rw [hkv, insertEntry_of_forall_lt k v acc hlt,
      ih (acc ++ [(k, v)]) (by simpa using hs) (fun p hp => hk p (List.mem_cons_of_mem _ hp))]
    simp

/-- Storing the values of a map under their keys, in iteration order, into
an empty map gives the map back. -/
theorem storeEach_values {V : Type} (key : V → String) (m : StdMap V)
    (hk : ∀ p ∈ m.entries, key p.2 = p.1) :
    storeEach key StdMap.empty m.values = m := by
  apply StdMap.ext_entries
  rw [storeEach_entries]
  unfold StdMap.values
  rw [foldl_insertEntry_sorted key m.entries _ (by simpa [StdMap.empty] using m.sorted) hk]
  simp [StdMap.empty]

/-- Parsing each saved row gives back the values, when each one is read back
from its own row. -/
theorem filterMap_rows {V : Type} (parse : String → Option V) (body : V → String)
    (vs : List V) (h : ∀ v ∈ vs, parse (body v) = some v) :
    (vs.map body).filterMap parse = vs := by
  induction vs with
  | nil => rfl
  | cons v rest ih =>
    rw [List.map_cons, List.filterMap_cons, h v (List.mem_cons_self _ _)]
    simp only
    rw [ih (fun x hx => h x (List.mem_cons_of_mem _ hx))]

/-! ## Rows of the saved files -/

theorem not_mem_joinWith (c d : Char) (hcd : c ≠ d) (fields : List String)
    (h : ∀ f ∈ fields, c ∉ f.data) : c ∉ (joinWith d fields).data := by
  induction fields with
  | nil => simp [joinWith]
  | cons f rest ih =>
    cases rest with
    | nil => simpa [joinWith] using h f (List.mem_cons_self _ _)
    | cons g rest =>
      rw [joinWith_cons_cons, String.data_append, String.data_append, data_singleton]
      simp only [List.mem_append, List.mem_singleton, not_or]
      exact ⟨⟨h f (List.mem_cons_self _ _), hcd⟩,
        ih (fun x hx => h x (List.mem_cons_of_mem _ hx))⟩

theorem joinRoute_eq (codes : List String) : joinRoute codes = joinWith '-' codes := by
  induction codes with
  | nil => rfl
  | cons f rest ih =>
    cases rest with
    | nil => rfl
    | cons g rest =>
      rw [joinWith_cons_cons, ← ih]
      rfl

theorem joinWith_data_ne_nil (d : Char) (f : String) (rest : List String) (hf : f ≠ "") :
    (joinWith d (f :: rest)).data ≠ [] := by
  have hfd : f.data ≠ [] := fun h => hf (String.ext h)
  cases rest with
  | nil => simpa [joinWith] using hfd
  | cons g rest =>
    rw [joinWith_cons_cons, String.data_append, String.data_append]
    simp [hfd]

theorem trim_joinWith (d : Char) (fields : List String)
    (h : ∀ f ∈ fields, trim f = f ∧ f ≠ "") :
    trim (joinWith d fields) = joinWith d fields := by
  rw [trim_eq_self_iff]
  constructor
  · cases fields with
    | nil => intro c hc; simp [joinWith] at hc
    | cons f rest =>
      obtain ⟨hf1, hf2⟩ := h f (List.mem_cons_self _ _)
      have hfd : f.data ≠ [] := fun h => hf2 (String.ext h)
      have hhead : (joinWith d (f :: rest)).data.head? = f.data.head? := by
        cases rest with
        | nil => rfl
        | cons g rest =>
          rw [joinWith_cons_cons, String.data_append, String.data_append, List.append_assoc,
            List.head?_append_of_ne_nil _ hfd]
      rw [hhead]
      exact ((trim_eq_self_iff f).mp hf1).1
  · induction fields with
    | nil => intro c hc; simp [joinWith] at hc
    | cons f rest ih =>
      cases rest with
      | nil =>
        exact ((trim_eq_self_iff f).mp (h f (List.mem_cons_self _ _)).1).2
      | cons g rest =>
        have hne := joinWith_data_ne_nil d g rest (h g (by simp)).2
        rw [joinWith_cons_cons, String.data_append, List.getLast?_append_of_ne_nil _ hne]
        exact ih (fun x hx => h x (List.mem_cons_of_mem _ hx))

/-- The route field of a flight row is read back as the route. -/
theorem split_joinRoute (codes : List String)
    (h : ∀ code ∈ codes, CleanField code ∧ code ≠ "" ∧ '-' ∉ code.data) :
    (split (trim (joinRoute codes)) '-').map trim = codes := by
  rw [joinRoute_eq, trim_joinWith '-' codes (fun f hf => ⟨(h f hf).1.2.2, (h f hf).2.1⟩),
    split_joinWith '-' codes (fun f hf => (h f hf).2.2)]
  · have : ∀ l : List String, (∀ f ∈ l, trim f = f) → l.map trim = l := by
      intro l hl
      induction l with
      | nil => rfl
      | cons x xs ih =>
        rw [List.map_cons, hl x (List.mem_cons_self _ _),
          ih (fun f hf => hl f (List.mem_cons_of_mem _ hf))]
    exact this codes (fun f hf => (h f hf).1.2.2)
  · intro f hf
    exact (h f (List.mem_of_getLast?_eq_some hf)).2.1

theorem cleanField_joinRoute (codes : List String)
    (h : ∀ code ∈ codes, CleanField code ∧ code ≠ "" ∧ '-' ∉ code.data) :
    CleanField (joinRoute codes) := by
  refine ⟨?_, ?_, ?_⟩
  · rw [joinRoute_eq]
    exact not_mem_joinWith ',' '-' (by decide) codes (fun f hf => (h f hf).1.1)
  · rw [joinRoute_eq]
    exact not_mem_joinWith '\n' '-' (by decide) codes (fun f hf => (h f hf).1.2.1)
  · rw [joinRoute_eq]
    exact trim_joinWith '-' codes (fun f hf => ⟨(h f hf).1.2.2, (h f hf).2.1⟩)

theorem stringToStatus_statusToString (st : AircraftStatus) :
    Aircraft.stringToStatus (trim (Aircraft.statusToString st)) = st := by
  cases st <;> decide!

namespace DataStore

theorem airportRow_eq (fmt : NumberFormat) (a : Airport) :
    airportRow fmt a =
      joinWith ',' [a.code, a.name, a.city, a.country, fmt.showDouble a.latitude,
        fmt.showDouble a.longitude] ++ "\n" := by
  have hs : String.singleton ',' = "," := rfl
  simp only [airportRow, joinWith, String.append_assoc, hs]

theorem aircraftRow_eq (fmt : NumberFormat) (ac : Aircraft) :
    aircraftRow fmt ac =
      joinWith ',' [ac.id, ac.model, fmt.showInt ac.capacity, fmt.showDouble ac.cruiseSpeed,
        fmt.showDouble ac.fuelConsumption, Aircraft.statusToString ac.status] ++ "\n" := by
  have hs : String.singleton ',' = "," := rfl
  simp only [aircraftRow, joinWith, String.append_assoc, hs]

theorem routeRow_eq (fmt : NumberFormat) (r : Route) :
    routeRow fmt r =
      joinWith ',' [r.origin, r.destination, fmt.showDouble r.distance,
        fmt.showDouble r.baseCost, if r.operational then "1" else "0"] ++ "\n" := by
  have hs : String.singleton ',' = "," := rfl
  simp only [routeRow, joinWith, String.append_assoc, hs]

theorem flightRow_eq (fmt : NumberFormat) (f : Flight) :
    flightRow fmt f =
      joinWith ',' [f.flightNumber, f.aircraftId, joinRoute f.route,
        fmt.showDouble f.totalDistance, fmt.showDouble f.totalCost,
        fmt.showDouble f.estimatedTime, f.departureTime, f.status] ++ "\n" := by
  have hs : String.singleton ',' = "," := rfl
  simp only [flightRow, joinWith, String.append_assoc, hs]

end DataStore

/-! ## Rows read back -/

theorem airportOfRow_row (fmt : NumberFormat) (a : Airport) (h : a.Storable fmt) :
    airportOfRow fmt (joinWith ',' [a.code, a.name, a.city, a.country,
      fmt.showDouble a.latitude, fmt.showDouble a.longitude]) = some a := by
  obtain ⟨h1, h2, h3, h4, h5, h6, h7⟩ := h
  unfold airportOfRow
  rw [split_joinWith ',' _
    (by
      intro f hf
      simp only [List.mem_cons, List.mem_singleton, List.not_mem_nil, or_false] at hf
      rcases hf with rfl | rfl | rfl | rfl | rfl | rfl
      exacts [h1.1, h2.1, h3.1, h4.1, h5.1, h6.1])
    (by
      intro f hf
      simp only [List.getLast?_cons_cons, List.getLast?_singleton, Option.some.injEq] at hf
      subst hf
      exact h7)]
  simp [h1.2.2, h2.2.2, h3.2.2, h4.2.2, h5.2.2, h6.2.2]

theorem aircraftOfRow_row (fmt : NumberFormat) (ac : Aircraft) (h : ac.Storable fmt) :
    aircraftOfRow fmt (joinWith ',' [ac.id, ac.model, fmt.showInt ac.capacity,
      fmt.showDouble ac.cruiseSpeed, fmt.showDouble ac.fuelConsumption,
      Aircraft.statusToString ac.status]) = some ac := by
  obtain ⟨h1, h2, h3, h4, h5⟩ := h
  have hst1 : ',' ∉ (Aircraft.statusToString ac.status).data := by
    cases ac.status <;> decide
  have hst2 : Aircraft.statusToString ac.status ≠ "" := by
    cases ac.status <;> decide
  unfold aircraftOfRow
  rw [split_joinWith ',' _
    (by
      intro f hf
      simp only [List.mem_cons, List.mem_singleton, List.not_mem_nil, or_false] at hf
      rcases hf with rfl | rfl | rfl | rfl | rfl | rfl
      exacts [h1.1, h2.1, h3.1, h4.1, h5.1, hst1])
    (by
      intro f hf
      simp only [List.getLast?_cons_cons, List.getLast?_singleton, Option.some.injEq] at hf
      subst hf
      exact hst2)]
  simp [h1.2.2, h2.2.2, h3.2.2, h4.2.2, h5.2.2, stringToStatus_statusToString]

theorem routeOfRow_row (fmt : NumberFormat) (r : Route) (h : r.Storable fmt) :
    routeOfRow fmt (joinWith ',' [r.origin, r.destination, fmt.showDouble r.distance,
      fmt.showDouble r.baseCost, if r.operational then "1" else "0"]) = some r := by
  obtain ⟨h1, h2, h3, h4⟩ := h
  have hop1 : ',' ∉ (if r.operational then "1" else "0" : String).data := by
    cases r.operational <;> decide
  have hop2 : (if r.operational then "1" else "0" : String) ≠ "" := by
    cases r.operational <;> decide
  have hop3 : (decide (trim (if r.operational then "1" else "0" : String) = "1") ||
      decide (trim (if r.operational then "1" else "0" : String) = "true")) = r.operational := by
    cases r.operational <;> decide!
  unfold routeOfRow
  rw [split_joinWith ',' _
    (by
      intro f hf
      simp only [List.mem_cons, List.mem_singleton, List.not_mem_nil, or_false] at hf
      rcases hf with rfl | rfl | rfl | rfl | rfl
      exacts [h1.1, h2.1, h3.1, h4.1, hop1])
    (by
      intro f hf
      simp only [List.getLast?_cons_cons, List.getLast?_singleton, Option.some.injEq] at hf
      subst hf
      exact hop2)]
  simp only [List.length_cons, List.length_nil, List.getD_cons_zero, List.getD_cons_succ,
    h1.2.2, h2.2.2, h3.2.2, h4.2.2, hop3]
  simp

theorem flightOfRow_row (fmt : NumberFormat) (f : Flight) (h : f.Storable fmt) :
    flightOfRow fmt (joinWith ',' [f.flightNumber, f.aircraftId, joinRoute f.route,
      fmt.showDouble f.totalDistance, fmt.showDouble f.totalCost,
      fmt.showDouble f.estimatedTime, f.departureTime, f.status]) = some f := by
  obtain ⟨h1, h2, h3, h4, h5, h6, h7, h8, h9⟩ := h
  have hr := cleanField_joinRoute f.route h3
  unfold flightOfRow
  rw [split_joinWith ',' _
    (by
      intro x hx
      simp only [List.mem_cons, List.mem_singleton, List.not_mem_nil, or_false] at hx
      rcases hx with rfl | rfl | rfl | rfl | rfl | rfl | rfl | rfl
      exacts [h1.1, h2.1, hr.1, h4.1, h5.1, h6.1, h7.1, h8.1])
    (by
      intro x hx
      simp only [List.getLast?_cons_cons, List.getLast?_singleton, Option.some.injEq] at hx
      subst hx
      exact h9)]
  simp [h1.2.2, h2.2.2, h4.2.2, h5.2.2, h6.2.2, h7.2.2, h8.2.2, split_joinRoute f.route h3]

theorem airportRow_no_newline (fmt : NumberFormat) (a : Airport) (h : a.Storable fmt) :
    '\n' ∉ (joinWith ',' [a.code, a.name, a.city, a.country, fmt.showDouble a.latitude,
      fmt.showDouble a.longitude]).data := by
  obtain ⟨h1, h2, h3, h4, h5, h6, h7⟩ := h
  refine not_mem_joinWith '\n' ',' (by decide) _ ?_
  intro f hf
  simp only [List.mem_cons, List.mem_singleton, List.not_mem_nil, or_false] at hf
  rcases hf with rfl | rfl | rfl | rfl | rfl | rfl
  exacts [h1.2.1, h2.2.1, h3.2.1, h4.2.1, h5.2.1, h6.2.1]

theorem aircraftRow_no_newline (fmt : NumberFormat) (ac : Aircraft) (h : ac.Storable fmt) :
    '\n' ∉ (joinWith ',' [ac.id, ac.model, fmt.showInt ac.capacity,
      fmt.showDouble ac.cruiseSpeed, fmt.showDouble ac.fuelConsumption,
      Aircraft.statusToString ac.status]).data := by
  obtain ⟨h1, h2, h3, h4, h5⟩ := h
  have hst1 : '\n' ∉ (Aircraft.statusToString ac.status).data := by
    cases ac.status <;> decide
  refine not_mem_joinWith '\n' ',' (by decide) _ ?_
  intro f hf
  simp only [List.mem_cons, List.mem_singleton, List.not_mem_nil, or_false] at hf
  rcases hf with rfl | rfl | rfl | rfl | rfl | rfl
  exacts [h1.2.1, h2.2.1, h3.2.1, h4.2.1, h5.2.1, hst1]

theorem routeRow_no_newline (fmt : NumberFormat) (r : Route) (h : r.Storable fmt) :
    '\n' ∉ (joinWith ',' [r.origin, r.destination, fmt.showDouble r.distance,
      fmt.showDouble r.baseCost, if r.operational then "1" else "0"]).data := by
  obtain ⟨h1, h2, h3, h4⟩ := h
  have hop1 : '\n' ∉ (if r.operational then "1" else "0" : String).data := by
    cases r.operational <;> decide
  refine not_mem_joinWith '\n' ',' (by decide) _ ?_
  intro f hf
  simp only [List.mem_cons, List.mem_singleton, List.not_mem_nil, or_false] at hf
  rcases hf with rfl | rfl | rfl | rfl | rfl
  exacts [h1.2.1, h2.2.1, h3.2.1, h4.2.1, hop1]

theorem flightRow_no_newline (fmt : NumberFormat) (f : Flight) (h : f.Storable fmt) :
    '\n' ∉ (joinWith ',' [f.flightNumber, f.aircraftId, joinRoute f.route,
      fmt.showDouble f.totalDistance, fmt.showDouble f.totalCost,
      fmt.showDouble f.estimatedTime, f.departureTime, f.status]).data := by
  obtain ⟨h1, h2, h3, h4, h5, h6, h7, h8, h9⟩ := h
  have hr := cleanField_joinRoute f.route h3
  refine not_mem_joinWith '\n' ',' (by decide) _ ?_
  intro x hx
  simp only [List.mem_cons, List.mem_singleton, List.not_mem_nil, or_false] at hx
  rcases hx with rfl | rfl | rfl | rfl | rfl | rfl | rfl | rfl
  exacts [h1.2.1, h2.2.1, hr.2.1, h4.2.1, h5.2.1, h6.2.1, h7.2.1, h8.2.1]

/-! ## Entities are stored under their own keys -/

theorem StdMap.keyed_set {V : Type} (key : V → String) (m : StdMap V) (k : String) (v : V)
    (hm : ∀ p ∈ m.entries, key p.2 = p.1) (hv : key v = k) :
    ∀ p ∈ (m.set k v).entries, key p.2 = p.1 := by
  rintro ⟨j, w⟩ hp
  rw [StdMap.mem_entries_iff, StdMap.find_set] at hp
  split_ifs at hp with hj
  · simp only [Option.some.injEq] at hp
    subst hp
    simpa [hj] using hv
  · exact hm (j, w) ((StdMap.mem_entries_iff m j w).mpr hp)

theorem StdMap.keyed_erase {V : Type} (key : V → String) (m : StdMap V) (k : String)
    (hm : ∀ p ∈ m.entries, key p.2 = p.1) :
    ∀ p ∈ (m.erase k).entries, key p.2 = p.1 := by
  rintro ⟨j, w⟩ hp
  rw [StdMap.mem_entries_iff, StdMap.find_erase] at hp
  split_ifs at hp with hj
  exact hm (j, w) ((StdMap.mem_entries_iff m j w).mpr hp)

theorem StdMap.keyed_foldl_erase {V : Type} (key : V → String) (ids : List String)
    (m : StdMap V) (hm : ∀ p ∈ m.entries, key p.2 = p.1) :
    ∀ p ∈ (ids.foldl (fun m id => m.erase id) m).entries, key p.2 = p.1 := by
  induction ids generalizing m with
  | nil => exact hm
  | cons id rest ih => exact ih _ (StdMap.keyed_erase key m id hm)

theorem keyed_storeEach {V : Type} (key : V → String) (vs : List V) (m : StdMap V)
    (hm : ∀ p ∈ m.entries, key p.2 = p.1) :
    ∀ p ∈ (storeEach key m vs).entries, key p.2 = p.1 := by
  induction vs generalizing m with
  | nil => exact hm
  | cons v rest ih => exact ih _ (StdMap.keyed_set key m (key v) v hm rfl)

namespace DataStore

theorem keyed_empty : DataStore.empty.Keyed := by
  refine ⟨?_, ?_, ?_, ?_⟩ <;> intro p hp <;> simp [DataStore.empty, StdMap.empty] at hp

theorem loadAll_airports (fmt : NumberFormat) (files : Files) (s : DataStore) :
    (loadAll fmt files s).2.airports = (loadAirports fmt files.airports s).2.airports := by
  obtain ⟨fa, fb, fc, fd⟩ := files
  unfold loadAll
  cases fa <;> cases fb <;> cases fc <;> cases fd <;> rfl

theorem loadAll_aircraft (fmt : NumberFormat) (files : Files) (s : DataStore) :
    (loadAll fmt files s).2.aircraft = (loadAircraft fmt files.aircraft s).2.aircraft := by
  obtain ⟨fa, fb, fc, fd⟩ := files
  unfold loadAll
  cases fa <;> cases fb <;> cases fc <;> cases fd <;> rfl

theorem loadAll_routes (fmt : NumberFormat) (files : Files) (s : DataStore) :
    (loadAll fmt files s).2.routes = (loadRoutes fmt files.routes s).2.routes := by
  obtain ⟨fa, fb, fc, fd⟩ := files
  unfold loadAll
  cases fa <;> cases fb <;> cases fc <;> cases fd <;> rfl

theorem loadAll_flights (fmt : NumberFormat) (files : Files) (s : DataStore) :
    (loadAll fmt files s).2.flights = (loadFlights fmt files.flights s).2.flights := by
  obtain ⟨fa, fb, fc, fd⟩ := files
  unfold loadAll
  cases fa <;> cases fb <;> cases fc <;> cases fd <;> rfl

theorem keyed_loadAll (fmt : NumberFormat) (files : Files) (s : DataStore) (h : s.Keyed) :
    (loadAll fmt files s).2.Keyed := by
  obtain ⟨h1, h2, h3, h4⟩ := h
  have e1 := loadAll_airports fmt files s
  have e2 := loadAll_aircraft fmt files s
  have e3 := loadAll_routes fmt files s
  have e4 := loadAll_flights fmt files s
  obtain ⟨fa, fb, fc, fd⟩ := files
  simp only at e1 e2 e3 e4
  refine ⟨?_, ?_, ?_, ?_⟩
  · rw [e1]
    cases fa with
    | none => exact h1
    | some content =>
      simp only [loadAirports]
      rw [foldl_row_eq_storeEach (fun a => a.code) (airportOfRow fmt) _ (loadAirportRow_eq fmt)]
      exact keyed_storeEach _ _ _ h1
  · rw [e2]
    cases fb with
    | none => exact h2
    | some content =>
      simp only [loadAircraft]
      rw [foldl_row_eq_storeEach (fun a => a.id) (aircraftOfRow fmt) _ (loadAircraftRow_eq fmt)]
      exact keyed_storeEach _ _ _ h2
  · rw [e3]
    cases fc with
    | none => exact h3
    | some content =>
      simp only [loadRoutes]
      rw [foldl_row_eq_storeEach Route.getId (routeOfRow fmt) _ (loadRouteRow_eq fmt)]
      exact keyed_storeEach _ _ _ h3
  · rw [e4]
    cases fd with
    | none => exact h4
    | some content =>
      simp only [loadFlights]
      rw [foldl_row_eq_storeEach (fun f => f.flightNumber) (flightOfRow fmt) _
        (loadFlightRow_eq fmt)]
      exact keyed_storeEach _ _ _ h4

/-- Every call keeps each entity stored under its own key. -/
theorem exec_keyed (fmt : NumberFormat) (s : DataStore) (op : StoreOp) (h : s.Keyed) :
    (s.exec fmt op).2.Keyed := by
  obtain ⟨h1, h2, h3, h4⟩ := h
  cases op with
  | addAirport a =>
    simp only [exec]
    unfold addAirport
    split_ifs
    · exact ⟨h1, h2, h3, h4⟩
    · exact ⟨StdMap.keyed_set _ _ _ _ h1 rfl, h2, h3, h4⟩
  | deleteAirport code =>
    simp only [exec]
    unfold deleteAirport
    cases s.airports.find code with
    | none => exact ⟨h1, h2, h3, h4⟩
    | some a =>
      exact ⟨StdMap.keyed_erase _ _ _ h1, h2, StdMap.keyed_foldl_erase _ _ _ h3, h4⟩
  | updateAirport a =>
    simp only [exec]
    unfold updateAirport
    split_ifs
    · exact ⟨h1, h2, h3, h4⟩
    · exact ⟨StdMap.keyed_set _ _ _ _ h1 rfl, h2, h3, h4⟩
  | addAircraft a =>
    simp only [exec]
    unfold addAircraft
    split_ifs
    · exact ⟨h1, h2, h3, h4⟩
    · exact ⟨h1, StdMap.keyed_set _ _ _ _ h2 rfl, h3, h4⟩
  | deleteAircraft a =>
    simp only [exec]
    unfold deleteAircraft
    split_ifs
    · exact ⟨h1, h2, h3, h4⟩
    · exact ⟨h1, StdMap.keyed_erase _ _ _ h2, h3, h4⟩
  | updateAircraft a =>
    simp only [exec]
    unfold updateAircraft
    split_ifs
    · exact ⟨h1, h2, h3, h4⟩
    · exact ⟨h1, StdMap.keyed_set _ _ _ _ h2 rfl, h3, h4⟩
  | addRoute a =>
    simp only [exec]
    unfold addRoute
    simp only
    split_ifs
    · exact ⟨h1, h2, h3, h4⟩
    · exact ⟨h1, h2, StdMap.keyed_set _ _ _ _ h3 rfl, h4⟩
  | deleteRoute a =>
    simp only [exec]
    unfold deleteRoute
    split_ifs
    · exact ⟨h1, h2, h3, h4⟩
    · exact ⟨h1, h2, StdMap.keyed_erase _ _ _ h3, h4⟩
  | updateRoute a =>
    simp only [exec]
    unfold updateRoute
    simp only
    split_ifs
    · exact ⟨h1, h2, h3, h4⟩
    · exact ⟨h1, h2, StdMap.keyed_set _ _ _ _ h3 rfl, h4⟩
  | addFlight a =>
    simp only [exec]
    unfold addFlight
    split_ifs
    · exact ⟨h1, h2, h3, h4⟩
    · exact ⟨h1, h2, h3, StdMap.keyed_set _ _ _ _ h4 rfl⟩
  | deleteFlight a =>
    simp only [exec]
    unfold deleteFlight
    split_ifs
    · exact ⟨h1, h2, h3, h4⟩
    · exact ⟨h1, h2, h3, StdMap.keyed_erase _ _ _ h4⟩
  | undo =>
    simp only [exec]
    unfold undo
    cases s.undoStack with
    | nil => exact ⟨h1, h2, h3, h4⟩
    | cons a rest => exact ⟨h1, h2, h3, h4⟩
  | clearUndoStack => exact ⟨h1, h2, h3, h4⟩
  | rebuildGraph => exact ⟨h1, h2, h3, h4⟩
  | loadAll files => exact keyed_loadAll fmt files s ⟨h1, h2, h3, h4⟩

theorem Reachable.keyed {fmt : NumberFormat} {s : DataStore} (hs : s.Reachable fmt) :
    s.Keyed :=
  Reachable.induction (P := fun s => s.Keyed) keyed_empty
    (fun s op h => exec_keyed fmt s op h) hs

end DataStore

/-! ## Saving, then loading into an empty store -/

/-- The rows saved for the values of a map, loaded into an empty map, give
the map back, when each value is stored under its key and is read back from
its own row. -/
theorem load_saved_rows {V : Type} (key : V → String) (parse : String → Option V)
    (body : V → String) (header : String) (hh : '\n' ∉ header.data) (m : StdMap V)
    (hk : ∀ p ∈ m.entries, key p.2 = p.1) (hb : ∀ v ∈ m.values, '\n' ∉ (body v).data)
    (hp : ∀ v ∈ m.values, parse (body v) = some v) :
    storeEach key StdMap.empty
      ((fileLines (header ++ "\n" ++
        concatRows (m.entries.map (fun p => body p.2 ++ "\n")))).tail.filterMap parse) = m := by
  have hrows : m.entries.map (fun p => body p.2 ++ "\n") =
      (m.values.map body).map (fun b => b ++ "\n") := by
    simp [StdMap.values, List.map_map, Function.comp_def]
  rw [hrows, fileLines_rows header (m.values.map body) hh
    (by
      intro b hb'
      obtain ⟨v, hv, rfl⟩ := List.mem_map.mp hb'
      exact hb v hv)]
  rw [List.tail_cons, filterMap_rows parse body m.values hp]
  exact storeEach_values key m hk

namespace DataStore

theorem loadAirports_airportsText (fmt : NumberFormat) (s : DataStore)
    (hk : ∀ p ∈ s.airports.entries, p.2.code = p.1)
    (hst : ∀ a ∈ s.getAllAirports, a.Storable fmt) :
    (loadAirports fmt (some (airportsText fmt s)) DataStore.empty).2.airports = s.airports := by
  simp only [loadAirports]
  rw [foldl_row_eq_storeEach (fun a => a.code) (airportOfRow fmt) _ (loadAirportRow_eq fmt)]
  have hsave : airportsText fmt s = "Code,Name,City,Country,Latitude,Longitude" ++ "\n" ++
      concatRows (s.airports.entries.map (fun p =>
        joinWith ',' [p.2.code, p.2.name, p.2.city, p.2.country,
          fmt.showDouble p.2.latitude, fmt.showDouble p.2.longitude] ++ "\n")) := by
    unfold airportsText
    simp only [airportRow_eq]
    rfl
  rw [hsave]
  exact load_saved_rows (fun a => a.code) (airportOfRow fmt)
    (fun a => joinWith ',' [a.code, a.name, a.city, a.country, fmt.showDouble a.latitude,
      fmt.showDouble a.longitude]) "Code,Name,City,Country,Latitude,Longitude" (by decide)
    s.airports hk
    (fun a ha => airportRow_no_newline fmt a (hst a ha))
    (fun a ha => airportOfRow_row fmt a (hst a ha))

theorem loadAircraft_aircraftText (fmt : NumberFormat) (s s0 : DataStore)
    (h0 : s0.aircraft = StdMap.empty)
    (hk : ∀ p ∈ s.aircraft.entries, p.2.id = p.1)
    (hst : ∀ a ∈ s.getAllAircraft, a.Storable fmt) :
    (loadAircraft fmt (some (aircraftText fmt s)) s0).2.aircraft = s.aircraft := by
  simp only [loadAircraft]
  rw [foldl_row_eq_storeEach (fun a => a.id) (aircraftOfRow fmt) _ (loadAircraftRow_eq fmt), h0]
  have hsave : aircraftText fmt s =
      "ID,Model,Capacity,CruiseSpeed,FuelConsumption,Status" ++ "\n" ++
      concatRows (s.aircraft.entries.map (fun p =>
        joinWith ',' [p.2.id, p.2.model, fmt.showInt p.2.capacity,
          fmt.showDouble p.2.cruiseSpeed, fmt.showDouble p.2.fuelConsumption,
          Aircraft.statusToString p.2.status] ++ "\n")) := by
    unfold aircraftText
    simp only [aircraftRow_eq]
    rfl
  rw [hsave]
  exact load_saved_rows (fun a => a.id) (aircraftOfRow fmt)
    (fun ac => joinWith ',' [ac.id, ac.model, fmt.showInt ac.capacity,
      fmt.showDouble ac.cruiseSpeed, fmt.showDouble ac.fuelConsumption,
      Aircraft.statusToString ac.status])
    "ID,Model,Capacity,CruiseSpeed,FuelConsumption,Status" (by decide) s.aircraft hk
    (fun a ha => aircraftRow_no_newline fmt a (hst a ha))
    (fun a ha => aircraftOfRow_row fmt a (hst a ha))

theorem loadRoutes_routesText (fmt : NumberFormat) (s s0 : DataStore)
    (h0 : s0.routes = StdMap.empty)
    (hk : ∀ p ∈ s.routes.entries, p.2.getId = p.1)
    (hst : ∀ r ∈ s.getAllRoutes, r.Storable fmt) :
    (loadRoutes fmt (some (routesText fmt s)) s0).2.routes = s.routes := by
  simp only [loadRoutes]
  rw [foldl_row_eq_storeEach Route.getId (routeOfRow fmt) _ (loadRouteRow_eq fmt), h0]
  have hsave : routesText fmt s =
      "Origin,Destination,Distance,BaseCost,Operational" ++ "\n" ++
      concatRows (s.routes.entries.map (fun p =>
        joinWith ',' [p.2.origin, p.2.destination, fmt.showDouble p.2.distance,
          fmt.showDouble p.2.baseCost, if p.2.operational then "1" else "0"] ++ "\n")) := by
    unfold routesText
    simp only [routeRow_eq]
    rfl
  rw [hsave]
  exact load_saved_rows Route.getId (routeOfRow fmt)
    (fun r => joinWith ',' [r.origin, r.destination, fmt.showDouble r.distance,
      fmt.showDouble r.baseCost, if r.operational then "1" else "0"])
    "Origin,Destination,Distance,BaseCost,Operational" (by decide) s.routes hk
    (fun a ha => routeRow_no_newline fmt a (hst a ha))
    (fun a ha => routeOfRow_row fmt a (hst a ha))

theorem loadFlights_flightsText (fmt : NumberFormat) (s s0 : DataStore)
    (h0 : s0.flights = StdMap.empty)
    (hk : ∀ p ∈ s.flights.entries, p.2.flightNumber = p.1)
    (hst : ∀ f ∈ s.getAllFlights, f.Storable fmt) :
    (loadFlights fmt (some (flightsText fmt s)) s0).2.flights = s.flights := by
  simp only [loadFlights]
  rw [foldl_row_eq_storeEach (fun f => f.flightNumber) (flightOfRow fmt) _
    (loadFlightRow_eq fmt), h0]
  have hsave : flightsText fmt s =
      "FlightNumber,AircraftID,Route,TotalDistance,TotalCost,EstimatedTime,DepartureTime,Status"
        ++ "\n" ++
      concatRows (s.flights.entries.map (fun p =>
        joinWith ',' [p.2.flightNumber, p.2.aircraftId, joinRoute p.2.route,
          fmt.showDouble p.2.totalDistance, fmt.showDouble p.2.totalCost,
          fmt.showDouble p.2.estimatedTime, p.2.departureTime, p.2.status] ++ "\n")) := by
    unfold flightsText
    simp only [flightRow_eq]
    rfl
  rw [hsave]
  exact load_saved_rows (fun f => f.flightNumber) (flightOfRow fmt)
    (fun f => joinWith ',' [f.flightNumber, f.aircraftId, joinRoute f.route,
      fmt.showDouble f.totalDistance, fmt.showDouble f.totalCost,
      fmt.showDouble f.estimatedTime, f.departureTime, f.status])
    "FlightNumber,AircraftID,Route,TotalDistance,TotalCost,EstimatedTime,DepartureTime,Status"
    (by decide) s.flights hk
    (fun a ha => flightRow_no_newline fmt a (hst a ha))
    (fun a ha => flightOfRow_row fmt a (hst a ha))

end DataStore

/-- When `saveAll` reports success every stream opened, and the four files
hold the four texts. -/
theorem DataStore.saveAll_success (fmt : NumberFormat) (w : Writable) (old : Files)
    (s : DataStore) :
    ((DataStore.saveAll fmt w old s).1 = true ↔
      (w.airports = true ∧ w.aircraft = true ∧ w.routes = true ∧ w.flights = true)) ∧
    ((DataStore.saveAll fmt w old s).1 = true →
      (DataStore.saveAll fmt w old s).2 =
        { airports := some (DataStore.airportsText fmt s)
          aircraft := some (DataStore.aircraftText fmt s)
          routes := some (DataStore.routesText fmt s)
          flights := some (DataStore.flightsText fmt s) }) := by
  obtain ⟨w1, w2, w3, w4⟩ := w
  cases w1 <;> cases w2 <;> cases w3 <;> cases w4 <;>
    simp [DataStore.saveAll, DataStore.saveAirports, DataStore.saveAircraft,
      DataStore.saveRoutes, DataStore.saveFlights]

/-- C17, as the code has it: `saveAll` reports success exactly when each of
the four files opens for writing.  When it does, for every store reached from
the empty store by calls of its operations (the stores built by add
operations among them) whose text fields hold no comma, no line break and no
white space at either end, whose flights have a status that is not empty and
route codes that are not empty and hold no dash, and whose numbers the
library writes in a form it reads back as the same value, `loadAll` of the
saved files into an empty store reports success and gives back the four
collections, equal by key and by every field. -/
theorem save_load_round_trip (fmt : NumberFormat) (w : Writable) (old : Files)
    (s : DataStore) (hs : s.Reachable fmt) (hst : s.Storable fmt) :
    ((DataStore.saveAll fmt w old s).1 = true ↔
      (w.airports = true ∧ w.aircraft = true ∧ w.routes = true ∧ w.flights = true)) ∧
    ((DataStore.saveAll fmt w old s).1 = true →
      (DataStore.loadAll fmt (DataStore.saveAll fmt w old s).2 DataStore.empty).1 = true ∧
      (DataStore.loadAll fmt (DataStore.saveAll fmt w old s).2 DataStore.empty).2.airports
        = s.airports ∧
      (DataStore.loadAll fmt (DataStore.saveAll fmt w old s).2 DataStore.empty).2.aircraft
        = s.aircraft ∧
      (DataStore.loadAll fmt (DataStore.saveAll fmt w old s).2 DataStore.empty).2.routes
        = s.routes ∧
      (DataStore.loadAll fmt (DataStore.saveAll fmt w old s).2 DataStore.empty).2.flights
        = s.flights) := by
  obtain ⟨k1, k2, k3, k4⟩ := hs.keyed
  obtain ⟨s1, s2, s3, s4⟩ := hst
  refine ⟨(DataStore.saveAll_success fmt w old s).1, fun hsave => ?_⟩
  rw [(DataStore.saveAll_success fmt w old s).2 hsave]
  refine ⟨(DataStore.loadAll_fields fmt _ _).1, ?_, ?_, ?_, ?_⟩
  · rw [DataStore.loadAll_airports]
    exact DataStore.loadAirports_airportsText fmt s k1 s1
  · rw [DataStore.loadAll_aircraft]
    exact DataStore.loadAircraft_aircraftText fmt s _ rfl k2 s2
  · rw [DataStore.loadAll_routes]
    exact DataStore.loadRoutes_routesText fmt s _ rfl k3 s3
  · rw [DataStore.loadAll_flights]
    exact DataStore.loadFlights_flightsText fmt s _ rfl k4 s4

theorem save_load_round_trip_witness :
    fullStore.Storable plainNumbers ∧
    fullStore.getAllFlights =
      [⟨"FL001", "AC1", ["JFK", "LAX"], 3983, 6000, 5, "2024-01-01 10:00", "SCHEDULED"⟩] ∧
    (DataStore.saveAll plainNumbers ⟨true, true, false, true⟩ ⟨none, none, none, none⟩
      fullStore).1 = false ∧
    (DataStore.loadAll plainNumbers
      (DataStore.saveAll plainNumbers ⟨true, true, false, true⟩ ⟨none, none, none, none⟩
        fullStore).2 DataStore.empty).2.getAllRoutes = [] ∧
    (DataStore.saveAll plainNumbers ⟨true, true, true, true⟩ ⟨none, none, none, none⟩
      fullStore).1 = true ∧
    (DataStore.loadAll plainNumbers
      (DataStore.saveAll plainNumbers ⟨true, true, true, true⟩ ⟨none, none, none, none⟩
        fullStore).2 DataStore.empty).2.airports = fullStore.airports ∧
    (DataStore.loadAll plainNumbers
      (DataStore.saveAll plainNumbers ⟨true, true, true, true⟩ ⟨none, none, none, none⟩
        fullStore).2 DataStore.empty).2.aircraft = fullStore.aircraft ∧
    (DataStore.loadAll plainNumbers
      (DataStore.saveAll plainNumbers ⟨true, true, true, true⟩ ⟨none, none, none, none⟩
        fullStore).2 DataStore.empty).2.routes = fullStore.routes ∧
    (DataStore.loadAll plainNumbers
      (DataStore.saveAll plainNumbers ⟨true, true, true, true⟩ ⟨none, none, none, none⟩
        fullStore).2 DataStore.empty).2.flights = fullStore.flights :=
  ⟨by decide!, by decide!, by decide!, by decide!, rfl,
    ((save_load_round_trip plainNumbers ⟨true, true, true, true⟩ ⟨none, none, none, none⟩
      fullStore ⟨fullStoreOps, rfl⟩ (by decide!)).2 rfl).2⟩

/-! ## A name with a comma is not read back -/

theorem mem_storeEach {V : Type} (key : V → String) (vs : List V) (m : StdMap V) :
    ∀ p ∈ (storeEach key m vs).entries, p ∈ m.entries ∨ p.2 ∈ vs := by
  induction vs generalizing m with
  | nil => intro p hp; exact Or.inl hp
  | cons v rest ih =>
    rintro ⟨j, w⟩ hp
    rcases ih (m.set (key v) v) (j, w) hp with h | h
    · rw [StdMap.mem_entries_iff, StdMap.find_set] at h
      split_ifs at h with hj
      · simp only [Option.some.injEq] at h
        subst h
        exact Or.inr (List.mem_cons_self _ _)
      · exact Or.inl ((StdMap.mem_entries_iff m j w).mpr h)
    · exact Or.inr (List.mem_cons_of_mem _ h)

/-- The name of an airport read from a row holds no comma. -/
theorem airportOfRow_name (fmt : NumberFormat) (line : String) (a : Airport)
    (h : airportOfRow fmt line = some a) : ',' ∉ a.name.data := by
  unfold airportOfRow at h
  simp only at h
  split_ifs at h with hlen
  cases h4 : fmt.stod (trim ((split line ',').getD 4 "")) with
  | none => rw [h4] at h; simp at h
  | some latitude =>
    cases h5 : fmt.stod (trim ((split line ',').getD 5 "")) with
    | none => rw [h4, h5] at h; simp at h
    | some longitude =>
      rw [h4, h5] at h
      simp only [Option.some_bind, Option.some.injEq] at h
      subst h
      intro hmem
      have h1 := mem_data_of_mem_trim _ _ hmem
      have hlt : 1 < (split line ',').length := by omega
      rw [List.getD_eq_getElem _ _ hlt] at h1
      exact not_mem_of_mem_split line ',' _ (List.getElem_mem hlt) h1

/-- The name of an airport loaded from files into an empty store holds no
comma. -/
theorem loadAll_airport_name (fmt : NumberFormat) (files : Files) (code : String)
    (a : Airport)
    (h : (DataStore.loadAll fmt files DataStore.empty).2.getAirport code = some a) :
    ',' ∉ a.name.data := by
  unfold DataStore.getAirport at h
  rw [DataStore.loadAll_airports] at h
  cases hf : files.airports with
  | none =>
    rw [hf] at h
    simp [DataStore.loadAirports, DataStore.empty] at h
  | some content =>
    rw [hf] at h
    simp only [DataStore.loadAirports] at h
    rw [foldl_row_eq_storeEach (fun a => a.code) (airportOfRow fmt) _
      (DataStore.loadAirportRow_eq fmt), ← StdMap.mem_entries_iff] at h
    rcases mem_storeEach _ _ _ _ h with h1 | h1
    · simp [DataStore.empty, StdMap.empty] at h1
    · obtain ⟨line, _, hline⟩ := List.mem_filterMap.mp h1
      exact airportOfRow_name fmt line a hline

/-- C17 fails on an airport whose name holds a comma: the store built by
adding `commaAirport` is saved as a row of seven fields, and no airport
loaded from the saved files is equal to `commaAirport`, whatever the number
format; with plain decimal numbers the row is skipped and no airport is
loaded at all. -/
theorem save_load_comma_name :
    (DataStore.empty.addAirport commaAirport).1 = true ∧
    commaStore.getAirport "JFK" = some commaAirport ∧
    (DataStore.saveAll plainNumbers ⟨true, true, true, true⟩ ⟨none, none, none, none⟩
      commaStore).1 = true ∧
    (DataStore.saveAll plainNumbers ⟨true, true, true, true⟩ ⟨none, none, none, none⟩
      commaStore).2.airports =
        some ("Code,Name,City,Country,Latitude,Longitude\n" ++
          "JFK,Kennedy, John F,New York,USA,40,-73\n") ∧
    (DataStore.loadAll plainNumbers
      (DataStore.saveAll plainNumbers ⟨true, true, true, true⟩ ⟨none, none, none, none⟩
        commaStore).2 DataStore.empty).2.getAllAirports = [] ∧
    (∀ (fmt : NumberFormat) (w : Writable) (old : Files),
      (DataStore.loadAll fmt (DataStore.saveAll fmt w old commaStore).2
        DataStore.empty).2.getAirport "JFK" ≠ some commaAirport) := by
  refine ⟨by decide!, by decide!, rfl, by decide!, by decide!, ?_⟩
  intro fmt w old h
  exact loadAll_airport_name fmt _ "JFK" commaAirport h (by decide)


/-! ## What the operations of the store leave alone, and what they log -/

/-- C26: `addAircraft`, `deleteAircraft`, `updateAircraft`, `addFlight` and
`deleteFlight` leave the graph, the airports and the routes as they were,
whether they succeed or fail. -/
theorem aircraft_flight_ops_frame (s : DataStore) :
    (∀ ac : Aircraft, (s.addAircraft ac).2.graph = s.graph ∧
      (s.addAircraft ac).2.airports = s.airports ∧ (s.addAircraft ac).2.routes = s.routes) ∧
    (∀ id : String, (s.deleteAircraft id).2.graph = s.graph ∧
      (s.deleteAircraft id).2.airports = s.airports ∧
      (s.deleteAircraft id).2.routes = s.routes) ∧
    (∀ ac : Aircraft, (s.updateAircraft ac).2.graph = s.graph ∧
      (s.updateAircraft ac).2.airports = s.airports ∧
      (s.updateAircraft ac).2.routes = s.routes) ∧
    (∀ flight : Flight, (s.addFlight flight).2.graph = s.graph ∧
      (s.addFlight flight).2.airports = s.airports ∧
      (s.addFlight flight).2.routes = s.routes) ∧
    (∀ flightNum : String, (s.deleteFlight flightNum).2.graph = s.graph ∧
      (s.deleteFlight flightNum).2.airports = s.airports ∧
      (s.deleteFlight flightNum).2.routes = s.routes) := by
  refine ⟨?_, ?_, ?_, ?_, ?_⟩
  · intro ac
    unfold DataStore.addAircraft
    split_ifs <;> exact ⟨rfl, rfl, rfl⟩
  · intro id
    unfold DataStore.deleteAircraft
    split_ifs <;> exact ⟨rfl, rfl, rfl⟩
  · intro ac
    unfold DataStore.updateAircraft
    split_ifs <;> exact ⟨rfl, rfl, rfl⟩
  · intro flight
    unfold DataStore.addFlight
    split_ifs <;> exact ⟨rfl, rfl, rfl⟩
  · intro flightNum
    unfold DataStore.deleteFlight
    split_ifs <;> exact ⟨rfl, rfl, rfl⟩

/-- The effect of `pushUndo` on the log: the new record on top of the
records there were, less the oldest one when the log was full. -/
theorem pushUndo_cons (undoStack : List Action) (action : Action) :
    pushUndo undoStack action =
      action :: (if undoStack.length < MAX_UNDO then undoStack else undoStack.dropLast) := by
  rw [pushUndo_eq]
  unfold MAX_UNDO
  split_ifs with h1 h2 h2
  · omega
  · cases undoStack with
    | nil => simp at h1
    | cons x t => rfl
  · rfl
  · omega

/-- C25: a successful add or delete of an airport, an aircraft, a route or a
flight makes one call of `pushUndo`, with a record of the ActionType of the
entity and the operation (one DELETE_AIRPORT record for `deleteAirport`,
cascade or not), and that call puts the record on top of the log; the three
updates leave the log as it was. -/
theorem mutation_undo_records (s : DataStore) :
    (∀ a : Airport, (s.addAirport a).1 = true →
      (s.addAirport a).2.undoStack =
        pushUndo s.undoStack ⟨ActionType.ADD_AIRPORT, serializeAirport a⟩) ∧
    (∀ code : String, (s.deleteAirport code).1 = true →
      ∃ found, s.getAirport code = some found ∧
        (s.deleteAirport code).2.undoStack =
          pushUndo s.undoStack ⟨ActionType.DELETE_AIRPORT, serializeAirport found⟩) ∧
    (∀ ac : Aircraft, (s.addAircraft ac).1 = true →
      (s.addAircraft ac).2.undoStack =
        pushUndo s.undoStack ⟨ActionType.ADD_AIRCRAFT, ac.id⟩) ∧
    (∀ id : String, (s.deleteAircraft id).1 = true →
      (s.deleteAircraft id).2.undoStack =
        pushUndo s.undoStack ⟨ActionType.DELETE_AIRCRAFT, id⟩) ∧
    (∀ r : Route, (s.addRoute r).1 = true →
      (s.addRoute r).2.undoStack = pushUndo s.undoStack ⟨ActionType.ADD_ROUTE, r.getId⟩) ∧
    (∀ routeId : String, (s.deleteRoute routeId).1 = true →
      (s.deleteRoute routeId).2.undoStack =
        pushUndo s.undoStack ⟨ActionType.DELETE_ROUTE, routeId⟩) ∧
    (∀ f : Flight, (s.addFlight f).1 = true →
      (s.addFlight f).2.undoStack =
        pushUndo s.undoStack ⟨ActionType.ADD_FLIGHT, f.flightNumber⟩) ∧
    (∀ flightNum : String, (s.deleteFlight flightNum).1 = true →
      (s.deleteFlight flightNum).2.undoStack =
        pushUndo s.undoStack ⟨ActionType.DELETE_FLIGHT, flightNum⟩) ∧
    (∀ a : Airport, (s.updateAirport a).2.undoStack = s.undoStack) ∧
    (∀ ac : Aircraft, (s.updateAircraft ac).2.undoStack = s.undoStack) ∧
    (∀ r : Route, (s.updateRoute r).2.undoStack = s.undoStack) ∧
    (∀ (undoStack : List Action) (action : Action),
      pushUndo undoStack action =
        action :: (if undoStack.length < MAX_UNDO then undoStack else undoStack.dropLast)) := by
  refine ⟨?_, ?_, ?_, ?_, ?_, ?_, ?_, ?_, ?_, ?_, ?_, pushUndo_cons⟩
  · intro a h
    unfold DataStore.addAirport at h ⊢
    split_ifs at h ⊢
    rfl
  · intro code h
    unfold DataStore.deleteAirport at h ⊢
    unfold DataStore.getAirport
    cases hf : s.airports.find code with
    | none => rw [hf] at h; simp at h
    | some found => exact ⟨found, rfl, rfl⟩
  · intro ac h
    unfold DataStore.addAircraft at h ⊢
    split_ifs at h ⊢
    rfl
  · intro id h
    unfold DataStore.deleteAircraft at h ⊢
    split_ifs at h ⊢
    rfl
  · intro r h
    unfold DataStore.addRoute at h ⊢
    simp only at h ⊢
    split_ifs at h ⊢
    rfl
  · intro routeId h
    unfold DataStore.deleteRoute at h ⊢
    split_ifs at h ⊢
    rfl
  · intro f h
    unfold DataStore.addFlight at h ⊢
    split_ifs at h ⊢
    rfl
  · intro flightNum h
    unfold DataStore.deleteFlight at h ⊢
    split_ifs at h ⊢
    rfl
  · intro a
    unfold DataStore.updateAirport
    split_ifs <;> rfl
  · intro ac
    unfold DataStore.updateAircraft
    split_ifs <;> rfl
  · intro r
    unfold DataStore.updateRoute
    simp only
    split_ifs <;> rfl

theorem mutation_undo_records_witness :
    (sampleStore.deleteAirport "JFK").1 = true ∧
    sampleStore.getAllRoutes.length = 3 ∧
    (sampleStore.deleteAirport "JFK").2.getAllRoutes.length = 1 ∧
    (sampleStore.deleteAirport "JFK").2.undoStack.head? =
      some ⟨ActionType.DELETE_AIRPORT, "JFK,Kennedy,New York,USA"⟩ ∧
    (sampleStore.deleteAirport "JFK").2.undoStack.length = sampleStore.undoStack.length ∧
    ∃ found, sampleStore.getAirport "JFK" = some found ∧
      (sampleStore.deleteAirport "JFK").2.undoStack =
        pushUndo sampleStore.undoStack ⟨ActionType.DELETE_AIRPORT, serializeAirport found⟩ :=
  ⟨by decide!, by decide!, by decide!, by decide!, by decide!,
    (mutation_undo_records sampleStore).2.1 "JFK" (by decide!)⟩

/-! ## The nodes of the rebuilt graph -/

/-- C28: after `rebuildGraph` the nodes of the graph are the stored airport
codes together with the origin and the destination of every stored route
flagged operational: both ends of an operational route are nodes, stored
airports or not, and a name that is no stored airport code and occurs only
in routes that are not operational is no node. -/
theorem rebuildGraph_nodes (s : DataStore) :
    (∀ n : String, (DataStore.rebuildGraph s).graph.hasNode n = true ↔
      (s.airports.contains n = true ∨
        ∃ r ∈ s.getAllRoutes, r.operational = true ∧ (r.origin = n ∨ r.destination = n))) ∧
    (∀ r ∈ s.getAllRoutes, r.operational = true →
      (DataStore.rebuildGraph s).graph.hasNode r.origin = true ∧
        (DataStore.rebuildGraph s).graph.hasNode r.destination = true) ∧
    (∀ n : String, s.airports.contains n = false →
      (∀ r ∈ s.getAllRoutes, r.origin = n ∨ r.destination = n → r.operational = false) →
      (DataStore.rebuildGraph s).graph.hasNode n = false) := by
  refine ⟨DataStore.hasNode_rebuildGraph_iff s, ?_, ?_⟩
  · intro r hr hop
    exact ⟨(DataStore.hasNode_rebuildGraph_iff s _).mpr (Or.inr ⟨r, hr, hop, Or.inl rfl⟩),
      (DataStore.hasNode_rebuildGraph_iff s _).mpr (Or.inr ⟨r, hr, hop, Or.inr rfl⟩)⟩
  · intro n hn hroutes
    cases hnode : (DataStore.rebuildGraph s).graph.hasNode n with
    | false => rfl
    | true =>
      rcases (DataStore.hasNode_rebuildGraph_iff s n).mp hnode with h | ⟨r, hr, hop, hends⟩
      · rw [hn] at h; exact absurd h (by decide)
      · rw [hroutes r hr hends] at hop; exact absurd hop (by decide)

theorem rebuildGraph_nodes_witness :
    strayRoutesStore.airports.keys = ["TST"] ∧
    strayRoutesStore.routes.keys = ["JFK-LAX", "ORD-DFW"] ∧
    (DataStore.rebuildGraph strayRoutesStore).graph.nodes.keys = ["JFK", "LAX", "TST"] ∧
    (DataStore.rebuildGraph strayRoutesStore).graph.hasNode "ORD" = false ∧
    (DataStore.rebuildGraph strayRoutesStore).graph.hasNode "JFK" = true ∧
    (DataStore.rebuildGraph strayRoutesStore).graph.hasNode "LAX" = true :=
  ⟨by decide!, by decide!, by decide!, by decide!,
    (rebuildGraph_nodes strayRoutesStore).2.1 ⟨"JFK", "LAX", 3983, 6000, true⟩ (by decide!)
      rfl⟩

/-! ## The rebuilt graph is symmetric -/

theorem mem_overwriteOrAppend_iff (to_ : String) (w c : ℚ) (es : List Edge) (e : Edge)
    (hnd : (es.map (fun e => e.destination)).Nodup) :
    e ∈ overwriteOrAppend to_ w c es ↔ e = ⟨to_, w, c⟩ ∨ (e ∈ es ∧ e.destination ≠ to_) := by
  by_cases hd : e.destination = to_
  · have h1 : e ∈ overwriteOrAppend to_ w c es ↔
        e ∈ (overwriteOrAppend to_ w c es).filter (fun e => decide (e.destination = to_)) := by
      simp [List.mem_filter, hd]
    rw [h1, filter_eq_overwriteOrAppend to_ w c es hnd]
    simp [hd]
  · have h1 : e ∈ overwriteOrAppend to_ w c es ↔
        e ∈ (overwriteOrAppend to_ w c es).filter (fun e => decide (e.destination ≠ to_)) := by
      simp [List.mem_filter, hd]
    rw [h1, filter_ne_overwriteOrAppend to_ w c es]
    have hne : e ≠ ⟨to_, w, c⟩ := fun h => hd (by rw [h])
    simp [List.mem_filter, hd, hne]

namespace Graph

theorem WF.getNeighbors_nodup {g : Graph} (h : g.WF) (k : String) :
    ((g.getNeighbors k).map (fun e => e.destination)).Nodup := by
  rw [h.getNeighbors_eq]
  exact h.get_nodup k

/-- The outgoing edges after `addEdge`, on a graph satisfying the class
invariant. -/
theorem WF.mem_getNeighbors_addEdge {g : Graph} (h : g.WF) (x y : String) (w c : ℚ)
    (u : String) (e : Edge) :
    e ∈ (g.addEdge x y w c).getNeighbors u ↔
      (u = x ∧ e = ⟨y, w, c⟩) ∨ (e ∈ g.getNeighbors u ∧ ¬(u = x ∧ e.destination = y)) := by
  by_cases hu : u = x
  · subst hu
    rw [h.getNeighbors_addEdge_self, mem_overwriteOrAppend_iff _ _ _ _ _ (h.getNeighbors_nodup u)]
    simp
  · rw [h.getNeighbors_addEdge_ne x y w c u hu]
    simp [hu]

/-- Two edges of one node with the same destination are the same edge, on a
graph satisfying the class invariant. -/
theorem WF.edge_unique {g : Graph} (h : g.WF) (k : String) (e1 e2 : Edge)
    (h1 : e1 ∈ g.getNeighbors k) (h2 : e2 ∈ g.getNeighbors k)
    (hd : e1.destination = e2.destination) : e1 = e2 :=
  List.inj_on_of_nodup_map (h.getNeighbors_nodup k) h1 h2 hd

end Graph

namespace DataStore

/-- The outgoing edges after the two `addEdge` calls that `rebuildGraph` makes
for an operational route: the edges between the two ends of the route carry
its distance and cost, in both directions, and the others are as before. -/
theorem mem_getNeighbors_addRouteEdges {g : Graph} (h : g.WF) (r : Route)
    (hop : r.operational = true) (a b : String) (w c : ℚ) :
    (⟨b, w, c⟩ : Edge) ∈ (addRouteEdges g r).getNeighbors a ↔
      if (a = r.origin ∧ b = r.destination) ∨ (a = r.destination ∧ b = r.origin) then
        w = r.distance ∧ c = r.baseCost
      else (⟨b, w, c⟩ : Edge) ∈ g.getNeighbors a := by
  unfold addRouteEdges
  rw [if_pos hop, (h.addEdge _ _ _ _).mem_getNeighbors_addEdge, h.mem_getNeighbors_addEdge]
  simp only [Edge.mk.injEq]
  split_ifs with hj
  · rcases hj with ⟨h1, h2⟩ | ⟨h1, h2⟩
    · subst h1; subst h2
      constructor
      · rintro (⟨_, _, hw, hc⟩ | ⟨⟨_, _, hw, hc⟩ | ⟨_, hn⟩, _⟩)
        · exact ⟨hw, hc⟩
        · exact ⟨hw, hc⟩
        · exact absurd ⟨rfl, rfl⟩ hn
      · rintro ⟨hw, hc⟩
        by_cases hod : r.origin = r.destination
        · exact Or.inl ⟨hod, hod.symm, hw, hc⟩
        · exact Or.inr ⟨Or.inl ⟨rfl, rfl, hw, hc⟩, fun hh => hod hh.1⟩
    · subst h1; subst h2
      constructor
      · rintro (⟨_, _, hw, hc⟩ | ⟨⟨_, _, hw, hc⟩ | ⟨_, hn⟩, hn'⟩)
        · exact ⟨hw, hc⟩
        · exact ⟨hw, hc⟩
        · exact absurd ⟨rfl, rfl⟩ hn'
      · rintro ⟨hw, hc⟩
        exact Or.inl ⟨rfl, rfl, hw, hc⟩
  · simp only [not_or, not_and] at hj
    constructor
    · rintro (⟨h1, h2, _, _⟩ | ⟨⟨h1, h2, _, _⟩ | ⟨hm, _⟩, _⟩)
      · exact absurd h2 (hj.2 h1)
      · exact absurd h2 (hj.1 h1)
      · exact hm
    · intro hm
      exact Or.inr ⟨Or.inr ⟨hm, fun hh => hj.1 hh.1 hh.2⟩, fun hh => hj.2 hh.1 hh.2⟩

theorem WF_addRouteEdges {g : Graph} (h : g.WF) (r : Route) : (addRouteEdges g r).WF := by
  unfold addRouteEdges
  split_ifs
  · exact (h.addEdge _ _ _ _).addEdge _ _ _ _
  · exact h

/-- The graph after the first loop of `rebuildGraph`: the class invariant
holds and no node has an outgoing edge. -/
theorem getNeighbors_foldl_addNode {V : Type} (l : List (String × V)) :
    (l.foldl (fun g p => g.addNode p.1) Graph.empty).WF ∧
      ∀ u, (l.foldl (fun g p => g.addNode p.1) Graph.empty).getNeighbors u = [] := by
  have h : (l.foldl (fun g p => g.addNode p.1) Graph.empty).WF ∧
      ∀ u, (l.foldl (fun g p => g.addNode p.1) Graph.empty).adjacencyList.get u [] = [] := by
    refine foldl_preserves (fun g : Graph => g.WF ∧ ∀ u, g.adjacencyList.get u [] = []) _ l
      Graph.empty ⟨Graph.WF_empty, fun u => rfl⟩ ?_
    intro g p _ hg
    exact ⟨hg.1.addNode p.1, fun u => by rw [hg.1.get_addNode p.1 u]; exact hg.2 u⟩
  exact ⟨h.1, fun u => by rw [h.1.getNeighbors_eq]; exact h.2 u⟩

/-- The rebuilt graph satisfies the class invariant, and each of its edges
has an opposite edge with the same weight and cost. -/
theorem rebuildGraph_WF_symmetric (s : DataStore) :
    (rebuildGraph s).graph.WF ∧
      ∀ a b w c, (⟨b, w, c⟩ : Edge) ∈ (rebuildGraph s).graph.getNeighbors a →
        (⟨a, w, c⟩ : Edge) ∈ (rebuildGraph s).graph.getNeighbors b := by
  unfold rebuildGraph
  simp only [Graph.clear]
  refine foldl_preserves (fun g : Graph => g.WF ∧
    ∀ a b w c, (⟨b, w, c⟩ : Edge) ∈ g.getNeighbors a → (⟨a, w, c⟩ : Edge) ∈ g.getNeighbors b)
    _ _ _ ?_ ?_
  · obtain ⟨hwf, hnil⟩ := getNeighbors_foldl_addNode s.airports.entries
    refine ⟨hwf, ?_⟩
    intro a b w c hm
    rw [hnil a] at hm
    simp at hm
  · intro g p _ hg
    refine ⟨WF_addRouteEdges hg.1 p.2, ?_⟩
    by_cases hop : p.2.operational = true
    · intro a b w c hm
      rw [mem_getNeighbors_addRouteEdges hg.1 p.2 hop] at hm ⊢
      by_cases hj : (a = p.2.origin ∧ b = p.2.destination) ∨
          (a = p.2.destination ∧ b = p.2.origin)
      · rw [if_pos hj] at hm
        rw [if_pos (by tauto)]
        exact hm
      · rw [if_neg hj] at hm
        rw [if_neg (by tauto)]
        exact hg.2 a b w c hm
    · have : addRouteEdges g p.2 = g := by
        unfold addRouteEdges
        rw [if_neg hop]
      rw [this]
      exact hg.2

end DataStore

/-- C29: after `rebuildGraph`, for every store and all nodes `a` and `b`,
the edge `a -> b` exists exactly when the edge `b -> a` exists, an edge from
`a` to `b` with a given weight and cost is matched by an edge from `b` to
`a` with the same weight and cost, and any two edges between `a` and `b` in
opposite directions carry the same weight and the same cost. -/
theorem rebuildGraph_symmetric (s : DataStore) (a b : String) :
    (DataStore.rebuildGraph s).graph.hasEdge a b = (DataStore.rebuildGraph s).graph.hasEdge b a ∧
    (∀ w c, (⟨b, w, c⟩ : Edge) ∈ (DataStore.rebuildGraph s).graph.getNeighbors a ↔
      (⟨a, w, c⟩ : Edge) ∈ (DataStore.rebuildGraph s).graph.getNeighbors b) ∧
    (∀ e1 ∈ (DataStore.rebuildGraph s).graph.getNeighbors a,
      ∀ e2 ∈ (DataStore.rebuildGraph s).graph.getNeighbors b,
        e1.destination = b → e2.destination = a →
          e1.weight = e2.weight ∧ e1.cost = e2.cost) := by
  obtain ⟨hwf, hsym⟩ := DataStore.rebuildGraph_WF_symmetric s
  refine ⟨?_, fun w c => ⟨hsym a b w c, hsym b a w c⟩, ?_⟩
  · rw [Bool.eq_iff_iff, DataStore.hasEdge_rebuildGraph_iff, DataStore.hasEdge_rebuildGraph_iff]
    constructor
    · rintro ⟨r, hr, hop, h⟩
      exact ⟨r, hr, hop, h.symm⟩
    · rintro ⟨r, hr, hop, h⟩
      exact ⟨r, hr, hop, h.symm⟩
  · intro e1 h1 e2 h2 hd1 hd2
    have h3 : (⟨a, e1.weight, e1.cost⟩ : Edge) ∈ (DataStore.rebuildGraph s).graph.getNeighbors b := by
      apply hsym a b
      have : (⟨b, e1.weight, e1.cost⟩ : Edge) = e1 := by rw [← hd1]
      rw [this]
      exact h1
    have := hwf.edge_unique b _ _ h3 h2 hd2.symm
    rw [← this]
    exact ⟨rfl, rfl⟩

theorem rebuildGraph_symmetric_witness :
    oppositeRoutesStore.getAllRoutes =
      [⟨"A", "B", 10, 100, true⟩, ⟨"B", "A", 20, 200, true⟩] ∧
    (DataStore.rebuildGraph oppositeRoutesStore).graph.getNeighbors "A" = [⟨"B", 20, 200⟩] ∧
    (DataStore.rebuildGraph oppositeRoutesStore).graph.getNeighbors "B" = [⟨"A", 20, 200⟩] ∧
    ((DataStore.rebuildGraph oppositeRoutesStore).graph.hasEdge "A" "B" =
      (DataStore.rebuildGraph oppositeRoutesStore).graph.hasEdge "B" "A") :=
  ⟨by decide!, by decide!, by decide!, (rebuildGraph_symmetric oppositeRoutesStore "A" "B").1⟩

/-! ## Airport codes -/

theorem StdMap.forall_set {V : Type} (P : V → Prop) (m : StdMap V) (k : String) (v : V)
    (hm : ∀ p ∈ m.entries, P p.2) (hv : P v) : ∀ p ∈ (m.set k v).entries, P p.2 := by
  rintro ⟨j, w⟩ hp
  rw [StdMap.mem_entries_iff, StdMap.find_set] at hp
  split_ifs at hp with hj
  · simp only [Option.some.injEq] at hp
    subst hp
    exact hv
  · exact hm (j, w) ((StdMap.mem_entries_iff m j w).mpr hp)

theorem StdMap.forall_erase {V : Type} (P : V → Prop) (m : StdMap V) (k : String)
    (hm : ∀ p ∈ m.entries, P p.2) : ∀ p ∈ (m.erase k).entries, P p.2 := by
  rintro ⟨j, w⟩ hp
  rw [StdMap.mem_entries_iff, StdMap.find_erase] at hp
  split_ifs at hp with hj
  exact hm (j, w) ((StdMap.mem_entries_iff m j w).mpr hp)

theorem forall_storeEach {V : Type} (P : V → Prop) (key : V → String) (vs : List V)
    (m : StdMap V) (hm : ∀ p ∈ m.entries, P p.2) (hvs : ∀ v ∈ vs, P v) :
    ∀ p ∈ (storeEach key m vs).entries, P p.2 := by
  intro p hp
  rcases mem_storeEach key vs m p hp with h | h
  · exact hm p h
  · exact hvs p.2 h

/-- The keys of a map are pairwise different. -/
theorem StdMap.nodup_keys {V : Type} (m : StdMap V) : m.keys.Nodup :=
  m.sorted.imp (fun h => ne_of_lt h)

namespace DataStore

theorem loadAirports_eq_storeEach (fmt : NumberFormat) (file : Option String) (s : DataStore) :
    (loadAirports fmt file s).2.airports =
      storeEach (fun a => a.code) s.airports (loadedAirports fmt file) := by
  cases file with
  | none => rfl
  | some content =>
    simp only [loadAirports, loadedAirports]
    rw [foldl_row_eq_storeEach (fun a => a.code) (airportOfRow fmt) _ (loadAirportRow_eq fmt)]

/-- A call that brings codes of three characters only keeps a store whose
airport codes have three characters so. -/
theorem exec_three_char_codes (fmt : NumberFormat) (s : DataStore) (op : StoreOp)
    (hop : op.ThreeCharCodes fmt) (h : ∀ p ∈ s.airports.entries, p.2.code.length = 3) :
    ∀ p ∈ (s.exec fmt op).2.airports.entries, p.2.code.length = 3 := by
  cases op with
  | addAirport a =>
    simp only [exec]
    unfold addAirport
    split_ifs
    · exact h
    · exact StdMap.forall_set (fun a : Airport => a.code.length = 3) _ _ _ h hop
  | deleteAirport code =>
    simp only [exec]
    unfold deleteAirport
    cases s.airports.find code with
    | none => exact h
    | some a => exact StdMap.forall_erase (fun a : Airport => a.code.length = 3) _ _ h
  | updateAirport a =>
    simp only [exec]
    unfold updateAirport
    split_ifs
    · exact h
    · exact StdMap.forall_set (fun a : Airport => a.code.length = 3) _ _ _ h hop
  | addAircraft a =>
    simp only [exec]
    unfold addAircraft
    split_ifs <;> exact h
  | deleteAircraft a =>
    simp only [exec]
    unfold deleteAircraft
    split_ifs <;> exact h
  | updateAircraft a =>
    simp only [exec]
    unfold updateAircraft
    split_ifs <;> exact h
  | addRoute a =>
    simp only [exec]
    unfold addRoute
    simp only
    split_ifs <;> exact h
  | deleteRoute a =>
    simp only [exec]
    unfold deleteRoute
    split_ifs <;> exact h
  | updateRoute a =>
    simp only [exec]
    unfold updateRoute
    simp only
    split_ifs <;> exact h
  | addFlight a =>
    simp only [exec]
    unfold addFlight
    split_ifs <;> exact h
  | deleteFlight a =>
    simp only [exec]
    unfold deleteFlight
    split_ifs <;> exact h
  | undo =>
    simp only [exec]
    unfold undo
    cases s.undoStack with
    | nil => exact h
    | cons a rest => exact h
  | clearUndoStack => exact h
  | rebuildGraph => exact h
  | loadAll files =>
    simp only [exec]
    rw [loadAll_airports, loadAirports_eq_storeEach]
    exact forall_storeEach (fun a : Airport => a.code.length = 3) _ _ _ h hop

theorem run_three_char_codes (fmt : NumberFormat) (ops : List StoreOp) (s : DataStore)
    (hops : ∀ op ∈ ops, op.ThreeCharCodes fmt)
    (h : ∀ p ∈ s.airports.entries, p.2.code.length = 3) :
    ∀ p ∈ (s.run fmt ops).airports.entries, p.2.code.length = 3 := by
  induction ops generalizing s with
  | nil => exact h
  | cons op rest ih =>
    exact ih (s.exec fmt op).2 (fun o ho => hops o (List.mem_cons_of_mem _ ho))
      (exec_three_char_codes fmt s op (hops op (List.mem_cons_self _ _)) h)

/-- The codes of the stored airports are pairwise different, in a store whose
airports are bound to their own codes. -/
theorem nodup_airport_codes (s : DataStore) (hk : s.Keyed) :
    (s.getAllAirports.map (fun a => a.code)).Nodup := by
  have : s.getAllAirports.map (fun a => a.code) = s.airports.keys := by
    unfold getAllAirports StdMap.values StdMap.keys
    rw [List.map_map]
    apply List.map_congr_left
    intro p hp
    exact hk.1 p hp
  rw [this]
  exact s.airports.nodup_keys

end DataStore

/-- C24, as the code has it: in every state a sequence of calls leads to from
the empty store, no two stored airports share a code and each airport is
found under its own code; every stored airport has a code of three
characters when each call of the sequence brings such codes only (the
airports passed to `addAirport` and `updateAirport`, and those described by
the rows of the loaded airports files). -/
theorem airport_codes_of_run (fmt : NumberFormat) (ops : List StoreOp) :
    ((DataStore.empty.run fmt ops).getAllAirports.map (fun a => a.code)).Nodup ∧
    (∀ code a, (DataStore.empty.run fmt ops).getAirport code = some a → a.code = code) ∧
    ((∀ op ∈ ops, op.ThreeCharCodes fmt) →
      ∀ a ∈ (DataStore.empty.run fmt ops).getAllAirports, a.code.length = 3) := by
  have hreach : (DataStore.empty.run fmt ops).Reachable fmt := ⟨ops, rfl⟩
  have hk : (DataStore.empty.run fmt ops).Keyed := hreach.keyed
  refine ⟨DataStore.nodup_airport_codes _ hk, ?_, ?_⟩
  · intro code a ha
    exact hk.1 (code, a) ((StdMap.mem_entries_iff _ _ _).mpr ha)
  · intro hops a ha
    obtain ⟨p, hp, rfl⟩ := List.mem_map.mp ha
    exact DataStore.run_three_char_codes fmt ops DataStore.empty hops
      (by intro p hp; simp [DataStore.empty, StdMap.empty] at hp) p hp

theorem airport_codes_of_run_witness :
    (∀ op ∈ sevenAdds, op.ThreeCharCodes plainNumbers) ∧
    (DataStore.empty.run plainNumbers sevenAdds).getAllAirports.map (fun a => a.code) =
      ["JFK", "LAX", "ORD"] ∧
    ∀ a ∈ (DataStore.empty.run plainNumbers sevenAdds).getAllAirports, a.code.length = 3 :=
  ⟨by decide!, by decide!, (airport_codes_of_run plainNumbers sevenAdds).2.2 (by decide!)⟩

/-- C24 fails on a code of four characters passed to `addAirport`, and on a
code of six characters in a loaded airports file: both are stored. -/
theorem airport_code_length_unchecked :
    longCodeAirport.code.length = 4 ∧
    (DataStore.empty.addAirport longCodeAirport).1 = true ∧
    (DataStore.empty.addAirport longCodeAirport).2.getAirport "JFKX" = some longCodeAirport ∧
    (DataStore.empty.loadAll plainNumbers ⟨some longCodeFile, none, none, none⟩).1 = true ∧
    (DataStore.empty.loadAll plainNumbers
        ⟨some longCodeFile, none, none, none⟩).2.getAllAirports =
      [⟨"LONDON", "Heathrow", "London", "UK", 51, 0⟩] := by
  decide!

/-! ## The order of `double` and the priority queue -/

theorem dblLt_fin_fin (a b : ℚ) : dblLt (Dbl.fin a) (Dbl.fin b) = true ↔ a < b := by
  simp [dblLt]

theorem dblLt_asymm (a b : Dbl) (h : dblLt a b = true) : dblLt b a = false := by
  rcases a with a | _ | _ | _ <;> rcases b with b | _ | _ | _ <;> simp [dblLt] at h ⊢
  exact le_of_lt h

theorem dblLt_irrefl (a : Dbl) : dblLt a a = false := by
  cases h : dblLt a a
  · rfl
  · have := dblLt_asymm _ _ h; rw [h] at this; exact absurd this (by decide)

theorem dblLt_trans (a b c : Dbl) (h1 : dblLt a b = true) (h2 : dblLt b c = true) :
    dblLt a c = true := by
  rcases a with a | _ | _ | _ <;> rcases b with b | _ | _ | _ <;>
    rcases c with c | _ | _ | _ <;> simp [dblLt] at h1 h2 ⊢
  exact lt_trans h1 h2

/-- Two doubles that are not NaN are comparable. -/
theorem dblLt_trichotomy (a b : Dbl) (ha : a ≠ Dbl.nan) (hb : b ≠ Dbl.nan) :
    dblLt a b = true ∨ a = b ∨ dblLt b a = true := by
  rcases a with a | _ | _ | _ <;> rcases b with b | _ | _ | _ <;> simp [dblLt] at ha hb ⊢
  exact lt_trichotomy a b

theorem dblLt_ne_nan (a b : Dbl) (h : dblLt a b = true) : a ≠ Dbl.nan ∧ b ≠ Dbl.nan := by
  rcases a with a | _ | _ | _ <;> rcases b with b | _ | _ | _ <;> simp [dblLt] at h ⊢

theorem dblEq_posInf (a : Dbl) : dblEq a Dbl.posInf = true ↔ a = Dbl.posInf := by
  rcases a with a | _ | _ | _ <;> simp [dblEq]

theorem Dbl.le_fin_fin (a b : ℚ) : Dbl.le (Dbl.fin a) (Dbl.fin b) ↔ a ≤ b := by
  simp only [Dbl.le, dblLt_fin_fin, Dbl.fin.injEq, ne_eq, not_false_eq_true, and_true,
    reduceCtorEq]
  exact le_iff_lt_or_eq.symm

theorem Dbl.le_ne_nan {a b : Dbl} (h : Dbl.le a b) : a ≠ Dbl.nan ∧ b ≠ Dbl.nan := by
  rcases h with h | ⟨h, h'⟩
  · exact dblLt_ne_nan a b h
  · exact ⟨h', h ▸ h'⟩

theorem Dbl.le_self {a : Dbl} (h : a ≠ Dbl.nan) : Dbl.le a a := Or.inr ⟨rfl, h⟩

theorem Dbl.le_chain {a b c : Dbl} (h1 : Dbl.le a b) (h2 : Dbl.le b c) : Dbl.le a c := by
  rcases h1 with h1 | ⟨rfl, h1⟩
  · rcases h2 with h2 | ⟨rfl, _⟩
    · exact Or.inl (dblLt_trans _ _ _ h1 h2)
    · exact Or.inl h1
  · exact h2

/-- For doubles that are not NaN, `a < b` is false exactly when `b ≤ a`. -/
theorem Dbl.le_of_not_lt {a b : Dbl} (ha : a ≠ Dbl.nan) (hb : b ≠ Dbl.nan)
    (h : dblLt a b = false) : Dbl.le b a := by
  rcases dblLt_trichotomy a b ha hb with h' | h' | h'
  · rw [h] at h'; exact absurd h' (by decide)
  · exact Or.inr ⟨h'.symm, hb⟩
  · exact Or.inl h'

theorem Dbl.not_lt_of_le {a b : Dbl} (h : Dbl.le a b) : dblLt b a = false := by
  rcases h with h | ⟨rfl, _⟩
  · exact dblLt_asymm _ _ h
  · exact dblLt_irrefl _

theorem Dbl.le_posInf {a : Dbl} (h : a ≠ Dbl.nan) : Dbl.le a Dbl.posInf := by
  rcases a with a | _ | _ | _ <;> simp [Dbl.le, dblLt] at h ⊢

theorem Dbl.posInf_le {a : Dbl} (h : Dbl.le Dbl.posInf a) : a = Dbl.posInf := by
  rcases a with a | _ | _ | _ <;> simp [Dbl.le, dblLt] at h ⊢

/-- Equation `pairLt b a = false` spelt out, for keys that are not NaN: `a`
is before `b` or equal to it in the lexicographic order. -/
theorem pairLt_eq_false_iff (a b : Dbl × String) (ha : a.1 ≠ Dbl.nan) (hb : b.1 ≠ Dbl.nan) :
    pairLt b a = false ↔ dblLt a.1 b.1 = true ∨ (a.1 = b.1 ∧ a.2 ≤ b.2) := by
  unfold pairLt
  rcases dblLt_trichotomy a.1 b.1 ha hb with h | h | h
  · have h' := dblLt_asymm _ _ h
    simp [h, h']
  · have hirr : dblLt b.1 b.1 = false := dblLt_irrefl _
    rw [h]
    simp [hirr]
  · have h' := dblLt_asymm _ _ h
    have hne : a.1 ≠ b.1 := by
      intro e
      rw [e] at h'
      rw [e, h'] at h
      exact absurd h (by decide)
    simp [h, h', hne]

theorem pairLe_total (a b : Dbl × String) (ha : a.1 ≠ Dbl.nan) (hb : b.1 ≠ Dbl.nan) :
    pairLt b a = false ∨ pairLt a b = false := by
  rw [pairLt_eq_false_iff a b ha hb, pairLt_eq_false_iff b a hb ha]
  rcases dblLt_trichotomy a.1 b.1 ha hb with h | h | h
  · exact Or.inl (Or.inl h)
  · rcases le_total a.2 b.2 with h2 | h2
    · exact Or.inl (Or.inr ⟨h, h2⟩)
    · exact Or.inr (Or.inr ⟨h.symm, h2⟩)
  · exact Or.inr (Or.inl h)

theorem pairLe_trans (a b c : Dbl × String) (ha : a.1 ≠ Dbl.nan) (hb : b.1 ≠ Dbl.nan)
    (hc : c.1 ≠ Dbl.nan) (h1 : pairLt b a = false) (h2 : pairLt c b = false) :
    pairLt c a = false := by
  rw [pairLt_eq_false_iff a b ha hb] at h1
  rw [pairLt_eq_false_iff b c hb hc] at h2
  rw [pairLt_eq_false_iff a c ha hc]
  rcases h1 with h1 | ⟨h1, h1'⟩ <;> rcases h2 with h2 | ⟨h2, h2'⟩
  · exact Or.inl (dblLt_trans _ _ _ h1 h2)
  · rw [← h2]; exact Or.inl h1
  · rw [h1]; exact Or.inl h2
  · exact Or.inr ⟨h1.trans h2, le_trans h1' h2'⟩

/-- In an ascending pair the keys are ascending. -/
theorem key_le_of_pairLe (d1 d2 : ℚ) (v1 v2 : String)
    (h : pairLt (Dbl.fin d2, v2) (Dbl.fin d1, v1) = false) : d1 ≤ d2 := by
  rw [pairLt_eq_false_iff _ _ (by simp) (by simp)] at h
  rcases h with h | ⟨h, _⟩
  · exact le_of_lt ((dblLt_fin_fin _ _).mp h)
  · simp only [Dbl.fin.injEq] at h
    exact le_of_eq h

theorem mem_pqPush (x y : Dbl × String) (l : List (Dbl × String)) :
    y ∈ pqPush x l ↔ y = x ∨ y ∈ l := by
  induction l with
  | nil => simp [pqPush]
  | cons z t ih =>
    unfold pqPush
    split_ifs with h
    · simp only [List.mem_cons, ih]
      tauto
    · simp only [List.mem_cons]

theorem length_pqPush (x : Dbl × String) (l : List (Dbl × String)) :
    (pqPush x l).length = l.length + 1 := by
  induction l with
  | nil => simp [pqPush]
  | cons z t ih =>
    unfold pqPush
    split_ifs with h
    · simp [ih]
    · simp

/-- Pushing keeps the queue ascending, no key being NaN. -/
theorem pairwise_pqPush (x : Dbl × String) (l : List (Dbl × String)) (hx : x.1 ≠ Dbl.nan)
    (hn : ∀ y ∈ l, y.1 ≠ Dbl.nan)
    (hl : l.Pairwise (fun a b => pairLt b a = false)) :
    (pqPush x l).Pairwise (fun a b => pairLt b a = false) := by
  induction l with
  | nil => simp [pqPush]
  | cons z t ih =>
    rw [List.pairwise_cons] at hl
    have hz : z.1 ≠ Dbl.nan := hn z (List.mem_cons_self _ _)
    have ht : ∀ y ∈ t, y.1 ≠ Dbl.nan := fun y hy => hn y (List.mem_cons_of_mem _ hy)
    unfold pqPush
    split_ifs with h
    · rw [List.pairwise_cons]
      refine ⟨?_, ih ht hl.2⟩
      intro y hy
      rcases (mem_pqPush x y t).mp hy with rfl | hy
      · rcases pairLe_total z y hz hx with h' | h'
        · exact h'
        · rw [h] at h'; exact absurd h' (by decide)
      · exact hl.1 y hy
    · have hxz : pairLt z x = false := by simpa using h
      rw [List.pairwise_cons, List.pairwise_cons]
      refine ⟨?_, hl.1, hl.2⟩
      intro y hy
      rcases List.mem_cons.mp hy with rfl | hy
      · exact hxz
      · exact pairLe_trans x z y hx hz (ht y hy) hxz (hl.1 y hy)

/-! ## Rounded sums -/

theorem DoubleArith.Sound.round_ne_nan {ar : DoubleArith} (hs : ar.Sound) (x : ℚ) :
    ar.round x ≠ Dbl.nan :=
  (Dbl.le_ne_nan (hs.mono x x (le_refl x))).1

theorem dblAdd_fin (ar : DoubleArith) (x w : ℚ) : dblAdd ar (Dbl.fin x) w = ar.round (x + w) :=
  rfl

/-- Adding the same weight to two ordered doubles keeps their order. -/
theorem dblAdd_mono {ar : DoubleArith} (hs : ar.Sound) {a b : Dbl} (w : ℚ) (h : Dbl.le a b) :
    Dbl.le (dblAdd ar a w) (dblAdd ar b w) := by
  rcases a with a | _ | _ | _ <;> rcases b with b | _ | _ | _
  · exact hs.mono _ _ (by
      have h' : a ≤ b := (Dbl.le_fin_fin a b).mp h
      linarith)
  · exact Dbl.le_posInf (hs.round_ne_nan _)
  · simp [Dbl.le, dblLt] at h
  · simp [Dbl.le, dblLt] at h
  · simp [Dbl.le, dblLt] at h
  · exact Dbl.le_self (by simp [dblAdd])
  · simp [Dbl.le, dblLt] at h
  · simp [Dbl.le, dblLt] at h
  · have := hs.round_ne_nan (b + w)
    rcases hr : ar.round (b + w) with r | _ | _ | _ <;>
      simp [Dbl.le, dblLt, dblAdd, hr] at this ⊢
  · simp [Dbl.le, dblLt, dblAdd]
  · simp [Dbl.le, dblLt, dblAdd]
  · simp [Dbl.le, dblLt] at h
  · simp [Dbl.le, dblLt] at h
  · simp [Dbl.le, dblLt] at h
  · simp [Dbl.le, dblLt] at h
  · simp [Dbl.le, dblLt] at h

theorem Dbl.Good.ne_nan {ar : DoubleArith} {a : Dbl} (h : Dbl.Good ar a) : a ≠ Dbl.nan := by
  rcases h with rfl | ⟨d, rfl, _, _⟩ <;> simp

theorem Dbl.Good.zero {ar : DoubleArith} (hs : ar.Sound) : Dbl.Good ar (Dbl.fin 0) :=
  Or.inr ⟨0, rfl, le_refl 0, hs.zero⟩

/-- Adding a weight that is not negative to a distance gives a distance that
is not smaller. -/
theorem Dbl.Good.add {ar : DoubleArith} (hs : ar.Sound) {a : Dbl} (h : Dbl.Good ar a) {w : ℚ}
    (hw : 0 ≤ w) : Dbl.Good ar (dblAdd ar a w) ∧ Dbl.le a (dblAdd ar a w) := by
  rcases h with rfl | ⟨d, rfl, hd, hr⟩
  · exact ⟨Or.inl rfl, Or.inr ⟨rfl, by simp⟩⟩
  · have hm := hs.mono d (d + w) (by linarith)
    rw [hr] at hm
    rw [dblAdd_fin]
    refine ⟨?_, hm⟩
    rcases hx : ar.round (d + w) with r | _ | _ | _
    · rw [hx] at hm
      have hdr : d ≤ r := (Dbl.le_fin_fin d r).mp hm
      exact Or.inr ⟨r, rfl, by linarith, hs.idem _ _ hx⟩
    · exact Or.inl rfl
    · rw [hx] at hm; simp [Dbl.le, dblLt] at hm
    · rw [hx] at hm; simp [Dbl.le, dblLt] at hm

/-! ## The rounding of binary64 is sound -/

theorem roundHalfEven_mono {x y : ℚ} (h : x ≤ y) : roundHalfEven x ≤ roundHalfEven y := by
  have hfx : Rat.floor x = ⌊x⌋ := rfl
  have hfy : Rat.floor y = ⌊y⌋ := rfl
  unfold roundHalfEven
  simp only [hfx, hfy]
  have hf : ⌊x⌋ ≤ ⌊y⌋ := Int.floor_le_floor h
  have h1 := Int.floor_le x
  have h2 := Int.lt_floor_add_one x
  have h3 := Int.floor_le y
  have h4 := Int.lt_floor_add_one y
  by_cases hlt : ⌊x⌋ < ⌊y⌋
  · split_ifs <;> omega
  · have heq : ⌊x⌋ = ⌊y⌋ := le_antisymm hf (not_lt.mp hlt)
    have heq' : (⌊x⌋ : ℚ) = ⌊y⌋ := by rw [heq]
    split_ifs <;> first | omega | (exfalso; linarith)

theorem roundHalfEven_intCast (n : Int) : roundHalfEven (n : ℚ) = n := by
  have hf : Rat.floor (n : ℚ) = n := by
    show ⌊(n : ℚ)⌋ = n
    exact Int.floor_intCast n
  unfold roundHalfEven
  simp [hf]

theorem le_roundHalfEven {n : Int} {x : ℚ} (h : (n : ℚ) ≤ x) : n ≤ roundHalfEven x := by
  have := roundHalfEven_mono h
  rwa [roundHalfEven_intCast] at this

theorem roundHalfEven_le {n : Int} {x : ℚ} (h : x ≤ (n : ℚ)) : roundHalfEven x ≤ n := by
  have := roundHalfEven_mono h
  rwa [roundHalfEven_intCast] at this

theorem twoPow_eq (e : Int) : twoPow e = (2 : ℚ) ^ e := by
  unfold twoPow
  split_ifs with h
  · obtain ⟨n, rfl⟩ := Int.eq_ofNat_of_zero_le h
    simp
  · have h' : 0 ≤ -e := by omega
    obtain ⟨n, hn⟩ := Int.eq_ofNat_of_zero_le h'
    have he : e = -(n : Int) := by omega
    subst he
    simp

theorem twoPow_pos (e : Int) : 0 < twoPow e := by
  rw [twoPow_eq]; positivity

theorem twoPow_succ (e : Int) : twoPow (e + 1) = 2 * twoPow e := by
  rw [twoPow_eq, twoPow_eq, zpow_add_one₀ (by norm_num)]
  ring

theorem twoPow_add (a b : Int) : twoPow (a + b) = twoPow a * twoPow b := by
  rw [twoPow_eq, twoPow_eq, twoPow_eq, zpow_add₀ (by norm_num)]

theorem twoPow_le {a b : Int} (h : a ≤ b) : twoPow a ≤ twoPow b := by
  rw [twoPow_eq, twoPow_eq]
  exact zpow_le_zpow_right₀ (by norm_num) h

theorem twoPow_lt_iff {a b : Int} : twoPow a < twoPow b ↔ a < b := by
  rw [twoPow_eq, twoPow_eq]
  exact zpow_lt_zpow_iff_right₀ (by norm_num)

theorem twoPow_natCast (n : Nat) : twoPow (n : Int) = ((2 ^ n : Nat) : ℚ) := by
  rw [twoPow_eq]; simp

theorem bitLength_zero (fuel : Nat) : bitLength fuel 0 = 0 := by
  cases fuel <;> simp [bitLength]

theorem bitLength_spec : ∀ (fuel n : Nat), n ≤ fuel → 0 < n →
    ∃ k, bitLength fuel n = k + 1 ∧ 2 ^ k ≤ n ∧ n < 2 ^ (k + 1) := by
  intro fuel
  induction fuel with
  | zero => intro n h1 h2; omega
  | succ f ih =>
    intro n h1 h2
    have hn : n ≠ 0 := by omega
    simp only [bitLength, hn, if_false]
    by_cases hm : n / 2 = 0
    · refine ⟨0, by rw [hm, bitLength_zero], ?_, ?_⟩ <;> omega
    · obtain ⟨k, hk, h3, h4⟩ := ih (n / 2) (by omega) (by omega)
      refine ⟨k + 1, by rw [hk], ?_, ?_⟩
      · rw [pow_succ]; omega
      · rw [pow_succ]; omega

theorem binade_spec (a : ℚ) (ha : 0 < a) : twoPow (binade a) ≤ a ∧ a < twoPow (binade a + 1) := by
  have hnum : 0 < a.num := Rat.num_pos.mpr ha
  obtain ⟨kn, hkn, hn1, hn2⟩ := bitLength_spec a.num.natAbs a.num.natAbs (le_refl _)
    (Int.natAbs_pos.mpr (ne_of_gt hnum))
  obtain ⟨kd, hkd, hd1, hd2⟩ := bitLength_spec a.den a.den (le_refl _) a.den_pos
  have hN : ((a.num.natAbs : Nat) : ℚ) = (a.num : ℚ) := by
    rw [Nat.cast_natAbs, abs_of_pos hnum]
  have haeq : a = ((a.num.natAbs : Nat) : ℚ) / (a.den : ℚ) := by
    rw [hN]; exact (Rat.num_div_den a).symm
  have hD : (0 : ℚ) < (a.den : ℚ) := by exact_mod_cast a.den_pos
  have q1 : (2 : ℚ) ^ kn ≤ ((a.num.natAbs : Nat) : ℚ) := by exact_mod_cast hn1
  have q2 : ((a.num.natAbs : Nat) : ℚ) < (2 : ℚ) ^ (kn + 1) := by exact_mod_cast hn2
  have q3 : (2 : ℚ) ^ kd ≤ (a.den : ℚ) := by exact_mod_cast hd1
  have q4 : (a.den : ℚ) < (2 : ℚ) ^ (kd + 1) := by exact_mod_cast hd2
  have p1 : (0 : ℚ) < (2 : ℚ) ^ kn := by positivity
  have p2 : (0 : ℚ) < (2 : ℚ) ^ kd := by positivity
  have he0 : twoPow ((kn : Int) - (kd : Int)) = (2 : ℚ) ^ kn / (2 : ℚ) ^ kd := by
    rw [twoPow_eq, zpow_sub₀ (by norm_num), zpow_natCast, zpow_natCast]
  have hup : a < twoPow ((kn : Int) - (kd : Int) + 1) := by
    rw [twoPow_succ, he0, haeq, ← mul_div_assoc, div_lt_div_iff₀ hD p2]
    have : ((a.num.natAbs : Nat) : ℚ) * 2 ^ kd < 2 ^ (kn + 1) * (a.den : ℚ) := by
      calc ((a.num.natAbs : Nat) : ℚ) * 2 ^ kd < 2 ^ (kn + 1) * 2 ^ kd := by
            exact mul_lt_mul_of_pos_right q2 p2
        _ ≤ 2 ^ (kn + 1) * (a.den : ℚ) := by
            exact mul_le_mul_of_nonneg_left q3 (by positivity)
    rw [pow_succ] at this
    linarith
  have hlow : twoPow ((kn : Int) - (kd : Int)) < 2 * a := by
    rw [he0]
    have h2a : 2 * a = (2 * ((a.num.natAbs : Nat) : ℚ)) / (a.den : ℚ) := by
      rw [mul_div_assoc, ← haeq]
    rw [h2a, div_lt_div_iff₀ p2 hD]
    calc (2 : ℚ) ^ kn * (a.den : ℚ) < 2 ^ kn * 2 ^ (kd + 1) := by
          exact mul_lt_mul_of_pos_left q4 p1
      _ = 2 * 2 ^ kn * 2 ^ kd := by ring
      _ ≤ 2 * ((a.num.natAbs : Nat) : ℚ) * 2 ^ kd := by
          exact mul_le_mul_of_nonneg_right (by linarith) (le_of_lt p2)
  have hE : ((bitLength a.num.natAbs a.num.natAbs : Nat) : Int) -
      ((bitLength a.den a.den : Nat) : Int) = (kn : Int) - (kd : Int) := by
    rw [hkn, hkd]; push_cast; ring
  unfold binade
  simp only [hE]
  split_ifs with h
  · exact ⟨h, hup⟩
  · constructor
    · have := twoPow_succ ((kn : Int) - (kd : Int) - 1)
      rw [sub_add_cancel] at this
      linarith
    · rw [sub_add_cancel]
      exact not_le.mp h

theorem binade_unique {a : ℚ} (ha : 0 < a) {e : Int} (h1 : twoPow e ≤ a)
    (h2 : a < twoPow (e + 1)) : binade a = e := by
  obtain ⟨h3, h4⟩ := binade_spec a ha
  have k1 : binade a < e + 1 := twoPow_lt_iff.mp (lt_of_le_of_lt h3 h2)
  have k2 : e < binade a + 1 := twoPow_lt_iff.mp (lt_of_le_of_lt h1 h4)
  omega

theorem binade_mono {a b : ℚ} (ha : 0 < a) (h : a ≤ b) : binade a ≤ binade b := by
  obtain ⟨h1, _⟩ := binade_spec a ha
  obtain ⟨_, h4⟩ := binade_spec b (lt_of_lt_of_le ha h)
  have : binade a < binade b + 1 := twoPow_lt_iff.mp (lt_of_le_of_lt (le_trans h1 h) h4)
  omega

theorem binary64Mag_eq (a : ℚ) :
    binary64Mag a = roundHalfEven (a / twoPow (max (binade a) (-1022) - 52)) *
      twoPow (max (binade a) (-1022) - 52) := rfl

theorem twoPow_split (e : Int) : twoPow (e + 1) = twoPow 53 * twoPow (e - 52) := by
  rw [← twoPow_add]; congr 1; ring

theorem twoPow_split' (e : Int) : twoPow e = twoPow 52 * twoPow (e - 52) := by
  rw [← twoPow_add]; congr 1; ring

theorem twoPow_53 : twoPow 53 = ((2 ^ 53 : Int) : ℚ) := by
  rw [twoPow_eq]; norm_num

theorem twoPow_52 : twoPow 52 = ((2 ^ 52 : Int) : ℚ) := by
  rw [twoPow_eq]; norm_num

/-- The significand of a rounded positive number is at most `2^53`. -/
theorem significand_le (a : ℚ) (ha : 0 < a) :
    roundHalfEven (a / twoPow (max (binade a) (-1022) - 52)) ≤ 2 ^ 53 := by
  apply roundHalfEven_le
  rw [div_le_iff₀ (twoPow_pos _), ← twoPow_53, ← twoPow_split]
  have h1 := (binade_spec a ha).2
  have h2 : twoPow (binade a + 1) ≤ twoPow (max (binade a) (-1022) + 1) :=
    twoPow_le (by omega)
  linarith

/-- The significand of a rounded positive number is at least `2^52` when its
exponent is in the normal range. -/
theorem le_significand (a : ℚ) (ha : 0 < a) (he : -1022 ≤ binade a) :
    2 ^ 52 ≤ roundHalfEven (a / twoPow (max (binade a) (-1022) - 52)) := by
  apply le_roundHalfEven
  rw [le_div_iff₀ (twoPow_pos _), ← twoPow_52, ← twoPow_split', max_eq_left he]
  exact (binade_spec a ha).1

theorem significand_nonneg (a : ℚ) (ha : 0 < a) :
    0 ≤ roundHalfEven (a / twoPow (max (binade a) (-1022) - 52)) := by
  apply le_roundHalfEven
  simp only [Int.cast_zero]
  exact div_nonneg (le_of_lt ha) (le_of_lt (twoPow_pos _))

theorem binary64Mag_nonneg (a : ℚ) (ha : 0 < a) : 0 ≤ binary64Mag a := by
  rw [binary64Mag_eq]
  exact mul_nonneg (by exact_mod_cast significand_nonneg a ha) (le_of_lt (twoPow_pos _))

theorem binary64Mag_mono {a b : ℚ} (ha : 0 < a) (h : a ≤ b) :
    binary64Mag a ≤ binary64Mag b := by
  have hb : 0 < b := lt_of_lt_of_le ha h
  have hE : max (binade a) (-1022) ≤ max (binade b) (-1022) :=
    max_le_max (binade_mono ha h) (le_refl _)
  rw [binary64Mag_eq, binary64Mag_eq]
  rcases lt_or_eq_of_le hE with hlt | heq
  · have hbn : -1022 ≤ binade b := by omega
    have h1 : ((roundHalfEven (a / twoPow (max (binade a) (-1022) - 52)) : Int) : ℚ) ≤
        twoPow 53 := by
      rw [twoPow_53]; exact_mod_cast significand_le a ha
    have h2 : twoPow 52 ≤
        ((roundHalfEven (b / twoPow (max (binade b) (-1022) - 52)) : Int) : ℚ) := by
      rw [twoPow_52]; exact_mod_cast le_significand b hb hbn
    calc ((roundHalfEven (a / twoPow (max (binade a) (-1022) - 52)) : Int) : ℚ) *
          twoPow (max (binade a) (-1022) - 52)
        ≤ twoPow 53 * twoPow (max (binade a) (-1022) - 52) :=
          mul_le_mul_of_nonneg_right h1 (le_of_lt (twoPow_pos _))
      _ = twoPow (max (binade a) (-1022) + 1) := (twoPow_split _).symm
      _ ≤ twoPow (max (binade b) (-1022)) := twoPow_le (by omega)
      _ = twoPow 52 * twoPow (max (binade b) (-1022) - 52) := twoPow_split' _
      _ ≤ _ := mul_le_mul_of_nonneg_right h2 (le_of_lt (twoPow_pos _))
  · rw [heq]
    apply mul_le_mul_of_nonneg_right _ (le_of_lt (twoPow_pos _))
    have : a / twoPow (max (binade b) (-1022) - 52) ≤
        b / twoPow (max (binade b) (-1022) - 52) :=
      div_le_div_of_nonneg_right h (le_of_lt (twoPow_pos _))
    exact_mod_cast roundHalfEven_mono this

/-- A positive value of the format is rounded to itself. -/
theorem binary64Mag_idem (a : ℚ) (ha : 0 < a) (hr : 0 < binary64Mag a) :
    binary64Mag (binary64Mag a) = binary64Mag a := by
  have hU := twoPow_pos (max (binade a) (-1022) - 52)
  have hN53 := significand_le a ha
  have hN0 := significand_nonneg a ha
  have hreq := binary64Mag_eq a
  set E := max (binade a) (-1022) with hE
  set N := roundHalfEven (a / twoPow (E - 52)) with hN
  set r := binary64Mag a with hrdef
  have hEge : -1022 ≤ E := le_max_right _ _
  -- the exponent and the significand of `r`
  have key : ∀ (E' : Int) (N' : Int), -1022 ≤ E' →
      max (binade r) (-1022) = E' → r = (N' : ℚ) * twoPow (E' - 52) →
      binary64Mag r = r := by
    intro E' N' _ h1 h2
    rw [binary64Mag_eq r, h1]
    have : r / twoPow (E' - 52) = (N' : ℚ) := by
      rw [h2, mul_div_assoc, div_self (ne_of_gt (twoPow_pos _)), mul_one]
    rw [this, roundHalfEven_intCast, ← h2]
  by_cases h53 : N = 2 ^ 53
  · -- the significand was rounded up to the next power of two
    have hr1 : r = twoPow (E + 1) := by
      rw [hreq, h53, twoPow_split, twoPow_53]
    refine key (E + 1) (2 ^ 52) (by omega) ?_ ?_
    · have : binade r = E + 1 := by
        apply binade_unique hr
        · rw [hr1]
        · rw [hr1]; exact twoPow_lt_iff.mpr (by omega)
      rw [this]
      exact max_eq_left (by omega)
    · rw [hr1, ← twoPow_52, ← twoPow_add]; congr 1; ring
  · have hlt53 : N < 2 ^ 53 := lt_of_le_of_ne hN53 h53
    refine key E N hEge ?_ hreq
    have hrlt : r < twoPow (E + 1) := by
      rw [hreq, twoPow_split, twoPow_53]
      exact mul_lt_mul_of_pos_right (by exact_mod_cast hlt53) hU
    by_cases h52 : 2 ^ 52 ≤ N
    · have hrge : twoPow E ≤ r := by
        rw [hreq, twoPow_split' E, twoPow_52]
        exact mul_le_mul_of_nonneg_right (by exact_mod_cast h52) (le_of_lt hU)
      rw [binade_unique hr hrge hrlt]
      exact max_eq_left hEge
    · have hsub : binade a < -1022 := by
        by_contra hc
        exact h52 (le_significand a ha (by omega))
      have hE' : E = -1022 := by rw [hE]; exact max_eq_right (by omega)
      have hrlt' : r < twoPow E := by
        rw [hreq, twoPow_split' E, twoPow_52]
        exact mul_lt_mul_of_pos_right (by exact_mod_cast (not_le.mp h52)) hU
      have : binade r < E :=
        twoPow_lt_iff.mp (lt_of_le_of_lt (binade_spec r hr).1 hrlt')
      rw [hE']
      exact max_eq_right (by omega)

theorem binary64Round_zero : binary64Round 0 = Dbl.fin 0 := by
  simp [binary64Round]

theorem binary64Round_pos {q : ℚ} (hq : 0 < q) :
    binary64Round q =
      if twoPow 1024 ≤ binary64Mag q then Dbl.posInf else Dbl.fin (binary64Mag q) := by
  unfold binary64Round
  simp only [ne_of_gt hq, if_false, abs_of_pos hq, not_lt.mpr (le_of_lt hq)]

theorem binary64Round_neg {q : ℚ} (hq : q < 0) :
    binary64Round q =
      if twoPow 1024 ≤ binary64Mag (-q) then Dbl.negInf else Dbl.fin (-binary64Mag (-q)) := by
  unfold binary64Round
  simp only [ne_of_lt hq, if_false, abs_of_neg hq, hq, if_true]

/-- The rounding of a number that is not negative is not negative. -/
theorem binary64Round_nonneg {q : ℚ} (hq : 0 ≤ q) :
    Dbl.le (Dbl.fin 0) (binary64Round q) := by
  rcases eq_or_lt_of_le hq with h | h
  · rw [← h, binary64Round_zero]; exact Or.inr ⟨rfl, by simp⟩
  · rw [binary64Round_pos h]
    split_ifs
    · exact Or.inl rfl
    · exact (Dbl.le_fin_fin _ _).mpr (binary64Mag_nonneg q h)

/-- The rounding of a number that is not positive is not positive. -/
theorem binary64Round_nonpos {q : ℚ} (hq : q ≤ 0) :
    Dbl.le (binary64Round q) (Dbl.fin 0) := by
  rcases eq_or_lt_of_le hq with h | h
  · rw [h, binary64Round_zero]; exact Or.inr ⟨rfl, by simp⟩
  · rw [binary64Round_neg h]
    split_ifs
    · exact Or.inl rfl
    · refine (Dbl.le_fin_fin _ _).mpr ?_
      have := binary64Mag_nonneg (-q) (by linarith)
      linarith

theorem binary64Round_mono {x y : ℚ} (h : x ≤ y) :
    Dbl.le (binary64Round x) (binary64Round y) := by
  rcases lt_trichotomy x 0 with hx | hx | hx
  · rcases lt_or_le y 0 with hy | hy
    · have hm := binary64Mag_mono (a := -y) (b := -x) (by linarith) (by linarith)
      rw [binary64Round_neg hx, binary64Round_neg hy]
      split_ifs with h1 h2 h2
      · exact Or.inr ⟨rfl, by simp⟩
      · exact Or.inl rfl
      · exact absurd (le_trans h2 hm) h1
      · exact (Dbl.le_fin_fin _ _).mpr (by linarith)
    · exact Dbl.le_chain (binary64Round_nonpos (le_of_lt hx)) (binary64Round_nonneg hy)
  · rw [hx] at h ⊢
    rw [binary64Round_zero]
    exact binary64Round_nonneg h
  · have hy : 0 < y := lt_of_lt_of_le hx h
    have hm := binary64Mag_mono hx h
    rw [binary64Round_pos hx, binary64Round_pos hy]
    split_ifs with h1 h2 h2
    · exact Or.inr ⟨rfl, by simp⟩
    · exact absurd (le_trans h1 hm) h2
    · exact Or.inl rfl
    · exact (Dbl.le_fin_fin _ _).mpr hm

theorem binary64Round_idem {x y : ℚ} (h : binary64Round x = Dbl.fin y) :
    binary64Round y = Dbl.fin y := by
  rcases lt_trichotomy x 0 with hx | hx | hx
  · rw [binary64Round_neg hx] at h
    split_ifs at h with h1
    simp only [Dbl.fin.injEq] at h
    have hnn := binary64Mag_nonneg (-x) (by linarith)
    rcases eq_or_lt_of_le hnn with h0 | hpos
    · rw [← h0] at h
      simp only [neg_zero] at h
      rw [← h, binary64Round_zero]
    · have hy : y < 0 := by linarith
      have hyy : -y = binary64Mag (-x) := by linarith
      rw [binary64Round_neg hy, hyy, binary64Mag_idem (-x) (by linarith) hpos, if_neg h1, h]
  · rw [hx, binary64Round_zero] at h
    simp only [Dbl.fin.injEq] at h
    rw [← h, binary64Round_zero]
  · rw [binary64Round_pos hx] at h
    split_ifs at h with h1
    simp only [Dbl.fin.injEq] at h
    have hnn := binary64Mag_nonneg x hx
    rcases eq_or_lt_of_le hnn with h0 | hpos
    · rw [← h0] at h
      rw [← h, binary64Round_zero]
    · have hy : 0 < y := by linarith
      rw [binary64Round_pos hy, ← h, binary64Mag_idem x hx hpos, if_neg h1]

/-- The arithmetic of IEEE 754 meets what the search needs of the rounding. -/
theorem binary64_sound : binary64.Sound where
  zero := binary64Round_zero
  mono := fun _ _ h => binary64Round_mono h
  idem := fun _ _ h => binary64Round_idem h

/-! ## Parent chains -/

theorem dblWeightFrom_append (ar : DoubleArith) (d : Dbl) (es : List Edge) (e : Edge) :
    dblWeightFrom ar d (es ++ [e]) = dblAdd ar (dblWeightFrom ar d es) e.weight := by
  simp [dblWeightFrom, List.foldl_append]

theorem dblWeightFrom_cons (ar : DoubleArith) (d : Dbl) (e : Edge) (es : List Edge) :
    dblWeightFrom ar d (e :: es) = dblWeightFrom ar (dblAdd ar d e.weight) es := rfl

theorem dblPathWeight_append (ar : DoubleArith) (es : List Edge) (e : Edge) :
    dblPathWeight ar (es ++ [e]) = dblAdd ar (dblPathWeight ar es) e.weight :=
  dblWeightFrom_append ar _ es e

theorem dblPathCost_append (ar : DoubleArith) (es : List Edge) (e : Edge) :
    dblPathCost ar (es ++ [e]) = dblAdd ar (dblPathCost ar es) e.cost := by
  simp [dblPathCost, List.foldl_append]

namespace Dijkstra

theorem Chain.start_mem {ar : DoubleArith} {g : Graph} {parent : StdMap String} {start v : String}
    {path : List String} {w c : Dbl} (h : Chain ar g parent start v path w c) : start ∈ path := by
  induction h with
  | base => simp
  | step e _ _ _ _ ih => exact List.mem_append_left _ ih

theorem Chain.last_mem {ar : DoubleArith} {g : Graph} {parent : StdMap String} {start v : String}
    {path : List String} {w c : Dbl} (h : Chain ar g parent start v path w c) : v ∈ path := by
  cases h with
  | base => simp
  | step e _ _ _ _ => simp

theorem Chain.nodup {ar : DoubleArith} {g : Graph} {parent : StdMap String} {start v : String}
    {path : List String} {w c : Dbl} (h : Chain ar g parent start v path w c) : path.Nodup := by
  induction h with
  | base => simp
  | step e _ _ _ hnot ih =>
    rw [List.nodup_append]
    refine ⟨ih, List.nodup_singleton _, ?_⟩
    intro x hx hx'
    simp only [List.mem_singleton] at hx'
    subst hx'
    exact hnot hx

/-- A chain only reads the parent pointers of its own nodes. -/
theorem Chain.congr {ar : DoubleArith} {g : Graph} {parent parent' : StdMap String} {start v : String}
    {path : List String} {w c : Dbl} (h : Chain ar g parent start v path w c)
    (hp : ∀ x ∈ path, parent'.find x = parent.find x) : Chain ar g parent' start v path w c := by
  induction h with
  | base => exact Chain.base
  | step e _ he hpar hnot ih =>
    refine Chain.step e (ih fun x hx => hp x (List.mem_append_left _ hx)) he ?_ hnot
    rw [hp _ (List.mem_append_right _ (List.mem_singleton_self _))]
    exact hpar

/-- The chain is a path of the graph; its nodes, weight and cost are those of
the path. -/
theorem Chain.toPath {ar : DoubleArith} {g : Graph} {parent : StdMap String} {start v : String}
    {path : List String} {w c : Dbl} (h : Chain ar g parent start v path w c) :
    ∃ es, g.IsPath start es v ∧ path = pathNodes start es ∧ w = dblPathWeight ar es ∧
      c = dblPathCost ar es := by
  induction h with
  | base => exact ⟨[], rfl, rfl, rfl, rfl⟩
  | step e _ he _ _ ih =>
    obtain ⟨es, hpath, hnodes, hw, hc⟩ := ih
    refine ⟨es ++ [e], hpath.append e he, ?_, ?_, ?_⟩
    · rw [pathNodes_append, hnodes]
    · rw [dblPathWeight_append, hw]
    · rw [dblPathCost_append, hc]

/-- Walking the parent pointers back from the end of a chain yields the chain
in reverse, given one unit of fuel per node. -/
theorem Chain.walkBack {ar : DoubleArith} {g : Graph} {parent : StdMap String} {start v : String}
    {path : List String} {w c : Dbl} (h : Chain ar g parent start v path w c) :
    ∀ (fuel : Nat) (acc : List String), path.length ≤ fuel →
      Dijkstra.walkBack parent start fuel v acc = some (acc ++ path.reverse) := by
  induction h with
  | base =>
    intro fuel acc hf
    cases fuel with
    | zero => simp at hf
    | succ n => simp [Dijkstra.walkBack]
  | @step u path' w' c' e hch he hpar hnot ih =>
    intro fuel acc hf
    cases fuel with
    | zero => simp at hf
    | succ n =>
      have hne : e.destination ≠ start := by
        intro heq
        exact hnot (heq ▸ hch.start_mem)
      have hlen : path'.length ≤ n := by
        simp only [List.length_append, List.length_singleton] at hf
        exact Nat.le_of_succ_le_succ hf
      simp only [Dijkstra.walkBack, hne, if_false, hpar]
      rw [ih n _ hlen]
      simp

end Dijkstra

namespace Dijkstra

/-! ## One relaxation keeps the invariant -/

theorem dist_set (st : DijkstraState) (t x : String) (nd : Dbl) (c : StdMap Dbl)
    (p : StdMap String) (q : List (Dbl × String)) :
    DijkstraState.dist { st with distances := st.distances.set t nd, costs := c, parent := p,
                                 pq := q } x = if x = t then nd else st.dist x := by
  simp only [DijkstraState.dist, StdMap.get, StdMap.find_set]
  split_ifs <;> rfl

theorem cost_set (st : DijkstraState) (t x : String) (nc : Dbl) (d : StdMap Dbl)
    (p : StdMap String) (q : List (Dbl × String)) :
    DijkstraState.cost { st with distances := d, costs := st.costs.set t nc, parent := p,
                                 pq := q } x = if x = t then nc else st.cost x := by
  simp only [DijkstraState.cost, StdMap.get, StdMap.find_set]
  split_ifs <;> rfl

theorem relaxEdge_visited (ar : DoubleArith) (cur : String) (st : DijkstraState) (e : Edge) :
    (relaxEdge ar cur st e).visited = st.visited := by
  unfold relaxEdge
  simp only
  split_ifs <;> rfl

theorem relaxEdge_pq_length (ar : DoubleArith) (cur : String) (st : DijkstraState)
    (e : Edge) : (relaxEdge ar cur st e).pq.length ≤ st.pq.length + 1 := by
  unfold relaxEdge
  simp only
  split_ifs
  · simp [length_pqPush]
  · simp

theorem Inv.relaxEdge {ar : DoubleArith} (hsd : ar.Sound) {g : Graph} {start end_ cur : String}
    {e : Edge} {pending : List Edge} {st : DijkstraState} (hw : g.NonNegative)
    (h : Inv ar g start end_ cur (e :: pending) st) :
    Inv ar g start end_ cur pending (Dijkstra.relaxEdge ar cur st e) := by
  obtain ⟨hcur, hbound⟩ := h.bounded (List.cons_ne_nil _ _)
  obtain ⟨hcurnode, du, hdu, hdule⟩ := h.visited_le cur hcur
  have he : e ∈ g.getNeighbors cur := h.pending_sub e (List.mem_cons_self _ _)
  have hw0 : 0 ≤ e.weight := hw.weight_nonneg he
  have hstart : st.visited.contains start = true := by
    rcases h.start_state with hs | ⟨hs, _⟩
    · exact hs
    · rw [hs cur] at hcur; exact absurd hcur (by decide)
  obtain ⟨hndgood, hndle⟩ := Dbl.Good.add hsd (h.good cur) hw0
  by_cases hlt : dblLt (dblAdd ar (st.dist cur) e.weight) (st.dist e.destination) = true
  · -- the edge improves the distance of its destination
    obtain ⟨s, hnd, hs0, hsr⟩ : ∃ s, dblAdd ar (st.dist cur) e.weight = Dbl.fin s ∧ 0 ≤ s ∧
        ar.round s = Dbl.fin s := by
      rcases hndgood with hinf | ⟨s, h1, h2, h3⟩
      · rw [hinf] at hlt; simp [dblLt] at hlt
      · exact ⟨s, h1, h2, h3⟩
    have hdus : du ≤ s := by
      rw [hnd, hdu] at hndle
      exact (Dbl.le_fin_fin du s).mp hndle
    rw [hnd] at hlt
    set t := e.destination with ht
    have htnode : g.hasNode t = true := by
      by_contra hc
      simp only [Bool.not_eq_true] at hc
      rw [h.outside t hc, dblLt_fin_fin] at hlt
      linarith
    have htunv : st.visited.contains t = false := by
      by_contra hc
      simp only [Bool.not_eq_false] at hc
      obtain ⟨dx, du', hdx, hdu', hle⟩ := hbound t hc
      rw [hdu] at hdu'
      simp only [Dbl.fin.injEq] at hdu'
      subst hdu'
      rw [hdx, dblLt_fin_fin] at hlt
      linarith
    have hvis_ne : ∀ x, st.visited.contains x = true → x ≠ t := by
      intro x hx hxt
      rw [hxt, htunv] at hx
      exact absurd hx (by decide)
    have hst' : Dijkstra.relaxEdge ar cur st e =
        { st with
          distances := st.distances.set t (Dbl.fin s)
          costs := st.costs.set t (dblAdd ar (st.cost cur) e.cost)
          parent := st.parent.set t cur
          pq := pqPush (Dbl.fin s, t) st.pq } := by
      unfold Dijkstra.relaxEdge
      simp only [hnd, ← ht, hlt, if_true]
    rw [hst']
    have hdist : ∀ x, DijkstraState.dist
        { st with
          distances := st.distances.set t (Dbl.fin s)
          costs := st.costs.set t (dblAdd ar (st.cost cur) e.cost)
          parent := st.parent.set t cur
          pq := pqPush (Dbl.fin s, t) st.pq } x =
        if x = t then Dbl.fin s else st.dist x := fun x => dist_set st t x _ _ _ _
    have hcost : ∀ x, DijkstraState.cost
        { st with
          distances := st.distances.set t (Dbl.fin s)
          costs := st.costs.set t (dblAdd ar (st.cost cur) e.cost)
          parent := st.parent.set t cur
          pq := pqPush (Dbl.fin s, t) st.pq } x =
        if x = t then dblAdd ar (st.cost cur) e.cost else st.cost x :=
      fun x => cost_set st t x _ _ _ _
    have hmono : ∀ x dx, st.dist x = Dbl.fin dx →
        ∃ dx', (if x = t then Dbl.fin s else st.dist x) = Dbl.fin dx' ∧ dx' ≤ dx := by
      intro x dx hx
      split_ifs with hxt
      · subst hxt
        rw [hx, dblLt_fin_fin] at hlt
        exact ⟨_, rfl, le_of_lt hlt⟩
      · exact ⟨dx, hx, le_refl _⟩
    have hmono' : ∀ x, Dbl.le (if x = t then Dbl.fin s else st.dist x) (st.dist x) := by
      intro x
      split_ifs with hxt
      · subst hxt
        exact Or.inl hlt
      · exact Dbl.le_self (h.good x).ne_nan
    refine
      { sorted := pairwise_pqPush _ _ (by simp) ?_ h.sorted
        pq_sound := ?_
        frontier := ?_
        visited_le := ?_
        relaxed := ?_
        outside := ?_
        good := ?_
        end_unvisited := h.end_unvisited
        start_dist := ?_
        start_state := Or.inl hstart
        chain := ?_
        pending_sub := fun e' he' => h.pending_sub e' (List.mem_cons_of_mem _ he')
        bounded := ?_ }
    · rintro ⟨k, v⟩ hkv
      obtain ⟨_, d, _, hk, _, _⟩ := h.pq_sound k v hkv
      simp [hk]
    · intro k v hkv
      simp only [hdist]
      rcases (mem_pqPush _ _ _).mp hkv with heq | hold
      · injection heq with h1 h2
        subst h1; subst h2
        exact ⟨htnode, s, s, rfl, by simp, le_refl _⟩
      · obtain ⟨hn, d, dv, hk, hdv, hle⟩ := h.pq_sound k v hold
        obtain ⟨dv', hdv', hle'⟩ := hmono v dv hdv
        exact ⟨hn, d, dv', hk, hdv', le_trans hle' hle⟩
    · intro v dv hn hv hdv
      simp only [hdist] at hdv
      show (Dbl.fin dv, v) ∈ pqPush (Dbl.fin s, t) st.pq
      rw [mem_pqPush]
      split_ifs at hdv with hvt
      · left
        simp only [Dbl.fin.injEq] at hdv
        rw [hvt, ← hdv]
      · right; exact h.frontier v dv hn hv hdv
    · intro u hu
      obtain ⟨hn, du', hdu', hle⟩ := h.visited_le u hu
      refine ⟨hn, du', ?_, ?_⟩
      · rw [hdist, if_neg (hvis_ne u hu)]; exact hdu'
      · intro d v hdv
        rcases (mem_pqPush _ _ _).mp hdv with heq | hold
        · injection heq with h1 h2
          simp only [Dbl.fin.injEq] at h1
          obtain ⟨dx, du'', hdx, hdu'', hle'⟩ := hbound u hu
          rw [hdu'] at hdx
          rw [hdu] at hdu''
          simp only [Dbl.fin.injEq] at hdx hdu''
          subst hdx; subst hdu''; subst h1
          linarith
        · exact hle d v hold
    · intro u hu e' he'
      simp only [hdist]
      rw [if_neg (hvis_ne u hu)]
      rcases h.relaxed u hu e' he' with ⟨huc, hmem⟩ | hle
      · rcases List.mem_cons.mp hmem with heq | hmem'
        · right
          subst heq; subst huc
          rw [if_pos ht.symm, hnd]
          exact Dbl.le_self (by simp)
        · left; exact ⟨huc, hmem'⟩
      · right
        exact Dbl.le_chain (hmono' e'.destination) hle
    · intro v hv
      rw [hdist]
      have : v ≠ t := by
        intro hvt; rw [hvt, htnode] at hv; exact absurd hv (by decide)
      rw [if_neg this]
      exact h.outside v hv
    · intro v
      rw [hdist]
      split_ifs with hvt
      · exact Or.inr ⟨s, rfl, hs0, hsr⟩
      · exact h.good v
    · rw [hdist, hcost, if_neg (hvis_ne start hstart), if_neg (hvis_ne start hstart)]
      exact h.start_dist
    · intro v dv hn hdv
      rw [hdist] at hdv
      rw [hcost]
      show ∃ path, Chain ar g (st.parent.set t cur) start v path (Dbl.fin dv) _ ∧
        ∀ x ∈ path, x ≠ v → st.visited.contains x = true
      split_ifs at hdv ⊢ with hvt
      · simp only [Dbl.fin.injEq] at hdv
        subst hdv
        obtain ⟨path, hch, hvis⟩ := h.chain cur du hcurnode hdu
        have hall : ∀ x ∈ path, st.visited.contains x = true := by
          intro x hx
          by_cases hxc : x = cur
          · rw [hxc]; exact hcur
          · exact hvis x hx hxc
        have htpath : t ∉ path := fun hin => hvis_ne t (hall t hin) rfl
        refine ⟨path ++ [t], ?_, ?_⟩
        · rw [hvt]
          have hcongr : Chain ar g (st.parent.set t cur) start cur path (Dbl.fin du)
              (st.cost cur) :=
            hch.congr fun x hx => StdMap.find_set_ne _ _ _ _ (fun hxt => htpath (hxt ▸ hx))
          have hstep := Chain.step e hcongr he (StdMap.find_set_self _ _ _) htpath
          rw [← hdu, hnd] at hstep
          exact hstep
        · intro x hx hxv
          rcases List.mem_append.mp hx with hx | hx
          · exact hall x hx
          · simp only [List.mem_singleton] at hx
            exact absurd (hx.trans hvt.symm) hxv
      · obtain ⟨path, hch, hvis⟩ := h.chain v dv hn hdv
        refine ⟨path, hch.congr ?_, hvis⟩
        intro x hx
        apply StdMap.find_set_ne
        intro hxt
        by_cases hxv : x = v
        · exact hvt (hxv ▸ hxt)
        · exact hvis_ne x (hvis x hx hxv) hxt
    · intro hp
      refine ⟨hcur, ?_⟩
      intro x hx
      obtain ⟨dx, du', hdx, hdu', hle⟩ := hbound x hx
      refine ⟨dx, du', ?_, ?_, hle⟩
      · rw [hdist, if_neg (hvis_ne x hx)]; exact hdx
      · rw [hdist, if_neg (hvis_ne cur hcur)]; exact hdu'
  · -- the edge brings no improvement
    have hst' : Dijkstra.relaxEdge ar cur st e = st := by
      unfold Dijkstra.relaxEdge
      simp only [hlt, if_false]
      rfl
    rw [hst']
    have hdtle : Dbl.le (st.dist e.destination) (dblAdd ar (st.dist cur) e.weight) :=
      Dbl.le_of_not_lt hndgood.ne_nan (h.good e.destination).ne_nan
        (by simpa using hlt)
    refine
      { h with
        relaxed := ?_
        pending_sub := fun e' he' => h.pending_sub e' (List.mem_cons_of_mem _ he')
        bounded := fun _ => ⟨hcur, hbound⟩ }
    intro u hu e' he'
    rcases h.relaxed u hu e' he' with ⟨huc, hmem⟩ | hr
    · rcases List.mem_cons.mp hmem with heq | hmem'
      · right
        subst heq; subst huc
        exact hdtle
      · left; exact ⟨huc, hmem'⟩
    · right; exact hr

end Dijkstra

namespace Dijkstra

/-! ## One iteration of the main loop keeps the invariant -/

theorem Inv.relaxAll {ar : DoubleArith} (hsd : ar.Sound) {g : Graph} {start end_ cur : String}
    (hw : g.NonNegative) :
    ∀ (pending : List Edge) (st : DijkstraState), Inv ar g start end_ cur pending st →
      Inv ar g start end_ cur [] (pending.foldl (Dijkstra.relaxEdge ar cur) st) := by
  intro pending
  induction pending with
  | nil => intro st h; exact h
  | cons e t ih =>
    intro st h
    simp only [List.foldl_cons]
    exact ih _ (h.relaxEdge hsd hw)

/-- The head of the queue is the current distance of its node when that node
has not been visited yet. -/
theorem Inv.head_key {ar : DoubleArith} {g : Graph} {start end_ cur : String} {st : DijkstraState}
    {k : Dbl} {u : String} {rest : List (Dbl × String)}
    (h : Inv ar g start end_ cur [] st) (hpq : st.pq = (k, u) :: rest)
    (hv : st.visited.contains u = false) :
    ∃ d, k = Dbl.fin d ∧ st.dist u = Dbl.fin d ∧ ∀ d' v, (Dbl.fin d', v) ∈ rest → d ≤ d' := by
  have hsorted := h.sorted
  rw [hpq, List.pairwise_cons] at hsorted
  obtain ⟨hn, d, du, hk, hdu, hle⟩ := h.pq_sound k u (by rw [hpq]; exact List.mem_cons_self _ _)
  subst hk
  have hfr := h.frontier u du hn hv hdu
  rw [hpq] at hfr
  have hd : d = du := by
    rcases List.mem_cons.mp hfr with heq | hmem
    · injection heq with h1 _
      simp only [Dbl.fin.injEq] at h1
      exact h1.symm
    · exact le_antisymm (key_le_of_pairLe _ _ _ _ (hsorted.1 _ hmem)) hle
  subst hd
  refine ⟨d, rfl, hdu, ?_⟩
  intro d' v hmem
  exact key_le_of_pairLe _ _ _ _ (hsorted.1 _ hmem)

theorem Inv.visit {ar : DoubleArith} {g : Graph} {start end_ cur : String} {st : DijkstraState}
    {k : Dbl} {u : String} {rest : List (Dbl × String)}
    (h : Inv ar g start end_ cur [] st) (hpq : st.pq = (k, u) :: rest) (hu : u ≠ end_)
    (hv : st.visited.contains u = false) :
    Inv ar g start end_ u (g.getNeighbors u)
      { st with pq := rest, visited := st.visited.insert u } := by
  obtain ⟨d, hk, hdu, hrest⟩ := h.head_key hpq hv
  subst hk
  have hsorted := h.sorted
  rw [hpq, List.pairwise_cons] at hsorted
  have hsub : ∀ x, x ∈ rest → x ∈ st.pq := fun x hx => by
    rw [hpq]; exact List.mem_cons_of_mem _ hx
  have hhead : (Dbl.fin d, u) ∈ st.pq := by rw [hpq]; exact List.mem_cons_self _ _
  have hun : g.hasNode u = true := (h.pq_sound _ _ hhead).1
  have hvis : ∀ x, (st.visited.insert u).contains x = true ↔
      x = u ∨ st.visited.contains x = true := by
    intro x
    simp [StdSet.insert, StdMap.contains_set]
  refine
    { sorted := hsorted.2
      pq_sound := fun k v hkv => h.pq_sound k v (hsub _ hkv)
      frontier := ?_
      visited_le := ?_
      relaxed := ?_
      outside := h.outside
      good := h.good
      end_unvisited := ?_
      start_dist := h.start_dist
      start_state := ?_
      chain := ?_
      pending_sub := fun e he => he
      bounded := ?_ }
  · intro v dv hn hvv hdv
    have hvu : v ≠ u := by
      intro hvu
      have := (hvis v).mpr (Or.inl hvu)
      rw [this] at hvv
      exact absurd hvv (by decide)
    have hvold : st.visited.contains v = false := by
      cases hc : st.visited.contains v with
      | false => rfl
      | true =>
        have := (hvis v).mpr (Or.inr hc)
        rw [this] at hvv
        exact absurd hvv (by decide)
    have := h.frontier v dv hn hvold hdv
    rw [hpq] at this
    rcases List.mem_cons.mp this with heq | hmem
    · injection heq with _ h2
      exact absurd h2 hvu
    · exact hmem
  · intro x hx
    rcases (hvis x).mp hx with hxu | hxold
    · subst hxu
      exact ⟨hun, d, hdu, hrest⟩
    · obtain ⟨hn, dx, hdx, hle⟩ := h.visited_le x hxold
      exact ⟨hn, dx, hdx, fun d' v hm => hle d' v (hsub _ hm)⟩
  · intro x hx e he
    rcases (hvis x).mp hx with hxu | hxold
    · left; exact ⟨hxu, hxu ▸ he⟩
    · rcases h.relaxed x hxold e he with ⟨_, hmem⟩ | hr
      · simp at hmem
      · right; exact hr
  · cases hc : (st.visited.insert u).contains end_ with
    | false => rfl
    | true =>
      rcases (hvis end_).mp hc with heq | hold
      · exact absurd heq.symm hu
      · rw [h.end_unvisited] at hold; exact absurd hold (by decide)
  · left
    rcases h.start_state with hs | ⟨_, hq, _⟩
    · exact (hvis start).mpr (Or.inr hs)
    · rw [hq] at hpq
      injection hpq with h1 _
      injection h1 with _ h2
      exact (hvis start).mpr (Or.inl h2)
  · intro v dv hn hdv
    obtain ⟨path, hch, hpv⟩ := h.chain v dv hn hdv
    exact ⟨path, hch, fun x hx hxv => (hvis x).mpr (Or.inr (hpv x hx hxv))⟩
  · intro _
    refine ⟨(hvis u).mpr (Or.inl rfl), ?_⟩
    intro x hx
    rcases (hvis x).mp hx with hxu | hxold
    · subst hxu
      exact ⟨d, d, hdu, hdu, le_refl _⟩
    · obtain ⟨_, dx, hdx, hle⟩ := h.visited_le x hxold
      exact ⟨dx, d, hdx, hdu, hle d u hhead⟩

theorem Inv.skip {ar : DoubleArith} {g : Graph} {start end_ cur : String} {st : DijkstraState}
    {k : Dbl} {u : String} {rest : List (Dbl × String)}
    (h : Inv ar g start end_ cur [] st) (hpq : st.pq = (k, u) :: rest)
    (hv : st.visited.contains u = true) :
    Inv ar g start end_ cur [] { st with pq := rest } := by
  have hsorted := h.sorted
  rw [hpq, List.pairwise_cons] at hsorted
  have hsub : ∀ x, x ∈ rest → x ∈ st.pq := fun x hx => by
    rw [hpq]; exact List.mem_cons_of_mem _ hx
  refine
    { h with
      sorted := hsorted.2
      pq_sound := fun k v hkv => h.pq_sound k v (hsub _ hkv)
      frontier := ?_
      visited_le := ?_
      start_state := ?_ }
  · intro v dv hn hvv hdv
    have := h.frontier v dv hn hvv hdv
    rw [hpq] at this
    rcases List.mem_cons.mp this with heq | hmem
    · injection heq with _ h2
      rw [h2, hv] at hvv
      exact absurd hvv (by decide)
    · exact hmem
  · intro x hx
    obtain ⟨hn, dx, hdx, hle⟩ := h.visited_le x hx
    exact ⟨hn, dx, hdx, fun d' v hm => hle d' v (hsub _ hm)⟩
  · left
    rcases h.start_state with hs | ⟨hs, _⟩
    · exact hs
    · rw [hs u] at hv; exact absurd hv (by decide)

/-! ## What the invariant gives when the loop exits -/

/-- Along a path with weights that are not negative the accumulated weight
does not decrease. -/
theorem dblWeightFrom_ge {ar : DoubleArith} (hsd : ar.Sound) {g : Graph} (hw : g.NonNegative) :
    ∀ (es : List Edge) (x y : String) (acc : Dbl), g.IsPath x es y → Dbl.Good ar acc →
      Dbl.Good ar (dblWeightFrom ar acc es) ∧ Dbl.le acc (dblWeightFrom ar acc es) := by
  intro es
  induction es with
  | nil => intro x y acc _ hg; exact ⟨hg, Dbl.le_self hg.ne_nan⟩
  | cons e t ih =>
    intro x y acc hp hg
    simp only [Graph.IsPath] at hp
    obtain ⟨h1, h2⟩ := Dbl.Good.add hsd hg (hw.weight_nonneg hp.1)
    obtain ⟨h3, h4⟩ := ih e.destination y _ hp.2 h1
    rw [dblWeightFrom_cons]
    exact ⟨h3, Dbl.le_chain h2 h4⟩

/-- A path that leaves the visited region passes a queued node, so some queue
entry is no larger than the weight of the path, when that weight is finite. -/
theorem Inv.lower_bound {ar : DoubleArith} (hsd : ar.Sound) {g : Graph}
    {start end_ cur : String} {st : DijkstraState}
    (hw : g.NonNegative) (h : Inv ar g start end_ cur [] st) :
    ∀ (es : List Edge) (x y : String) (acc : Dbl) (W : ℚ), g.IsPath x es y →
      st.visited.contains x = true → Dbl.le (st.dist x) acc → Dbl.Good ar acc →
      g.hasNode y = true → st.visited.contains y = false →
      dblWeightFrom ar acc es = Dbl.fin W →
      ∃ d v, (Dbl.fin d, v) ∈ st.pq ∧ d ≤ W := by
  intro es
  induction es with
  | nil =>
    intro x y acc W hp hx _ _ _ hy _
    simp only [Graph.IsPath] at hp
    subst hp
    rw [hx] at hy
    exact absurd hy (by decide)
  | cons e t ih =>
    intro x y acc W hp hx hle hg hyn hy hW
    simp only [Graph.IsPath] at hp
    obtain ⟨he, hrest⟩ := hp
    have hw0 := hw.weight_nonneg he
    obtain ⟨hg', _⟩ := Dbl.Good.add hsd hg hw0
    rw [dblWeightFrom_cons] at hW
    rcases h.relaxed x hx e he with ⟨_, hmem⟩ | hrel
    · simp at hmem
    · have hle' : Dbl.le (st.dist e.destination) (dblAdd ar acc e.weight) :=
        Dbl.le_chain hrel (dblAdd_mono hsd e.weight hle)
      cases hvis : st.visited.contains e.destination with
      | true => exact ih e.destination y _ W hrest hvis hle' hg' hyn hy hW
      | false =>
        have hnode : g.hasNode e.destination = true := by
          cases hn : g.hasNode e.destination with
          | true => rfl
          | false =>
            cases t with
            | nil =>
              simp only [Graph.IsPath] at hrest
              rw [hrest, hyn] at hn
              exact absurd hn (by decide)
            | cons e' t' =>
              simp only [Graph.IsPath] at hrest
              rw [Graph.getNeighbors_of_not_hasNode g _ hn] at hrest
              simp at hrest
        have hfin : Dbl.le (st.dist e.destination) (Dbl.fin W) := by
          have := (dblWeightFrom_ge hsd hw t e.destination y _ hrest hg').2
          rw [hW] at this
          exact Dbl.le_chain hle' this
        rcases h.good e.destination with hinf | ⟨dt, hdt, _, _⟩
        · rw [hinf] at hfin
          exact absurd (Dbl.posInf_le hfin) (by simp)
        · rw [hdt] at hfin
          exact ⟨dt, e.destination, h.frontier _ dt hnode hvis hdt,
            (Dbl.le_fin_fin dt W).mp hfin⟩

theorem mainLoop_correct {ar : DoubleArith} (hsd : ar.Sound) {g : Graph} {start end_ : String}
    (hw : g.NonNegative) (hne : start ≠ end_) (hend : g.hasNode end_ = true) :
    ∀ (fuel : Nat) (cur : String) (st st' : DijkstraState), Inv ar g start end_ cur [] st →
      mainLoop ar g end_ fuel st = some st' →
      Dbl.Good ar (st'.dist end_) ∧
      (∀ d, st'.dist end_ = Dbl.fin d →
        (∃ path, Chain ar g st'.parent start end_ path (Dbl.fin d) (st'.cost end_) ∧
          ∀ x ∈ path, g.hasNode x = true) ∧
        ∀ es W, g.IsPath start es end_ → dblPathWeight ar es = Dbl.fin W → d ≤ W) ∧
      (st'.dist end_ = Dbl.posInf →
        ∀ es W, g.IsPath start es end_ → dblPathWeight ar es ≠ Dbl.fin W) := by
  intro fuel
  induction fuel with
  | zero => intro cur st st' _ hrun; simp [mainLoop] at hrun
  | succ n ih =>
    intro cur st st' h hrun
    unfold mainLoop at hrun
    -- a path from `start` to `end_` forces a queue entry below its weight
    have hbound : ∀ es W, g.IsPath start es end_ → dblPathWeight ar es = Dbl.fin W →
        ∃ d v, (Dbl.fin d, v) ∈ st.pq ∧ d ≤ W := by
      intro es W hp hW
      rcases h.start_state with hs | ⟨_, hq, _⟩
      · refine h.lower_bound hsd hw es start end_ (Dbl.fin 0) W hp hs ?_ (Dbl.Good.zero hsd)
          hend h.end_unvisited hW
        rw [h.start_dist.1]
        exact Dbl.le_self (by simp)
      · refine ⟨0, start, by rw [hq]; exact List.mem_singleton_self _, ?_⟩
        have := (dblWeightFrom_ge hsd hw es start end_ _ hp (Dbl.Good.zero hsd)).2
        unfold dblPathWeight at hW
        rw [hW] at this
        exact (Dbl.le_fin_fin 0 W).mp this
    have hchain : ∀ d, st.dist end_ = Dbl.fin d →
        ∃ path, Chain ar g st.parent start end_ path (Dbl.fin d) (st.cost end_) ∧
          ∀ x ∈ path, g.hasNode x = true := by
      intro d hd
      obtain ⟨path, hch, hvis⟩ := h.chain end_ d hend hd
      refine ⟨path, hch, ?_⟩
      intro x hx
      by_cases hxe : x = end_
      · rw [hxe]; exact hend
      · exact (h.visited_le x (hvis x hx hxe)).1
    cases hpq : st.pq with
    | nil =>
      rw [hpq] at hrun
      simp only [Option.some.injEq] at hrun
      subst hrun
      refine ⟨h.good end_, ?_, ?_⟩
      · intro d hd
        have := h.frontier end_ d hend h.end_unvisited hd
        rw [hpq] at this
        simp at this
      · intro _ es W hp hW
        obtain ⟨d, v, hmem, _⟩ := hbound es W hp hW
        rw [hpq] at hmem
        simp at hmem
    | cons hd rest =>
      obtain ⟨k, u⟩ := hd
      rw [hpq] at hrun
      simp only at hrun
      by_cases hue : u = end_
      · rw [if_pos hue] at hrun
        simp only [Option.some.injEq] at hrun
        subst hrun
        subst hue
        obtain ⟨dk, hk, hdu, hrest⟩ := h.head_key hpq h.end_unvisited
        refine ⟨h.good u, ?_, ?_⟩
        · intro d hd
          change st.dist u = Dbl.fin d at hd
          rw [hdu] at hd
          simp only [Dbl.fin.injEq] at hd
          subst hd
          refine ⟨hchain dk hdu, ?_⟩
          intro es W hp hW
          obtain ⟨d', v, hmem, hd'⟩ := hbound es W hp hW
          rw [hpq] at hmem
          rcases List.mem_cons.mp hmem with heq | hmem
          · injection heq with h1 _
            rw [hk] at h1
            simp only [Dbl.fin.injEq] at h1
            linarith
          · have := hrest d' v hmem
            linarith
        · intro hnone
          change st.dist u = Dbl.posInf at hnone
          rw [hdu] at hnone
          exact absurd hnone (by simp)
      · rw [if_neg hue] at hrun
        cases hvis : st.visited.contains u with
        | true =>
          have hvis' : StdMap.contains
              ({ st with pq := rest } : DijkstraState).visited u = true := hvis
          rw [if_pos hvis'] at hrun
          exact ih cur _ st' (h.skip hpq hvis) hrun
        | false =>
          have hvis' : ¬ StdMap.contains
              ({ st with pq := rest } : DijkstraState).visited u = true := by
            show ¬ st.visited.contains u = true
            rw [hvis]; decide
          rw [if_neg hvis'] at hrun
          exact ih u _ st' ((h.visit hpq hue hvis).relaxAll hsd hw _ ) hrun

end Dijkstra

namespace Dijkstra

/-! ## The state on entry to the main loop -/

theorem dist_initState (g : Graph) (start v : String) :
    (initState g start).dist v =
      if v = start then Dbl.fin 0
      else if g.hasNode v = true then Dbl.posInf else Dbl.fin 0 := by
  simp only [DijkstraState.dist, initState, StdMap.get, StdMap.find_set, find_foldl_set,
    Graph.mem_getNodes_toList]
  split_ifs <;> simp

theorem cost_initState (g : Graph) (start v : String) :
    (initState g start).cost v = Dbl.fin 0 := by
  simp only [DijkstraState.cost, initState, StdMap.get, find_foldl_set]
  split_ifs <;> simp

theorem Inv.init {ar : DoubleArith} (hsd : ar.Sound) (g : Graph) (start end_ cur : String)
    (hs : g.hasNode start = true) (hne : start ≠ end_) :
    Inv ar g start end_ cur [] (initState g start) := by
  have hpq : (initState g start).pq = [(Dbl.fin 0, start)] := rfl
  have hvis : ∀ v, (initState g start).visited.contains v = false := fun v => rfl
  have hfin : ∀ v dv, g.hasNode v = true → (initState g start).dist v = Dbl.fin dv →
      v = start ∧ dv = 0 := by
    intro v dv hn hd
    rw [dist_initState] at hd
    split_ifs at hd with h1
    · simp only [Dbl.fin.injEq] at hd
      exact ⟨h1, hd.symm⟩
  refine
    { sorted := by rw [hpq]; simp
      pq_sound := ?_
      frontier := ?_
      visited_le := fun u hu => by rw [hvis u] at hu; exact absurd hu (by decide)
      relaxed := fun u hu => by rw [hvis u] at hu; exact absurd hu (by decide)
      outside := ?_
      good := ?_
      end_unvisited := hvis end_
      start_dist := ⟨by simp [dist_initState], cost_initState g start start⟩
      start_state := Or.inr ⟨hvis, hpq, ?_⟩
      chain := ?_
      pending_sub := fun e he => by simp at he
      bounded := fun hp => absurd rfl hp }
  · intro k v hkv
    rw [hpq, List.mem_singleton] at hkv
    injection hkv with h1 h2
    subst h1; subst h2
    exact ⟨hs, 0, 0, rfl, by simp [dist_initState], le_refl _⟩
  · intro v dv hn _ hd
    obtain ⟨h1, h2⟩ := hfin v dv hn hd
    rw [hpq, h1, h2]
    exact List.mem_singleton_self _
  · intro v hv
    have : v ≠ start := by
      intro h; rw [h, hs] at hv; exact absurd hv (by decide)
    simp [dist_initState, this, hv]
  · intro v
    rw [dist_initState]
    split_ifs
    · exact Dbl.Good.zero hsd
    · exact Or.inl rfl
    · exact Dbl.Good.zero hsd
  · intro v hn hv
    simp [dist_initState, hv, hn]
  · intro v dv hn hd
    obtain ⟨h1, h2⟩ := hfin v dv hn hd
    subst h1; subst h2
    rw [cost_initState]
    exact ⟨[v], Chain.base, fun x hx hxv => absurd (List.mem_singleton.mp hx) hxv⟩

/-! ## The main loop exits within its fuel -/

theorem foldl_relaxEdge_visited (ar : DoubleArith) (cur : String) (es : List Edge) (st : DijkstraState) :
    (es.foldl (relaxEdge ar cur) st).visited = st.visited := by
  induction es generalizing st with
  | nil => rfl
  | cons e t ih => simp only [List.foldl_cons, ih, relaxEdge_visited]

theorem foldl_relaxEdge_pq_length (ar : DoubleArith) (cur : String) (es : List Edge) (st : DijkstraState) :
    (es.foldl (relaxEdge ar cur) st).pq.length ≤ st.pq.length + es.length := by
  induction es generalizing st with
  | nil => simp
  | cons e t ih =>
    simp only [List.foldl_cons, List.length_cons]
    have h1 := ih (relaxEdge ar cur st e)
    have h2 := relaxEdge_pq_length ar cur st e
    omega

theorem sum_unvisited_insert_le (f : String → Nat) (V : StdSet) (u : String)
    (L : List String) :
    ((L.filter (fun n => !(V.insert u).contains n)).map f).sum ≤
      ((L.filter (fun n => !V.contains n)).map f).sum := by
  induction L with
  | nil => simp
  | cons x t ih =>
    simp only [List.filter_cons, StdSet.insert, StdMap.contains_set]
    by_cases hxu : x = u
    · simp only [hxu, decide_True, Bool.true_or, Bool.not_true, Bool.false_eq_true, if_false]
      split_ifs
      · simp only [List.map_cons, List.sum_cons]
        have : ((List.filter (fun n => !(decide (n = u) || StdMap.contains V n)) t).map f).sum ≤
            ((List.filter (fun n => !StdMap.contains V n) t).map f).sum := by
          simpa [StdSet.insert, StdMap.contains_set] using ih
        omega
      · simpa [StdSet.insert, StdMap.contains_set] using ih
    · have ih' : ((List.filter (fun n => !(decide (n = u) || StdMap.contains V n)) t).map f).sum ≤
          ((List.filter (fun n => !StdMap.contains V n) t).map f).sum := by
        simpa [StdSet.insert, StdMap.contains_set] using ih
      simp only [hxu, decide_False, Bool.false_or]
      split_ifs
      · simp only [List.map_cons, List.sum_cons]
        omega
      · exact ih'

theorem sum_unvisited_insert (f : String → Nat) (V : StdSet) (u : String)
    (hu : V.contains u = false) (L : List String) (hmem : u ∈ L) :
    ((L.filter (fun n => !(V.insert u).contains n)).map f).sum + f u ≤
      ((L.filter (fun n => !V.contains n)).map f).sum := by
  induction L with
  | nil => simp at hmem
  | cons x t ih =>
    have hle := sum_unvisited_insert_le f V u t
    simp only [List.filter_cons, StdSet.insert, StdMap.contains_set] at hle ⊢
    by_cases hxu : x = u
    · simp only [hxu, decide_True, Bool.true_or, Bool.not_true, Bool.false_eq_true, if_false,
        hu, Bool.not_false, if_true, List.map_cons, List.sum_cons]
      omega
    · have hut : u ∈ t := by
        rcases List.mem_cons.mp hmem with h | h
        · exact absurd h.symm hxu
        · exact h
      have ih' := ih hut
      simp only [StdSet.insert, StdMap.contains_set] at ih'
      simp only [hxu, decide_False, Bool.false_or]
      split_ifs
      · simp only [List.map_cons, List.sum_cons]
        omega
      · exact ih'

theorem mainLoop_terminates (ar : DoubleArith) (g : Graph) (end_ : String) :
    ∀ (fuel : Nat) (st : DijkstraState), workLeft g st < fuel →
      ∃ st', mainLoop ar g end_ fuel st = some st' := by
  intro fuel
  induction fuel with
  | zero => intro st h; exact absurd h (Nat.not_lt_zero _)
  | succ n ih =>
    intro st h
    unfold mainLoop
    cases hpq : st.pq with
    | nil => exact ⟨st, rfl⟩
    | cons hd rest =>
      obtain ⟨k, u⟩ := hd
      simp only
      by_cases hue : u = end_
      · rw [if_pos hue]; exact ⟨_, rfl⟩
      · rw [if_neg hue]
        have hlen : st.pq.length = rest.length + 1 := by rw [hpq]; rfl
        cases hvis : st.visited.contains u with
        | true =>
          rw [if_pos rfl]
          apply ih
          unfold workLeft at h ⊢
          simp only
          omega
        | false =>
          rw [if_neg (by decide)]
          apply ih
          unfold workLeft at h ⊢
          rw [foldl_relaxEdge_visited]
          have h1 := foldl_relaxEdge_pq_length ar u (g.getNeighbors u)
            { st with pq := rest, visited := st.visited.insert u }
          simp only at h1 ⊢
          by_cases hnode : g.hasNode u = true
          · have h2 := sum_unvisited_insert (fun n => (g.getNeighbors n).length) st.visited u
              hvis g.getNodes.toList ((Graph.mem_getNodes_toList g u).mpr hnode)
            simp only at h2
            omega
          · simp only [Bool.not_eq_true] at hnode
            have h2 := sum_unvisited_insert_le (fun n => (g.getNeighbors n).length) st.visited u
              g.getNodes.toList
            rw [Graph.getNeighbors_of_not_hasNode g u hnode] at h1 ⊢
            simp only [List.length_nil, List.foldl_nil] at h1 ⊢
            omega

theorem workLeft_initState (g : Graph) (start : String) :
    workLeft g (initState g start) < loopFuel g := by
  unfold workLeft loopFuel
  have h1 : (initState g start).pq.length = 1 := rfl
  have h2 : (g.getNodes.toList.filter
      (fun n => !(initState g start).visited.contains n)) = g.getNodes.toList := by
    apply List.filter_eq_self.mpr
    intro a _
    rfl
  rw [h1, h2]
  omega

end Dijkstra

namespace Dijkstra

/-! ## `findShortestPath` -/

/-- What `findShortestPath` returns between two nodes of a graph with
non-negative weights: either a path whose accumulated weight is finite and
at most that of every path, with its distance and cost, or the no-route
failure when no path has a finite accumulated weight.  It always returns. -/
theorem findShortestPath_spec {ar : DoubleArith} (hsd : ar.Sound) (g : Graph)
    (start end_ : String) (hw : g.NonNegative)
    (hs : g.hasNode start = true) (he : g.hasNode end_ = true) :
    ∃ r, findShortestPath ar g start end_ = some r ∧
      ((r.found = true ∧ r.errorMessage = "" ∧
          ∃ es d, g.IsPath start es end_ ∧ r.path = pathNodes start es ∧
            r.totalDistance = dblPathWeight ar es ∧ r.totalCost = dblPathCost ar es ∧
            r.totalDistance = Dbl.fin d ∧
            ∀ es', g.IsPath start es' end_ →
              Dbl.le r.totalDistance (dblPathWeight ar es')) ∨
        (r = { found := false, path := [], totalDistance := Dbl.fin 0,
               totalCost := Dbl.fin 0, estimatedTime := Dbl.fin 0,
               errorMessage := "No route available between airports" } ∧
          ∀ es W, g.IsPath start es end_ → dblPathWeight ar es ≠ Dbl.fin W)) := by
  by_cases hse : start = end_
  · subst hse
    refine ⟨{ found := true, path := [start], totalDistance := Dbl.fin 0,
              totalCost := Dbl.fin 0 },
      by simp [findShortestPath, hs], Or.inl ⟨rfl, rfl, [], 0, rfl, rfl, rfl, rfl, rfl, ?_⟩⟩
    intro es' hp
    exact (dblWeightFrom_ge hsd hw es' start start _ hp (Dbl.Good.zero hsd)).2
  · obtain ⟨st, hrun⟩ := mainLoop_terminates ar g end_ (loopFuel g) (initState g start)
      (workLeft_initState g start)
    obtain ⟨hgood, hfound, hnone⟩ := mainLoop_correct hsd hw hse he (loopFuel g) start _ st
      (Inv.init hsd g start end_ start hs hse) hrun
    rcases hgood with hd | ⟨d, hd, _, _⟩
    · refine ⟨{ found := false, errorMessage := "No route available between airports" },
        by simp [findShortestPath, hs, he, hse, hrun, hd, dblEq], Or.inr ⟨rfl, hnone hd⟩⟩
    · obtain ⟨⟨path, hch, hnodes⟩, hmin⟩ := hfound d hd
      have hlen : path.length ≤ g.getNodeCount + 1 := by
        have hsub : path ⊆ g.getNodes.toList :=
          fun x hx => (Graph.mem_getNodes_toList g x).mpr (hnodes x hx)
        have := (List.subperm_of_subset hch.nodup hsub).length_le
        have hcount : g.getNodes.toList.length = g.getNodeCount := by
          simp [Graph.getNodes, StdSet.toList, StdMap.keys, Graph.getNodeCount, StdMap.size]
        omega
      have hrec : reconstructPath (g.getNodeCount + 1) st.parent start end_ = some path := by
        unfold reconstructPath
        rw [hch.walkBack _ [] hlen]
        simp
      obtain ⟨es, hpath, hpn, hpw, hpc⟩ := hch.toPath
      refine ⟨{ found := true, path := path, totalDistance := Dbl.fin d,
                totalCost := st.cost end_ },
        by simp [findShortestPath, hs, he, hse, hrun, hd, hrec, dblEq],
        Or.inl ⟨rfl, rfl, es, d, hpath, hpn, hpw, hpc, rfl, ?_⟩⟩
      intro es' hp
      show Dbl.le (Dbl.fin d) (dblPathWeight ar es')
      rcases (dblWeightFrom_ge hsd hw es' start end_ _ hp (Dbl.Good.zero hsd)).1 with
        hinf | ⟨W, hW, _, _⟩
      · unfold dblPathWeight
        rw [hinf]
        exact Dbl.le_posInf (by simp)
      · unfold dblPathWeight
        rw [hW]
        exact (Dbl.le_fin_fin d W).mpr (hmin es' W hp hW)

end Dijkstra

/-! ## The search: distance, path, cost, and the routes it finds -/

/-- Sums that are exact are not changed by the rounding. -/
theorem dblWeightFrom_exact (ar : DoubleArith) :
    ∀ (es : List Edge) (x : ℚ),
      (∀ n, ar.round (x + pathWeight (es.take (n + 1))) =
        Dbl.fin (x + pathWeight (es.take (n + 1)))) →
      dblWeightFrom ar (Dbl.fin x) es = Dbl.fin (x + pathWeight es) := by
  intro es
  induction es with
  | nil => intro x _; simp [dblWeightFrom, pathWeight]
  | cons e t ih =>
    intro x h
    have h0 := h 0
    simp only [zero_add, List.take_succ_cons, List.take_zero, pathWeight_cons, pathWeight_nil,
      add_zero] at h0
    rw [dblWeightFrom_cons, dblAdd_fin, h0, ih (x + e.weight), pathWeight_cons, add_assoc]
    intro n
    have hn := h (n + 1)
    simp only [List.take_succ_cons, pathWeight_cons] at hn
    rw [add_assoc]
    exact hn

theorem dblPathWeight_exact (ar : DoubleArith) (es : List Edge) (h : ExactSums ar es) :
    dblPathWeight ar es = Dbl.fin (pathWeight es) := by
  have := dblWeightFrom_exact ar es 0 (fun n => by simpa using h (n + 1))
  simpa [dblPathWeight] using this

/-- C1 fails in double arithmetic: on `roundingGraph`, whose weights are
doubles and not negative, `findShortestPath(A, C)` returns the route A->C
with totalDistance `10^16 + 4`, while the weights of the path A->B->C sum to
`10^16 + 3`: the sum `10^16 + 3` formed by the search is rounded to
`10^16 + 4`, which is not less than the distance already held for C. -/
theorem findShortestPath_not_minimal :
    roundingGraph.NonNegative ∧
    binary64.round 10000000000000000 = Dbl.fin 10000000000000000 ∧
    binary64.round 3 = Dbl.fin 3 ∧
    binary64.round 10000000000000004 = Dbl.fin 10000000000000004 ∧
    binary64.round (10000000000000000 + 3) = Dbl.fin 10000000000000004 ∧
    Dijkstra.findShortestPath binary64 roundingGraph "A" "C" =
      some { found := true, path := ["A", "C"], totalDistance := Dbl.fin 10000000000000004,
             totalCost := Dbl.fin 100, estimatedTime := Dbl.fin 0, errorMessage := "" } ∧
    roundingGraph.IsPath "A" [⟨"B", 10000000000000000, 100⟩, ⟨"C", 3, 100⟩] "C" ∧
    pathWeight [⟨"B", 10000000000000000, 100⟩, ⟨"C", 3, 100⟩] = 10000000000000003 ∧
    ¬ ((10000000000000004 : ℚ) ≤
      pathWeight [⟨"B", 10000000000000000, 100⟩, ⟨"C", 3, 100⟩]) := by
  refine ⟨by decide!, by decide!, by decide!, by decide!, by decide!, by decide!,
    ⟨by decide!, by decide!, rfl⟩, by decide!, by decide!⟩

/-- C1, as the code has it, in the double arithmetic of IEEE 754: between two
nodes of a graph with non-negative weights `findShortestPath` returns, and
when it reports found=true its totalDistance is the weight of a directed path
from `start` to `end_` as double arithmetic accumulates it (from `0.0`, one
rounded addition per edge, in path order), and is at most the weight so
accumulated of every directed path from `start` to `end_`; it is at most the
exact summed weight of every such path along which the sums are exact. -/
theorem findShortestPath_minimal (g : Graph) (start end_ : String) (hw : g.NonNegative)
    (hs : g.hasNode start = true) (he : g.hasNode end_ = true) :
    ∃ r, Dijkstra.findShortestPath binary64 g start end_ = some r ∧
      (r.found = true →
        (∃ es, g.IsPath start es end_ ∧ r.totalDistance = dblPathWeight binary64 es) ∧
        (∀ es, g.IsPath start es end_ →
          Dbl.le r.totalDistance (dblPathWeight binary64 es)) ∧
        (∀ es, g.IsPath start es end_ → ExactSums binary64 es →
          Dbl.le r.totalDistance (Dbl.fin (pathWeight es)))) := by
  obtain ⟨r, hr, hcase | hcase⟩ :=
    Dijkstra.findShortestPath_spec binary64_sound g start end_ hw hs he
  · obtain ⟨_, _, es, d, hp, _, hpw, _, _, hmin⟩ := hcase
    refine ⟨r, hr, fun _ => ⟨⟨es, hp, hpw⟩, hmin, ?_⟩⟩
    intro es' hp' hex
    rw [← dblPathWeight_exact binary64 es' hex]
    exact hmin es' hp'
  · refine ⟨r, hr, fun hf => ?_⟩
    rw [hcase.1] at hf
    exact absurd hf (by decide)

theorem findShortestPath_minimal_witness :
    testGraph.NonNegative ∧ testGraph.hasNode "A" = true ∧ testGraph.hasNode "C" = true ∧
    (Dijkstra.findShortestPath binary64 testGraph "A" "C").map
      (fun r => (r.found, r.totalDistance)) = some (true, Dbl.fin 35) ∧
    ∃ r, Dijkstra.findShortestPath binary64 testGraph "A" "C" = some r ∧
      (r.found = true →
        (∃ es, testGraph.IsPath "A" es "C" ∧ r.totalDistance = dblPathWeight binary64 es) ∧
        (∀ es, testGraph.IsPath "A" es "C" →
          Dbl.le r.totalDistance (dblPathWeight binary64 es)) ∧
        (∀ es, testGraph.IsPath "A" es "C" → ExactSums binary64 es →
          Dbl.le r.totalDistance (Dbl.fin (pathWeight es)))) :=
  ⟨by decide!, by decide!, by decide!, by decide!,
    findShortestPath_minimal testGraph "A" "C" (by decide!)
      (by decide!) (by decide!)⟩

/-- C2 fails in double arithmetic: on `absorbGraph` `findShortestPath(A, C)`
returns the path A, B, C with totalDistance `10^16`, while the weights of its
two edges sum to `10^16 + 1`. -/
theorem findShortestPath_distance_rounded :
    absorbGraph.NonNegative ∧
    binary64.round 10000000000000000 = Dbl.fin 10000000000000000 ∧
    binary64.round 1 = Dbl.fin 1 ∧
    binary64.round (10000000000000000 + 1) = Dbl.fin 10000000000000000 ∧
    Dijkstra.findShortestPath binary64 absorbGraph "A" "C" =
      some { found := true, path := ["A", "B", "C"],
             totalDistance := Dbl.fin 10000000000000000,
             totalCost := Dbl.fin 10000000000000000, estimatedTime := Dbl.fin 0,
             errorMessage := "" } ∧
    absorbGraph.getNeighbors "A" = [⟨"B", 10000000000000000, 10000000000000000⟩] ∧
    absorbGraph.getNeighbors "B" = [⟨"C", 1, 1⟩] ∧
    pathWeight [⟨"B", 10000000000000000, 10000000000000000⟩, ⟨"C", 1, 1⟩] =
      10000000000000001 := by
  refine ⟨by decide!, by decide!, by decide!, by decide!, by decide!, by decide!, by decide!,
    by decide!⟩

/-- C2, as the code has it, in the double arithmetic of IEEE 754: between two
nodes of a graph with non-negative weights a result with found=true carries a
non-empty path that starts at `start`, ends at `end_` and follows an edge of
the graph at every step; totalDistance is the weight of those edges as double
arithmetic accumulates it (from `0.0`, one rounded addition per edge, in path
order), and is their exact sum when the sums along the path are exact. -/
theorem findShortestPath_path (g : Graph) (start end_ : String) (hw : g.NonNegative)
    (hs : g.hasNode start = true) (he : g.hasNode end_ = true) :
    ∃ r, Dijkstra.findShortestPath binary64 g start end_ = some r ∧
      (r.found = true →
        r.path ≠ [] ∧ r.path.head? = some start ∧ r.path.getLast? = some end_ ∧
        List.Chain' (fun a b => g.hasEdge a b = true) r.path ∧
        ∃ es, g.IsPath start es end_ ∧ r.path = pathNodes start es ∧
          r.totalDistance = dblPathWeight binary64 es ∧
          (ExactSums binary64 es → r.totalDistance = Dbl.fin (pathWeight es))) := by
  obtain ⟨r, hr, hcase | hcase⟩ :=
    Dijkstra.findShortestPath_spec binary64_sound g start end_ hw hs he
  · obtain ⟨_, _, es, d, hp, hpn, hpw, _, _, _⟩ := hcase
    refine ⟨r, hr, fun _ => ⟨?_, ?_, ?_, ?_, es, hp, hpn, hpw, ?_⟩⟩
    · rw [hpn]; simp [pathNodes]
    · rw [hpn]; simp [pathNodes]
    · rw [hpn]; exact hp.getLast
    · rw [hpn]; exact hp.chain_hasEdge
    · intro hex
      rw [hpw, dblPathWeight_exact binary64 es hex]
  · refine ⟨r, hr, fun hf => ?_⟩
    rw [hcase.1] at hf
    exact absurd hf (by decide)

theorem findShortestPath_path_witness :
    testGraph.NonNegative ∧ testGraph.hasNode "A" = true ∧ testGraph.hasNode "D" = true ∧
    (Dijkstra.findShortestPath binary64 testGraph "A" "D").map
      (fun r => (r.found, r.path, r.totalDistance)) =
        some (true, ["A", "B", "D"], Dbl.fin 30) ∧
    ∃ r, Dijkstra.findShortestPath binary64 testGraph "A" "D" = some r ∧
      (r.found = true →
        r.path ≠ [] ∧ r.path.head? = some "A" ∧ r.path.getLast? = some "D" ∧
        List.Chain' (fun a b => testGraph.hasEdge a b = true) r.path ∧
        ∃ es, testGraph.IsPath "A" es "D" ∧ r.path = pathNodes "A" es ∧
          r.totalDistance = dblPathWeight binary64 es ∧
          (ExactSums binary64 es → r.totalDistance = Dbl.fin (pathWeight es))) :=
  ⟨by decide!, by decide!, by decide!, by decide!,
    findShortestPath_path testGraph "A" "D" (by decide!)
      (by decide!) (by decide!)⟩

/-- C3 fails in double arithmetic: on `absorbGraph` `findShortestPath(A, C)`
returns the path A, B, C with totalCost `10^16`, while the costs of its two
edges sum to `10^16 + 1`. -/
theorem findShortestPath_cost_rounded :
    absorbGraph.NonNegative ∧
    (Dijkstra.findShortestPath binary64 absorbGraph "A" "C").map
      (fun r => (r.found, r.path, r.totalCost)) =
        some (true, ["A", "B", "C"], Dbl.fin 10000000000000000) ∧
    absorbGraph.IsPath "A" [⟨"B", 10000000000000000, 10000000000000000⟩, ⟨"C", 1, 1⟩] "C" ∧
    pathNodes "A" [⟨"B", 10000000000000000, 10000000000000000⟩, ⟨"C", 1, 1⟩] =
      ["A", "B", "C"] ∧
    pathCost [⟨"B", 10000000000000000, 10000000000000000⟩, ⟨"C", 1, 1⟩] =
      10000000000000001 := by
  refine ⟨by decide!, by decide!, ⟨by decide!, by decide!, rfl⟩, by decide!, by decide!⟩

/-- C3, as the code has it, in the double arithmetic of IEEE 754: between two
nodes of a graph with non-negative weights a result with found=true has as
totalCost the cost of the edges of the returned path as double arithmetic
accumulates it (from `0.0`, one rounded addition per edge, in path order),
the same edges whose accumulated weight is totalDistance. -/
theorem findShortestPath_cost (g : Graph) (start end_ : String) (hw : g.NonNegative)
    (hs : g.hasNode start = true) (he : g.hasNode end_ = true) :
    ∃ r, Dijkstra.findShortestPath binary64 g start end_ = some r ∧
      (r.found = true →
        ∃ es, g.IsPath start es end_ ∧ r.path = pathNodes start es ∧
          r.totalDistance = dblPathWeight binary64 es ∧ r.totalCost = dblPathCost binary64 es) := by
  obtain ⟨r, hr, hcase | hcase⟩ :=
    Dijkstra.findShortestPath_spec binary64_sound g start end_ hw hs he
  · obtain ⟨_, _, es, d, hp, hpn, hpw, hpc, _, _⟩ := hcase
    exact ⟨r, hr, fun _ => ⟨es, hp, hpn, hpw, hpc⟩⟩
  · refine ⟨r, hr, fun hf => ?_⟩
    rw [hcase.1] at hf
    exact absurd hf (by decide)

theorem findShortestPath_cost_witness :
    costGraph.NonNegative ∧ costGraph.hasNode "A" = true ∧ costGraph.hasNode "B" = true ∧
    (Dijkstra.findShortestPath binary64 costGraph "A" "B").map
      (fun r => (r.found, r.path, r.totalDistance, r.totalCost)) =
        some (true, ["A", "B"], Dbl.fin 10, Dbl.fin 100) ∧
    costGraph.IsPath "A" [⟨"C", 6, 10⟩, ⟨"B", 6, 10⟩] "B" ∧
    dblPathCost binary64 [⟨"C", 6, 10⟩, ⟨"B", 6, 10⟩] = Dbl.fin 20 ∧
    ∃ r, Dijkstra.findShortestPath binary64 costGraph "A" "B" = some r ∧
      (r.found = true →
        ∃ es, costGraph.IsPath "A" es "B" ∧ r.path = pathNodes "A" es ∧
          r.totalDistance = dblPathWeight binary64 es ∧
          r.totalCost = dblPathCost binary64 es) :=
  ⟨by decide!, by decide!, by decide!, by decide!,
    ⟨by decide!, by decide!, rfl⟩, by decide!,
    findShortestPath_cost costGraph "A" "B" (by decide!) (by decide!)
      (by decide!)⟩

/-- C4 fails in double arithmetic: on `overflowGraph`, whose weights are
doubles and not negative, the path A->B->C exists, and `findShortestPath(A,
C)` answers "No route available between airports": the sum `2^1023 + 2^1023`
overflows to `+∞`, which is not less than the `+∞` held for C. -/
theorem findShortestPath_overflow_no_route :
    overflowGraph.NonNegative ∧
    binary64.round (2 ^ 1023) = Dbl.fin (2 ^ 1023) ∧
    binary64.round (2 ^ 1023 + 2 ^ 1023) = Dbl.posInf ∧
    overflowGraph.hasNode "A" = true ∧ overflowGraph.hasNode "C" = true ∧
    overflowGraph.IsPath "A" [⟨"B", 2 ^ 1023, 1⟩, ⟨"C", 2 ^ 1023, 1⟩] "C" ∧
    Dijkstra.findShortestPath binary64 overflowGraph "A" "C" =
      some { found := false, path := [], totalDistance := Dbl.fin 0, totalCost := Dbl.fin 0,
             estimatedTime := Dbl.fin 0,
             errorMessage := "No route available between airports" } := by
  refine ⟨by decide!, by decide!, by decide!, by decide!, by decide!,
    ⟨by decide!, by decide!, rfl⟩, by decide!⟩

/-- C4, as the code has it, in the double arithmetic of IEEE 754: between two
nodes of a graph with non-negative weights `findShortestPath` returns
found=true exactly when there is a directed path from `start` to `end_` whose
weight, as double arithmetic accumulates it (from `0.0`, one rounded addition
per edge, in path order), is finite; when there is none the result is
found=false with an empty path and the reason "No route available between
airports". -/
theorem findShortestPath_found_iff (g : Graph) (start end_ : String) (hw : g.NonNegative)
    (hs : g.hasNode start = true) (he : g.hasNode end_ = true) :
    ∃ r, Dijkstra.findShortestPath binary64 g start end_ = some r ∧
      (r.found = true ↔
        ∃ es W, g.IsPath start es end_ ∧ dblPathWeight binary64 es = Dbl.fin W) ∧
      ((¬ ∃ es W, g.IsPath start es end_ ∧ dblPathWeight binary64 es = Dbl.fin W) →
        r.found = false ∧ r.path = [] ∧
          r.errorMessage = "No route available between airports") := by
  obtain ⟨r, hr, hcase | hcase⟩ :=
    Dijkstra.findShortestPath_spec binary64_sound g start end_ hw hs he
  · obtain ⟨hf, _, es, d, hp, _, hpw, _, hd, _⟩ := hcase
    have hex : ∃ es W, g.IsPath start es end_ ∧ dblPathWeight binary64 es = Dbl.fin W :=
      ⟨es, d, hp, by rw [← hpw, hd]⟩
    exact ⟨r, hr, ⟨fun _ => hex, fun _ => hf⟩, fun hno => absurd hex hno⟩
  · obtain ⟨hr', hno⟩ := hcase
    refine ⟨r, hr, ⟨fun hf => ?_, fun ⟨es, W, hp, hW⟩ => absurd hW (hno es W hp)⟩, fun _ => ?_⟩
    · rw [hr'] at hf; exact absurd hf (by decide)
    · rw [hr']; exact ⟨rfl, rfl, rfl⟩

theorem findShortestPath_found_iff_witness :
    testGraph.NonNegative ∧ testGraph.hasNode "C" = true ∧ testGraph.hasNode "A" = true ∧
    Dijkstra.findShortestPath binary64 testGraph "C" "A" =
      some { found := false, path := [], totalDistance := Dbl.fin 0, totalCost := Dbl.fin 0,
             estimatedTime := Dbl.fin 0,
             errorMessage := "No route available between airports" } ∧
    (Dijkstra.findShortestPath binary64 testGraph "A" "C").map (fun r => r.found) =
      some true ∧
    ∃ r, Dijkstra.findShortestPath binary64 testGraph "C" "A" = some r ∧
      (r.found = true ↔
        ∃ es W, testGraph.IsPath "C" es "A" ∧ dblPathWeight binary64 es = Dbl.fin W) ∧
      ((¬ ∃ es W, testGraph.IsPath "C" es "A" ∧ dblPathWeight binary64 es = Dbl.fin W) →
        r.found = false ∧ r.path = [] ∧
          r.errorMessage = "No route available between airports") :=
  ⟨by decide!, by decide!, by decide!, by decide!, by decide!,
    findShortestPath_found_iff testGraph "C" "A" (by decide!)
      (by decide!) (by decide!)⟩

/-! ## Argument validation and the trivial route -/

/-- C5: an unknown origin is reported as "Origin airport not found", a known
origin with an unknown destination as "Destination airport not found", each
with found=false and an empty path, and both reasons differ from the no-route
reason. -/
theorem findShortestPath_unknown_endpoint (ar : DoubleArith) (graph : Graph)
    (start end_ : String) :
    (graph.hasNode start = false →
      Dijkstra.findShortestPath ar graph start end_ =
        some { found := false, path := [], totalDistance := Dbl.fin 0,
               totalCost := Dbl.fin 0, estimatedTime := Dbl.fin 0,
               errorMessage := "Origin airport not found" }) ∧
    (graph.hasNode start = true → graph.hasNode end_ = false →
      Dijkstra.findShortestPath ar graph start end_ =
        some { found := false, path := [], totalDistance := Dbl.fin 0,
               totalCost := Dbl.fin 0, estimatedTime := Dbl.fin 0,
               errorMessage := "Destination airport not found" }) ∧
    "Origin airport not found" ≠ "No route available between airports" ∧
    "Destination airport not found" ≠ "No route available between airports" := by
  refine ⟨?_, ?_, by decide, by decide⟩
  · intro h
    simp [Dijkstra.findShortestPath, h]
  · intro h1 h2
    simp [Dijkstra.findShortestPath, h1, h2]

theorem findShortestPath_unknown_endpoint_witness :
    testGraph.hasNode "A" = true ∧ testGraph.hasNode "Z" = false ∧
    Dijkstra.findShortestPath binary64 testGraph "A" "Z" =
      some { found := false, path := [], totalDistance := Dbl.fin 0, totalCost := Dbl.fin 0,
             estimatedTime := Dbl.fin 0, errorMessage := "Destination airport not found" } :=
  ⟨by decide!, by decide!,
    (findShortestPath_unknown_endpoint binary64 testGraph "A" "Z").2.1 (by decide!)
      (by decide!)⟩

/-- C6: for a node `a` of the graph, `findShortestPath(graph, a, a)` is found
with path `[a]`, distance 0 and cost 0, whatever the edges. -/
theorem findShortestPath_same_node (ar : DoubleArith) (graph : Graph) (a : String)
    (ha : graph.hasNode a = true) :
    Dijkstra.findShortestPath ar graph a a =
      some { found := true, path := [a], totalDistance := Dbl.fin 0, totalCost := Dbl.fin 0,
             estimatedTime := Dbl.fin 0, errorMessage := "" } := by
  simp [Dijkstra.findShortestPath, ha]

theorem findShortestPath_same_node_witness :
    testGraph.hasNode "A" = true ∧
    Dijkstra.findShortestPath binary64 testGraph "A" "A" =
      some { found := true, path := ["A"], totalDistance := Dbl.fin 0,
             totalCost := Dbl.fin 0, estimatedTime := Dbl.fin 0, errorMessage := "" } :=
  ⟨by decide!, findShortestPath_same_node binary64 testGraph "A" (by decide!)⟩

/-- C7, at the failing input: with the default criteria (`maxStops = 3`),
`optimize(graph, "A", "A", criteria)` on the test graph is *not* found: the
one-element path makes `path.size() - 2` wrap around to `2^64 - 1`, which
exceeds `maxStops`. -/
theorem optimize_same_node_rejected :
    testGraph.hasNode "A" = true ∧
    (∀ ar : DoubleArith, Dijkstra.findShortestPath ar testGraph "A" "A" =
      some { found := true, path := ["A"], totalDistance := Dbl.fin 0,
             totalCost := Dbl.fin 0, estimatedTime := Dbl.fin 0, errorMessage := "" }) ∧
    MultiCriteriaOptimizer.stopCount ["A"] = 2 ^ 64 - 1 ∧
    (∀ ar : DoubleArith,
      MultiCriteriaOptimizer.optimize ar testGraph "A" "A" { maxStops := 3 } =
        some { found := false, path := ["A"], totalDistance := Dbl.fin 0,
               totalCost := Dbl.fin 0, estimatedTime := Dbl.fin 0,
               errorMessage := "Exceeds maximum stops constraint" }) := by
  have h : testGraph.hasNode "A" = true := by decide!
  have hf : ∀ ar : DoubleArith, Dijkstra.findShortestPath ar testGraph "A" "A" =
      some { found := true, path := ["A"], totalDistance := Dbl.fin 0,
             totalCost := Dbl.fin 0, estimatedTime := Dbl.fin 0, errorMessage := "" } := by
    intro ar
    simp [Dijkstra.findShortestPath, h]
  refine ⟨h, hf, by decide, ?_⟩
  intro ar
  unfold MultiCriteriaOptimizer.optimize
  rw [hf ar]
  have hs : 3 < MultiCriteriaOptimizer.stopCount ["A"] := by decide
  simp [hs]

/-! ## The optimizer -/

/-- On a graph with non-negative weights `findShortestPath` returns, whatever
the two node names. -/
theorem Dijkstra.findShortestPath_returns {ar : DoubleArith} (hsd : ar.Sound) (g : Graph)
    (start end_ : String) (hw : g.NonNegative) :
    ∃ r, Dijkstra.findShortestPath ar g start end_ = some r := by
  by_cases hs : g.hasNode start = true
  · by_cases he : g.hasNode end_ = true
    · obtain ⟨r, hr, _⟩ := Dijkstra.findShortestPath_spec hsd g start end_ hw hs he
      exact ⟨r, hr⟩
    · exact ⟨{ found := false, errorMessage := "Destination airport not found" },
        by simp [Dijkstra.findShortestPath, hs, he]⟩
  · exact ⟨{ found := false, errorMessage := "Origin airport not found" },
      by simp [Dijkstra.findShortestPath, hs]⟩

/-- Method `optimize` reads nothing of the criteria but `maxStops`. -/
theorem MultiCriteriaOptimizer.optimize_congr (ar : DoubleArith) (g : Graph)
    (start end_ : String) (c c' : Criteria) (h : c.maxStops = c'.maxStops) :
    MultiCriteriaOptimizer.optimize ar g start end_ c =
      MultiCriteriaOptimizer.optimize ar g start end_ c' := by
  unfold MultiCriteriaOptimizer.optimize
  rw [h]

theorem MultiCriteriaOptimizer.optimize_returns {ar : DoubleArith} (hsd : ar.Sound)
    (g : Graph) (start end_ : String) (c : Criteria) (hw : g.NonNegative) :
    ∃ r, MultiCriteriaOptimizer.optimize ar g start end_ c = some r := by
  obtain ⟨r, hr⟩ := Dijkstra.findShortestPath_returns hsd g start end_ hw
  unfold MultiCriteriaOptimizer.optimize
  rw [hr]
  exact ⟨_, rfl⟩

/-- Parent pointers that lead from the end into a cycle off the start are
walked without end: no amount of fuel lets the walk return. -/
theorem Dijkstra.walkBack_cycle (parent : StdMap String) (start a b : String)
    (ha : a ≠ start) (hb : b ≠ start) (hab : parent.find a = some b)
    (hba : parent.find b = some a) :
    ∀ (fuel : Nat) (path : List String),
      Dijkstra.walkBack parent start fuel a path = none ∧
        Dijkstra.walkBack parent start fuel b path = none := by
  intro fuel
  induction fuel with
  | zero => intro path; exact ⟨rfl, rfl⟩
  | succ n ih =>
    intro path
    constructor
    · simp only [Dijkstra.walkBack, ha, if_false, hab]
      exact (ih _).2
    · simp only [Dijkstra.walkBack, hb, if_false, hba]
      exact (ih _).1

/-- C23 fails on a graph with a cycle of negative weight: on
`negativeCycleGraph` the main loop of `findShortestPath(S, E)` ends with a
finite distance for E and with the parent of E being A, that of A being B and
that of B being A, so that the loop of `reconstructPath` never reaches S,
whatever the number of its iterations: `findShortestPath`, `optimize` and
`getParetoFrontier` do not return. -/
theorem getParetoFrontier_no_return :
    negativeCycleGraph.getNeighbors "A" = [⟨"B", -2, 1⟩, ⟨"E", 10, 1⟩] ∧
    negativeCycleGraph.getNeighbors "B" = [⟨"A", -2, 1⟩] ∧
    negativeCycleGraph.getNeighbors "S" = [⟨"A", 1, 1⟩] ∧
    (∃ st, Dijkstra.mainLoop binary64 negativeCycleGraph "E"
        (Dijkstra.loopFuel negativeCycleGraph) (Dijkstra.initState negativeCycleGraph "S") =
          some st ∧
      st.dist "E" = Dbl.fin 11 ∧ st.parent.entries = [("A", "B"), ("B", "A"), ("E", "A")] ∧
      ∀ fuel, Dijkstra.reconstructPath fuel st.parent "S" "E" = none) ∧
    Dijkstra.findShortestPath binary64 negativeCycleGraph "S" "E" = none ∧
    MultiCriteriaOptimizer.optimize binary64 negativeCycleGraph "S" "E" ⟨1, 0, 0, 5⟩ = none ∧
    MultiCriteriaOptimizer.getParetoFrontier binary64 negativeCycleGraph "S" "E" = none := by
  refine ⟨by decide!, by decide!, by decide!, ?_, by decide!, by decide!, by decide!⟩
  have hrun : (Dijkstra.mainLoop binary64 negativeCycleGraph "E"
      (Dijkstra.loopFuel negativeCycleGraph) (Dijkstra.initState negativeCycleGraph "S")).map
        (fun st => (st.dist "E", st.parent.entries)) =
      some (Dbl.fin 11, [("A", "B"), ("B", "A"), ("E", "A")]) := by decide!
  cases hst : Dijkstra.mainLoop binary64 negativeCycleGraph "E"
      (Dijkstra.loopFuel negativeCycleGraph) (Dijkstra.initState negativeCycleGraph "S") with
  | none => rw [hst] at hrun; simp at hrun
  | some st =>
    rw [hst] at hrun
    simp only [Option.map_some', Option.some.injEq, Prod.mk.injEq] at hrun
    obtain ⟨hd, hp⟩ := hrun
    refine ⟨st, rfl, hd, hp, ?_⟩
    have hE : st.parent.find "E" = some "A" := by
      simp only [StdMap.find, hp]
      decide!
    have hA : st.parent.find "A" = some "B" := by
      simp only [StdMap.find, hp]
      decide!
    have hB : st.parent.find "B" = some "A" := by
      simp only [StdMap.find, hp]
      decide!
    intro fuel
    unfold Dijkstra.reconstructPath
    cases fuel with
    | zero => rfl
    | succ n =>
      have hne : ("E" : String) ≠ "S" := by decide
      simp only [Dijkstra.walkBack, hne, if_false, hE]
      rw [(Dijkstra.walkBack_cycle st.parent "S" "A" "B" (by decide) (by decide) hA hB n _).1]
      rfl

/-- C23, as the code has it, in the double arithmetic of IEEE 754: on a
graph with non-negative weights `getParetoFrontier` gives three times the
result of `optimize` with `maxStops = 5`, whatever the three weights of the
criteria: `optimize` returns a result `r` and the frontier is `[r, r, r]`. -/
theorem getParetoFrontier_spec (g : Graph) (start end_ : String) (hw : g.NonNegative) :
    (∀ c : Criteria, c.maxStops = 5 →
      MultiCriteriaOptimizer.getParetoFrontier binary64 g start end_ =
        (MultiCriteriaOptimizer.optimize binary64 g start end_ c).map fun r => [r, r, r]) ∧
    ∃ r, MultiCriteriaOptimizer.getParetoFrontier binary64 g start end_ = some [r, r, r] ∧
      ∀ c : Criteria, c.maxStops = 5 →
        MultiCriteriaOptimizer.optimize binary64 g start end_ c = some r := by
  have hfirst : ∀ c : Criteria, c.maxStops = 5 →
      MultiCriteriaOptimizer.getParetoFrontier binary64 g start end_ =
        (MultiCriteriaOptimizer.optimize binary64 g start end_ c).map fun r => [r, r, r] := by
    intro c hc
    unfold MultiCriteriaOptimizer.getParetoFrontier
    simp only
    rw [MultiCriteriaOptimizer.optimize_congr binary64 g start end_ ⟨1, 0, 0, 5⟩ c hc.symm,
      MultiCriteriaOptimizer.optimize_congr binary64 g start end_ ⟨0, 1, 0, 5⟩ c hc.symm,
      MultiCriteriaOptimizer.optimize_congr binary64 g start end_ ⟨0, 0, 1, 5⟩ c hc.symm]
    cases MultiCriteriaOptimizer.optimize binary64 g start end_ c with
    | none => rfl
    | some r => rfl
  refine ⟨hfirst, ?_⟩
  obtain ⟨r, hr⟩ :=
    MultiCriteriaOptimizer.optimize_returns binary64_sound g start end_ ⟨1, 0, 0, 5⟩ hw
  refine ⟨r, ?_, ?_⟩
  · rw [hfirst ⟨1, 0, 0, 5⟩ rfl, hr]
    rfl
  · intro c hc
    rw [MultiCriteriaOptimizer.optimize_congr binary64 g start end_ c ⟨1, 0, 0, 5⟩ hc]
    exact hr

theorem getParetoFrontier_spec_witness :
    testGraph.NonNegative ∧
    MultiCriteriaOptimizer.getParetoFrontier binary64 testGraph "A" "D" =
      some [{ found := true, path := ["A", "B", "D"], totalDistance := Dbl.fin 30,
              totalCost := Dbl.fin 300 },
        { found := true, path := ["A", "B", "D"], totalDistance := Dbl.fin 30,
          totalCost := Dbl.fin 300 },
        { found := true, path := ["A", "B", "D"], totalDistance := Dbl.fin 30,
          totalCost := Dbl.fin 300 }] ∧
    ∃ r, MultiCriteriaOptimizer.getParetoFrontier binary64 testGraph "A" "D" =
        some [r, r, r] ∧
      ∀ c : Criteria, c.maxStops = 5 →
        MultiCriteriaOptimizer.optimize binary64 testGraph "A" "D" c = some r :=
  ⟨by decide!, by decide!,
    (getParetoFrontier_spec testGraph "A" "D" (by decide!)).2⟩

/-- C30: when `findShortestPath` finds a route `r` whose number of stops,
`path.size() - 2`, exceeds `criteria.maxStops`, `optimize` returns `r` with
found=false and the message "Exceeds maximum stops constraint", its path,
totalDistance, totalCost and estimatedTime left as `findShortestPath`
computed them. -/
theorem optimize_rejected_keeps_path (ar : DoubleArith) (g : Graph) (start end_ : String)
    (c : Criteria) (r : PathResult)
    (hr : Dijkstra.findShortestPath ar g start end_ = some r)
    (hfound : r.found = true)
    (hstops : c.maxStops < (MultiCriteriaOptimizer.stopCount r.path : ℚ)) :
    MultiCriteriaOptimizer.optimize ar g start end_ c =
      some { found := false, path := r.path, totalDistance := r.totalDistance,
             totalCost := r.totalCost, estimatedTime := r.estimatedTime,
             errorMessage := "Exceeds maximum stops constraint" } := by
  unfold MultiCriteriaOptimizer.optimize
  rw [hr]
  simp [hfound, hstops]

theorem optimize_rejected_keeps_path_witness :
    Dijkstra.findShortestPath binary64 testGraph "A" "D" =
      some { found := true, path := ["A", "B", "D"], totalDistance := Dbl.fin 30,
             totalCost := Dbl.fin 300 } ∧
    MultiCriteriaOptimizer.stopCount ["A", "B", "D"] = 1 ∧
    MultiCriteriaOptimizer.optimize binary64 testGraph "A" "D" { maxStops := 0 } =
      some { found := false, path := ["A", "B", "D"], totalDistance := Dbl.fin 30,
             totalCost := Dbl.fin 300, estimatedTime := Dbl.fin 0,
             errorMessage := "Exceeds maximum stops constraint" } :=
  ⟨by decide!, by decide!,
    optimize_rejected_keeps_path binary64 testGraph "A" "D" { maxStops := 0 }
      { found := true, path := ["A", "B", "D"], totalDistance := Dbl.fin 30,
        totalCost := Dbl.fin 300 }
      (by decide!) rfl (by decide!)⟩

/-! ## Termination of `findShortestPath` -/

/-- C27: on a graph with non-negative weights `findShortestPath` returns for
every start and end, in the double arithmetic of IEEE 754.  Relaxing an edge
pushes at most one queue entry and leaves the visited set as it is, the main
loop exits within one iteration per queue entry that can be pushed (one per
outgoing edge of a node, the start entry, and the final test), the distance
of the end is then `+∞` or finite, and when it is finite the walk along the
parent pointers goes through nodes of the graph without repetition, from the
end back to the start, within `nodeCount` tests of its loop condition. -/
theorem findShortestPath_terminates (g : Graph) (start end_ : String) (hw : g.NonNegative) :
    (∀ (cur : String) (es : List Edge) (st : DijkstraState),
      (es.foldl (Dijkstra.relaxEdge binary64 cur) st).visited = st.visited ∧
      (es.foldl (Dijkstra.relaxEdge binary64 cur) st).pq.length ≤ st.pq.length + es.length) ∧
    (∃ st, Dijkstra.mainLoop binary64 g end_ (Dijkstra.loopFuel g) (Dijkstra.initState g start) =
        some st ∧
      (g.hasNode start = true → g.hasNode end_ = true → start ≠ end_ →
        (st.dist end_ = Dbl.posInf ∨ ∃ d, st.dist end_ = Dbl.fin d) ∧
        ∀ d, st.dist end_ = Dbl.fin d →
          ∃ path : List String, Dijkstra.walkBack st.parent start g.getNodeCount end_ [] =
              some path.reverse ∧
            path.Nodup ∧ path.length ≤ g.getNodeCount ∧
            (∀ x ∈ path, g.hasNode x = true) ∧ start ∈ path ∧ end_ ∈ path)) ∧
    ∃ r, Dijkstra.findShortestPath binary64 g start end_ = some r := by
  refine ⟨fun cur es st => ⟨Dijkstra.foldl_relaxEdge_visited binary64 cur es st,
    Dijkstra.foldl_relaxEdge_pq_length binary64 cur es st⟩, ?_,
    Dijkstra.findShortestPath_returns binary64_sound g start end_ hw⟩
  obtain ⟨st, hrun⟩ := Dijkstra.mainLoop_terminates binary64 g end_ (Dijkstra.loopFuel g)
    (Dijkstra.initState g start) (Dijkstra.workLeft_initState g start)
  refine ⟨st, hrun, ?_⟩
  intro hs he hse
  obtain ⟨hgood, hfound, _⟩ := Dijkstra.mainLoop_correct binary64_sound hw hse he
    (Dijkstra.loopFuel g) start _ st
    (Dijkstra.Inv.init binary64_sound g start end_ start hs hse) hrun
  refine ⟨?_, ?_⟩
  · rcases hgood with h | ⟨d, h, _, _⟩
    · exact Or.inl h
    · exact Or.inr ⟨d, h⟩
  intro d hd
  obtain ⟨⟨path, hch, hnodes⟩, _⟩ := hfound d hd
  have hlen : path.length ≤ g.getNodeCount := by
    have hsub : path ⊆ g.getNodes.toList :=
      fun x hx => (Graph.mem_getNodes_toList g x).mpr (hnodes x hx)
    have := (List.subperm_of_subset hch.nodup hsub).length_le
    have hcount : g.getNodes.toList.length = g.getNodeCount := by
      simp [Graph.getNodes, StdSet.toList, StdMap.keys, Graph.getNodeCount, StdMap.size]
    omega
  refine ⟨path, ?_, hch.nodup, hlen, hnodes, hch.start_mem, hch.last_mem⟩
  rw [hch.walkBack _ [] hlen]
  simp

theorem findShortestPath_terminates_witness :
    testGraph.NonNegative ∧ Dijkstra.loopFuel testGraph = 6 ∧ testGraph.getNodeCount = 4 ∧
    Dijkstra.findShortestPath binary64 testGraph "A" "C" =
      some { found := true, path := ["A", "C"], totalDistance := Dbl.fin 35,
             totalCost := Dbl.fin 350 } ∧
    ∃ r, Dijkstra.findShortestPath binary64 testGraph "A" "C" = some r :=
  ⟨by decide!, by decide!, by decide!, by decide!,
    (findShortestPath_terminates testGraph "A" "C" (by decide!)).2.2⟩

/-! ## The haversine distance -/

namespace DataStore

/-- After the edges of a list of routes have been added, in the order of the
list, the edge from `a` to `b` carries the values of the last operational
route of the list that joins `a` and `b`; it is as it was when there is
none. -/
theorem mem_getNeighbors_foldl_addRouteEdges (a b : String) (w c : ℚ) :
    ∀ (l : List (String × Route)) (g : Graph), g.WF →
      (l.foldl (fun g p => addRouteEdges g p.2) g).WF ∧
      ((⟨b, w, c⟩ : Edge) ∈ (l.foldl (fun g p => addRouteEdges g p.2) g).getNeighbors a ↔
        (((l.map Prod.snd).filter (fun r => r.operational && r.joins a b)).getLast?.elim
          ((⟨b, w, c⟩ : Edge) ∈ g.getNeighbors a)
          (fun r => w = r.distance ∧ c = r.baseCost))) := by
  intro l
  induction l using List.reverseRecOn with
  | nil => intro g hg; exact ⟨hg, by simp⟩
  | append_singleton l x ih =>
    intro g hg
    obtain ⟨hwf, hmem⟩ := ih g hg
    rw [List.foldl_append, List.foldl_cons, List.foldl_nil]
    refine ⟨WF_addRouteEdges hwf x.2, ?_⟩
    rw [List.map_append, List.filter_append, List.map_cons, List.map_nil]
    by_cases hop : x.2.operational = true
    · rw [mem_getNeighbors_addRouteEdges hwf x.2 hop]
      by_cases hj : (a = x.2.origin ∧ b = x.2.destination) ∨
          (a = x.2.destination ∧ b = x.2.origin)
      · have hp : (x.2.operational && x.2.joins a b) = true := by
          simp [hop, Route.joins, hj]
        have hf : List.filter (fun r : Route => r.operational && r.joins a b) [x.2] = [x.2] := by
          simp [List.filter, hp]
        rw [if_pos hj, hf, List.getLast?_append]
        simp
      · have hp : ¬ (x.2.operational && x.2.joins a b) = true := by
          simp [hop, Route.joins, hj]
        have hf : List.filter (fun r : Route => r.operational && r.joins a b) [x.2] = [] := by
          simp only [List.filter, Bool.not_eq_true] at hp ⊢
          rw [hp]
        rw [if_neg hj, hf, List.append_nil]
        exact hmem
    · have hp : ¬ (x.2.operational && x.2.joins a b) = true := by
        simp [hop]
      have hsame : addRouteEdges (l.foldl (fun g p => addRouteEdges g p.2) g) x.2 =
          l.foldl (fun g p => addRouteEdges g p.2) g := by
        unfold addRouteEdges
        rw [if_neg hop]
      have hf : List.filter (fun r : Route => r.operational && r.joins a b) [x.2] = [] := by
        simp only [List.filter, Bool.not_eq_true] at hp ⊢
        rw [hp]
      rw [hsame, hf, List.append_nil]
      exact hmem

/-- In the rebuilt graph the edge from `a` to `b` carries the values of the
last stored operational route joining `a` and `b`, and there is no such edge
when no stored operational route joins them. -/
theorem mem_getNeighbors_rebuildGraph (s : DataStore) (a b : String) (w c : ℚ) :
    (⟨b, w, c⟩ : Edge) ∈ (rebuildGraph s).graph.getNeighbors a ↔
      ∃ r, s.lastRouteJoining a b = some r ∧ w = r.distance ∧ c = r.baseCost := by
  obtain ⟨hwf, hnil⟩ := getNeighbors_foldl_addNode s.airports.entries
  have h := (mem_getNeighbors_foldl_addRouteEdges a b w c s.routes.entries _ hwf).2
  unfold rebuildGraph
  simp only [Graph.clear]
  rw [h, hnil a]
  unfold lastRouteJoining getAllRoutes StdMap.values
  cases ((s.routes.entries.map Prod.snd).filter
      (fun r => r.operational && r.joins a b)).getLast? with
  | none => simp
  | some r => simp

theorem lastRouteJoining_comm (s : DataStore) (a b : String) :
    s.lastRouteJoining a b = s.lastRouteJoining b a := by
  unfold lastRouteJoining
  have : (fun r : Route => r.operational && r.joins a b) =
      (fun r : Route => r.operational && r.joins b a) := by
    funext r
    have : r.joins a b = r.joins b a := by
      simp only [Route.joins, decide_eq_decide]
      tauto
    rw [this]
  rw [this]

/-- The last route joining two airports is a stored operational route that
joins them, and there is one as soon as some stored operational route joins
them. -/
theorem lastRouteJoining_spec (s : DataStore) (a b : String) :
    (∀ r, s.lastRouteJoining a b = some r →
      r ∈ s.getAllRoutes ∧ r.operational = true ∧
        ((a = r.origin ∧ b = r.destination) ∨ (a = r.destination ∧ b = r.origin))) ∧
    (∀ r ∈ s.getAllRoutes, r.operational = true →
      ((a = r.origin ∧ b = r.destination) ∨ (a = r.destination ∧ b = r.origin)) →
      ∃ r', s.lastRouteJoining a b = some r') := by
  unfold lastRouteJoining
  constructor
  · intro r hr
    have hmem := List.mem_of_getLast?_eq_some hr
    rw [List.mem_filter] at hmem
    obtain ⟨h1, h2⟩ := hmem
    simp only [Bool.and_eq_true, Route.joins, decide_eq_true_eq] at h2
    exact ⟨h1, h2.1, h2.2⟩
  · intro r hr hop hj
    have hmem : r ∈ s.getAllRoutes.filter (fun r => r.operational && r.joins a b) := by
      rw [List.mem_filter]
      exact ⟨hr, by simp [hop, Route.joins, hj]⟩
    cases hl : (s.getAllRoutes.filter (fun r => r.operational && r.joins a b)).getLast? with
    | none =>
      rw [List.getLast?_eq_none_iff] at hl
      rw [hl] at hmem
      simp at hmem
    | some r' => exact ⟨r', rfl⟩

end DataStore

/-- C13 fails on the opposite records A-B (distance 10, cost 100) and B-A
(distance 20, cost 200): after `rebuildGraph` the edge `A -> B` carries 20 and
200, not the 10 and 100 of the record A-B. -/
theorem rebuildGraph_opposite_records :
    oppositeRoutesStore.getRoute "A-B" = some ⟨"A", "B", 10, 100, true⟩ ∧
    oppositeRoutesStore.getRoute "B-A" = some ⟨"B", "A", 20, 200, true⟩ ∧
    oppositeRoutesStore.lastRouteJoining "A" "B" = some ⟨"B", "A", 20, 200, true⟩ ∧
    (DataStore.rebuildGraph oppositeRoutesStore).graph.getNeighbors "A" = [⟨"B", 20, 200⟩] ∧
    (DataStore.rebuildGraph oppositeRoutesStore).graph.getNeighbors "B" = [⟨"A", 20, 200⟩] := by
  decide!

/-- C13, as the code has it: after `rebuildGraph`, for every stored route `r`
flagged operational the graph has the edges `r.origin -> r.destination` and
`r.destination -> r.origin`, and both carry the distance and the cost of one
stored route `r'`: among the stored operational routes that join the two
airports, in either direction, the one stored under the greatest key (the key
of a stored route is its id), which `rebuildGraph` processes last.  They
carry the distance and the cost of `r` when every stored operational route
joining the two airports has the distance and the cost of `r`. -/
theorem rebuildGraph_route_edges (s : DataStore) (r : Route) (hr : r ∈ s.getAllRoutes)
    (hop : r.operational = true) :
    (DataStore.rebuildGraph s).graph.hasEdge r.origin r.destination = true ∧
    (DataStore.rebuildGraph s).graph.hasEdge r.destination r.origin = true ∧
    (∃ r', s.lastRouteJoining r.origin r.destination = some r' ∧
      s.lastRouteJoining r.destination r.origin = some r' ∧
      r' ∈ s.getAllRoutes ∧ r'.operational = true ∧
      ((r'.origin = r.origin ∧ r'.destination = r.destination) ∨
        (r'.origin = r.destination ∧ r'.destination = r.origin)) ∧
      (⟨r.destination, r'.distance, r'.baseCost⟩ : Edge) ∈
        (DataStore.rebuildGraph s).graph.getNeighbors r.origin ∧
      (⟨r.origin, r'.distance, r'.baseCost⟩ : Edge) ∈
        (DataStore.rebuildGraph s).graph.getNeighbors r.destination ∧
      ∀ a b, (a = r.origin ∧ b = r.destination) ∨ (a = r.destination ∧ b = r.origin) →
        ∀ e ∈ (DataStore.rebuildGraph s).graph.getNeighbors a, e.destination = b →
          e.weight = r'.distance ∧ e.cost = r'.baseCost) ∧
    ((∀ r' ∈ s.getAllRoutes, r'.operational = true →
        ((r'.origin = r.origin ∧ r'.destination = r.destination) ∨
          (r'.origin = r.destination ∧ r'.destination = r.origin)) →
        r'.distance = r.distance ∧ r'.baseCost = r.baseCost) →
      ∀ a b, (a = r.origin ∧ b = r.destination) ∨ (a = r.destination ∧ b = r.origin) →
        ∀ e ∈ (DataStore.rebuildGraph s).graph.getNeighbors a, e.destination = b →
          e.weight = r.distance ∧ e.cost = r.baseCost) := by
  obtain ⟨r', hlast⟩ := (DataStore.lastRouteJoining_spec s r.origin r.destination).2 r hr hop
    (Or.inl ⟨rfl, rfl⟩)
  obtain ⟨hmem', hop', hj'⟩ :=
    (DataStore.lastRouteJoining_spec s r.origin r.destination).1 r' hlast
  have hlast' : s.lastRouteJoining r.destination r.origin = some r' := by
    rw [DataStore.lastRouteJoining_comm]; exact hlast
  have hjoin : (r'.origin = r.origin ∧ r'.destination = r.destination) ∨
      (r'.origin = r.destination ∧ r'.destination = r.origin) := by
    rcases hj' with ⟨h1, h2⟩ | ⟨h1, h2⟩
    · exact Or.inl ⟨h1.symm, h2.symm⟩
    · exact Or.inr ⟨h2.symm, h1.symm⟩
  have hvals : ∀ a b, (a = r.origin ∧ b = r.destination) ∨
      (a = r.destination ∧ b = r.origin) →
      ∀ e ∈ (DataStore.rebuildGraph s).graph.getNeighbors a, e.destination = b →
        e.weight = r'.distance ∧ e.cost = r'.baseCost := by
    intro a b hab e he hd
    have he' : (⟨b, e.weight, e.cost⟩ : Edge) ∈
        (DataStore.rebuildGraph s).graph.getNeighbors a := by
      rw [← hd]; exact he
    obtain ⟨r'', hr'', hw, hc⟩ := (DataStore.mem_getNeighbors_rebuildGraph s a b _ _).mp he'
    have : r'' = r' := by
      rcases hab with ⟨ha, hb⟩ | ⟨ha, hb⟩
      · rw [ha, hb, hlast] at hr''
        exact (Option.some.inj hr'').symm
      · rw [ha, hb, hlast'] at hr''
        exact (Option.some.inj hr'').symm
    rw [this] at hw hc
    exact ⟨hw, hc⟩
  refine ⟨?_, ?_, ⟨r', hlast, hlast', hmem', hop', hjoin, ?_, ?_, hvals⟩, ?_⟩
  · rw [DataStore.hasEdge_rebuildGraph_iff]
    exact ⟨r, hr, hop, Or.inl ⟨rfl, rfl⟩⟩
  · rw [DataStore.hasEdge_rebuildGraph_iff]
    exact ⟨r, hr, hop, Or.inr ⟨rfl, rfl⟩⟩
  · exact (DataStore.mem_getNeighbors_rebuildGraph s _ _ _ _).mpr ⟨r', hlast, rfl, rfl⟩
  · exact (DataStore.mem_getNeighbors_rebuildGraph s _ _ _ _).mpr ⟨r', hlast', rfl, rfl⟩
  · intro hall a b hab e he hd
    obtain ⟨hw, hc⟩ := hvals a b hab e he hd
    obtain ⟨h1, h2⟩ := hall r' hmem' hop' hjoin
    exact ⟨hw.trans h1, hc.trans h2⟩

theorem rebuildGraph_route_edges_witness :
    (⟨"JFK", "LAX", 3983, 6000, true⟩ : Route) ∈ sampleStore.getAllRoutes ∧
    (DataStore.rebuildGraph sampleStore).graph.getNeighbors "LAX" =
      [⟨"JFK", 3983, 6000⟩, ⟨"ORD", 2800, 4000⟩] ∧
    (⟨"A", "B", 10, 100, true⟩ : Route) ∈ oppositeRoutesStore.getAllRoutes ∧
    (DataStore.rebuildGraph sampleStore).graph.hasEdge "JFK" "LAX" = true ∧
    (DataStore.rebuildGraph sampleStore).graph.hasEdge "LAX" "JFK" = true ∧
    ∃ r', oppositeRoutesStore.lastRouteJoining "A" "B" = some r' ∧
      oppositeRoutesStore.lastRouteJoining "B" "A" = some r' ∧
      r' ∈ oppositeRoutesStore.getAllRoutes ∧ r'.operational = true ∧
      ((r'.origin = "A" ∧ r'.destination = "B") ∨ (r'.origin = "B" ∧ r'.destination = "A")) ∧
      (⟨"B", r'.distance, r'.baseCost⟩ : Edge) ∈
        (DataStore.rebuildGraph oppositeRoutesStore).graph.getNeighbors "A" ∧
      (⟨"A", r'.distance, r'.baseCost⟩ : Edge) ∈
        (DataStore.rebuildGraph oppositeRoutesStore).graph.getNeighbors "B" ∧
      ∀ a b, (a = "A" ∧ b = "B") ∨ (a = "B" ∧ b = "A") →
        ∀ e ∈ (DataStore.rebuildGraph oppositeRoutesStore).graph.getNeighbors a,
          e.destination = b → e.weight = r'.distance ∧ e.cost = r'.baseCost :=
  ⟨by decide!, by decide!, by decide!,
    (rebuildGraph_route_edges sampleStore ⟨"JFK", "LAX", 3983, 6000, true⟩ (by decide!)
      rfl).1,
    (rebuildGraph_route_edges sampleStore ⟨"JFK", "LAX", 3983, 6000, true⟩ (by decide!)
      rfl).2.1,
    (rebuildGraph_route_edges oppositeRoutesStore ⟨"A", "B", 10, 100, true⟩ (by decide!)
      rfl).2.2.1⟩

end Skynet
